import Mathlib

/-!
# The GC work pool of `runtime/mgcwork.go` and the lock-free stack of `runtime/lfstack.go`

A shallow embedding of the two source files, executed by a single thread.

* Memory holding work buffers is a map from addresses to `workbuf` records; the nil
  pointer is address `0`, and touching a field of the nil buffer is the error `nilDeref`.
* `throw` is an error result, one constructor of `Err` per message of the source.
* The CAS loops of `lfstack.push` and `lfstack.pop` run alone, so the first `Cas64`
  succeeds and each loop is a single iteration.
* `lfstackPack`, `lfstackUnpack`, `findObject`, the word size and `len(workbuf.obj)` are
  not defined in the two files; they are the fields of `Config`.
* `mheap_.allocManual` is the list `World.provider` of the spans it will hand out; when
  the list is exhausted it returns nil.
* The slots `updateOldPtrs` patches are words of `World.mem`, a map from addresses to
  words apart from the buffer memory; sums of addresses wrap at `2 ^ W`.
* Locks, lock ranking, `systemstack` and `println` have no effect on a single thread.
-/

namespace runtime

/-! ## Data model -/

/-- Abnormal terminations: the `throw` messages of the two files, the two run-time panics
a nil or out-of-range access raises, and exhaustion of the fuel of a modelled loop. -/
inductive Err where
  | workbufIsEmpty
  | workbufIsNotEmpty
  | outOfMemory
  | lfstackPush
  | nodeFromHeap
  | badLfnodeAddress
  | workbufLenIsEven
  | addressMismatch
  | cannotFreeWorkbufs
  | nilDeref
  | indexOutOfRange
  | outOfFuel
  deriving DecidableEq, Repr

/-- Everything the two files take from the rest of the runtime as fixed data. -/
structure Config where
  /-- Number of bits of a `uintptr`. -/
  W : Nat
  /-- Capacity of a work buffer, `len(workbuf.obj)`. -/
  C : Nat
  /-- The function `lfstackPack(node, cnt)`. -/
  pack : Nat → Nat → Nat
  /-- The function `lfstackUnpack(val)`. -/
  unpack : Nat → Nat
  /-- Whether `findObject(p, 0, 0)` finds a heap object, that is `base != 0`. -/
  inHeap : Nat → Bool

/-- A `workbuf`: the embedded `lfnode` (`next`, `pushcnt`), the count `nobj` and the
array `obj`, of which only the indices below `Config.C` exist. -/
structure workbuf where
  next : Nat
  pushcnt : Nat
  nobj : Int
  obj : Nat → Nat

/-- The GC phase read from `gcphase`. -/
inductive GCPhase where
  | GCoff
  | GCmark
  | GCmarktermination
  deriving DecidableEq, Repr

/-- The per-worker queue `gcWork`. -/
structure gcWork where
  wbuf1 : Nat
  wbuf2 : Nat
  bytesMarked : Nat
  heapScanWork : Int
  flushedWork : Bool
  old_block : Nat
  new_block : Nat
  old_ptrs : Nat

/-- Everything outside a `gcWork`: buffer memory, word memory, the global `work` lists,
the span registry, the memory provider and the collaborators that are only counted.
`enlisted` counts the calls of `gcController.enlistWorker` and `fullPushes` the pushes
onto `work.full`; both are ghost counters. -/
structure World where
  bufs : Nat → workbuf
  mem : Nat → Nat
  empty : Nat
  full : Nat
  free : List Nat
  busy : List Nat
  provider : List Nat
  gcphase : GCPhase
  enlisted : Nat
  fullPushes : Nat
  bytesMarked : Nat
  heapScanWork : Int

/-- The zero value of `gcWork`. -/
def gcWork.zero : gcWork :=
  { wbuf1 := 0, wbuf2 := 0, bytesMarked := 0, heapScanWork := 0, flushedWork := false,
    old_block := 0, new_block := 0, old_ptrs := 0 }

/-- The constant `_WorkbufSize`. -/
def WorkbufSize : Nat := 2048

/-- The constant `workbufAlloc`, `32 << 10`. -/
def workbufAlloc : Nat := 32768

/-- Overwrite the buffer stored at address `a`. -/
def setBuf (bufs : Nat → workbuf) (a : Nat) (b : workbuf) : Nat → workbuf :=
  fun x => if x = a then b else bufs x

/-- Overwrite one slot of an `obj` array. -/
def setObj (obj : Nat → Nat) (i : Nat) (v : Nat) : Nat → Nat :=
  fun x => if x = i then v else obj x

/-- Overwrite one word of memory. -/
def setMem (mem : Nat → Nat) (a : Nat) (v : Nat) : Nat → Nat :=
  fun x => if x = a then v else mem x

/-- The world after the store `b.nobj = n`. -/
def storeNobj (g : World) (b : Nat) (n : Int) : World :=
  { g with bufs := setBuf g.bufs b { (g.bufs b) with nobj := n } }

/-- The world after the store `b.obj[i] = v`. -/
def storeObj (g : World) (b : Nat) (i : Nat) (v : Nat) : World :=
  { g with bufs := setBuf g.bufs b { (g.bufs b) with obj := setObj (g.bufs b).obj i v } }

/-- The buffer memory after the stores `node.pushcnt = cnt` and `node.next = head`. -/
def link (bufs : Nat → workbuf) (node cnt head : Nat) : Nat → workbuf :=
  setBuf bufs node { (bufs node) with pushcnt := cnt, next := head }

/-- The store `b.nobj = n` through a buffer pointer. -/
def setNobj (g : World) (b : Nat) (n : Int) : Except Err World :=
  if b = 0 then .error .nilDeref
  else .ok (storeNobj g b n)

/-- The load `b.nobj` through a buffer pointer. -/
def getNobj (g : World) (b : Nat) : Except Err Int :=
  if b = 0 then .error .nilDeref else .ok (g.bufs b).nobj

/-- The load `b.obj[i]`, bounds-checked as Go does for an array. -/
def readObj (cfg : Config) (g : World) (b : Nat) (i : Int) : Except Err Nat :=
  if b = 0 then .error .nilDeref
  else if i < 0 ∨ (cfg.C : Int) ≤ i then .error .indexOutOfRange
  else .ok ((g.bufs b).obj i.toNat)

/-- The store `b.obj[i] = v`, bounds-checked as Go does for an array. -/
def writeObj (cfg : Config) (g : World) (b : Nat) (i : Int) (v : Nat) : Except Err World :=
  if b = 0 then .error .nilDeref
  else if i < 0 ∨ (cfg.C : Int) ≤ i then .error .indexOutOfRange
  else .ok (storeObj g b i.toNat v)

/-! ## `lfstack.go` -/

/-- The method `lfstack.push`, on the head word `head`: returns the buffer memory and the
new head word. -/
def lfstack.push (cfg : Config) (bufs : Nat → workbuf) (head : Nat) (node : Nat) :
    Except Err ((Nat → workbuf) × Nat) :=
  if node = 0 then .error .nilDeref
  else
    let cnt := ((bufs node).pushcnt + 1) % 2 ^ cfg.W
    let new := cfg.pack node cnt
    if cfg.unpack new ≠ node then .error .lfstackPush
    else .ok (link bufs node cnt head, new)

/-- The method `lfstack.pop`: returns the new head word and the popped node, `0` for nil. -/
def lfstack.pop (cfg : Config) (bufs : Nat → workbuf) (head : Nat) : Except Err (Nat × Nat) :=
  if head = 0 then .ok (head, 0)
  else
    let node := cfg.unpack head
    if node = 0 then .error .nilDeref
    else .ok ((bufs node).next, node)

/-- The method `lfstack.head`. -/
def lfstack.head (cfg : Config) (head : Nat) : Nat :=
  if head = 0 then 0 else cfg.unpack head

/-- The method `lfstack.empty`. -/
def lfstack.empty (head : Nat) : Bool :=
  head == 0

/-- The function `lfnodeValidate`. -/
def lfnodeValidate (cfg : Config) (node : Nat) : Except Err Unit :=
  if cfg.inHeap node then .error .nodeFromHeap
  else if cfg.unpack (cfg.pack node (2 ^ cfg.W - 1)) ≠ node then .error .badLfnodeAddress
  else .ok ()

/-! ## `mgcwork.go`: the work buffer pool -/

/-- The method `workbuf.checknonempty`. -/
def workbuf.checknonempty (g : World) (b : Nat) : Except Err Unit := do
  let n ← getNobj g b
  if n = 0 then .error .workbufIsEmpty else .ok ()

/-- The method `workbuf.checkempty`. -/
def workbuf.checkempty (g : World) (b : Nat) : Except Err Unit := do
  let n ← getNobj g b
  if n ≠ 0 then .error .workbufIsNotEmpty else .ok ()

/-- The function `putempty`. -/
def putempty (cfg : Config) (g : World) (b : Nat) : Except Err World := do
  workbuf.checkempty g b
  let r ← lfstack.push cfg g.bufs g.empty b
  .ok { g with bufs := r.1, empty := r.2 }

/-- The function `putfull`. -/
def putfull (cfg : Config) (g : World) (b : Nat) : Except Err World := do
  workbuf.checknonempty g b
  let r ← lfstack.push cfg g.bufs g.full b
  .ok { g with bufs := r.1, full := r.2, fullPushes := g.fullPushes + 1 }

/-- The function `trygetfull`: the world and the buffer, `0` for nil. -/
def trygetfull (cfg : Config) (g : World) : Except Err (World × Nat) := do
  let r ← lfstack.pop cfg g.bufs g.full
  let g1 := { g with full := r.1 }
  if r.2 ≠ 0 then
    workbuf.checknonempty g1 r.2
    .ok (g1, r.2)
  else .ok (g1, r.2)

/-- The slicing loop of `getempty`, `for i := 0; i+_WorkbufSize <= workbufAlloc;
i += _WorkbufSize`, over the span based at `s`; `b` is the buffer to return. -/
def sliceSpan (cfg : Config) (s : Nat) : Nat → Nat → World → Nat → Except Err (World × Nat)
  | 0, _, _, _ => .error .outOfFuel
  | fuel + 1, i, g, b =>
    if i + WorkbufSize ≤ workbufAlloc then do
      let newb := s + i
      let g1 ← setNobj g newb 0
      lfnodeValidate cfg newb
      if i = 0 then sliceSpan cfg s fuel (i + WorkbufSize) g1 newb
      else do
        let g2 ← putempty cfg g1 newb
        sliceSpan cfg s fuel (i + WorkbufSize) g2 b
    else .ok (g, b)

/-- The function `getempty`. -/
def getempty (cfg : Config) (g : World) : Except Err (World × Nat) := do
  let (g1, b) ← (if g.empty ≠ 0 then do
      let r ← lfstack.pop cfg g.bufs g.empty
      let g1 := { g with empty := r.1 }
      if r.2 ≠ 0 then
        workbuf.checkempty g1 r.2
        .ok (g1, r.2)
      else .ok (g1, r.2)
    else .ok (g, 0) : Except Err (World × Nat))
  if b = 0 then
    match g1.free with
    | s :: rest =>
      sliceSpan cfg s (workbufAlloc / WorkbufSize + 1) 0
        { g1 with free := rest, busy := s :: g1.busy } 0
    | [] =>
      match g1.provider with
      | [] => .error .outOfMemory
      | s :: rest =>
        sliceSpan cfg s (workbufAlloc / WorkbufSize + 1) 0
          { g1 with provider := rest, busy := s :: g1.busy } 0
  else .ok (g1, b)

/-- The `memmove` of `handoff`: `n` words from `src.obj[from..]` to `dst.obj[0..]`. -/
def moveObjs (g : World) (dst src : Nat) (start : Nat) (n : Nat) : World :=
  let d : workbuf :=
    { (g.bufs dst) with
      obj := fun i => if i < n then (g.bufs src).obj (start + i) else (g.bufs dst).obj i }
  { g with bufs := setBuf g.bufs dst d }

/-- The middle of `handoff`: half of the pointers of `b`, the upper half, move to the
fresh buffer `b1`. -/
def handoffSplit (cfg : Config) (g1 : World) (b b1 : Nat) : Except Err World := do
  let nb ← getNobj g1 b
  let n := Int.tdiv nb 2
  let g2 ← setNobj g1 b (nb - n)
  let g3 ← setNobj g2 b1 n
  -- the operands `&b1.obj[0]` and `&b.obj[b.nobj]` are bounds-checked
  let _ ← readObj cfg g3 b1 0
  let k ← getNobj g3 b
  let _ ← readObj cfg g3 b k
  .ok (moveObjs g3 b1 b k.toNat n.toNat)

/-- The function `handoff`. -/
def handoff (cfg : Config) (g : World) (b : Nat) : Except Err (World × Nat) := do
  let (g1, b1) ← getempty cfg g
  let g4 ← handoffSplit cfg g1 b b1
  let g5 ← putfull cfg g4 b
  .ok (g5, b1)

/-- The function `prepareFreeWorkbufs`; `takeAll` puts the busy spans in front of the free
ones. -/
def prepareFreeWorkbufs (g : World) : Except Err World :=
  if g.full ≠ 0 then .error .cannotFreeWorkbufs
  else .ok { g with empty := 0, free := g.busy ++ g.free, busy := [] }

/-! ## `mgcwork.go`: the per-worker queue -/

/-- The call `gcController.enlistWorker()`, of which only the number of calls is kept. -/
def enlistWorker (g : World) : World :=
  { g with enlisted := g.enlisted + 1 }

/-- The method `gcWork.init`. -/
def gcWork.init (cfg : Config) (w : gcWork) (g : World) : Except Err (gcWork × World) := do
  let (g1, b1) ← getempty cfg g
  let w1 := { w with wbuf1 := b1 }
  let (g2, b2) ← trygetfull cfg g1
  if b2 = 0 then
    let (g3, b3) ← getempty cfg g2
    .ok ({ w1 with wbuf2 := b3 }, g3)
  else .ok ({ w1 with wbuf2 := b2 }, g2)

/-- The first part of `gcWork.put`, up to the store: the queue, the world, the buffer
`wbuf` to store into and the flag `flushed`. -/
def gcWork.putPrepare (cfg : Config) (w : gcWork) (g : World) :
    Except Err (gcWork × World × Nat × Bool) :=
  if w.wbuf1 = 0 then do
    let (w1, g1) ← gcWork.init cfg w g
    .ok (w1, g1, w1.wbuf1, false)
  else do
    let n ← getNobj g w.wbuf1
    if n = cfg.C then
      let w1 := { w with wbuf1 := w.wbuf2, wbuf2 := w.wbuf1 }
      let n1 ← getNobj g w1.wbuf1
      if n1 = cfg.C then
        let g1 ← putfull cfg g w1.wbuf1
        let w2 := { w1 with flushedWork := true }
        let (g2, e) ← getempty cfg g1
        .ok ({ w2 with wbuf1 := e }, g2, e, true)
      else .ok (w1, g, w1.wbuf1, false)
    else .ok (w, g, w.wbuf1, false)

/-- The statements `wbuf.obj[wbuf.nobj] = obj; wbuf.nobj++`. -/
def pushObj (cfg : Config) (g : World) (wbuf : Nat) (obj : Nat) : Except Err World := do
  let k ← getNobj g wbuf
  let g1 ← writeObj cfg g wbuf k obj
  let k1 ← getNobj g1 wbuf
  setNobj g1 wbuf (k1 + 1)

/-- The statements `wbuf.nobj--; return wbuf.obj[wbuf.nobj]`. -/
def popObj (cfg : Config) (g : World) (wbuf : Nat) : Except Err (Nat × World) := do
  let k ← getNobj g wbuf
  let g1 ← setNobj g wbuf (k - 1)
  let k1 ← getNobj g1 wbuf
  let v ← readObj cfg g1 wbuf k1
  .ok (v, g1)

/-- The method `gcWork.put`. -/
def gcWork.put (cfg : Config) (w : gcWork) (g : World) (obj : Nat) :
    Except Err (gcWork × World) := do
  let (w1, g1, wbuf, flushed) ← gcWork.putPrepare cfg w g
  let g2 ← pushObj cfg g1 wbuf obj
  if flushed = true ∧ g2.gcphase = GCPhase.GCmark then .ok (w1, enlistWorker g2)
  else .ok (w1, g2)

/-- The method `gcWork.putFast`. -/
def gcWork.putFast (cfg : Config) (w : gcWork) (g : World) (obj : Nat) :
    Except Err (Bool × gcWork × World) :=
  if w.wbuf1 = 0 then .ok (false, w, g)
  else do
    let n ← getNobj g w.wbuf1
    if n = cfg.C then .ok (false, w, g)
    else
      let g1 ← pushObj cfg g w.wbuf1 obj
      .ok (true, w, g1)

/-- The inner loop of `gcWork.putBatch`, `for wbuf.nobj == len(wbuf.obj)`. -/
def gcWork.putBatchFlush (cfg : Config) :
    Nat → gcWork → World → Nat → Bool → Except Err (gcWork × World × Nat × Bool)
  | 0, _, _, _, _ => .error .outOfFuel
  | fuel + 1, w, g, wbuf, flushed => do
    let n ← getNobj g wbuf
    if n = cfg.C then
      let g1 ← putfull cfg g wbuf
      let w1 := { w with flushedWork := true }
      let (g2, e) ← getempty cfg g1
      let w2 := { w1 with wbuf1 := w1.wbuf2, wbuf2 := e }
      gcWork.putBatchFlush cfg fuel w2 g2 w2.wbuf1 true
    else .ok (w, g, wbuf, flushed)

/-- The builtin `copy(wbuf.obj[k:], src)` for `n` elements. -/
def copyObjs (g : World) (wbuf : Nat) (k : Nat) (n : Nat) (src : List Nat) : World :=
  let d : workbuf :=
    { (g.bufs wbuf) with
      obj := fun i => if k ≤ i ∧ i < k + n then src.getD (i - k) 0 else (g.bufs wbuf).obj i }
  { g with bufs := setBuf g.bufs wbuf d }

/-- The outer loop of `gcWork.putBatch`, `for len(obj) > 0`; `inner` is the fuel handed to
each run of the inner loop. -/
def gcWork.putBatchLoop (cfg : Config) (inner : Nat) :
    Nat → gcWork → World → Nat → Bool → List Nat → Except Err (gcWork × World × Bool)
  | 0, _, _, _, _, _ => .error .outOfFuel
  | fuel + 1, w, g, wbuf, flushed, obj =>
    if obj.length > 0 then do
      let (w1, g1, wbuf1, flushed1) ← gcWork.putBatchFlush cfg inner w g wbuf flushed
      let k ← getNobj g1 wbuf1
      -- the slice expression `wbuf.obj[wbuf.nobj:]` is bounds-checked
      if k < 0 ∨ (cfg.C : Int) < k then .error .indexOutOfRange
      else
        let n := min (cfg.C - k.toNat) obj.length
        let g2 := copyObjs g1 wbuf1 k.toNat n obj
        let k1 ← getNobj g2 wbuf1
        let g3 ← setNobj g2 wbuf1 (k1 + n)
        gcWork.putBatchLoop cfg inner fuel w1 g3 wbuf1 flushed1 (obj.drop n)
    else .ok (w, g, flushed)

/-- The method `gcWork.putBatch`; `fuel` bounds the iterations of each of its loops. -/
def gcWork.putBatch (cfg : Config) (fuel : Nat) (w : gcWork) (g : World) (obj : List Nat) :
    Except Err (gcWork × World) :=
  if obj.length = 0 then .ok (w, g)
  else do
    let (w1, g1) ← (if w.wbuf1 = 0 then gcWork.init cfg w g
                    else .ok (w, g) : Except Err (gcWork × World))
    let (w2, g2, flushed) ← gcWork.putBatchLoop cfg fuel fuel w1 g1 w1.wbuf1 false obj
    if flushed = true ∧ g2.gcphase = GCPhase.GCmark then .ok (w2, enlistWorker g2)
    else .ok (w2, g2)

/-- The method `gcWork.tryGet`: the pointer (`0` when there is none), the queue, the
world. -/
def gcWork.tryGet (cfg : Config) (w : gcWork) (g : World) :
    Except Err (Nat × gcWork × World) := do
  let (w1, g1) ← (if w.wbuf1 = 0 then gcWork.init cfg w g
                  else .ok (w, g) : Except Err (gcWork × World))
  let n ← getNobj g1 w1.wbuf1
  if n = 0 then
    let w2 := { w1 with wbuf1 := w1.wbuf2, wbuf2 := w1.wbuf1 }
    let n2 ← getNobj g1 w2.wbuf1
    if n2 = 0 then
      let owbuf := w2.wbuf1
      let (g2, wbuf) ← trygetfull cfg g1
      if wbuf = 0 then .ok (0, w2, g2)
      else
        let g3 ← putempty cfg g2 owbuf
        let w3 := { w2 with wbuf1 := wbuf }
        let (v, g4) ← popObj cfg g3 wbuf
        .ok (v, w3, g4)
    else
      let (v, g2) ← popObj cfg g1 w2.wbuf1
      .ok (v, w2, g2)
  else
    let (v, g2) ← popObj cfg g1 w1.wbuf1
    .ok (v, w1, g2)

/-- The method `gcWork.tryGetFast`. -/
def gcWork.tryGetFast (cfg : Config) (w : gcWork) (g : World) :
    Except Err (Nat × gcWork × World) :=
  if w.wbuf1 = 0 then .ok (0, w, g)
  else do
    let n ← getNobj g w.wbuf1
    if n = 0 then .ok (0, w, g)
    else
      let (v, g1) ← popObj cfg g w.wbuf1
      .ok (v, w, g1)

/-- One of the two identical blocks of `gcWork.dispose`: put `wbuf` on the empty or on the
full list. -/
def gcWork.disposeBuf (cfg : Config) (w : gcWork) (g : World) (wbuf : Nat) :
    Except Err (gcWork × World) := do
  let n ← getNobj g wbuf
  if n = 0 then
    let g1 ← putempty cfg g wbuf
    .ok (w, g1)
  else
    let g1 ← putfull cfg g wbuf
    .ok ({ w with flushedWork := true }, g1)

/-- The first block of `gcWork.dispose`: both local buffers go back to the pool. -/
def gcWork.disposeBufs (cfg : Config) (w : gcWork) (g : World) : Except Err (gcWork × World) :=
  if w.wbuf1 ≠ 0 then do
    let (wa, ga) ← gcWork.disposeBuf cfg w g w.wbuf1
    let wb := { wa with wbuf1 := 0 }
    let (wc, gc) ← gcWork.disposeBuf cfg wb ga wb.wbuf2
    .ok ({ wc with wbuf2 := 0 }, gc)
  else .ok (w, g)

/-- The last two blocks of `gcWork.dispose`: `bytesMarked` and `heapScanWork` are added to
the shared counters. `atomic.Xadd64` wraps modulo `2^64` and the `Add` of the
`atomic.Int64` wraps into the signed 64-bit range. -/
def gcWork.disposeCounters (w1 : gcWork) (g1 : World) : gcWork × World :=
  let r2 : gcWork × World :=
    if w1.bytesMarked ≠ 0 then
      ({ w1 with bytesMarked := 0 },
       { g1 with bytesMarked := (g1.bytesMarked + w1.bytesMarked) % 2 ^ 64 })
    else (w1, g1)
  if r2.1.heapScanWork ≠ 0 then
    ({ r2.1 with heapScanWork := 0 },
     { r2.2 with heapScanWork :=
         (r2.2.heapScanWork + r2.1.heapScanWork + 2 ^ 63) % 2 ^ 64 - 2 ^ 63 })
  else r2

/-- The method `gcWork.dispose`. -/
def gcWork.dispose (cfg : Config) (w : gcWork) (g : World) : Except Err (gcWork × World) := do
  let (w1, g1) ← gcWork.disposeBufs cfg w g
  .ok (gcWork.disposeCounters w1 g1)

/-- The method `gcWork.balance`. -/
def gcWork.balance (cfg : Config) (w : gcWork) (g : World) : Except Err (gcWork × World) :=
  if w.wbuf1 = 0 then .ok (w, g)
  else do
    let n2 ← getNobj g w.wbuf2
    if n2 ≠ 0 then
      let g1 ← putfull cfg g w.wbuf2
      let w1 := { w with flushedWork := true }
      let (g2, e) ← getempty cfg g1
      let w2 := { w1 with wbuf2 := e }
      if g2.gcphase = GCPhase.GCmark then .ok (w2, enlistWorker g2) else .ok (w2, g2)
    else
      let n1 ← getNobj g w.wbuf1
      if n1 > 4 then
        let (g1, b1) ← handoff cfg g w.wbuf1
        let w1 := { w with wbuf1 := b1 }
        let w2 := { w1 with flushedWork := true }
        if g1.gcphase = GCPhase.GCmark then .ok (w2, enlistWorker g1) else .ok (w2, g1)
      else .ok (w, g)

/-- The method `gcWork.empty`. -/
def gcWork.empty (w : gcWork) (g : World) : Except Err Bool :=
  if w.wbuf1 = 0 then .ok true
  else do
    let n1 ← getNobj g w.wbuf1
    if n1 = 0 then
      let n2 ← getNobj g w.wbuf2
      .ok (decide (n2 = 0))
    else .ok false

/-! ## `mgcwork.go`: the list of pointers to update -/

/-- The method `gcWork.pushOldPtrsWorkbuf`. -/
def gcWork.pushOldPtrsWorkbuf (cfg : Config) (w : gcWork) (g : World) :
    Except Err (gcWork × World) := do
  let (g1, wbuf) ← getempty cfg g
  let g2 ← setNobj g1 wbuf 0
  lfnodeValidate cfg wbuf
  let r ← lfstack.push cfg g2.bufs w.old_ptrs wbuf
  .ok ({ w with old_ptrs := r.2 }, { g2 with bufs := r.1 })

/-- The method `gcWork.putOldPtr`. -/
def gcWork.putOldPtr (cfg : Config) (w : gcWork) (g : World) (addr off : Nat) :
    Except Err (gcWork × World) := do
  let wbuf0 := lfstack.head cfg w.old_ptrs
  let fresh ← (if wbuf0 = 0 then .ok true
               else do
                 let n ← getNobj g wbuf0
                 .ok (decide (n = (cfg.C : Int) - 1)) : Except Err Bool)
  let (w1, g1, wbuf) ← (if fresh = true then do
      let (w1, g1) ← gcWork.pushOldPtrsWorkbuf cfg w g
      .ok (w1, g1, lfstack.head cfg w1.old_ptrs)
    else .ok (w, g, wbuf0) : Except Err (gcWork × World × Nat))
  if cfg.C % 2 = 0 then .error .workbufLenIsEven
  else
    let g2 ← pushObj cfg g1 wbuf addr
    let g3 ← pushObj cfg g2 wbuf off
    .ok (w1, g3)

/-- The inner loop of `gcWork.updateOldPtrs`, `for i := 0; i <= wbuf.nobj-2; i += 2`.
The slot `*addr` is a word of `World.mem`; sums of addresses wrap at the word size. -/
def gcWork.updatePairs (cfg : Config) (w : gcWork) (wbuf : Nat) :
    Nat → Int → World → Except Err World
  | 0, _, _ => .error .outOfFuel
  | fuel + 1, i, g => do
    let n ← getNobj g wbuf
    if i ≤ n - 2 then
      let addr ← readObj cfg g wbuf i
      let off ← readObj cfg g wbuf (i + 1)
      let old_addr := (w.old_block + off) % 2 ^ cfg.W
      let new_addr := (w.new_block + off) % 2 ^ cfg.W
      if old_addr ≠ g.mem addr then .error .addressMismatch
      else gcWork.updatePairs cfg w wbuf fuel (i + 2) { g with mem := setMem g.mem addr new_addr }
    else .ok g

/-- The outer loop of `gcWork.updateOldPtrs`, `for wbuf := pop(); wbuf != nil;
wbuf = pop()`; `inner` is the fuel handed to each run of the inner loop. -/
def gcWork.updateOldPtrsLoop (cfg : Config) (inner : Nat) :
    Nat → gcWork → World → Except Err (gcWork × World)
  | 0, _, _ => .error .outOfFuel
  | fuel + 1, w, g => do
    let r ← lfstack.pop cfg g.bufs w.old_ptrs
    let w1 := { w with old_ptrs := r.1 }
    if r.2 ≠ 0 then
      let g1 ← gcWork.updatePairs cfg w1 r.2 inner 0 g
      gcWork.updateOldPtrsLoop cfg inner fuel w1 g1
    else .ok (w1, g)

/-- The method `gcWork.updateOldPtrs`; `fuel` bounds the iterations of each of its
loops. -/
def gcWork.updateOldPtrs (cfg : Config) (fuel : Nat) (w : gcWork) (g : World) :
    Except Err (gcWork × World) :=
  gcWork.updateOldPtrsLoop cfg fuel fuel w g

/-! ## Sample data and iterated calls -/

/-- A sample configuration with capacity `c`: 64-bit words, nothing in the Go heap, and the
packing of a 64-bit platform with 48 address bits, 8-byte aligned nodes and 19 counter
bits; on aligned addresses the sum below is the bitwise or of the two parts. -/
def sampleConfig (c : Nat) : Config :=
  { W := 64, C := c,
    pack := fun node cnt => node * 2 ^ 16 % 2 ^ 64 + cnt % 2 ^ 19,
    unpack := fun v => v / 2 ^ 19 * 8,
    inHeap := fun _ => false }

/-- A world with empty lists, zeroed memory and the given spans at the provider. -/
def sampleWorld (spans : List Nat) : World :=
  { bufs := fun _ => { next := 0, pushcnt := 0, nobj := 0, obj := fun _ => 0 },
    mem := fun _ => 0, empty := 0, full := 0, free := [], busy := [], provider := spans,
    gcphase := GCPhase.GCmark, enlisted := 0, fullPushes := 0, bytesMarked := 0,
    heapScanWork := 0 }

/-- The spans the sample provider hands out: `n` consecutive spans from address
`workbufAlloc` on. -/
def sampleSpans (n : Nat) : List Nat :=
  (List.range n).map (fun k => workbufAlloc * (k + 1))

/-- A world in which another worker has published one buffer, at address `2048`, holding
the single pointer `99`: the full list chains exactly that buffer. -/
def partialWorld : World :=
  { sampleWorld (sampleSpans 4) with
    bufs := fun a => if a = 2048 then { next := 0, pushcnt := 1, nobj := 1, obj := fun _ => 99 }
                     else { next := 0, pushcnt := 0, nobj := 0, obj := fun _ => 0 },
    full := (sampleConfig 2).pack 2048 1,
    fullPushes := 1 }

/-- Successive `put` calls. -/
def putAll (cfg : Config) : gcWork → World → List Nat → Except Err (gcWork × World)
  | w, g, [] => .ok (w, g)
  | w, g, p :: ps => do
    let (w1, g1) ← gcWork.put cfg w g p
    putAll cfg w1 g1 ps

/-- The queue and world the successive `put` calls over `ps` produce from the zero-valued
queue and the sample world with twenty spans, at capacity `c`. -/
def sampleQueue (c : Nat) (ps : List Nat) : gcWork × World :=
  match putAll (sampleConfig c) gcWork.zero (sampleWorld (sampleSpans 20)) ps with
  | .ok r => r
  | .error _ => (gcWork.zero, sampleWorld (sampleSpans 20))

/-- The queue and world after `put(11)` and `put(12)` on the zero-valued queue in
`partialWorld`, at capacity `2`: `init` has taken the published buffer as `wbuf2`, so
`wbuf1` holds two pointers and `wbuf2` one. -/
def partialQueue : gcWork × World :=
  match putAll (sampleConfig 2) gcWork.zero partialWorld [11, 12] with
  | .ok r => r
  | .error _ => (gcWork.zero, partialWorld)

/-- Successive `tryGet` calls, collecting the returned pointers in call order. -/
def tryGetN (cfg : Config) : Nat → gcWork → World → Except Err (List Nat × gcWork × World)
  | 0, w, g => .ok ([], w, g)
  | n + 1, w, g => do
    let (p, w1, g1) ← gcWork.tryGet cfg w g
    let (ps, w2, g2) ← tryGetN cfg n w1 g1
    .ok (p :: ps, w2, g2)

/-! ## Invariants of the data model -/

/-- A node address `lfnodeValidate` and, whatever the push counter, `lfstack.push` accept:
it is not nil, it survives packing and unpacking, its packed word is not the empty head
`0`, and it is outside the Go heap. -/
def Valid (cfg : Config) (a : Nat) : Prop :=
  a ≠ 0 ∧ (∀ c, cfg.unpack (cfg.pack a c) = a ∧ cfg.pack a c ≠ 0) ∧ cfg.inHeap a = false

/-- The head word `h` is the top of a chain through exactly the nodes `l`, top first,
ending in the empty head `0`. -/
def IsStack (cfg : Config) (bufs : Nat → workbuf) : Nat → List Nat → Prop
  | h, [] => h = 0
  | h, a :: l => h ≠ 0 ∧ cfg.unpack h = a ∧ IsStack cfg bufs (bufs a).next l

/-- The pointers a buffer holds, `obj[0] .. obj[nobj-1]`. -/
def entries (g : World) (a : Nat) : List Nat :=
  (List.range (g.bufs a).nobj.toNat).map (g.bufs a).obj

/-- The buffers `getempty` carves out of the span based at `s`. -/
def spanBufs (s : Nat) : List Nat :=
  (List.range (workbufAlloc / WorkbufSize)).map (fun j => s + j * WorkbufSize)

/-- The buffers of the next `n` spans `getempty` will slice up: those on the free list
first, then those of the memory provider. -/
def upcoming (g : World) (n : Nat) : List Nat :=
  ((g.free ++ g.provider).take n).flatMap spanBufs

/-- The next `n` spans exist, and their buffers are valid stack nodes outside the Go
heap, distinct from each other and from every buffer of `own`. -/
structure Supply (cfg : Config) (g : World) (own : List Nat) (n : Nat) : Prop where
  len : n ≤ (g.free ++ g.provider).length
  nodup : (upcoming g n).Nodup
  fresh : ∀ a ∈ upcoming g n, Valid cfg a ∧ cfg.inHeap a = false ∧ a ∉ own

/-- The pool invariant: `work.empty` chains exactly the buffers `E` and `work.full` exactly
`F`; these and the buffers `Y` held outside the lists are pairwise distinct valid nodes;
buffers on the empty list hold nothing, buffers on the full list hold between one and
`C` pointers; and the next `n` spans are in supply. -/
structure PoolInv (cfg : Config) (g : World) (E F Y : List Nat) (n : Nat) : Prop where
  isE : IsStack cfg g.bufs g.empty E
  isF : IsStack cfg g.bufs g.full F
  nodup : (E ++ F ++ Y).Nodup
  valid : ∀ a ∈ E ++ F ++ Y, Valid cfg a
  emptyN : ∀ a ∈ E, (g.bufs a).nobj = 0
  fullN : ∀ a ∈ F, 0 < (g.bufs a).nobj ∧ (g.bufs a).nobj ≤ cfg.C
  supply : Supply cfg g (E ++ F ++ Y) n

/-- The world `g1` agrees with `g` on the count and the pointers of every buffer
satisfying `P`, and on everything that is not a work buffer, a list or a span. -/
structure Frame (P : Nat → Prop) (g g1 : World) : Prop where
  nobj : ∀ a, P a → (g1.bufs a).nobj = (g.bufs a).nobj
  obj : ∀ a, P a → (g1.bufs a).obj = (g.bufs a).obj
  mem : g1.mem = g.mem
  gcphase : g1.gcphase = g.gcphase
  enlisted : g1.enlisted = g.enlisted
  bytesMarked : g1.bytesMarked = g.bytesMarked
  heapScanWork : g1.heapScanWork = g.heapScanWork

/-- The world `g1` has the count and the pointers of every buffer in `X` as `g` has. -/
def Untouched (X : List Nat) (g g1 : World) : Prop :=
  ∀ a ∈ X, (g1.bufs a).nobj = (g.bufs a).nobj ∧ (g1.bufs a).obj = (g.bufs a).obj

/-- The number of spans `getempty` can still obtain. -/
def remaining (g : World) : Nat :=
  (g.free ++ g.provider).length

/-- A result meets `Q` when it is a value satisfying `Q`; the only failure allowed is
running out of memory, and only when fewer than `need` spans were available. -/
def Meets {α : Type} (need avail : Nat) (r : Except Err α) (Q : α → Prop) : Prop :=
  match r with
  | .ok a => Q a
  | .error e => e = Err.outOfMemory ∧ avail < need

/-- The buffers a `gcWork` owns through `wbuf1` and `wbuf2`. -/
def locals (w : gcWork) : List Nat :=
  if w.wbuf1 = 0 then [] else [w.wbuf1, w.wbuf2]

/-- The data-model invariant of one worker queue against the pool: the pool invariant
with the local buffers (and the other buffers `X` held outside the lists) as owned and
every span still to come in supply, both local buffers nil or neither, and counts of
local buffers within `0 .. C`. -/
structure Inv (cfg : Config) (w : gcWork) (g : World) (E F X : List Nat) : Prop where
  pool : PoolInv cfg g E F (locals w ++ X) (remaining g)
  both : w.wbuf1 = 0 → w.wbuf2 = 0
  localN : ∀ a ∈ locals w, 0 ≤ (g.bufs a).nobj ∧ (g.bufs a).nobj ≤ cfg.C

/-- The pointers of a buffer from the top down, the order in which they are popped. -/
def tops (g : World) (a : Nat) : List Nat :=
  (entries g a).reverse

/-- The world after `wbuf.obj[wbuf.nobj] = obj; wbuf.nobj++`. -/
def pushed (g : World) (b : Nat) (p : Nat) : World :=
  storeNobj (storeObj g b (g.bufs b).nobj.toNat p) b ((g.bufs b).nobj + 1)

/-- The world after `wbuf.nobj--`. -/
def popped (g : World) (b : Nat) : World :=
  storeNobj g b ((g.bufs b).nobj - 1)

/-- The world after `n := copy(wbuf.obj[wbuf.nobj:], src); wbuf.nobj += n`. -/
def copied (g : World) (b : Nat) (n : Nat) (src : List Nat) : World :=
  storeNobj (copyObjs g b (g.bufs b).nobj.toNat n src) b ((g.bufs b).nobj + n)

/-! ## The queue as lists

What a worker queue and the full list hold, forgetting addresses: the pointers of
`wbuf1` and of `wbuf2` and of each buffer of the full list, each from its top down, and
the number of pushes onto the full list so far. The functions on `Abs` below describe
what each method of `gcWork` does to these lists; the theorems relate them to the methods
themselves. -/

/-- The contents of a worker queue and of the full list. -/
structure Abs where
  inited : Bool
  t1 : List Nat
  t2 : List Nat
  fl : List (List Nat)
  pushes : Nat

/-- The contents of the queue `w` in the world `g` whose full list chains `F`. -/
def absOf (w : gcWork) (g : World) (F : List Nat) : Abs :=
  { inited := decide (w.wbuf1 ≠ 0),
    t1 := if w.wbuf1 = 0 then [] else tops g w.wbuf1,
    t2 := if w.wbuf1 = 0 then [] else tops g w.wbuf2,
    fl := F.map (tops g),
    pushes := g.fullPushes }

/-- All queued pointers in the order `tryGet` hands them out. -/
def Abs.stack (A : Abs) : List Nat :=
  A.t1 ++ A.t2 ++ A.fl.flatten

/-- What `gcWork.init` does when the queue has no buffers yet. -/
def Abs.init (A : Abs) : Abs :=
  if A.inited then A
  else
    match A.fl with
    | [] => { A with inited := true, t1 := [], t2 := [] }
    | b :: fl => { A with inited := true, t1 := [], t2 := b, fl := fl }

/-- What `gcWork.put` does. -/
def Abs.put (C : Nat) (p : Nat) (A : Abs) : Abs :=
  let B := A.init
  if B.t1.length < C then { B with t1 := p :: B.t1 }
  else if B.t2.length < C then { B with t1 := p :: B.t2, t2 := B.t1 }
  else { B with t1 := [p], t2 := B.t1, fl := B.t2 :: B.fl, pushes := B.pushes + 1 }

/-- What `gcWork.tryGet` does. -/
def Abs.tryGet (A : Abs) : Nat × Abs :=
  let B := A.init
  match B.t1 with
  | p :: t => (p, { B with t1 := t })
  | [] =>
    match B.t2 with
    | p :: t => (p, { B with t1 := t, t2 := [] })
    | [] =>
      match B.fl with
      | [] => (0, B)
      | b :: fl => (b.headD 0, { B with t1 := b.tail, t2 := [], fl := fl })

/-- Successive `Abs.put`. -/
def Abs.putAll (C : Nat) : Abs → List Nat → Abs
  | A, [] => A
  | A, p :: ps => Abs.putAll C (Abs.put C p A) ps

/-- Successive `Abs.tryGet`, collecting the results. -/
def Abs.tryGetN : Nat → Abs → List Nat × Abs
  | 0, A => ([], A)
  | n + 1, A => ((A.tryGet.1 :: (Abs.tryGetN n A.tryGet.2).1), (Abs.tryGetN n A.tryGet.2).2)

/-- One iteration of the inner loop of `gcWork.putBatch`: `wbuf1` goes onto the full
list, `wbuf2` takes its place and a fresh buffer becomes `wbuf2`. -/
def Abs.flush1 (A : Abs) : Abs :=
  { A with t1 := A.t2, t2 := [], fl := A.t1 :: A.fl, pushes := A.pushes + 1 }

/-- The inner loop of `gcWork.putBatch`, which runs at most twice for `C ≥ 1`. -/
def Abs.flushAll (C : Nat) (A : Abs) : Abs :=
  if A.t1.length = C then
    (if A.flush1.t1.length = C then A.flush1.flush1 else A.flush1)
  else A

/-- One iteration of the outer loop of `gcWork.putBatch`: flush, then copy as many
pointers as `wbuf1` has room for. -/
def Abs.batchStep (C : Nat) (A : Abs) (obj : List Nat) : Abs × List Nat :=
  let B := A.flushAll C
  let n := min (C - B.t1.length) obj.length
  ({ B with t1 := (obj.take n).reverse ++ B.t1 }, obj.drop n)

/-- The outer loop of `gcWork.putBatch`. -/
def Abs.putBatchLoop (C : Nat) : Nat → Abs → List Nat → Abs
  | 0, A, _ => A
  | fuel + 1, A, obj =>
    if obj.length > 0 then
      Abs.putBatchLoop C fuel (Abs.batchStep C A obj).1 (Abs.batchStep C A obj).2
    else A

/-- What `gcWork.putBatch` does. -/
def Abs.putBatch (C : Nat) (fuel : Nat) (A : Abs) (obj : List Nat) : Abs :=
  if obj.length = 0 then A else Abs.putBatchLoop C fuel A.init obj

/-- The number of local buffers that hold `C` pointers. -/
def Abs.fulls (C : Nat) (A : Abs) : Nat :=
  (if A.t1.length = C then 1 else 0) + (if A.t2.length = C then 1 else 0)

/-- The counts of the two local buffers and the number of pushes onto the full list. -/
def Abs.counts (A : Abs) : Nat × Nat × Nat :=
  (A.t1.length, A.t2.length, A.pushes)

/-- What a `put` does to the counts of a queue that has its buffers. -/
def countPut (C : Nat) (c : Nat × Nat × Nat) : Nat × Nat × Nat :=
  if c.1 < C then (c.1 + 1, c.2.1, c.2.2)
  else if c.2.1 < C then (c.2.1 + 1, c.1, c.2.2)
  else (1, c.1, c.2.2 + 1)

/-- Neither local buffer holds more than `C` pointers. -/
def Abs.Bounded (C : Nat) (A : Abs) : Prop :=
  A.t1.length ≤ C ∧ A.t2.length ≤ C

/-- Every buffer of the full list holds a pointer, and a queue without buffers holds
nothing. -/
def Abs.Sound (A : Abs) : Prop :=
  (∀ b ∈ A.fl, b ≠ []) ∧ (A.inited = false → A.t1 = [] ∧ A.t2 = [])

/-- The buffer that `put` will publish next is empty or full: `wbuf2` if the queue has
its buffers, else the buffer `init` will take from the full list. -/
def Abs.Lifo (C : Nat) (A : Abs) : Prop :=
  A.t1.length ≤ C ∧
    (if A.inited = true then A.t2 = [] ∨ A.t2.length = C
     else ∀ b fl, A.fl = b :: fl → b.length = C)

/-- The same condition on the queue itself: `wbuf2` holds no pointer or `C` pointers; for
a queue without buffers, the buffer on top of the full list, if there is one, holds `C`
pointers. -/
def Hysteresis (cfg : Config) (w : gcWork) (g : World) (F : List Nat) : Prop :=
  if w.wbuf1 = 0 then ∀ b fl, F = b :: fl → (g.bufs b).nobj = cfg.C
  else (g.bufs w.wbuf2).nobj = 0 ∨ (g.bufs w.wbuf2).nobj = cfg.C

/-- No `put` will bring older pointers above newer ones: once the queue has its buffers,
`wbuf1` is full, or `wbuf2`, into which a full `wbuf1` is exchanged, is empty or full. -/
def Abs.Settled (C : Nat) (A : Abs) : Prop :=
  A.init.t1.length = C ∨ A.init.t2 = [] ∨ A.init.t2.length = C

/-- The same condition on the queue itself: `wbuf1` holds `C` pointers, or `wbuf2` holds
no pointer or `C` pointers; for a queue without buffers, the buffer on top of the full
list, which `init` will take as `wbuf2`, holds `C` pointers if there is one. -/
def Settled (cfg : Config) (w : gcWork) (g : World) (F : List Nat) : Prop :=
  if w.wbuf1 = 0 then ∀ b fl, F = b :: fl → (g.bufs b).nobj = cfg.C
  else (g.bufs w.wbuf1).nobj = cfg.C ∨ (g.bufs w.wbuf2).nobj = 0 ∨
    (g.bufs w.wbuf2).nobj = cfg.C

/-- The pointers held by the two local buffers and the buffers `F` of the full list. -/
def held (w : gcWork) (g : World) (F : List Nat) : Multiset Nat :=
  Multiset.ofList ((locals w ++ F).flatMap (entries g))

/-- The world after the middle of `handoff` on a buffer `b` holding `m` pointers. -/
def halved (g1 : World) (b b1 : Nat) (m : Nat) : World :=
  moveObjs (storeNobj (storeNobj g1 b ((m - m / 2 : Nat) : Int)) b1 ((m / 2 : Nat) : Int))
    b1 b (m - m / 2) (m / 2)

/-- The pointers held by the buffers `L`, as a multiset. -/
def heldBy (g : World) (L : List Nat) : Multiset Nat :=
  Multiset.ofList (L.flatMap (entries g))

/-! ## Threads and reachable states -/

/-- The ownership predicate of a worker queue: both buffers nil, or neither and they are
two buffers. -/
def Owns (w : gcWork) : Prop :=
  (w.wbuf1 = 0 ∧ w.wbuf2 = 0) ∨ (w.wbuf1 ≠ 0 ∧ w.wbuf2 ≠ 0 ∧ w.wbuf1 ≠ w.wbuf2)

instance (w : gcWork) : Decidable (Owns w) := by
  unfold Owns
  infer_instance

/-- The operations of a worker queue. -/
inductive QueueOp where
  | init
  | put (obj : Nat)
  | putFast (obj : Nat)
  | putBatch (obj : List Nat)
  | tryGet
  | tryGetFast
  | dispose
  | balance
  | empty

/-- One call of an operation of the queue; of what the call returns only the queue and
the world are kept. The loops of `putBatch` get the fuel they need for `obj`. -/
def QueueOp.run (cfg : Config) : QueueOp → gcWork → World → Except Err (gcWork × World)
  | .init, w, g => w.init cfg g
  | .put obj, w, g => w.put cfg g obj
  | .putFast obj, w, g => do
    let (_, w1, g1) ← w.putFast cfg g obj
    .ok (w1, g1)
  | .putBatch obj, w, g => w.putBatch cfg (obj.length + 3) g obj
  | .tryGet, w, g => do
    let (_, w1, g1) ← w.tryGet cfg g
    .ok (w1, g1)
  | .tryGetFast, w, g => do
    let (_, w1, g1) ← w.tryGetFast cfg g
    .ok (w1, g1)
  | .dispose, w, g => w.dispose cfg g
  | .balance, w, g => w.balance cfg g
  | .empty, w, g => do
    let _ ← w.empty g
    .ok (w, g)

/-- The buffers a call leaves behind without a reference: `init` overwrites `wbuf1` and
`wbuf2` whatever they were. -/
def QueueOp.leak : QueueOp → gcWork → List Nat
  | .init, w => locals w
  | _, _ => []

/-- The spans a call may need from the memory provider. -/
def QueueOp.need : QueueOp → Nat
  | .init => 2
  | .put _ => 2
  | .putBatch obj => obj.length + 4
  | .tryGet => 2
  | .balance => 1
  | _ => 0

/-- One thread: its worker queue, the buffers it holds outside the queue and the lists
(got from `getempty`, `trygetfull` or `handoff` and not given back, or left behind by
`init`), and the world. -/
structure Thread where
  w : gcWork
  own : List Nat
  g : World

/-- One step of a thread: a call that returns, of `getempty`, `putempty`, `putfull`,
`trygetfull` or `handoff` (the buffer passed being one the thread holds), or of an
operation of its queue; or the thread fills a buffer it holds with pointers `ps`, no
more than the buffer has room for, as the queue does with `wbuf1`. -/
inductive Step (cfg : Config) : Thread → Thread → Prop where
  | getempty {s : Thread} {g1 : World} {b : Nat} (h : getempty cfg s.g = .ok (g1, b)) :
      Step cfg s ⟨s.w, b :: s.own, g1⟩
  | putempty {s : Thread} {b : Nat} {g1 : World} (hb : b ∈ s.own)
      (h : putempty cfg s.g b = .ok g1) : Step cfg s ⟨s.w, s.own.erase b, g1⟩
  | putfull {s : Thread} {b : Nat} {g1 : World} (hb : b ∈ s.own)
      (h : putfull cfg s.g b = .ok g1) : Step cfg s ⟨s.w, s.own.erase b, g1⟩
  | trygetfull {s : Thread} {g1 : World} {b : Nat} (h : trygetfull cfg s.g = .ok (g1, b)) :
      Step cfg s ⟨s.w, if b = 0 then s.own else b :: s.own, g1⟩
  | handoff {s : Thread} {b : Nat} {g1 : World} {b1 : Nat} (hb : b ∈ s.own)
      (h : handoff cfg s.g b = .ok (g1, b1)) : Step cfg s ⟨s.w, b1 :: s.own.erase b, g1⟩
  | fill {s : Thread} {b : Nat} (ps : List Nat) (hb : b ∈ s.own) (hps : ps.length ≤ cfg.C) :
      Step cfg s ⟨s.w, s.own, copied (storeNobj s.g b 0) b ps.length ps⟩
  | queue {s : Thread} {w1 : gcWork} {g1 : World} (op : QueueOp)
      (h : op.run cfg s.w s.g = .ok (w1, g1)) : Step cfg s ⟨w1, op.leak s.w ++ s.own, g1⟩

/-- The initial states: a queue without buffers, no buffer held, both global lists empty,
and a memory provider whose spans are fresh memory fit for work buffers. -/
def Initial (cfg : Config) (s : Thread) : Prop :=
  s.w.wbuf1 = 0 ∧ s.w.wbuf2 = 0 ∧ s.own = [] ∧ s.g.empty = 0 ∧ s.g.full = 0 ∧
    Supply cfg s.g [] (remaining s.g)

/-- The states a thread reaches from an initial state. -/
inductive Reach (cfg : Config) : Thread → Prop where
  | start {s : Thread} (h : Initial cfg s) : Reach cfg s
  | step {s s1 : Thread} (h : Reach cfg s) (hs : Step cfg s s1) : Reach cfg s1

/-- The invariant of the reachable states: the data-model invariant of the queue and the
pool, with the buffers the thread holds as owned, and the counts of these within `0 .. C`. -/
def Good (cfg : Config) (s : Thread) : Prop :=
  ∃ E F, Inv cfg s.w s.g E F s.own ∧
    ∀ a ∈ s.own, 0 ≤ (s.g.bufs a).nobj ∧ (s.g.bufs a).nobj ≤ cfg.C

/-- The state after a call of an operation of the queue, and the state itself when the
call does not return. -/
def Thread.after (cfg : Config) (op : QueueOp) (s : Thread) : Thread :=
  match op.run cfg s.w s.g with
  | .ok r => ⟨r.1, op.leak s.w ++ s.own, r.2⟩
  | .error _ => s

/-- A thread in an initial state, with twenty spans at the provider. -/
def sampleThread : Thread :=
  ⟨gcWork.zero, [], sampleWorld (sampleSpans 20)⟩

/-- The state of the sample thread after `put(11)`, `put(12)`, `put(13)`, `dispose()` at
capacity `2`. -/
def sampleRun : Thread :=
  (((sampleThread.after (sampleConfig 2) (.put 11)).after (sampleConfig 2) (.put 12)).after
    (sampleConfig 2) (.put 13)).after (sampleConfig 2) .dispose

/-! ## Recording and patching pointers -/

/-- Successive `putOldPtr` calls, recording the pairs `(addr, off)` in order. -/
def putOldPtrs (cfg : Config) : gcWork → World → List (Nat × Nat) → Except Err (gcWork × World)
  | w, g, [] => .ok (w, g)
  | w, g, p :: ps => do
    let (w1, g1) ← gcWork.putOldPtr cfg w g p.1 p.2
    putOldPtrs cfg w1 g1 ps

/-- The patch of one recorded pair `(A, O)` as the spec words it: when slot `A` holds
`B0 + O` it is rewritten to `B1 + O`, and when it holds any other value the call aborts
(`none`). Sums are taken modulo `2 ^ W`. -/
def patch (W B0 B1 : Nat) (mem : Nat → Nat) (p : Nat × Nat) : Option (Nat → Nat) :=
  if mem p.1 = (B0 + p.2) % 2 ^ W then some (setMem mem p.1 ((B1 + p.2) % 2 ^ W)) else none

/-- The patches of a list of pairs, each pair once, in the order of the list. -/
def patchAll (W B0 B1 : Nat) : List (Nat × Nat) → (Nat → Nat) → Option (Nat → Nat)
  | [], mem => some mem
  | p :: ps, mem => (patch W B0 B1 mem p).bind (patchAll W B0 B1 ps)

/-- The patch buffers after one more pair is recorded, newest buffer first, each as the
list of its pairs in recording order; a buffer takes `q` pairs. -/
def record (q : Nat) (G : List (List (Nat × Nat))) (p : Nat × Nat) : List (List (Nat × Nat)) :=
  match G with
  | [] => [[p]]
  | grp :: rest => if grp.length = q then [p] :: grp :: rest else (grp ++ [p]) :: rest

/-- The patch buffers after the pairs are recorded in order, at capacity `C`. -/
def recordAll (C : Nat) (pairs : List (Nat × Nat)) : List (List (Nat × Nat)) :=
  pairs.foldl (record ((C - 1) / 2)) []

/-- The order in which `updateOldPtrs` comes to the recorded pairs: buffer by buffer from
the newest, within a buffer in recording order. -/
def patchOrder (C : Nat) (pairs : List (Nat × Nat)) : List (Nat × Nat) :=
  (recordAll C pairs).flatten

/-- The words a patch buffer holds for its pairs: address, offset, address, offset. -/
def flat (grp : List (Nat × Nat)) : List Nat :=
  grp.flatMap (fun p => [p.1, p.2])

/-- The buffer `b` holds exactly the pairs `grp`. -/
def Holds (g : World) (b : Nat) (grp : List (Nat × Nat)) : Prop :=
  0 ≤ (g.bufs b).nobj ∧ entries g b = flat grp

/-- The state of recording: the pool invariant with the patch buffers `O` owned besides
`Y`, the stack `old_ptrs` chaining exactly `O`, and each buffer holding its pairs of `G`,
no more than `(C - 1) / 2` of them. -/
structure Recorded (cfg : Config) (w : gcWork) (g : World) (E F Y O : List Nat)
    (G : List (List (Nat × Nat))) : Prop where
  pool : PoolInv cfg g E F (O ++ Y) (remaining g)
  chain : IsStack cfg g.bufs w.old_ptrs O
  holds : List.Forall₂ (Holds g) O G
  room : ∀ grp ∈ G, grp.length ≤ (cfg.C - 1) / 2

/-- A world with empty lists, four spans at the provider, and the words `1007`, `1015`,
`1023` in the memory slots `500`, `600`, `700`. -/
def patchWorld : World :=
  { sampleWorld (sampleSpans 4) with
    mem := fun a => if a = 500 then 1007 else if a = 600 then 1015 else if a = 700 then 1023
      else 0 }

/-- A queue without buffers, relocating the block at `1000` to `2000`. -/
def patchQueue : gcWork :=
  { gcWork.zero with old_block := 1000, new_block := 2000 }

/-! ## Calls together with the state in which they end -/

/-- The method `lfstack.push` once more, with the buffer memory and the head word in which
the call ends, by its return or by its throw: the counter of the node is stepped before
the packing is checked, the node is linked and the head word replaced after. -/
def lfstack.pushAt (cfg : Config) (bufs : Nat → workbuf) (head : Nat) (node : Nat) :
    Except Err Unit × (Nat → workbuf) × Nat :=
  if node = 0 then (.error .nilDeref, bufs, head)
  else
    let cnt := ((bufs node).pushcnt + 1) % 2 ^ cfg.W
    let new := cfg.pack node cnt
    if cfg.unpack new ≠ node then
      (.error .lfstackPush, setBuf bufs node { (bufs node) with pushcnt := cnt }, head)
    else (.ok (), link bufs node cnt head, new)

/-- The function `putempty` once more, with the world in which the call ends, by its
return or by its throw. -/
def putemptyAt (cfg : Config) (g : World) (b : Nat) : Except Err Unit × World :=
  match workbuf.checkempty g b with
  | .error e => (.error e, g)
  | .ok _ =>
    let r := lfstack.pushAt cfg g.bufs g.empty b
    (r.1, { g with bufs := r.2.1, empty := r.2.2 })

/-- The function `putfull` once more, with the world in which the call ends, by its return
or by its throw. -/
def putfullAt (cfg : Config) (g : World) (b : Nat) : Except Err Unit × World :=
  match workbuf.checknonempty g b with
  | .error e => (.error e, g)
  | .ok _ =>
    let r := lfstack.pushAt cfg g.bufs g.full b
    match r.1 with
    | .error e => (.error e, { g with bufs := r.2.1, full := r.2.2 })
    | .ok _ => (.ok (), { g with bufs := r.2.1, full := r.2.2, fullPushes := g.fullPushes + 1 })

/-- The function `prepareFreeWorkbufs` once more, with the world in which the call ends, by
its return or by its throw. -/
def prepareFreeWorkbufsAt (g : World) : Except Err Unit × World :=
  if g.full ≠ 0 then (.error .cannotFreeWorkbufs, g)
  else (.ok (), { g with empty := 0, free := g.busy ++ g.free, busy := [] })

/-- The result of a call, from the call with the state in which it ends. -/
def resultOf {σ : Type} (r : Except Err Unit × σ) : Except Err σ :=
  match r.1 with
  | .ok _ => .ok r.2
  | .error e => .error e

/-! ## The bookkeeping of a call -/

/-- The counters of the world `g1` against those of `g`: the same phase, the same number
of `enlistWorker` calls, and `k` more pushes onto the full list. -/
structure Tally (k : Nat) (g g1 : World) : Prop where
  gcphase : g1.gcphase = g.gcphase
  enlisted : g1.enlisted = g.enlisted
  pushes : g1.fullPushes = g.fullPushes + k

/-- The bookkeeping of a stretch of code without an `enlistWorker` call, from the queue
`w`, the world `g` and the local flag `fl` to `w1`, `g1` and `fl1`: the field
`flushedWork` and the flag are set afterwards exactly when they were set before or a
buffer was pushed onto the full list. -/
def Flow (w : gcWork) (g : World) (fl : Bool) (w1 : gcWork) (g1 : World) (fl1 : Bool) : Prop :=
  ∃ k, Tally k g g1 ∧ (w1.flushedWork = true ↔ w.flushedWork = true ∨ 0 < k) ∧
    (fl1 = true ↔ fl = true ∨ 0 < k)

/-- The bookkeeping of a whole operation, from `w` and `g` to `w1` and `g1`: the phase is
the same, buffers were pushed onto the full list or not, `flushedWork` is set afterwards
exactly when it was set before or a buffer was pushed, and `enlistWorker` was called once
when `sig` holds, a buffer was pushed and the phase is `_GCmark`, and not at all
otherwise. -/
structure Account (sig : Bool) (w : gcWork) (g : World) (w1 : gcWork) (g1 : World) : Prop where
  gcphase : g1.gcphase = g.gcphase
  pushes : g.fullPushes ≤ g1.fullPushes
  flushed : w1.flushedWork = true ↔ w.flushedWork = true ∨ g.fullPushes < g1.fullPushes
  enlisted : g1.enlisted = g.enlisted +
    (if sig = true ∧ g.fullPushes < g1.fullPushes ∧ g.gcphase = GCPhase.GCmark then 1 else 0)

/-- The operations that end with the test `flushed && gcphase == _GCmark`, or in a branch
with the test `gcphase == _GCmark`, before a call of `enlistWorker`. -/
def QueueOp.signals : QueueOp → Bool
  | .put _ => true
  | .putBatch _ => true
  | .balance => true
  | _ => false

/-! ## The lock-free stack used alone -/

/-- Successive `push` calls of the nodes, in order, onto the stack with head word `head`. -/
def pushAll (cfg : Config) :
    (Nat → workbuf) → Nat → List Nat → Except Err ((Nat → workbuf) × Nat)
  | bufs, head, [] => .ok (bufs, head)
  | bufs, head, n :: ns => do
    let r ← lfstack.push cfg bufs head n
    pushAll cfg r.1 r.2 ns

/-- Successive `pop` calls, `k` of them: the nodes returned, in call order, and the head
word at the end. -/
def popN (cfg : Config) (bufs : Nat → workbuf) : Nat → Nat → Except Err (List Nat × Nat)
  | 0, head => .ok ([], head)
  | k + 1, head => do
    let r ← lfstack.pop cfg bufs head
    let rest ← popN cfg bufs k r.1
    .ok (r.2 :: rest.1, rest.2)

/-! ## Concurrent calls of the lock-free stack -/

/-- A call of one of the two methods of `lfstack`. -/
inductive lfstack.Call where
  | push (node : Nat)
  | pop
  deriving DecidableEq, Repr

/-- Where a worker stands inside its current call: between the atomic steps of
`lfstack.push` (before `atomic.Load64`, before the store `node.next = old`, before
`atomic.Cas64`) and of `lfstack.pop` (before `atomic.Load64(&node.next)`, before
`atomic.Cas64`), outside a call or at its first step, or stopped by a throw or a nil
dereference. -/
inductive lfstack.Pc where
  | idle
  | pushLoad (node new : Nat)
  | pushStore (node new old : Nat)
  | pushCas (node new old : Nat)
  | popNext (old : Nat)
  | popCas (old next : Nat)
  | fault (e : Err)
  deriving DecidableEq, Repr

/-- A worker: its place in the current call, the calls it still makes (the current one
first), what its `pop` calls returned (`0` for nil), and the nodes its `push` calls have
pushed. -/
structure lfstack.Worker where
  pc : lfstack.Pc
  todo : List lfstack.Call
  got : List Nat
  pushed : List Nat

/-- One step of a worker on the head word `head` and the node memory `bufs`. A `push`
starts with the statements up to the packing check, a `pop` with its `atomic.Load64`;
each further step is one load, the store `node.next = old`, or one `atomic.Cas64`, after
whose failure the loop is entered again. -/
def lfstack.Worker.step (cfg : Config) (head : Nat) (bufs : Nat → workbuf)
    (t : lfstack.Worker) : Nat × (Nat → workbuf) × lfstack.Worker :=
  match t.pc with
  | .idle =>
    match t.todo with
    | [] => (head, bufs, t)
    | .push node :: _ =>
      if node = 0 then (head, bufs, { t with pc := .fault .nilDeref })
      else
        let cnt := ((bufs node).pushcnt + 1) % 2 ^ cfg.W
        let bufs1 := setBuf bufs node { (bufs node) with pushcnt := cnt }
        let new := cfg.pack node cnt
        if cfg.unpack new ≠ node then (head, bufs1, { t with pc := .fault .lfstackPush })
        else (head, bufs1, { t with pc := .pushLoad node new })
    | .pop :: rest =>
      if head = 0 then (head, bufs, { t with todo := rest, got := t.got ++ [0] })
      else (head, bufs, { t with pc := .popNext head })
  | .pushLoad node new => (head, bufs, { t with pc := .pushStore node new head })
  | .pushStore node new old =>
    (head, setBuf bufs node { (bufs node) with next := old },
      { t with pc := .pushCas node new old })
  | .pushCas node new old =>
    if head = old then
      (new, bufs, { t with pc := .idle, todo := t.todo.tail, pushed := t.pushed ++ [node] })
    else (head, bufs, { t with pc := .pushLoad node new })
  | .popNext old =>
    if cfg.unpack old = 0 then (head, bufs, { t with pc := .fault .nilDeref })
    else (head, bufs, { t with pc := .popCas old (bufs (cfg.unpack old)).next })
  | .popCas old next =>
    if head = old then
      (next, bufs, { t with pc := .idle, todo := t.todo.tail, got := t.got ++ [cfg.unpack old] })
    else (head, bufs, { t with pc := .idle })
  | .fault _ => (head, bufs, t)

/-- The head word of a stack, the node memory, and the workers that call its methods. -/
structure lfstack.Sys where
  head : Nat
  bufs : Nat → workbuf
  workers : List lfstack.Worker

/-- One step of worker number `i` among `ws`; no worker has the number, nothing
happens. -/
def lfstack.stepAt (cfg : Config) (head : Nat) (bufs : Nat → workbuf) :
    List lfstack.Worker → Nat → Nat × (Nat → workbuf) × List lfstack.Worker
  | [], _ => (head, bufs, [])
  | t :: ts, 0 =>
    let r := t.step cfg head bufs
    (r.1, r.2.1, r.2.2 :: ts)
  | t :: ts, i + 1 =>
    let r := lfstack.stepAt cfg head bufs ts i
    (r.1, r.2.1, t :: r.2.2)

/-- One step of the system: worker number `i` takes its next step. -/
def lfstack.Sys.step (cfg : Config) (s : lfstack.Sys) (i : Nat) : lfstack.Sys :=
  let r := lfstack.stepAt cfg s.head s.bufs s.workers i
  { head := r.1, bufs := r.2.1, workers := r.2.2 }

/-- An interleaving: the workers step in the order the schedule names them. -/
def lfstack.Sys.run (cfg : Config) : lfstack.Sys → List Nat → lfstack.Sys
  | s, [] => s
  | s, i :: sched => lfstack.Sys.run cfg (s.step cfg i) sched

/-- The nodes of the `push` calls among `cs`. -/
def lfstack.pushNodes : List lfstack.Call → List Nat
  | [] => []
  | .push node :: cs => node :: lfstack.pushNodes cs
  | .pop :: cs => lfstack.pushNodes cs

/-- The nodes the `pop` calls of a worker returned. -/
def lfstack.Worker.popped (t : lfstack.Worker) : List Nat :=
  t.got.filter (fun a => a ≠ 0)

/-- The nodes returned by the successful `pop` calls of all workers. -/
def lfstack.Sys.popped (s : lfstack.Sys) : List Nat :=
  s.workers.flatMap lfstack.Worker.popped

/-- The nodes pushed by the completed `push` calls of all workers. -/
def lfstack.Sys.pushed (s : lfstack.Sys) : List Nat :=
  s.workers.flatMap (fun t => t.pushed)

/-- The nodes of the `push` calls still to be completed. -/
def lfstack.Sys.pending (s : lfstack.Sys) : List Nat :=
  s.workers.flatMap (fun t => lfstack.pushNodes t.todo)

/-- What a worker inside a call knows, against the node memory and the nodes `K` that are
on the stack or were popped: a `push` is the first call of `todo`, its word `new` unpacks
to its node, and before the `Cas64` the node links to `old`; a `pop` is the first call of
`todo`, the word `old` it loaded is not `0` and unpacks to a node of `K`, and before the
`Cas64` the word `next` is the link of that node. No worker is stopped. -/
def lfstack.Coherent (cfg : Config) (bufs : Nat → workbuf) (K : List Nat)
    (t : lfstack.Worker) : Prop :=
  match t.pc with
  | .idle => True
  | .pushLoad node new =>
    (∃ rest, t.todo = .push node :: rest) ∧ new ≠ 0 ∧ cfg.unpack new = node
  | .pushStore node new _ =>
    (∃ rest, t.todo = .push node :: rest) ∧ new ≠ 0 ∧ cfg.unpack new = node
  | .pushCas node new old =>
    (∃ rest, t.todo = .push node :: rest) ∧ new ≠ 0 ∧ cfg.unpack new = node ∧
      (bufs node).next = old
  | .popNext old => (∃ rest, t.todo = .pop :: rest) ∧ old ≠ 0 ∧ cfg.unpack old ∈ K
  | .popCas old next =>
    (∃ rest, t.todo = .pop :: rest) ∧ old ≠ 0 ∧ cfg.unpack old ∈ K ∧
      next = (bufs (cfg.unpack old)).next
  | .fault _ => False

/-- The invariant of the interleavings from a stack of the nodes `L0` and workers with
the `push` calls of the nodes `P0` ahead: the head word chains the nodes `S`; the nodes
on the stack, popped and still to be pushed are, with multiplicity, those of `L0` and
`P0`; the nodes pushed and still to be pushed are those of `P0`; and every worker is
coherent. -/
structure lfstack.Inv (cfg : Config) (L0 P0 : List Nat) (s : lfstack.Sys) (S : List Nat) :
    Prop where
  isS : IsStack cfg s.bufs s.head S
  total : (S : Multiset Nat) + (s.popped : Multiset Nat) + (s.pending : Multiset Nat) =
    (L0 : Multiset Nat) + (P0 : Multiset Nat)
  done : (s.pushed : Multiset Nat) + (s.pending : Multiset Nat) = (P0 : Multiset Nat)
  coh : ∀ t ∈ s.workers, lfstack.Coherent cfg s.bufs (S ++ s.popped) t

/-- Workers at the start: outside a call, nothing returned, nothing pushed. -/
def lfstack.Sys.fresh (s : lfstack.Sys) : Prop :=
  ∀ t ∈ s.workers, t.pc = .idle ∧ t.got = [] ∧ t.pushed = []

/-- Two workers on the stack of the single node `2048`: the first pushes `4096` and then
pops, the second pops twice. -/
def sampleSys : lfstack.Sys :=
  { head := partialWorld.full,
    bufs := partialWorld.bufs,
    workers := [{ pc := .idle, todo := [.push 4096, .pop], got := [], pushed := [] },
                { pc := .idle, todo := [.pop, .pop], got := [], pushed := [] }] }

/-! # Theorems -/

/-! ## The lock-free stack on one thread -/

theorem setBuf_same (bufs : Nat → workbuf) (a : Nat) (b : workbuf) : setBuf bufs a b a = b := by
  simp [setBuf]

theorem setBuf_other (bufs : Nat → workbuf) (a x : Nat) (b : workbuf) (h : x ≠ a) :
    setBuf bufs a b x = bufs x := by
  simp [setBuf, h]

theorem IsStack.congr_next {cfg : Config} {bufs bufs1 : Nat → workbuf} :
    ∀ {l : List Nat} {h : Nat}, IsStack cfg bufs h l →
      (∀ a ∈ l, (bufs1 a).next = (bufs a).next) → IsStack cfg bufs1 h l
  | [], _, hs, _ => hs
  | a :: l, _, hs, hn => by
    obtain ⟨h0, hu, ht⟩ := hs
    refine ⟨h0, hu, ?_⟩
    rw [hn a (List.mem_cons_self a l)]
    exact IsStack.congr_next ht (fun x hx => hn x (List.mem_cons_of_mem a hx))

theorem IsStack.unique {cfg : Config} {bufs : Nat → workbuf} :
    ∀ {l l1 : List Nat} {h : Nat}, IsStack cfg bufs h l → IsStack cfg bufs h l1 → l = l1
  | [], [], _, _, _ => rfl
  | [], _ :: _, _, hs, hs1 => absurd hs hs1.1
  | _ :: _, [], _, hs, hs1 => absurd hs1 hs.1
  | a :: l, b :: l1, _, hs, hs1 => by
    obtain ⟨_, hu, ht⟩ := hs
    obtain ⟨_, hu1, ht1⟩ := hs1
    have hab : a = b := by rw [← hu, ← hu1]
    subst hab
    rw [IsStack.unique ht ht1]

theorem push_ok (cfg : Config) (bufs : Nat → workbuf) (h node : Nat) (hv : Valid cfg node) :
    lfstack.push cfg bufs h node =
      .ok (link bufs node (((bufs node).pushcnt + 1) % 2 ^ cfg.W) h,
           cfg.pack node (((bufs node).pushcnt + 1) % 2 ^ cfg.W)) := by
  unfold lfstack.push
  simp [hv.1, (hv.2.1 _).1]

theorem link_next_same (bufs : Nat → workbuf) (b c h : Nat) : (link bufs b c h b).next = h := by
  simp [link, setBuf]

theorem link_other (bufs : Nat → workbuf) (b c h a : Nat) (hab : a ≠ b) :
    link bufs b c h a = bufs a := by
  simp [link, setBuf, hab]

theorem link_nobj (bufs : Nat → workbuf) (b c h a : Nat) :
    (link bufs b c h a).nobj = (bufs a).nobj := by
  by_cases hab : a = b
  · subst hab; simp [link, setBuf]
  · rw [link_other _ _ _ _ _ hab]

theorem link_obj (bufs : Nat → workbuf) (b c h a : Nat) :
    (link bufs b c h a).obj = (bufs a).obj := by
  by_cases hab : a = b
  · subst hab; simp [link, setBuf]
  · rw [link_other _ _ _ _ _ hab]

theorem IsStack.push {cfg : Config} {bufs : Nat → workbuf} {h node : Nat} {l : List Nat}
    (hs : IsStack cfg bufs h l) (hv : Valid cfg node) (hn : node ∉ l) (c d : Nat) :
    IsStack cfg (link bufs node d h) (cfg.pack node c) (node :: l) := by
  refine ⟨(hv.2.1 c).2, (hv.2.1 c).1, ?_⟩
  rw [link_next_same]
  refine IsStack.congr_next hs ?_
  intro a ha
  rw [link_other]
  rintro rfl
  exact hn ha

theorem pop_nil (cfg : Config) (bufs : Nat → workbuf) : lfstack.pop cfg bufs 0 = .ok (0, 0) := by
  simp [lfstack.pop]

theorem pop_cons {cfg : Config} {bufs : Nat → workbuf} {h a : Nat} {l : List Nat}
    (hs : IsStack cfg bufs h (a :: l)) (ha : a ≠ 0) :
    lfstack.pop cfg bufs h = .ok ((bufs a).next, a) := by
  obtain ⟨h0, hu, _⟩ := hs
  simp [lfstack.pop, h0, hu, ha]

theorem Frame.refl (P : Nat → Prop) (g : World) : Frame P g g :=
  ⟨fun _ _ => rfl, fun _ _ => rfl, rfl, rfl, rfl, rfl, rfl⟩

theorem Frame.trans {P : Nat → Prop} {g m k : World} (h1 : Frame P g m) (h2 : Frame P m k) :
    Frame P g k :=
  ⟨fun a ha => (h2.nobj a ha).trans (h1.nobj a ha), fun a ha => (h2.obj a ha).trans (h1.obj a ha),
    h2.mem.trans h1.mem, h2.gcphase.trans h1.gcphase, h2.enlisted.trans h1.enlisted,
    h2.bytesMarked.trans h1.bytesMarked, h2.heapScanWork.trans h1.heapScanWork⟩

theorem Frame.mono {P Q : Nat → Prop} {g g1 : World} (h : Frame P g g1) (hq : ∀ a, Q a → P a) :
    Frame Q g g1 :=
  ⟨fun a ha => h.nobj a (hq a ha), fun a ha => h.obj a (hq a ha), h.mem, h.gcphase, h.enlisted,
    h.bytesMarked, h.heapScanWork⟩

theorem entries_congr {g g1 : World} {a : Nat} (hn : (g1.bufs a).nobj = (g.bufs a).nobj)
    (ho : (g1.bufs a).obj = (g.bufs a).obj) : entries g1 a = entries g a := by
  simp [entries, hn, ho]

theorem Frame.entries {P : Nat → Prop} {g g1 : World} (h : Frame P g g1) {a : Nat} (ha : P a) :
    entries g1 a = entries g a :=
  entries_congr (h.nobj a ha) (h.obj a ha)

theorem upcoming_congr {g g1 : World} (hf : g1.free = g.free) (hp : g1.provider = g.provider)
    (n : Nat) : upcoming g1 n = upcoming g n := by
  simp [upcoming, hf, hp]

theorem Supply.congr_own {cfg : Config} {g g1 : World} {own own1 : List Nat} {n : Nat}
    (h : Supply cfg g own n) (hf : g1.free = g.free) (hp : g1.provider = g.provider)
    (ho : ∀ a, a ∈ own1 → a ∈ own) : Supply cfg g1 own1 n := by
  refine ⟨?_, ?_, ?_⟩
  · rw [hf, hp]; exact h.len
  · rw [upcoming_congr hf hp]; exact h.nodup
  · intro a ha
    rw [upcoming_congr hf hp] at ha
    obtain ⟨h1, h2, h3⟩ := h.fresh a ha
    exact ⟨h1, h2, fun hm => h3 (ho a hm)⟩

theorem flatMap_take_sublist (f : Nat → List Nat) :
    ∀ (l : List Nat) (n : Nat), List.Sublist ((l.take n).flatMap f) ((l.take (n + 1)).flatMap f)
  | [], n => by simp
  | x :: l, 0 => by simp
  | x :: l, n + 1 => by
    simp only [List.take_succ_cons, List.flatMap_cons]
    exact List.Sublist.append_left (flatMap_take_sublist f l n) _

theorem Supply.pred {cfg : Config} {g : World} {own : List Nat} {n : Nat}
    (h : Supply cfg g own (n + 1)) : Supply cfg g own n := by
  have hs : List.Sublist (upcoming g n) (upcoming g (n + 1)) := flatMap_take_sublist _ _ _
  exact ⟨Nat.le_of_succ_le h.len, h.nodup.sublist hs, fun a ha => h.fresh a (hs.subset ha)⟩

theorem Supply.zero (cfg : Config) (g : World) (own : List Nat) : Supply cfg g own 0 :=
  ⟨Nat.zero_le _, by simp [upcoming], by simp [upcoming]⟩

theorem Supply.of_le {cfg : Config} {g : World} {own : List Nat} {n m : Nat}
    (h : Supply cfg g own n) (hm : m ≤ n) : Supply cfg g own m := by
  induction n with
  | zero =>
    have : m = 0 := Nat.le_zero.mp hm
    subst this
    exact h
  | succ k ih =>
    rcases Nat.lt_or_ge m (k + 1) with hlt | hge
    · exact ih h.pred (Nat.lt_succ_iff.mp hlt)
    · have : m = k + 1 := Nat.le_antisymm hm hge
      subst this
      exact h

theorem PoolInv.fewer {cfg : Config} {g : World} {E F Y : List Nat} {n m : Nat}
    (h : PoolInv cfg g E F Y n) (hm : m ≤ n) : PoolInv cfg g E F Y m :=
  ⟨h.isE, h.isF, h.nodup, h.valid, h.emptyN, h.fullN, h.supply.of_le hm⟩

theorem PoolInv.perm {cfg : Config} {g : World} {E F Y Y1 : List Nat} {n : Nat}
    (h : PoolInv cfg g E F Y n) (hp : Y.Perm Y1) : PoolInv cfg g E F Y1 n := by
  have hperm : (E ++ F ++ Y).Perm (E ++ F ++ Y1) := List.Perm.append_left _ hp
  refine ⟨h.isE, h.isF, hperm.nodup_iff.mp h.nodup, ?_, h.emptyN, h.fullN, ?_⟩
  · intro a ha
    exact h.valid a (hperm.mem_iff.mpr ha)
  · exact h.supply.congr_own rfl rfl (fun a ha => hperm.mem_iff.mpr ha)

/-- Changing only counts and pointers of buffers that are on neither list keeps the pool
invariant. -/
theorem PoolInv.update {cfg : Config} {g g1 : World} {E F Y : List Nat} {n : Nat}
    (h : PoolInv cfg g E F Y n)
    (hnext : ∀ a, (g1.bufs a).next = (g.bufs a).next)
    (hnobj : ∀ a ∈ E ++ F, (g1.bufs a).nobj = (g.bufs a).nobj)
    (he : g1.empty = g.empty) (hf : g1.full = g.full)
    (hfr : g1.free = g.free) (hp : g1.provider = g.provider) :
    PoolInv cfg g1 E F Y n := by
  refine ⟨?_, ?_, h.nodup, h.valid, ?_, ?_, h.supply.congr_own hfr hp (fun _ ha => ha)⟩
  · rw [he]; exact h.isE.congr_next (fun a _ => hnext a)
  · rw [hf]; exact h.isF.congr_next (fun a _ => hnext a)
  · intro a ha
    rw [hnobj a (List.mem_append_left _ ha)]
    exact h.emptyN a ha
  · intro a ha
    rw [hnobj a (List.mem_append_right _ ha)]
    exact h.fullN a ha

theorem perm_move (E F Y : List Nat) (b : Nat) :
    (E ++ F ++ b :: Y).Perm (E ++ (b :: F) ++ Y) := by
  simp only [List.append_assoc]
  refine List.Perm.append_left E ?_
  simp

theorem perm_move_left (E F Y : List Nat) (b : Nat) :
    (E ++ F ++ b :: Y).Perm ((b :: E) ++ F ++ Y) := by
  simp only [List.append_assoc, List.cons_append]
  have := @List.perm_middle _ b (E ++ F) Y
  simpa using this

theorem mem_own_cons {E F Y : List Nat} {b : Nat} (hn : (E ++ F ++ b :: Y).Nodup) :
    b ∉ E ∧ b ∉ F ∧ b ∉ Y := by
  simp only [List.append_assoc, List.nodup_append, List.nodup_cons, List.disjoint_append_left,
    List.disjoint_append_right, List.disjoint_cons_right, List.mem_append] at hn
  tauto

/-! ## The work buffer pool -/

theorem putfull_eq {cfg : Config} {g : World} {b : Nat} (hv : Valid cfg b)
    (hb : (g.bufs b).nobj ≠ 0) :
    putfull cfg g b = .ok { g with
      bufs := link g.bufs b (((g.bufs b).pushcnt + 1) % 2 ^ cfg.W) g.full,
      full := cfg.pack b (((g.bufs b).pushcnt + 1) % 2 ^ cfg.W),
      fullPushes := g.fullPushes + 1 } := by
  unfold putfull workbuf.checknonempty getNobj
  simp only [hv.1, if_false, bind, Except.bind, push_ok cfg g.bufs g.full b hv, hb]

theorem putempty_eq {cfg : Config} {g : World} {b : Nat} (hv : Valid cfg b)
    (hb : (g.bufs b).nobj = 0) :
    putempty cfg g b = .ok { g with
      bufs := link g.bufs b (((g.bufs b).pushcnt + 1) % 2 ^ cfg.W) g.empty,
      empty := cfg.pack b (((g.bufs b).pushcnt + 1) % 2 ^ cfg.W) } := by
  unfold putempty workbuf.checkempty getNobj
  simp only [hv.1, if_false, bind, Except.bind, push_ok cfg g.bufs g.empty b hv, hb]
  simp

/-- What `putfull` does to a buffer held outside the lists. -/
theorem putfull_spec {cfg : Config} {g : World} {E F Y : List Nat} {n b : Nat}
    (h : PoolInv cfg g E F (b :: Y) n)
    (hb : 0 < (g.bufs b).nobj ∧ (g.bufs b).nobj ≤ cfg.C) :
    ∃ g1, putfull cfg g b = .ok g1 ∧ PoolInv cfg g1 E (b :: F) Y n ∧
      Frame (fun _ => True) g g1 ∧ g1.fullPushes = g.fullPushes + 1 ∧ g1.empty = g.empty ∧
      remaining g1 = remaining g := by
  have hperm := perm_move E F Y b
  have hv : Valid cfg b := h.valid b (by simp)
  obtain ⟨hbE, hbF, _⟩ := mem_own_cons h.nodup
  refine ⟨_, putfull_eq hv (ne_of_gt hb.1), ?_, ?_, rfl, rfl, rfl⟩
  · refine ⟨?_, ?_, hperm.nodup_iff.mp h.nodup, ?_, ?_, ?_, ?_⟩
    · refine h.isE.congr_next ?_
      intro a ha
      show (link _ _ _ _ a).next = _
      rw [link_other]
      rintro rfl
      exact hbE ha
    · exact h.isF.push hv hbF _ _
    · intro a ha
      exact h.valid a (hperm.mem_iff.mpr ha)
    · intro a ha
      show (link _ _ _ _ a).nobj = _
      rw [link_nobj]
      exact h.emptyN a ha
    · intro a ha
      show 0 < (link _ _ _ _ a).nobj ∧ (link _ _ _ _ a).nobj ≤ _
      rw [link_nobj]
      rcases List.mem_cons.mp ha with rfl | ha
      · exact hb
      · exact h.fullN a ha
    · exact h.supply.congr_own rfl rfl (fun a ha => hperm.mem_iff.mpr ha)
  · exact ⟨fun a _ => link_nobj _ _ _ _ _, fun a _ => link_obj _ _ _ _ _,
      rfl, rfl, rfl, rfl, rfl⟩

/-- What `putempty` does to a buffer held outside the lists. -/
theorem putempty_spec {cfg : Config} {g : World} {E F Y : List Nat} {n b : Nat}
    (h : PoolInv cfg g E F (b :: Y) n) (hb : (g.bufs b).nobj = 0) :
    ∃ g1, putempty cfg g b = .ok g1 ∧ PoolInv cfg g1 (b :: E) F Y n ∧
      Frame (fun _ => True) g g1 ∧ g1.fullPushes = g.fullPushes ∧ g1.full = g.full ∧
      remaining g1 = remaining g := by
  have hperm := perm_move_left E F Y b
  have hv : Valid cfg b := h.valid b (by simp)
  obtain ⟨hbE, hbF, _⟩ := mem_own_cons h.nodup
  refine ⟨_, putempty_eq hv hb, ?_, ?_, rfl, rfl, rfl⟩
  · refine ⟨?_, ?_, hperm.nodup_iff.mp h.nodup, ?_, ?_, ?_, ?_⟩
    · exact h.isE.push hv hbE _ _
    · refine h.isF.congr_next ?_
      intro a ha
      show (link _ _ _ _ a).next = _
      rw [link_other]
      rintro rfl
      exact hbF ha
    · intro a ha
      exact h.valid a (hperm.mem_iff.mpr ha)
    · intro a ha
      show (link _ _ _ _ a).nobj = _
      rw [link_nobj]
      rcases List.mem_cons.mp ha with rfl | ha
      · exact hb
      · exact h.emptyN a ha
    · intro a ha
      show 0 < (link _ _ _ _ a).nobj ∧ (link _ _ _ _ a).nobj ≤ _
      rw [link_nobj]
      exact h.fullN a ha
    · exact h.supply.congr_own rfl rfl (fun a ha => hperm.mem_iff.mpr ha)
  · exact ⟨fun a _ => link_nobj _ _ _ _ _, fun a _ => link_obj _ _ _ _ _,
      rfl, rfl, rfl, rfl, rfl⟩

theorem World.eta_full (g : World) : ({ g with full := g.full } : World) = g := rfl

theorem World.eta_empty (g : World) : ({ g with empty := g.empty } : World) = g := rfl

/-- What `trygetfull` does on an empty full list. -/
theorem trygetfull_nil {cfg : Config} {g : World} (h : g.full = 0) :
    trygetfull cfg g = .ok (g, 0) := by
  unfold trygetfull
  simp only [h, pop_nil, bind, Except.bind]
  simp only [ne_eq, not_true_eq_false, if_false]
  rw [← h]

/-- What `trygetfull` does on a non-empty full list. -/
theorem trygetfull_cons {cfg : Config} {g : World} {E F Y : List Nat} {n b : Nat}
    (h : PoolInv cfg g E (b :: F) Y n) :
    trygetfull cfg g = .ok ({ g with full := (g.bufs b).next }, b) ∧
      PoolInv cfg { g with full := (g.bufs b).next } E F (b :: Y) n := by
  have hperm := perm_move E F Y b
  have hv : Valid cfg b := h.valid b (by simp)
  have hb := h.fullN b (List.mem_cons_self _ _)
  constructor
  · unfold trygetfull workbuf.checknonempty getNobj
    simp only [pop_cons h.isF hv.1, bind, Except.bind, hv.1, ne_eq, not_false_eq_true, if_true,
      if_false, ne_of_gt hb.1]
  · refine ⟨h.isE, h.isF.2.2, hperm.symm.nodup_iff.mp h.nodup, ?_, h.emptyN, ?_, ?_⟩
    · intro a ha
      exact h.valid a (hperm.mem_iff.mp ha)
    · intro a ha
      exact h.fullN a (List.mem_cons_of_mem _ ha)
    · exact h.supply.congr_own rfl rfl (fun a ha => hperm.mem_iff.mp ha)

/-- A fresh valid buffer may be added to the buffers held outside the lists. -/
theorem PoolInv.adopt {cfg : Config} {g : World} {E F Y : List Nat} {n b : Nat}
    (h : PoolInv cfg g E F Y n) (hv : Valid cfg b) (hb : b ∉ E ++ F ++ Y)
    (hu : b ∉ upcoming g n) : PoolInv cfg g E F (b :: Y) n := by
  have hperm : (b :: (E ++ F ++ Y)).Perm (E ++ F ++ b :: Y) := List.perm_middle.symm
  refine ⟨h.isE, h.isF, hperm.nodup_iff.mp (List.nodup_cons.mpr ⟨hb, h.nodup⟩), ?_, h.emptyN,
    h.fullN, ⟨h.supply.len, h.supply.nodup, ?_⟩⟩
  · intro a ha
    rcases List.mem_cons.mp (hperm.mem_iff.mpr ha) with rfl | ha
    · exact hv
    · exact h.valid a ha
  · intro a ha
    obtain ⟨h1, h2, h3⟩ := h.supply.fresh a ha
    refine ⟨h1, h2, fun hm => ?_⟩
    rcases List.mem_cons.mp (hperm.mem_iff.mpr hm) with rfl | hm
    · exact hu ha
    · exact h3 hm

theorem setNobj_eq {g : World} {b : Nat} (hb : b ≠ 0) (v : Int) :
    setNobj g b v = .ok (storeNobj g b v) := by
  simp [setNobj, hb]

theorem lfnodeValidate_ok {cfg : Config} {b : Nat} (hv : Valid cfg b) (hh : cfg.inHeap b = false) :
    lfnodeValidate cfg b = .ok () := by
  simp [lfnodeValidate, hh, (hv.2.1 _).1]

theorem storeNobj_next (g : World) (b a : Nat) (v : Int) :
    ((storeNobj g b v).bufs a).next = (g.bufs a).next := by
  by_cases hab : a = b
  · subst hab; simp [storeNobj, setBuf]
  · simp [storeNobj, setBuf, hab]

theorem storeNobj_same (g : World) (b : Nat) (v : Int) :
    ((storeNobj g b v).bufs b).nobj = v := by
  simp [storeNobj, setBuf]

theorem storeNobj_other (g : World) (b a : Nat) (v : Int) (hab : a ≠ b) :
    (storeNobj g b v).bufs a = g.bufs a := by
  simp [storeNobj, setBuf, hab]

theorem storeNobj_obj (g : World) (b a : Nat) (v : Int) :
    ((storeNobj g b v).bufs a).obj = (g.bufs a).obj := by
  by_cases hab : a = b
  · subst hab; simp [storeNobj, setBuf]
  · simp [storeNobj, setBuf, hab]

/-- A store to the count of a buffer that is on neither list keeps the pool invariant. -/
theorem PoolInv.keep_storeNobj {cfg : Config} {g : World} {E F Y : List Nat} {n b : Nat}
    (h : PoolInv cfg g E F Y n) (hb : b ∉ E ++ F) (v : Int) :
    PoolInv cfg (storeNobj g b v) E F Y n := by
  refine h.update (fun a => storeNobj_next _ _ _ _) ?_ rfl rfl rfl rfl
  intro a ha
  rw [storeNobj_other]
  rintro rfl
  exact hb ha

theorem Frame.of_storeNobj {P : Nat → Prop} (g : World) (b : Nat) (v : Int) (hb : ¬ P b) :
    Frame P g (storeNobj g b v) := by
  refine ⟨?_, ?_, rfl, rfl, rfl, rfl, rfl⟩
  · intro a ha
    rw [storeNobj_other]
    rintro rfl
    exact hb ha
  · intro a _
    exact storeNobj_obj _ _ _ _

theorem sliceSpan_done (cfg : Config) (s fuel i : Nat) (g : World) (b : Nat)
    (hle : ¬ i + WorkbufSize ≤ workbufAlloc) :
    sliceSpan cfg s (fuel + 1) i g b = .ok (g, b) := by
  rw [sliceSpan, if_neg hle]

theorem sliceSpan_first (cfg : Config) (s fuel : Nat) (g : World) (b : Nat) :
    sliceSpan cfg s (fuel + 1) 0 g b = (do
      let g1 ← setNobj g s 0
      lfnodeValidate cfg s
      sliceSpan cfg s fuel WorkbufSize g1 s) := by
  rw [sliceSpan, if_pos (by decide)]
  simp

theorem sliceSpan_next (cfg : Config) (s fuel i : Nat) (g : World) (b : Nat)
    (hle : i + WorkbufSize ≤ workbufAlloc) (hi : i ≠ 0) :
    sliceSpan cfg s (fuel + 1) i g b = (do
      let g1 ← setNobj g (s + i) 0
      lfnodeValidate cfg (s + i)
      let g2 ← putempty cfg g1 (s + i)
      sliceSpan cfg s fuel (i + WorkbufSize) g2 b) := by
  rw [sliceSpan, if_pos hle]
  simp [hi]

/-- The slicing loop from index `j ≥ 1` on pushes the remaining buffers of the span onto
the empty list. -/
theorem sliceSpan_loop {cfg : Config} {F : List Nat} {n s : Nat} :
    ∀ (k j i : Nat), j + k = 16 → 1 ≤ j → i = j * 2048 → ∀ (g : World) (b : Nat) (E Y : List Nat),
      PoolInv cfg g E F Y n →
      ((List.range' j k).map (fun t => s + t * 2048)).Nodup →
      (∀ a ∈ (List.range' j k).map (fun t => s + t * 2048),
        Valid cfg a ∧ cfg.inHeap a = false ∧ a ∉ E ++ F ++ Y ∧ a ∉ upcoming g n) →
      ∃ g1 E1, sliceSpan cfg s (k + 1) i g b = .ok (g1, b) ∧
        PoolInv cfg g1 E1 F Y n ∧ Frame (fun a => a ∈ E ++ F ++ Y) g g1 ∧
        g1.full = g.full ∧ g1.fullPushes = g.fullPushes ∧
        g1.free = g.free ∧ g1.provider = g.provider ∧
        ∀ a ∈ E ++ F ++ Y, (g1.bufs a).next = (g.bufs a).next
  | 0, j, i, hj, _, hi, g, b, E, Y, h, _, _ => by
    refine ⟨g, E, ?_, h, Frame.refl _ _, rfl, rfl, rfl, rfl, fun _ _ => rfl⟩
    apply sliceSpan_done
    simp only [WorkbufSize, workbufAlloc]
    omega
  | k + 1, j, i, hj, hj1, hi, g, b, E, Y, h, hnd, hfr => by
    have hmem : s + i ∈ (List.range' j (k + 1)).map (fun t => s + t * 2048) := by
      simp [List.range'_succ, hi]
    obtain ⟨hv, hh, hown, hup⟩ := hfr _ hmem
    have hE : s + i ∉ E ++ F := fun hm => hown (List.mem_append_left _ hm)
    have h1 := h.keep_storeNobj hE 0
    have h2 := h1.adopt hv hown (by rw [upcoming_congr rfl rfl]; exact hup)
    have hz : ((storeNobj g (s + i) 0).bufs (s + i)).nobj = 0 :=
      storeNobj_same _ _ _
    obtain ⟨g2, hg2, hp2, hf2, hpu2, hfull2, _⟩ := putempty_spec h2 hz
    have e1 : g2.free = g.free ∧ g2.provider = g.provider := by
      rw [putempty_eq hv hz] at hg2
      cases hg2
      exact ⟨rfl, rfl⟩
    rw [List.range'_succ, List.map_cons, List.nodup_cons] at hnd
    have hfr1 : ∀ a ∈ (List.range' (j + 1) k).map (fun t => s + t * 2048),
        Valid cfg a ∧ cfg.inHeap a = false ∧ a ∉ ((s + i) :: E) ++ F ++ Y ∧
          a ∉ upcoming g2 n := by
      intro a ha
      have ha1 : a ∈ (List.range' j (k + 1)).map (fun t => s + t * 2048) := by
        rw [List.range'_succ, List.map_cons]
        exact List.mem_cons_of_mem _ ha
      obtain ⟨q1, q2, q3, q4⟩ := hfr a ha1
      refine ⟨q1, q2, ?_, ?_⟩
      · intro hm
        simp only [List.cons_append, List.mem_cons] at hm
        rcases hm with rfl | hm
        · rw [hi] at ha
          exact hnd.1 ha
        · exact q3 hm
      · rw [upcoming_congr e1.1 e1.2]
        exact q4
    have e2 : ∀ a, a ≠ s + i → (g2.bufs a).next = (g.bufs a).next := by
      rw [putempty_eq hv hz] at hg2
      cases hg2
      intro a ha
      show (link _ _ _ _ a).next = _
      rw [link_other _ _ _ _ _ ha, storeNobj_next]
    obtain ⟨g3, E3, hg3, hp3, hf3, hfull3, hpu3, hfr3, hpr3, hnx3⟩ :=
      sliceSpan_loop k (j + 1) (i + WorkbufSize) (by omega) (by omega)
        (by simp only [WorkbufSize]; omega) g2 b _ Y hp2 hnd.2 hfr1
    refine ⟨g3, E3, ?_, hp3, ?_, ?_, ?_, hfr3.trans e1.1, hpr3.trans e1.2, ?_⟩
    · rw [sliceSpan_next cfg s (k + 1) i g b (by simp only [WorkbufSize, workbufAlloc]; omega)
        (by omega)]
      simp only [setNobj_eq hv.1, bind, Except.bind, lfnodeValidate_ok hv hh, hg2]
      exact hg3
    · refine Frame.trans (m := g2) ?_ (hf3.mono ?_)
      · exact Frame.trans (Frame.of_storeNobj g _ 0 hown) (hf2.mono (fun _ _ => trivial))
      · intro a ha
        simp only [List.cons_append, List.mem_cons]
        exact Or.inr ha
    · rw [hfull3, hfull2]; rfl
    · rw [hpu3, hpu2]; rfl
    · intro a ha
      rw [hnx3 a (by simp only [List.cons_append, List.mem_cons]; exact Or.inr ha)]
      exact e2 a (fun e => hown (e ▸ ha))

theorem spanBufs_eq (s : Nat) :
    spanBufs s = s :: (List.range' 1 15).map (fun t => s + t * 2048) := by
  have h16 : workbufAlloc / WorkbufSize = 16 := by decide
  rw [spanBufs, h16, List.range_eq_range']
  simp [List.range'_succ, WorkbufSize]

/-- Taking the first span out of the supply. -/
theorem Supply.split {cfg : Config} {g k : World} {own : List Nat} {n s : Nat} {r : List Nat}
    (h : Supply cfg g own (n + 1)) (hs : g.free ++ g.provider = s :: r)
    (h0 : k.free ++ k.provider = r) :
    Supply cfg k own n ∧ (spanBufs s).Nodup ∧
      ∀ a ∈ spanBufs s, Valid cfg a ∧ cfg.inHeap a = false ∧ a ∉ own ∧ a ∉ upcoming k n := by
  have hup : upcoming g (n + 1) = spanBufs s ++ upcoming k n := by
    simp [upcoming, hs, h0]
  have hnd := h.nodup
  rw [hup, List.nodup_append] at hnd
  refine ⟨⟨?_, hnd.2.1, ?_⟩, hnd.1, ?_⟩
  · have := h.len
    rw [hs] at this
    rw [h0]
    simpa using this
  · intro a ha
    exact h.fresh a (by rw [hup]; exact List.mem_append_right _ ha)
  · intro a ha
    obtain ⟨q1, q2, q3⟩ := h.fresh a (by rw [hup]; exact List.mem_append_left _ ha)
    exact ⟨q1, q2, q3, fun hm => hnd.2.2 ha hm⟩

/-- The whole slicing loop on a fresh span: the first buffer is returned, the others go
onto the empty list. -/
theorem sliceSpan_spec {cfg : Config} {g0 : World} {E F Y : List Nat} {n s : Nat}
    (h0 : PoolInv cfg g0 E F Y n) (hnd : (spanBufs s).Nodup)
    (hfr : ∀ a ∈ spanBufs s,
      Valid cfg a ∧ cfg.inHeap a = false ∧ a ∉ E ++ F ++ Y ∧ a ∉ upcoming g0 n) :
    ∃ g1 E1, sliceSpan cfg s (workbufAlloc / WorkbufSize + 1) 0 g0 0 = .ok (g1, s) ∧
      PoolInv cfg g1 E1 F (s :: Y) n ∧ (g1.bufs s).nobj = 0 ∧
      Frame (fun a => a ∈ E ++ F ++ Y) g0 g1 ∧ g1.full = g0.full ∧
      g1.fullPushes = g0.fullPushes ∧ g1.free = g0.free ∧ g1.provider = g0.provider ∧
      ∀ a ∈ E ++ F ++ Y, (g1.bufs a).next = (g0.bufs a).next := by
  rw [spanBufs_eq] at hnd hfr
  obtain ⟨hv, hh, hown, hup⟩ := hfr s (List.mem_cons_self _ _)
  have hE : s ∉ E ++ F := fun hm => hown (List.mem_append_left _ hm)
  have h1 := (h0.keep_storeNobj hE 0).adopt hv hown (by rw [upcoming_congr rfl rfl]; exact hup)
  rw [List.nodup_cons] at hnd
  obtain ⟨g1, E1, hg1, hp1, hf1, hfull1, hpu1, hfr1, hpr1, hnx1⟩ :=
    sliceSpan_loop (F := F) (n := n) (s := s) 15 1 2048 rfl (le_refl 1) rfl
      (storeNobj g0 s 0) s E (s :: Y) h1 hnd.2 (by
        intro a ha
        obtain ⟨q1, q2, q3, q4⟩ := hfr a (List.mem_cons_of_mem _ ha)
        refine ⟨q1, q2, ?_, by rw [upcoming_congr rfl rfl]; exact q4⟩
        intro hm
        have hperm : (s :: (E ++ F ++ Y)).Perm (E ++ F ++ s :: Y) := List.perm_middle.symm
        rcases List.mem_cons.mp (hperm.mem_iff.mpr hm) with rfl | hm
        · exact hnd.1 ha
        · exact q3 hm)
  refine ⟨g1, E1, ?_, hp1, ?_, ?_, ?_, ?_, hfr1, hpr1, ?_⟩
  · have h16 : workbufAlloc / WorkbufSize + 1 = 16 + 1 := by decide
    rw [h16, sliceSpan_first]
    simp only [setNobj_eq hv.1, bind, Except.bind, lfnodeValidate_ok hv hh]
    exact hg1
  · rw [hf1.nobj s (by simp), storeNobj_same]
  · exact Frame.trans (Frame.of_storeNobj g0 s 0 hown) (hf1.mono (fun a ha => by
      have hperm : (s :: (E ++ F ++ Y)).Perm (E ++ F ++ s :: Y) := List.perm_middle.symm
      exact hperm.mem_iff.mp (List.mem_cons_of_mem _ ha)))
  · rw [hfull1]; rfl
  · rw [hpu1]; rfl
  · intro a ha
    have hperm : (s :: (E ++ F ++ Y)).Perm (E ++ F ++ s :: Y) := List.perm_middle.symm
    rw [hnx1 a (hperm.mem_iff.mp (List.mem_cons_of_mem _ ha)), storeNobj_next]

theorem Meets.ok_iff {α : Type} {need avail : Nat} {a : α} {Q : α → Prop} :
    Meets need avail (.ok a) Q ↔ Q a := Iff.rfl

theorem Meets.of_ok {α : Type} {need avail : Nat} {r : Except Err α} {Q : α → Prop} {a : α}
    (h : Meets need avail r Q) (hr : r = .ok a) : Q a := by
  subst hr
  exact h

theorem Meets.exists_ok {α : Type} {need avail : Nat} {r : Except Err α} {Q : α → Prop}
    (h : Meets need avail r Q) (hn : need ≤ avail) : ∃ a, r = .ok a ∧ Q a := by
  cases r with
  | ok a => exact ⟨a, rfl, h⟩
  | error e => exact absurd h.2 (Nat.not_lt.mpr hn)

theorem Meets.imp {α : Type} {need avail : Nat} {r : Except Err α} {Q R : α → Prop}
    (h : Meets need avail r Q) (hq : ∀ a, Q a → R a) : Meets need avail r R := by
  cases r with
  | ok a => exact hq a h
  | error e => exact h

theorem Meets.weaken {α : Type} {need avail need1 avail1 : Nat} {r : Except Err α}
    {Q : α → Prop} (h : Meets need avail r Q) (hn : avail < need → avail1 < need1) :
    Meets need1 avail1 r Q := by
  cases r with
  | ok a => exact h
  | error e => exact ⟨h.1, hn h.2⟩

/-- Sequencing: the first computation meets `Q`, and from any value meeting `Q` the
continuation meets `R`. -/
theorem Meets.bind {α β : Type} {need avail : Nat} {r : Except Err α} {f : α → Except Err β}
    {Q : α → Prop} {R : β → Prop} (h : Meets need avail r Q)
    (hf : ∀ a, Q a → Meets need avail (f a) R) : Meets need avail (r >>= f) R := by
  cases r with
  | ok a => exact hf a h
  | error e => exact h

theorem Meets.of_exists {α : Type} {need avail : Nat} {r : Except Err α} {Q : α → Prop}
    (h : ∃ a, r = .ok a ∧ Q a) : Meets need avail r Q := by
  obtain ⟨a, rfl, ha⟩ := h
  exact ha

/-- What `getempty` does: unless no span is left when one is needed, it hands out a valid
buffer holding nothing, taken from the empty list or carved from the next span, and
leaves every owned buffer as it was. -/
theorem getempty_wp {cfg : Config} {g : World} {E F Y : List Nat}
    (h : PoolInv cfg g E F Y (remaining g)) :
    Meets 1 (remaining g) (getempty cfg g) (fun r => ∃ E1,
      PoolInv cfg r.1 E1 F (r.2 :: Y) (remaining r.1) ∧ (r.1.bufs r.2).nobj = 0 ∧
      Frame (fun a => a ∈ E ++ F ++ Y) g r.1 ∧ r.1.full = g.full ∧
      r.1.fullPushes = g.fullPushes ∧ remaining g ≤ remaining r.1 + 1 ∧
      ∀ a ∈ E ++ F ++ Y, (r.1.bufs a).next = (g.bufs a).next) := by
  cases E with
  | cons b E =>
    have hv : Valid cfg b := h.valid b (by simp)
    have hb := h.emptyN b (List.mem_cons_self _ _)
    have hperm := perm_move_left E F Y b
    have hg : getempty cfg g = .ok ({ g with empty := (g.bufs b).next }, b) := by
      unfold getempty workbuf.checkempty getNobj
      simp only [h.isE.1, ne_eq, not_false_eq_true, if_true, pop_cons h.isE hv.1, bind,
        Except.bind, hv.1, if_false, hb, not_true_eq_false]
    rw [hg]
    refine ⟨E, ?_, hb, ⟨fun _ _ => rfl, fun _ _ => rfl, rfl, rfl, rfl, rfl, rfl⟩, rfl, rfl,
      Nat.le_succ _, fun _ _ => rfl⟩
    refine ⟨h.isE.2.2, h.isF, hperm.symm.nodup_iff.mp h.nodup, ?_, ?_, h.fullN, ?_⟩
    · intro a ha
      exact h.valid a (hperm.mem_iff.mp ha)
    · intro a ha
      exact h.emptyN a (List.mem_cons_of_mem _ ha)
    · exact h.supply.congr_own rfl rfl (fun a ha => hperm.mem_iff.mp ha)
  | nil =>
    cases hn : remaining g with
    | zero =>
      have hl : g.free ++ g.provider = [] := List.length_eq_zero.mp hn
      have hfree : g.free = [] := (List.append_eq_nil.mp hl).1
      have hprov : g.provider = [] := (List.append_eq_nil.mp hl).2
      have he : ¬ g.empty ≠ 0 := not_not.mpr h.isE
      have hg : getempty cfg g = .error .outOfMemory := by
        unfold getempty
        rw [if_neg he]
        simp only [bind, Except.bind, if_true, hfree, hprov]
      rw [hg]
      exact ⟨rfl, Nat.zero_lt_one⟩
    | succ n =>
      have hrem : remaining g = n + 1 := hn
      rw [hn] at h
      have he : ¬ g.empty ≠ 0 := not_not.mpr h.isE
      have hlen := h.supply.len
      cases hfree : g.free with
      | cons s rest =>
        have hsp := h.supply.split (k := { g with free := rest, busy := s :: g.busy })
          (s := s) (r := rest ++ g.provider) (by rw [hfree]; rfl) rfl
        have h0 : PoolInv cfg { g with free := rest, busy := s :: g.busy } [] F Y n :=
          ⟨h.isE, h.isF, h.nodup, h.valid, h.emptyN, h.fullN, hsp.1⟩
        obtain ⟨g1, E1, hg1, hp1, hn1, hf1, hfull1, hpu1, hfr1, hpr1, hnx1⟩ :=
          sliceSpan_spec h0 hsp.2.1 hsp.2.2
        have hg : getempty cfg g = .ok (g1, s) := by
          unfold getempty
          rw [if_neg he]
          simp only [bind, Except.bind, if_true, hfree]
          exact hg1
        have hr1 : remaining g1 = n := by
          have : remaining g = (rest ++ g.provider).length + 1 := by
            simp [remaining, hfree]
          simp only [remaining, hfr1, hpr1]
          omega
        rw [hg]
        refine ⟨E1, ?_, hn1, Frame.trans (m := { g with free := rest, busy := s :: g.busy })
            ⟨fun _ _ => rfl, fun _ _ => rfl, rfl, rfl, rfl, rfl, rfl⟩ hf1, hfull1, hpu1, ?_,
            hnx1⟩
        · show PoolInv cfg g1 E1 F (s :: Y) (remaining g1)
          rw [hr1]; exact hp1
        · show n + 1 ≤ remaining g1 + 1
          rw [hr1]
      | nil =>
        cases hprov : g.provider with
        | nil =>
          rw [hfree, hprov] at hlen
          simp at hlen
        | cons s rest =>
          have hsp := h.supply.split (k := { g with provider := rest, busy := s :: g.busy })
            (s := s) (r := rest) (by rw [hfree, hprov]; rfl) (by
              show g.free ++ rest = rest
              rw [hfree]; rfl)
          have h0 : PoolInv cfg { g with provider := rest, busy := s :: g.busy } [] F Y n :=
            ⟨h.isE, h.isF, h.nodup, h.valid, h.emptyN, h.fullN, hsp.1⟩
          obtain ⟨g1, E1, hg1, hp1, hn1, hf1, hfull1, hpu1, hfr1, hpr1, hnx1⟩ :=
            sliceSpan_spec h0 hsp.2.1 hsp.2.2
          have hg : getempty cfg g = .ok (g1, s) := by
            unfold getempty
            rw [if_neg he]
            simp only [bind, Except.bind, if_true, hfree, hprov]
            rw [hfree] at hg1
            exact hg1
          have hr1 : remaining g1 = n := by
            have : remaining g = rest.length + 1 := by
              simp [remaining, hfree, hprov]
            simp only [remaining, hfr1, hpr1, hfree, List.nil_append]
            omega
          rw [hg]
          refine ⟨E1, ?_, hn1,
            Frame.trans (m := { g with provider := rest, busy := s :: g.busy })
              ⟨fun _ _ => rfl, fun _ _ => rfl, rfl, rfl, rfl, rfl, rfl⟩ hf1, hfull1, hpu1, ?_,
            hnx1⟩
          · show PoolInv cfg g1 E1 F (s :: Y) (remaining g1)
            rw [hr1]; exact hp1
          · show n + 1 ≤ remaining g1 + 1
            rw [hr1]

theorem pushObj_eq {cfg : Config} {g : World} {b : Nat} (hb : b ≠ 0)
    (hn : 0 ≤ (g.bufs b).nobj ∧ (g.bufs b).nobj < cfg.C) (p : Nat) :
    pushObj cfg g b p = .ok (pushed g b p) := by
  have h1 : ¬ ((g.bufs b).nobj < 0 ∨ (cfg.C : Int) ≤ (g.bufs b).nobj) := by omega
  have h2 : ((storeObj g b (g.bufs b).nobj.toNat p).bufs b).nobj = (g.bufs b).nobj := by
    simp [storeObj, setBuf]
  simp only [pushObj, getNobj, hb, if_false, bind, Except.bind, writeObj, h1, setNobj, h2]
  rfl

theorem popObj_eq {cfg : Config} {g : World} {b : Nat} (hb : b ≠ 0)
    (hn : 0 < (g.bufs b).nobj ∧ (g.bufs b).nobj ≤ cfg.C) :
    popObj cfg g b = .ok ((g.bufs b).obj ((g.bufs b).nobj - 1).toNat, popped g b) := by
  have h2 : ((storeNobj g b ((g.bufs b).nobj - 1)).bufs b).nobj = (g.bufs b).nobj - 1 :=
    storeNobj_same _ _ _
  have h1 : ¬ ((g.bufs b).nobj - 1 < 0 ∨ (cfg.C : Int) ≤ (g.bufs b).nobj - 1) := by omega
  simp only [popObj, getNobj, hb, if_false, bind, Except.bind, setNobj, readObj, h2, h1]
  simp [popped, storeNobj_obj]

theorem pushed_other (g : World) (b a p : Nat) (hab : a ≠ b) :
    (pushed g b p).bufs a = g.bufs a := by
  simp [pushed, storeNobj, storeObj, setBuf, hab]

theorem pushed_next (g : World) (b a p : Nat) :
    ((pushed g b p).bufs a).next = (g.bufs a).next := by
  by_cases hab : a = b
  · subst hab; simp [pushed, storeNobj, storeObj, setBuf]
  · rw [pushed_other _ _ _ _ hab]

theorem pushed_nobj (g : World) (b p : Nat) :
    ((pushed g b p).bufs b).nobj = (g.bufs b).nobj + 1 := by
  simp [pushed, storeNobj, storeObj, setBuf]

theorem popped_other (g : World) (b a : Nat) (hab : a ≠ b) :
    (popped g b).bufs a = g.bufs a := by
  simp [popped, storeNobj, setBuf, hab]

theorem popped_next (g : World) (b a : Nat) :
    ((popped g b).bufs a).next = (g.bufs a).next :=
  storeNobj_next _ _ _ _

theorem popped_nobj (g : World) (b : Nat) :
    ((popped g b).bufs b).nobj = (g.bufs b).nobj - 1 :=
  storeNobj_same _ _ _

theorem tops_congr {g g1 : World} {a : Nat} (h : g1.bufs a = g.bufs a) : tops g1 a = tops g a := by
  simp [tops, entries, h]

theorem tops_pushed (g : World) (b p : Nat) (hn : 0 ≤ (g.bufs b).nobj) :
    tops (pushed g b p) b = p :: tops g b := by
  obtain ⟨k, hk⟩ := Int.eq_ofNat_of_zero_le hn
  have h1 : ((pushed g b p).bufs b).nobj.toNat = k + 1 := by
    rw [pushed_nobj, hk]; rfl
  have h2 : ((pushed g b p).bufs b).obj = setObj (g.bufs b).obj k p := by
    simp [pushed, storeNobj, storeObj, setBuf, hk]
  have h3 : (g.bufs b).nobj.toNat = k := by rw [hk]; rfl
  simp only [tops, entries, h1, h2, h3, List.range_succ, List.map_append, List.map_cons,
    List.map_nil, List.reverse_append, List.reverse_cons, List.reverse_nil, List.nil_append,
    List.singleton_append]
  have h4 : setObj (g.bufs b).obj k p k = p := by simp [setObj]
  rw [h4]
  congr 2
  apply List.map_congr_left
  intro i hi
  have : i < k := List.mem_range.mp hi
  simp [setObj, Nat.ne_of_lt this]

theorem tops_popped (g : World) (b : Nat) (hn : 0 < (g.bufs b).nobj) :
    tops g b = (g.bufs b).obj ((g.bufs b).nobj - 1).toNat :: tops (popped g b) b := by
  obtain ⟨k, hk⟩ := Int.eq_ofNat_of_zero_le (le_of_lt hn)
  have hk1 : 1 ≤ k := by omega
  obtain ⟨j, rfl⟩ : ∃ j, k = j + 1 := ⟨k - 1, by omega⟩
  have h1 : ((popped g b).bufs b).nobj.toNat = j := by
    rw [popped_nobj, hk]; simp
  have h3 : ((g.bufs b).nobj - 1).toNat = j := by rw [hk]; simp
  have h2 : ((popped g b).bufs b).obj = (g.bufs b).obj := storeNobj_obj _ _ _ _
  simp only [tops, entries, h1, h2, h3]
  rw [hk]
  simp [List.range_succ]

theorem tops_nil {g : World} {a : Nat} (h : (g.bufs a).nobj = 0) : tops g a = [] := by
  simp [tops, entries, h]

theorem tops_length (g : World) (a : Nat) : (tops g a).length = (g.bufs a).nobj.toNat := by
  simp [tops, entries]

theorem Frame.tops {P : Nat → Prop} {g g1 : World} (h : Frame P g g1) {a : Nat} (ha : P a) :
    tops g1 a = tops g a := by
  simp [runtime.tops, h.entries ha]

/-- Pushing onto a buffer that is on neither list keeps the pool invariant. -/
theorem PoolInv.keep_pushed {cfg : Config} {g : World} {E F Y : List Nat} {n b : Nat}
    (h : PoolInv cfg g E F Y n) (hb : b ∉ E ++ F) (p : Nat) :
    PoolInv cfg (pushed g b p) E F Y n := by
  refine h.update (fun a => pushed_next _ _ _ _) ?_ rfl rfl rfl rfl
  intro a ha
  rw [pushed_other]
  rintro rfl
  exact hb ha

/-- Popping from a buffer that is on neither list keeps the pool invariant. -/
theorem PoolInv.keep_popped {cfg : Config} {g : World} {E F Y : List Nat} {n b : Nat}
    (h : PoolInv cfg g E F Y n) (hb : b ∉ E ++ F) :
    PoolInv cfg (popped g b) E F Y n :=
  h.keep_storeNobj hb _

theorem Meets.bind_except {α β : Type} {need avail : Nat} {r : Except Err α}
    {f : α → Except Err β} {Q : α → Prop} {R : β → Prop} (h : Meets need avail r Q)
    (hf : ∀ a, Q a → Meets need avail (f a) R) : Meets need avail (Except.bind r f) R := by
  cases r with
  | ok a => exact hf a h
  | error e => exact h

/-! ## The per-worker queue -/

theorem locals_of_ne {w : gcWork} (h : w.wbuf1 ≠ 0) : locals w = [w.wbuf1, w.wbuf2] := by
  simp [locals, h]

theorem locals_of_eq {w : gcWork} (h : w.wbuf1 = 0) : locals w = [] := by
  simp [locals, h]

/-- The invariant of an initialised queue, from the pool invariant with both local
buffers owned. -/
theorem Inv.of_pool {cfg : Config} {w : gcWork} {g : World} {E F X : List Nat}
    (hp : PoolInv cfg g E F (w.wbuf1 :: w.wbuf2 :: X) (remaining g))
    (h1 : 0 ≤ (g.bufs w.wbuf1).nobj ∧ (g.bufs w.wbuf1).nobj ≤ cfg.C)
    (h2 : 0 ≤ (g.bufs w.wbuf2).nobj ∧ (g.bufs w.wbuf2).nobj ≤ cfg.C) :
    Inv cfg w g E F X ∧ w.wbuf1 ≠ 0 := by
  have hne : w.wbuf1 ≠ 0 := (hp.valid w.wbuf1 (by simp)).1
  refine ⟨⟨?_, fun h => absurd h hne, ?_⟩, hne⟩
  · rw [locals_of_ne hne]; exact hp
  · rw [locals_of_ne hne]
    intro a ha
    simp only [List.mem_cons, List.mem_singleton, List.not_mem_nil, or_false] at ha
    rcases ha with rfl | rfl
    · exact h1
    · exact h2

/-- The pool invariant and the bounds of both local buffers, from the invariant of an
initialised queue. -/
theorem Inv.pool_cons {cfg : Config} {w : gcWork} {g : World} {E F X : List Nat}
    (h : Inv cfg w g E F X) (hne : w.wbuf1 ≠ 0) :
    PoolInv cfg g E F (w.wbuf1 :: w.wbuf2 :: X) (remaining g) ∧
      (0 ≤ (g.bufs w.wbuf1).nobj ∧ (g.bufs w.wbuf1).nobj ≤ cfg.C) ∧
      (0 ≤ (g.bufs w.wbuf2).nobj ∧ (g.bufs w.wbuf2).nobj ≤ cfg.C) := by
  have hp := h.pool
  have hl := h.localN
  rw [locals_of_ne hne] at hp hl
  exact ⟨hp, hl _ (by simp), hl _ (by simp)⟩

theorem absOf_inited {w : gcWork} (g : World) (F : List Nat) (hne : w.wbuf1 ≠ 0) :
    absOf w g F = { inited := true, t1 := tops g w.wbuf1, t2 := tops g w.wbuf2,
                    fl := F.map (tops g), pushes := g.fullPushes } := by
  simp [absOf, hne]

theorem absOf_uninit {w : gcWork} (g : World) (F : List Nat) (hne : w.wbuf1 = 0) :
    absOf w g F = { inited := false, t1 := [], t2 := [],
                    fl := F.map (tops g), pushes := g.fullPushes } := by
  simp [absOf, hne]

theorem map_tops_congr {g g1 : World} {P : Nat → Prop} (hf : Frame P g g1) {L : List Nat}
    (hL : ∀ a ∈ L, P a) : L.map (tops g1) = L.map (tops g) :=
  List.map_congr_left (fun a ha => hf.tops (hL a ha))

theorem perm_swap_own (a b : Nat) (X : List Nat) : (a :: b :: X).Perm (b :: a :: X) :=
  List.Perm.swap b a X

/-- What `gcWork.init` does to a queue without buffers. -/
theorem init_wp {cfg : Config} {w : gcWork} {g : World} {E F X : List Nat}
    (h : Inv cfg w g E F X) (hw : w.wbuf1 = 0) :
    Meets 2 (remaining g) (gcWork.init cfg w g) (fun r => ∃ E1 F1,
      Inv cfg r.1 r.2 E1 F1 X ∧ r.1.wbuf1 ≠ 0 ∧
      absOf r.1 r.2 F1 = (absOf w g F).init ∧
      remaining g ≤ remaining r.2 + 2 ∧
      r.1 = { w with wbuf1 := r.1.wbuf1, wbuf2 := r.1.wbuf2 } ∧
      Frame (fun a => a ∈ F ++ X) g r.2 ∧ (r.2.bufs r.1.wbuf1).nobj = 0) := by
  have hp := h.pool
  rw [locals_of_eq hw, List.nil_append] at hp
  unfold gcWork.init
  refine Meets.bind_except ((getempty_wp hp).weaken (by omega)) ?_
  rintro ⟨g1, b1⟩ ⟨E1, hp1, hn1, hf1, hfull1, hpu1, hr1⟩
  simp only at hp1 hn1 hf1 hfull1 hpu1 hr1
  cases F with
  | nil =>
    have hfull : g1.full = 0 := by rw [hfull1]; exact h.pool.isF
    simp only [trygetfull_nil hfull, bind, Except.bind, if_true]
    refine Meets.bind_except ((getempty_wp hp1).weaken (by omega)) ?_
    rintro ⟨g2, b3⟩ ⟨E2, hp2, hn2, hf2, hfull2, hpu2, hr2⟩
    simp only at hp2 hn2 hf2 hfull2 hpu2 hr2
    have hb1 : (g2.bufs b1).nobj = 0 := by rw [hf2.nobj b1 (by simp)]; exact hn1
    have hp2' := hp2.perm (perm_swap_own b3 b1 X)
    obtain ⟨hinv, hne⟩ := Inv.of_pool (w := { w with wbuf1 := b1, wbuf2 := b3 }) hp2'
      (by show 0 ≤ (g2.bufs b1).nobj ∧ (g2.bufs b1).nobj ≤ cfg.C; rw [hb1]; omega)
      (by show 0 ≤ (g2.bufs b3).nobj ∧ (g2.bufs b3).nobj ≤ cfg.C; rw [hn2]; omega)
    refine ⟨E2, [], hinv, hne, ?_, by show remaining g ≤ remaining g2 + 2; omega, rfl, ?_, hb1⟩
    · rw [absOf_inited _ _ hne, absOf_uninit _ _ hw]
      simp [Abs.init, tops_nil hb1, tops_nil hn2, hpu2, hpu1]
    · exact Frame.trans (hf1.mono (fun a ha => by
        simp only [List.append_nil, List.mem_append, List.nil_append] at ha ⊢
        tauto)) (hf2.mono (fun a ha => by
        simp only [List.append_nil, List.mem_append, List.mem_cons, List.nil_append] at ha ⊢
        tauto))
  | cons b2 F =>
    obtain ⟨hg2, hp2⟩ := trygetfull_cons hp1
    have hb2 : b2 ≠ 0 := (hp1.valid b2 (by simp)).1
    simp only [hg2, bind, Except.bind, hb2, if_false]
    have hp2' := hp2.perm (perm_swap_own b2 b1 X)
    have hfb := hp1.fullN b2 (List.mem_cons_self _ _)
    obtain ⟨hinv, hne⟩ := Inv.of_pool (w := { w with wbuf1 := b1, wbuf2 := b2 })
      (g := { g1 with full := (g1.bufs b2).next }) hp2'
      (by show 0 ≤ (g1.bufs b1).nobj ∧ (g1.bufs b1).nobj ≤ cfg.C; rw [hn1]; omega)
      ⟨le_of_lt hfb.1, hfb.2⟩
    refine ⟨E1, F, hinv, hne, ?_, by show remaining g ≤ remaining g1 + 2; omega, rfl,
      Frame.trans (hf1.mono (fun a ha => by
        simp only [List.mem_append] at ha ⊢
        tauto)) ⟨fun _ _ => rfl, fun _ _ => rfl, rfl, rfl, rfl, rfl, rfl⟩, hn1⟩
    rw [absOf_inited _ _ hne, absOf_uninit _ _ hw]
    have e1 : tops g1 b1 = [] := tops_nil hn1
    have e2 : tops g1 b2 = tops g b2 := hf1.tops (by simp)
    have e3 : F.map (tops g1) = F.map (tops g) :=
      map_tops_congr hf1 (fun a ha => by simp [ha])
    simp only [Abs.init, List.map_cons]
    show ({ inited := true, t1 := tops g1 b1, t2 := tops g1 b2, fl := F.map (tops g1),
            pushes := g1.fullPushes } : Abs) = _
    rw [e1, e2, e3, hpu1]
    rfl

theorem Frame.of_pushed (g : World) (b p : Nat) : Frame (fun a => a ≠ b) g (pushed g b p) := by
  refine ⟨?_, ?_, rfl, rfl, rfl, rfl, rfl⟩
  · intro a ha; rw [pushed_other _ _ _ _ ha]
  · intro a ha; rw [pushed_other _ _ _ _ ha]

theorem Frame.of_popped (g : World) (b : Nat) : Frame (fun a => a ≠ b) g (popped g b) := by
  refine ⟨?_, ?_, rfl, rfl, rfl, rfl, rfl⟩
  · intro a ha; rw [popped_other _ _ _ ha]
  · intro a ha; rw [popped_other _ _ _ ha]

theorem Untouched.unchanged (X : List Nat) (g : World) : Untouched X g g :=
  fun _ _ => ⟨rfl, rfl⟩

theorem Untouched.comp {X : List Nat} {g m k : World} (h1 : Untouched X g m)
    (h2 : Untouched X m k) : Untouched X g k :=
  fun a ha => ⟨(h2 a ha).1.trans (h1 a ha).1, (h2 a ha).2.trans (h1 a ha).2⟩

theorem Frame.untouched {P : Nat → Prop} {g g1 : World} (h : Frame P g g1) {X : List Nat}
    (hX : ∀ a ∈ X, P a) : Untouched X g g1 :=
  fun a ha => ⟨h.nobj a (hX a ha), h.obj a (hX a ha)⟩

theorem Untouched.of_bufs {g g1 : World} (hb : g1.bufs = g.bufs) (X : List Nat) :
    Untouched X g g1 :=
  fun a _ => by rw [hb]; exact ⟨rfl, rfl⟩

theorem Untouched.to_enlist {X : List Nat} {g g1 : World} (h : Untouched X g g1) :
    Untouched X g (enlistWorker g1) := h

theorem Untouched.subset {X Z : List Nat} {g g1 : World} (h : Untouched X g g1)
    (hZ : ∀ a ∈ Z, a ∈ X) : Untouched Z g g1 :=
  fun a ha => h a (hZ a ha)

/-- The call `enlistWorker` touches nothing the pool invariant speaks of. -/
theorem PoolInv.pool_enlist {cfg : Config} {g : World} {E F Y : List Nat} {n : Nat}
    (h : PoolInv cfg g E F Y n) : PoolInv cfg (enlistWorker g) E F Y n :=
  h.update (fun _ => rfl) (fun _ _ => rfl) rfl rfl rfl rfl

theorem Inv.inv_enlist {cfg : Config} {w : gcWork} {g : World} {E F X : List Nat}
    (h : Inv cfg w g E F X) : Inv cfg w (enlistWorker g) E F X :=
  ⟨h.pool.pool_enlist, h.both, h.localN⟩

theorem absOf_enlist (w : gcWork) (g : World) (F : List Nat) :
    absOf w (enlistWorker g) F = absOf w g F := rfl

/-- The facts about the two local buffers of an initialised queue the proofs below use. -/
theorem Inv.local_facts {cfg : Config} {w : gcWork} {g : World} {E F X : List Nat}
    (h : Inv cfg w g E F X) (hne : w.wbuf1 ≠ 0) :
    Valid cfg w.wbuf1 ∧ Valid cfg w.wbuf2 ∧ w.wbuf1 ≠ w.wbuf2 ∧
      w.wbuf1 ∉ E ++ F ∧ w.wbuf2 ∉ E ++ F ∧ w.wbuf1 ∉ X ∧ w.wbuf2 ∉ X := by
  obtain ⟨hp, _, _⟩ := h.pool_cons hne
  obtain ⟨h1E, h1F, h1Y⟩ := mem_own_cons hp.nodup
  obtain ⟨h2E, h2F, h2Y⟩ := mem_own_cons (hp.perm (perm_swap_own _ _ _)).nodup
  refine ⟨hp.valid _ (by simp), hp.valid _ (by simp), ?_, ?_, ?_, ?_, ?_⟩
  · intro e
    apply h1Y
    rw [← e]
    exact List.mem_cons_self _ _
  · simp only [List.mem_append]; tauto
  · simp only [List.mem_append]; tauto
  · exact fun hm => h1Y (List.mem_cons_of_mem _ hm)
  · exact fun hm => h2Y (List.mem_cons_of_mem _ hm)

theorem Inv.untouched_push {cfg : Config} {w : gcWork} {g : World} {E F X : List Nat}
    (h : Inv cfg w g E F X) (hne : w.wbuf1 ≠ 0) (p : Nat) :
    Untouched X g (pushed g w.wbuf1 p) :=
  (Frame.of_pushed g w.wbuf1 p).untouched
    (fun _ ha e => (h.local_facts hne).2.2.2.2.2.1 (e ▸ ha))

theorem Inv.untouched_pop {cfg : Config} {w : gcWork} {g : World} {E F X : List Nat}
    (h : Inv cfg w g E F X) (hne : w.wbuf1 ≠ 0) :
    Untouched X g (popped g w.wbuf1) :=
  (Frame.of_popped g w.wbuf1).untouched
    (fun _ ha e => (h.local_facts hne).2.2.2.2.2.1 (e ▸ ha))

/-- Pushing a pointer onto `wbuf1` when it has room. -/
theorem Inv.push1 {cfg : Config} {w : gcWork} {g : World} {E F X : List Nat}
    (h : Inv cfg w g E F X) (hne : w.wbuf1 ≠ 0) (hlt : (g.bufs w.wbuf1).nobj < cfg.C) (p : Nat) :
    Inv cfg w (pushed g w.wbuf1 p) E F X ∧
      absOf w (pushed g w.wbuf1 p) F = { (absOf w g F) with t1 := p :: (absOf w g F).t1 } := by
  obtain ⟨hp, hb1, hb2⟩ := h.pool_cons hne
  obtain ⟨hv1, hv2, h12, h1EF, h2EF, h1X, h2X⟩ := h.local_facts hne
  have hfr := Frame.of_pushed g w.wbuf1 p
  constructor
  · refine (Inv.of_pool (hp.keep_pushed h1EF p) ?_ ?_).1
    · rw [pushed_nobj]; omega
    · rw [hfr.nobj _ (Ne.symm h12)]; exact hb2
  · rw [absOf_inited _ _ hne, absOf_inited _ _ hne]
    have e1 := tops_pushed g w.wbuf1 p hb1.1
    have e2 : tops (pushed g w.wbuf1 p) w.wbuf2 = tops g w.wbuf2 := hfr.tops (Ne.symm h12)
    have e3 : F.map (tops (pushed g w.wbuf1 p)) = F.map (tops g) :=
      map_tops_congr hfr (fun a ha e => h1EF (by rw [← e]; exact List.mem_append_right _ ha))
    rw [e1, e2, e3]
    rfl

/-- Exchanging the two local buffers. -/
theorem Inv.swap {cfg : Config} {w : gcWork} {g : World} {E F X : List Nat}
    (h : Inv cfg w g E F X) (hne : w.wbuf1 ≠ 0) :
    Inv cfg { w with wbuf1 := w.wbuf2, wbuf2 := w.wbuf1 } g E F X ∧ w.wbuf2 ≠ 0 := by
  obtain ⟨hp, hb1, hb2⟩ := h.pool_cons hne
  exact Inv.of_pool (w := { w with wbuf1 := w.wbuf2, wbuf2 := w.wbuf1 })
    (hp.perm (perm_swap_own _ _ _)) hb2 hb1

/-- What `gcWork.put` does to a queue that has its buffers. -/
theorem put_inited {cfg : Config} {w : gcWork} {g : World} {E F X : List Nat}
    (h : Inv cfg w g E F X) (hne : w.wbuf1 ≠ 0) (hC : 1 ≤ cfg.C) (p : Nat) :
    Meets 1 (remaining g) (gcWork.put cfg w g p) (fun r => ∃ E1 F1,
      Inv cfg r.1 r.2 E1 F1 X ∧ r.1.wbuf1 ≠ 0 ∧
      absOf r.1 r.2 F1 = Abs.put cfg.C p (absOf w g F) ∧
      remaining g ≤ remaining r.2 + 1 ∧ Untouched X g r.2) := by
  obtain ⟨hp, hb1, hb2⟩ := h.pool_cons hne
  obtain ⟨hv1, hv2, h12, h1EF, h2EF, h1X, h2X⟩ := h.local_facts hne
  have hA := absOf_inited g F hne
  by_cases c1 : (g.bufs w.wbuf1).nobj = cfg.C
  · obtain ⟨hs, hne2⟩ := h.swap hne
    by_cases c2 : (g.bufs w.wbuf2).nobj = cfg.C
    · -- both buffers are full: publish the older one and start a fresh buffer
      obtain ⟨g1, hg1, hp1, hf1, hpu1, _, hr1⟩ :=
        putfull_spec (hp.perm (perm_swap_own _ _ _)) (by omega)
      rw [← hr1] at hp1
      have hput : gcWork.put cfg w g p =
          Except.bind (getempty cfg g1) (fun r => do
            let g2 ← pushObj cfg r.1 r.2 p
            if g2.gcphase = GCPhase.GCmark then
              .ok ({ w with wbuf1 := r.2, wbuf2 := w.wbuf1, flushedWork := true },
                   enlistWorker g2)
            else .ok ({ w with wbuf1 := r.2, wbuf2 := w.wbuf1, flushedWork := true }, g2)) := by
        simp only [gcWork.put, gcWork.putPrepare, hne, if_false, getNobj, hv1.1, hv2.1, bind,
          Except.bind, c1, c2, if_true, hg1]
        cases getempty cfg g1 with
        | error e => rfl
        | ok r =>
          obtain ⟨g2, e⟩ := r
          simp only
          cases pushObj cfg g2 e p with
          | error e => rfl
          | ok g3 => simp
      rw [hput]
      refine Meets.bind_except ((getempty_wp hp1).weaken (by omega)) ?_
      rintro ⟨g2, e⟩ ⟨E1, hp2, hn2, hf2, hfull2, hpu2, hr2⟩
      simp only at hp2 hn2 hf2 hfull2 hpu2 hr2
      have hw1 : (g2.bufs w.wbuf1).nobj = cfg.C := by
        rw [hf2.nobj _ (by simp), hf1.nobj _ trivial]; exact c1
      obtain ⟨hi2, hne3⟩ := Inv.of_pool
        (w := { w with wbuf1 := e, wbuf2 := w.wbuf1, flushedWork := true }) hp2
        (by show 0 ≤ (g2.bufs e).nobj ∧ (g2.bufs e).nobj ≤ cfg.C; rw [hn2]; omega)
        (by show 0 ≤ (g2.bufs w.wbuf1).nobj ∧ (g2.bufs w.wbuf1).nobj ≤ cfg.C; rw [hw1]; omega)
      obtain ⟨hi3, ha3⟩ := hi2.push1 hne3
        (by show (g2.bufs e).nobj < cfg.C; rw [hn2]; omega) p
      have he0 : e ≠ 0 := hne3
      have hpush : pushObj cfg g2 e p = .ok (pushed g2 e p) :=
        pushObj_eq he0 (by rw [hn2]; omega) p
      have habs : absOf { w with wbuf1 := e, wbuf2 := w.wbuf1, flushedWork := true }
          (pushed g2 e p) (w.wbuf2 :: F) = Abs.put cfg.C p (absOf w g F) := by
        rw [ha3, absOf_inited _ _ hne3, hA]
        have e1 : tops g2 e = [] := tops_nil hn2
        have e2 : tops g2 w.wbuf1 = tops g w.wbuf1 := by
          rw [hf2.tops (by simp), hf1.tops trivial]
        have e3 : tops g2 w.wbuf2 = tops g w.wbuf2 := by
          rw [hf2.tops (by simp), hf1.tops trivial]
        have e4 : F.map (tops g2) = F.map (tops g) := by
          rw [map_tops_congr hf2 (fun a ha => by simp [ha]),
            map_tops_congr hf1 (fun a _ => trivial)]
        have l1 : ¬ (tops g w.wbuf1).length < cfg.C := by rw [tops_length]; omega
        have l2 : ¬ (tops g w.wbuf2).length < cfg.C := by rw [tops_length]; omega
        simp only [Abs.put, Abs.init, if_true, l1, l2, if_false, List.map_cons]
        show ({ inited := true, t1 := p :: tops g2 e, t2 := tops g2 w.wbuf1,
                fl := tops g2 w.wbuf2 :: F.map (tops g2), pushes := g2.fullPushes } : Abs) = _
        rw [e1, e2, e3, e4, hpu2, hpu1]
      have hU : Untouched X g (pushed g2 e p) :=
        ((hf1.untouched (fun _ _ => trivial)).comp
          (hf2.untouched (fun a ha => by simp [ha]))).comp (hi2.untouched_push hne3 p)
      simp only [hpush, bind, Except.bind]
      by_cases hph : (pushed g2 e p).gcphase = GCPhase.GCmark
      · rw [if_pos hph]
        exact ⟨E1, w.wbuf2 :: F, hi3.inv_enlist, hne3, habs,
          by show remaining g ≤ remaining g2 + 1; omega, hU⟩
      · rw [if_neg hph]
        exact ⟨E1, w.wbuf2 :: F, hi3, hne3, habs,
          by show remaining g ≤ remaining g2 + 1; omega, hU⟩
    · -- only `wbuf1` is full: exchange the buffers
      obtain ⟨hi3, ha3⟩ := hs.push1 hne2
        (by show (g.bufs w.wbuf2).nobj < cfg.C; omega) p
      have hpo := @pushObj_eq cfg g _ hv2.1 ⟨hb2.1, by omega⟩ p
      have hput : gcWork.put cfg w g p =
          .ok ({ w with wbuf1 := w.wbuf2, wbuf2 := w.wbuf1 }, pushed g w.wbuf2 p) := by
        simp only [gcWork.put, gcWork.putPrepare, hne, if_false, getNobj, hv1.1, hv2.1, bind,
          Except.bind, c1, c2, if_true, hpo]
        simp
      rw [hput]
      refine ⟨E, F, hi3, hne2, ?_, Nat.le_succ _, hs.untouched_push hne2 p⟩
      show absOf { w with wbuf1 := w.wbuf2, wbuf2 := w.wbuf1 } (pushed g w.wbuf2 p) F = _
      rw [ha3, absOf_inited _ _ hne2, hA]
      have l1 : ¬ (tops g w.wbuf1).length < cfg.C := by rw [tops_length]; omega
      have l2 : (tops g w.wbuf2).length < cfg.C := by rw [tops_length]; omega
      simp only [Abs.put, Abs.init, if_true, l1, l2, if_false]
  · -- `wbuf1` has room
    obtain ⟨hi3, ha3⟩ := h.push1 hne (by omega) p
    have hpo := @pushObj_eq cfg g _ hv1.1 ⟨hb1.1, by omega⟩ p
    have hput : gcWork.put cfg w g p = .ok (w, pushed g w.wbuf1 p) := by
      simp only [gcWork.put, gcWork.putPrepare, hne, if_false, getNobj, hv1.1, bind,
        Except.bind, c1, hpo]
      simp
    rw [hput]
    refine ⟨E, F, hi3, hne, ?_, Nat.le_succ _, h.untouched_push hne p⟩
    show absOf w (pushed g w.wbuf1 p) F = _
    rw [ha3, hA]
    have l1 : (tops g w.wbuf1).length < cfg.C := by rw [tops_length]; omega
    simp only [Abs.put, Abs.init, if_true, l1]

theorem Abs.init_of_inited {A : Abs} (h : A.inited = true) : A.init = A := by
  simp [Abs.init, h]

theorem absOf_inited_flag {w : gcWork} (g : World) (F : List Nat) (hne : w.wbuf1 ≠ 0) :
    (absOf w g F).inited = true := by
  simp [absOf, hne]

/-- What `gcWork.put` does, from any state of the queue. -/
theorem put_wp {cfg : Config} {w : gcWork} {g : World} {E F X : List Nat}
    (h : Inv cfg w g E F X) (hC : 1 ≤ cfg.C) (p : Nat) :
    Meets 2 (remaining g) (gcWork.put cfg w g p) (fun r => ∃ E1 F1,
      Inv cfg r.1 r.2 E1 F1 X ∧ r.1.wbuf1 ≠ 0 ∧
      absOf r.1 r.2 F1 = Abs.put cfg.C p (absOf w g F) ∧
      remaining g ≤ remaining r.2 + 2 ∧ Untouched X g r.2) := by
  by_cases hw : w.wbuf1 = 0
  · have hput : gcWork.put cfg w g p =
        Except.bind (gcWork.init cfg w g) (fun r =>
          Except.bind (pushObj cfg r.2 r.1.wbuf1 p) (fun g2 => .ok (r.1, g2))) := by
      simp only [gcWork.put, gcWork.putPrepare, hw, if_true, bind, Except.bind]
      cases gcWork.init cfg w g with
      | error e => rfl
      | ok r =>
        obtain ⟨w1, g1⟩ := r
        simp only
        cases pushObj cfg g1 w1.wbuf1 p with
        | error e => rfl
        | ok g2 => simp
    rw [hput]
    refine Meets.bind_except (init_wp h hw) ?_
    rintro ⟨w1, g1⟩ ⟨E1, F1, hi1, hne1, ha1, hr1, _, hfr1, hn1⟩
    simp only at hi1 hne1 ha1 hr1 hn1 hfr1
    obtain ⟨hi2, ha2⟩ := hi1.push1 hne1 (by rw [hn1]; omega) p
    have hpo := @pushObj_eq cfg g1 _ hne1 ⟨by rw [hn1], by rw [hn1]; omega⟩ p
    simp only [hpo, Except.bind]
    refine ⟨E1, F1, hi2, hne1, ?_, hr1,
      (hfr1.untouched (fun a ha => by simp [ha])).comp (hi1.untouched_push hne1 p)⟩
    show absOf w1 (pushed g1 w1.wbuf1 p) F1 = _
    rw [ha2, ha1]
    have ht : (absOf w1 g1 F1).t1 = [] := by
      rw [absOf_inited _ _ hne1]
      exact tops_nil hn1
    have hl : ((absOf w g F).init).t1.length < cfg.C := by
      rw [← ha1, ht]
      simpa using hC
    simp only [Abs.put, hl, if_true]
  · exact ((put_inited h hw hC p).weaken (by omega)).imp (fun r hr => by
      obtain ⟨E1, F1, q1, q2, q3, q4, q5⟩ := hr
      exact ⟨E1, F1, q1, q2, q3, by omega, q5⟩)

/-- Popping a pointer from `wbuf1` when it holds one. -/
theorem Inv.pop1 {cfg : Config} {w : gcWork} {g : World} {E F X : List Nat}
    (h : Inv cfg w g E F X) (hne : w.wbuf1 ≠ 0) (hpos : 0 < (g.bufs w.wbuf1).nobj) :
    Inv cfg w (popped g w.wbuf1) E F X ∧
      (absOf w g F).t1 = (g.bufs w.wbuf1).obj ((g.bufs w.wbuf1).nobj - 1).toNat ::
        (absOf w (popped g w.wbuf1) F).t1 ∧
      absOf w (popped g w.wbuf1) F =
        { (absOf w g F) with t1 := (absOf w g F).t1.tail } := by
  obtain ⟨hp, hb1, hb2⟩ := h.pool_cons hne
  obtain ⟨hv1, hv2, h12, h1EF, h2EF, h1X, h2X⟩ := h.local_facts hne
  have hfr := Frame.of_popped g w.wbuf1
  have e1 := tops_popped g w.wbuf1 hpos
  have e2 : tops (popped g w.wbuf1) w.wbuf2 = tops g w.wbuf2 := hfr.tops (Ne.symm h12)
  have e3 : F.map (tops (popped g w.wbuf1)) = F.map (tops g) :=
    map_tops_congr hfr (fun a ha e => h1EF (by rw [← e]; exact List.mem_append_right _ ha))
  refine ⟨?_, ?_, ?_⟩
  · refine (Inv.of_pool (hp.keep_popped h1EF) ?_ ?_).1
    · rw [popped_nobj]; omega
    · rw [hfr.nobj _ (Ne.symm h12)]; exact hb2
  · rw [absOf_inited _ _ hne, absOf_inited _ _ hne]
    exact e1
  · rw [absOf_inited _ _ hne, absOf_inited _ _ hne]
    rw [e2, e3, e1]
    rfl

/-- What `gcWork.tryGet` does to a queue that has its buffers: it never fails and never
allocates. -/
theorem tryGet_inited {cfg : Config} {w : gcWork} {g : World} {E F X : List Nat}
    (h : Inv cfg w g E F X) (hne : w.wbuf1 ≠ 0) :
    ∃ r, gcWork.tryGet cfg w g = .ok r ∧ ∃ E1 F1,
      Inv cfg r.2.1 r.2.2 E1 F1 X ∧ r.2.1.wbuf1 ≠ 0 ∧
      r.1 = (Abs.tryGet (absOf w g F)).1 ∧
      absOf r.2.1 r.2.2 F1 = (Abs.tryGet (absOf w g F)).2 ∧
      remaining r.2.2 = remaining g ∧ Untouched X g r.2.2 := by
  obtain ⟨hp, hb1, hb2⟩ := h.pool_cons hne
  obtain ⟨hv1, hv2, h12, h1EF, h2EF, h1X, h2X⟩ := h.local_facts hne
  have hA := absOf_inited g F hne
  by_cases c1 : (g.bufs w.wbuf1).nobj = 0
  · obtain ⟨hs, hne2⟩ := h.swap hne
    have hAs := absOf_inited (w := { w with wbuf1 := w.wbuf2, wbuf2 := w.wbuf1 }) g F hne2
    have t1 : tops g w.wbuf1 = [] := tops_nil c1
    by_cases c2 : (g.bufs w.wbuf2).nobj = 0
    · have t2 : tops g w.wbuf2 = [] := tops_nil c2
      cases F with
      | nil =>
        have hfull : g.full = 0 := hp.isF
        refine ⟨(0, { w with wbuf1 := w.wbuf2, wbuf2 := w.wbuf1 }, g), ?_, E, [], hs, hne2,
          ?_, ?_, rfl, Untouched.unchanged X g⟩
        · simp only [gcWork.tryGet, hne, if_false, getNobj, hv1.1, hv2.1, bind, Except.bind, c1,
            c2, if_true, trygetfull_nil hfull]
        · rw [hA]; simp [Abs.tryGet, Abs.init, t1, t2]
        · show absOf { w with wbuf1 := w.wbuf2, wbuf2 := w.wbuf1 } g [] = _
          rw [hAs, hA]; simp [Abs.tryGet, Abs.init, t1, t2]
      | cons b F =>
        -- take a buffer from the full list and return the empty one
        obtain ⟨hg1, hp1⟩ := trygetfull_cons hp
        have hb0 : b ≠ 0 := (hp.valid b (by simp)).1
        have hbn := hp.fullN b (List.mem_cons_self _ _)
        have hperm : (b :: w.wbuf1 :: w.wbuf2 :: X).Perm (w.wbuf2 :: b :: w.wbuf1 :: X) :=
          (List.Perm.cons b (perm_swap_own _ _ X)).trans (perm_swap_own b _ _)
        obtain ⟨g2, hg2, hp2, hf2, hpu2, _, hr2⟩ := putempty_spec (hp1.perm hperm) c2
        have hrem : remaining g2 = remaining g := hr2
        rw [← hrem] at hp2
        obtain ⟨hi3, hne3⟩ := Inv.of_pool (w := { w with wbuf1 := b, wbuf2 := w.wbuf1 }) hp2
          (by show 0 ≤ (g2.bufs b).nobj ∧ (g2.bufs b).nobj ≤ cfg.C
              rw [hf2.nobj b trivial]; exact ⟨le_of_lt hbn.1, hbn.2⟩)
          (by show 0 ≤ (g2.bufs w.wbuf1).nobj ∧ (g2.bufs w.wbuf1).nobj ≤ cfg.C
              rw [hf2.nobj _ trivial]; exact hb1)
        have hpos : 0 < (g2.bufs b).nobj := by rw [hf2.nobj b trivial]; exact hbn.1
        obtain ⟨hi4, ht4, ha4⟩ := hi3.pop1 hne3 hpos
        have hpo := @popObj_eq cfg g2 b hb0 ⟨hpos, by rw [hf2.nobj b trivial]; exact hbn.2⟩
        have hU2 : Untouched X g g2 := hf2.untouched (fun _ _ => trivial)
        refine ⟨((g2.bufs b).obj ((g2.bufs b).nobj - 1).toNat,
          { w with wbuf1 := b, wbuf2 := w.wbuf1 }, popped g2 b), ?_, w.wbuf2 :: E, F, hi4, hne3,
          ?_, ?_, hrem, hU2.comp (hi3.untouched_pop hne3)⟩
        · simp only [gcWork.tryGet, hne, if_false, getNobj, hv1.1, hv2.1, bind, Except.bind, c1,
            c2, if_true, hg1, hb0, hg2, hpo]
        · have e1 : tops g b = tops g2 b := (hf2.tops trivial).symm
          have e2 := tops_popped g2 b hpos
          rw [hA]
          simp [Abs.tryGet, Abs.init, t1, t2, e1, e2]
        · show absOf { w with wbuf1 := b, wbuf2 := w.wbuf1 } (popped g2 b) F = _
          rw [ha4, absOf_inited _ _ hne3, hA]
          have e1 : tops g2 b = tops g b := hf2.tops trivial
          have e2 : tops g2 w.wbuf1 = [] := by rw [hf2.tops trivial]; exact t1
          have e3 : F.map (tops g2) = F.map (tops g) := map_tops_congr hf2 (fun _ _ => trivial)
          have e4 : g2.fullPushes = g.fullPushes := hpu2
          show ({ inited := true, t1 := (tops g2 b).tail, t2 := tops g2 w.wbuf1,
                  fl := F.map (tops g2), pushes := g2.fullPushes } : Abs) = _
          rw [e1, e2, e3, e4]
          simp only [Abs.tryGet, Abs.init, if_true, t1, t2, List.map_cons]
    · -- `wbuf1` is empty and `wbuf2` is not: exchange the buffers
      have hpos : 0 < (g.bufs w.wbuf2).nobj := by omega
      obtain ⟨hi4, ht4, ha4⟩ := hs.pop1 hne2 hpos
      have hpo := @popObj_eq cfg g w.wbuf2 hv2.1 ⟨hpos, hb2.2⟩
      refine ⟨((g.bufs w.wbuf2).obj ((g.bufs w.wbuf2).nobj - 1).toNat,
        { w with wbuf1 := w.wbuf2, wbuf2 := w.wbuf1 }, popped g w.wbuf2), ?_, E, F, hi4, hne2,
        ?_, ?_, rfl, hs.untouched_pop hne2⟩
      · simp only [gcWork.tryGet, hne, if_false, getNobj, hv1.1, hv2.1, bind, Except.bind, c1,
          c2, if_true, hpo]
      · have e2 := tops_popped g w.wbuf2 hpos
        rw [hA]
        simp [Abs.tryGet, Abs.init, t1, e2]
      · show absOf { w with wbuf1 := w.wbuf2, wbuf2 := w.wbuf1 } (popped g w.wbuf2) F = _
        have e2 := tops_popped g w.wbuf2 hpos
        rw [ha4, hAs, hA]
        simp [Abs.tryGet, Abs.init, t1, e2]
  · have hpos : 0 < (g.bufs w.wbuf1).nobj := by omega
    obtain ⟨hi4, ht4, ha4⟩ := h.pop1 hne hpos
    have hpo := @popObj_eq cfg g w.wbuf1 hv1.1 ⟨hpos, hb1.2⟩
    refine ⟨((g.bufs w.wbuf1).obj ((g.bufs w.wbuf1).nobj - 1).toNat, w, popped g w.wbuf1), ?_,
      E, F, hi4, hne, ?_, ?_, rfl, h.untouched_pop hne⟩
    · simp only [gcWork.tryGet, hne, if_false, getNobj, hv1.1, bind, Except.bind, c1, hpo]
    · have e2 := tops_popped g w.wbuf1 hpos
      rw [hA]
      simp [Abs.tryGet, Abs.init, e2]
    · show absOf w (popped g w.wbuf1) F = _
      have e2 := tops_popped g w.wbuf1 hpos
      rw [ha4, hA]
      simp [Abs.tryGet, Abs.init, e2]

theorem Abs.init_inited (A : Abs) : A.init.inited = true := by
  unfold Abs.init
  split
  · assumption
  · split <;> rfl

theorem Abs.init_init (A : Abs) : A.init.init = A.init :=
  Abs.init_of_inited A.init_inited

theorem Abs.tryGet_init (A : Abs) : Abs.tryGet A.init = Abs.tryGet A := by
  simp only [Abs.tryGet, Abs.init_init]

theorem Abs.put_init (C p : Nat) (A : Abs) : Abs.put C p A.init = Abs.put C p A := by
  simp only [Abs.put, Abs.init_init]

/-- What `gcWork.tryGet` does, from any state of the queue. -/
theorem tryGet_wp {cfg : Config} {w : gcWork} {g : World} {E F X : List Nat}
    (h : Inv cfg w g E F X) :
    Meets 2 (remaining g) (gcWork.tryGet cfg w g) (fun r => ∃ E1 F1,
      Inv cfg r.2.1 r.2.2 E1 F1 X ∧ r.2.1.wbuf1 ≠ 0 ∧
      r.1 = (Abs.tryGet (absOf w g F)).1 ∧
      absOf r.2.1 r.2.2 F1 = (Abs.tryGet (absOf w g F)).2 ∧
      remaining g ≤ remaining r.2.2 + 2 ∧ Untouched X g r.2.2) := by
  by_cases hw : w.wbuf1 = 0
  · have hi := init_wp h hw
    cases hr : gcWork.init cfg w g with
    | error e =>
      rw [hr] at hi
      have : gcWork.tryGet cfg w g = .error e := by
        simp only [gcWork.tryGet, hw, if_true, hr, bind, Except.bind]
      rw [this]
      exact hi
    | ok r =>
      rw [hr] at hi
      obtain ⟨E1, F1, hi1, hne1, ha1, hr1, _, hfr1, _⟩ := hi
      have heq : gcWork.tryGet cfg w g = gcWork.tryGet cfg r.1 r.2 := by
        simp only [gcWork.tryGet, hw, if_true, hr, bind, Except.bind, hne1, if_false]
      obtain ⟨r2, hr2, E2, F2, q1, q2, q3, q4, q5, q6⟩ := tryGet_inited hi1 hne1
      rw [heq, hr2]
      refine ⟨E2, F2, q1, q2, ?_, ?_, ?_, ?_⟩
      · rw [q3, ha1, Abs.tryGet_init]
      · rw [q4, ha1, Abs.tryGet_init]
      · show remaining g ≤ remaining r2.2.2 + 2
        omega
      · exact (hfr1.untouched (fun a ha => by simp [ha])).comp q6
  · obtain ⟨r2, hr2, E2, F2, q1, q2, q3, q4, q5, q6⟩ := tryGet_inited h hw
    rw [hr2]
    exact ⟨E2, F2, q1, q2, q3, q4, by show remaining g ≤ remaining r2.2.2 + 2; omega, q6⟩

/-- Successive `put` calls on a queue that has its buffers. -/
theorem putAll_inited {cfg : Config} {X : List Nat} (hC : 1 ≤ cfg.C) :
    ∀ (ps : List Nat) (w : gcWork) (g : World) (E F : List Nat),
      Inv cfg w g E F X → w.wbuf1 ≠ 0 →
      Meets ps.length (remaining g) (putAll cfg w g ps) (fun r => ∃ E1 F1,
        Inv cfg r.1 r.2 E1 F1 X ∧ r.1.wbuf1 ≠ 0 ∧
        absOf r.1 r.2 F1 = Abs.putAll cfg.C (absOf w g F) ps ∧
        remaining g ≤ remaining r.2 + ps.length)
  | [], w, g, E, F, h, hne => ⟨E, F, h, hne, rfl, Nat.le_refl _⟩
  | p :: ps, w, g, E, F, h, hne => by
    simp only [putAll, bind]
    refine Meets.bind_except ((put_inited h hne hC p).weaken (by simp; omega)) ?_
    rintro ⟨w1, g1⟩ ⟨E1, F1, hi1, hne1, ha1, hr1⟩
    simp only at hi1 hne1 ha1 hr1
    refine ((putAll_inited hC ps w1 g1 E1 F1 hi1 hne1).weaken (by simp; omega)).imp ?_
    rintro r ⟨E2, F2, q1, q2, q3, q4⟩
    refine ⟨E2, F2, q1, q2, ?_, by simp; omega⟩
    rw [q3, ha1]
    rfl

/-- Successive `put` calls, from any state of the queue. -/
theorem putAll_wp {cfg : Config} {X : List Nat} (hC : 1 ≤ cfg.C)
    (ps : List Nat) (w : gcWork) (g : World) (E F : List Nat) (h : Inv cfg w g E F X) :
    Meets (ps.length + 1) (remaining g) (putAll cfg w g ps) (fun r => ∃ E1 F1,
      Inv cfg r.1 r.2 E1 F1 X ∧ (ps ≠ [] → r.1.wbuf1 ≠ 0) ∧
      absOf r.1 r.2 F1 = Abs.putAll cfg.C (absOf w g F) ps ∧
      remaining g ≤ remaining r.2 + (ps.length + 1)) := by
  cases ps with
  | nil => exact ⟨E, F, h, fun hx => absurd rfl hx, rfl, Nat.le_add_right _ _⟩
  | cons p ps =>
    simp only [putAll, bind]
    refine Meets.bind_except ((put_wp h hC p).weaken (by simp; omega)) ?_
    rintro ⟨w1, g1⟩ ⟨E1, F1, hi1, hne1, ha1, hr1⟩
    simp only at hi1 hne1 ha1 hr1
    refine ((putAll_inited hC ps w1 g1 E1 F1 hi1 hne1).weaken (by simp; omega)).imp ?_
    rintro r ⟨E2, F2, q1, q2, q3, q4⟩
    refine ⟨E2, F2, q1, fun _ => q2, ?_, by simp; omega⟩
    rw [q3, ha1]
    rfl

/-- Successive `tryGet` calls on a queue that has its buffers never fail. -/
theorem tryGetN_inited {cfg : Config} {X : List Nat} :
    ∀ (n : Nat) (w : gcWork) (g : World) (E F : List Nat),
      Inv cfg w g E F X → w.wbuf1 ≠ 0 →
      ∃ r, tryGetN cfg n w g = .ok r ∧ ∃ E1 F1,
        Inv cfg r.2.1 r.2.2 E1 F1 X ∧ r.2.1.wbuf1 ≠ 0 ∧
        r.1 = (Abs.tryGetN n (absOf w g F)).1 ∧
        absOf r.2.1 r.2.2 F1 = (Abs.tryGetN n (absOf w g F)).2 ∧
        remaining r.2.2 = remaining g
  | 0, w, g, E, F, h, hne => ⟨([], w, g), rfl, E, F, h, hne, rfl, rfl, rfl⟩
  | n + 1, w, g, E, F, h, hne => by
    obtain ⟨r1, hr1, E1, F1, q1, q2, q3, q4, q5⟩ := tryGet_inited h hne
    obtain ⟨r2, hr2, E2, F2, s1, s2, s3, s4, s5⟩ := tryGetN_inited n r1.2.1 r1.2.2 E1 F1 q1 q2
    refine ⟨(r1.1 :: r2.1, r2.2.1, r2.2.2), ?_, E2, F2, s1, s2, ?_, ?_, by rw [s5, q5.1]⟩
    · simp only [tryGetN, hr1, bind, Except.bind, hr2]
    · show r1.1 :: r2.1 = _
      rw [q3, s3, q4]
      rfl
    · show absOf r2.2.1 r2.2.2 F2 = _
      rw [s4, q4]
      rfl

theorem Abs.stack_init {A : Abs} (h : A.Sound) : A.init.stack = A.stack := by
  unfold Abs.init
  split
  · rfl
  · rename_i hi
    have hi' : A.inited = false := by simpa using hi
    obtain ⟨e1, e2⟩ := h.2 hi'
    split
    · rename_i hfl
      simp [Abs.stack, e1, e2]
    · rename_i b fl hfl
      simp [Abs.stack, e1, e2, hfl]

theorem Abs.sound_init {A : Abs} (h : A.Sound) : A.init.Sound := by
  unfold Abs.init
  split
  · exact h
  · split
    · rename_i hfl
      exact ⟨h.1, fun hc => by simp at hc⟩
    · rename_i b fl hfl
      refine ⟨fun c hc => h.1 c (by rw [hfl]; exact List.mem_cons_of_mem _ hc),
        fun hc => by simp at hc⟩

/-- At list level a `put` adds its pointer and keeps all others. -/
theorem Abs.put_perm {C : Nat} (hC : 1 ≤ C) (p : Nat) {A : Abs} (h : A.Sound) :
    (Abs.put C p A).Sound ∧ (Abs.put C p A).inited = true ∧
      (Abs.put C p A).stack.Perm (p :: A.stack) := by
  have hs := Abs.sound_init h
  have hst := Abs.stack_init h
  have hin := A.init_inited
  unfold Abs.put
  simp only
  split
  · refine ⟨⟨hs.1, fun hc => by simp [hin] at hc⟩, hin, ?_⟩
    rw [← hst]
    simp [Abs.stack]
  · split
    · refine ⟨⟨hs.1, fun hc => by simp [hin] at hc⟩, hin, ?_⟩
      rw [← hst]
      simp only [Abs.stack, List.cons_append, List.perm_cons, List.append_assoc]
      exact List.perm_append_comm_assoc _ _ _
    · rename_i h1 h2
      refine ⟨⟨?_, fun hc => by simp [hin] at hc⟩, hin, ?_⟩
      · intro b hb
        simp only [List.mem_cons] at hb
        rcases hb with rfl | hb
        · intro he
          rw [he] at h2
          simp at h2
          omega
        · exact hs.1 b hb
      · rw [← hst]
        simp [Abs.stack]

/-- At list level a `put` under the hysteresis condition puts its pointer on top. -/
theorem Abs.put_stack {C : Nat} (hC : 1 ≤ C) (p : Nat) {A : Abs} (h : A.Sound)
    (hl : A.Lifo C) :
    (Abs.put C p A).Lifo C ∧ (Abs.put C p A).stack = p :: A.stack := by
  have hst := Abs.stack_init h
  have hin := A.init_inited
  have hli : A.init.Lifo C := by
    unfold Abs.init
    split
    · exact hl
    · rename_i hi
      have hi' : A.inited = false := by simpa using hi
      obtain ⟨e1, e2⟩ := h.2 hi'
      have hl2 := hl.2
      rw [if_neg hi] at hl2
      split
      · exact ⟨by simp, by simp⟩
      · rename_i b fl hfl
        exact ⟨by simp, by simp [hl2 b fl hfl]⟩
  obtain ⟨hw, hj⟩ := hli
  rw [if_pos hin] at hj
  unfold Abs.put
  simp only
  split
  · rename_i h1
    refine ⟨⟨by simp only [List.length_cons]; omega, ?_⟩, ?_⟩
    · simp only [hin, if_true]; exact hj
    · rw [← hst]; simp [Abs.stack]
  · rename_i h1
    split
    · rename_i h2
      have ht2 : A.init.t2 = [] := by
        rcases hj with hj | hj
        · exact hj
        · omega
      refine ⟨⟨by simp only [List.length_cons, ht2, List.length_nil]; omega, ?_⟩, ?_⟩
      · simp only [hin, if_true]; right; omega
      · rw [← hst]; simp [Abs.stack, ht2]
    · rename_i h2
      refine ⟨⟨by simp only [List.length_cons, List.length_nil]; omega, ?_⟩, ?_⟩
      · simp only [hin, if_true]; right; omega
      · rw [← hst]; simp [Abs.stack]

/-- At list level a `tryGet` takes the top pointer, or returns `0` when there is none. -/
theorem Abs.tryGet_stack {A : Abs} (h : A.Sound) :
    (Abs.tryGet A).2.Sound ∧
      (A.stack = [] → (Abs.tryGet A).1 = 0 ∧ (Abs.tryGet A).2.stack = []) ∧
      (∀ p rest, A.stack = p :: rest →
        (Abs.tryGet A).1 = p ∧ (Abs.tryGet A).2.stack = rest) := by
  have hs := Abs.sound_init h
  have hst := Abs.stack_init h
  have hin := A.init_inited
  rw [← hst]
  unfold Abs.tryGet
  simp only
  split
  · rename_i p t ht1
    refine ⟨⟨hs.1, fun hc => by simp [hin] at hc⟩, ?_, ?_⟩
    · intro he; simp [Abs.stack, ht1] at he
    · intro q rest he
      simp only [Abs.stack, ht1, List.cons_append, List.cons.injEq] at he
      exact ⟨he.1, by simp [Abs.stack, he.2.symm]⟩
  · rename_i ht1
    split
    · rename_i p t ht2
      refine ⟨⟨hs.1, fun hc => by simp [hin] at hc⟩, ?_, ?_⟩
      · intro he; simp [Abs.stack, ht1, ht2] at he
      · intro q rest he
        simp only [Abs.stack, ht1, ht2, List.nil_append, List.cons_append, List.cons.injEq] at he
        exact ⟨he.1, by simp [Abs.stack, he.2.symm]⟩
    · rename_i ht2
      split
      · rename_i hfl
        refine ⟨hs, ?_, ?_⟩
        · intro _; exact ⟨rfl, by simp [Abs.stack, ht1, ht2, hfl]⟩
        · intro q rest he
          simp [Abs.stack, ht1, ht2, hfl] at he
      · rename_i b fl hfl
        have hb : b ≠ [] := hs.1 b (by rw [hfl]; exact List.mem_cons_self _ _)
        obtain ⟨x, t, rfl⟩ := List.exists_cons_of_ne_nil hb
        refine ⟨⟨fun c hc => hs.1 c (by rw [hfl]; exact List.mem_cons_of_mem _ hc),
          fun hc => by simp [hin] at hc⟩, ?_, ?_⟩
        · intro he; simp [Abs.stack, ht1, ht2, hfl] at he
        · intro q rest he
          simp only [Abs.stack, ht1, ht2, hfl, List.nil_append, List.flatten_cons,
            List.cons_append, List.cons.injEq] at he
          exact ⟨he.1, by simp [Abs.stack, he.2.symm]⟩

theorem Abs.putAll_stack {C : Nat} (hC : 1 ≤ C) :
    ∀ (ps : List Nat) (A : Abs), A.Sound → A.Lifo C →
      (Abs.putAll C A ps).Sound ∧ (Abs.putAll C A ps).Lifo C ∧
        (Abs.putAll C A ps).stack = ps.reverse ++ A.stack
  | [], A, h, hl => ⟨h, hl, by simp [Abs.putAll]⟩
  | p :: ps, A, h, hl => by
    obtain ⟨h1, _, _⟩ := Abs.put_perm hC p h
    obtain ⟨hl1, hs1⟩ := Abs.put_stack hC p h hl
    obtain ⟨h2, hl2, hs2⟩ := Abs.putAll_stack hC ps (Abs.put C p A) h1 hl1
    refine ⟨h2, hl2, ?_⟩
    show (Abs.putAll C (Abs.put C p A) ps).stack = _
    rw [hs2, hs1]
    simp

theorem Abs.putAll_perm {C : Nat} (hC : 1 ≤ C) :
    ∀ (ps : List Nat) (A : Abs), A.Sound →
      (Abs.putAll C A ps).Sound ∧ (Abs.putAll C A ps).stack.Perm (ps ++ A.stack)
  | [], A, h => ⟨h, by simp [Abs.putAll]⟩
  | p :: ps, A, h => by
    obtain ⟨h1, _, hp1⟩ := Abs.put_perm hC p h
    obtain ⟨h2, hp2⟩ := Abs.putAll_perm hC ps (Abs.put C p A) h1
    refine ⟨h2, ?_⟩
    show (Abs.putAll C (Abs.put C p A) ps).stack.Perm _
    refine hp2.trans ?_
    refine (List.Perm.append_left ps hp1).trans ?_
    simp

theorem Abs.tryGetN_stack :
    ∀ (l : List Nat) (A : Abs) (rest : List Nat), A.Sound → A.stack = l ++ rest →
      (Abs.tryGetN l.length A).1 = l ∧ (Abs.tryGetN l.length A).2.stack = rest ∧
        (Abs.tryGetN l.length A).2.Sound
  | [], A, rest, h, hs => ⟨rfl, by simpa using hs, h⟩
  | p :: l, A, rest, h, hs => by
    obtain ⟨h1, _, hc⟩ := Abs.tryGet_stack h
    obtain ⟨e1, e2⟩ := hc p (l ++ rest) (by simpa using hs)
    obtain ⟨q1, q2, q3⟩ := Abs.tryGetN_stack l (Abs.tryGet A).2 rest h1 e2
    refine ⟨?_, q2, q3⟩
    show (Abs.tryGet A).1 :: (Abs.tryGetN l.length (Abs.tryGet A).2).1 = p :: l
    rw [e1, q1]

/-- The list view of a state satisfying the invariant is sound. -/
theorem absOf_sound {cfg : Config} {w : gcWork} {g : World} {E F X : List Nat}
    (h : Inv cfg w g E F X) : (absOf w g F).Sound := by
  constructor
  · intro b hb
    simp only [absOf, List.mem_map] at hb
    obtain ⟨a, ha, rfl⟩ := hb
    have hn := h.pool.fullN a ha
    intro he
    have hl := tops_length g a
    rw [he] at hl
    simp only [List.length_nil] at hl
    omega
  · intro hi
    simp only [absOf, decide_eq_false_iff_not, not_not] at hi
    simp [absOf, hi]

/-- The hysteresis condition on a state is the list-level one. -/
theorem absOf_lifo {cfg : Config} {w : gcWork} {g : World} {E F X : List Nat}
    (h : Inv cfg w g E F X) (hy : Hysteresis cfg w g F) : (absOf w g F).Lifo cfg.C := by
  by_cases hw : w.wbuf1 = 0
  · rw [Hysteresis, if_pos hw] at hy
    rw [absOf_uninit g F hw]
    refine ⟨by simp, ?_⟩
    simp only [Bool.false_eq_true, if_false]
    intro b fl hfl
    cases F with
    | nil => simp at hfl
    | cons a F =>
      simp only [List.map_cons, List.cons.injEq] at hfl
      rw [← hfl.1, tops_length, hy a F rfl]
      simp
  · rw [Hysteresis, if_neg hw] at hy
    obtain ⟨_, hb1, hb2⟩ := h.pool_cons hw
    rw [absOf_inited g F hw]
    refine ⟨by simp only [tops_length]; omega, ?_⟩
    simp only [if_true]
    rcases hy with hy | hy
    · left; exact tops_nil hy
    · right; rw [tops_length, hy]; simp

theorem stack_absOf (w : gcWork) (g : World) (F : List Nat) :
    (absOf w g F).stack = (locals w ++ F).flatMap (tops g) := by
  by_cases hw : w.wbuf1 = 0
  · rw [absOf_uninit g F hw, locals_of_eq hw]
    simp [Abs.stack, List.flatMap]
  · rw [absOf_inited g F hw, locals_of_ne hw]
    simp [Abs.stack, List.flatMap]

theorem flatMap_reverse_perm (f : Nat → List Nat) :
    ∀ L : List Nat, (L.flatMap (fun a => (f a).reverse)).Perm (L.flatMap f)
  | [] => by simp
  | a :: L => by
    simp only [List.flatMap_cons]
    exact List.Perm.append (List.reverse_perm _) (flatMap_reverse_perm f L)

/-- The pointers held are those of the list view. -/
theorem held_eq (w : gcWork) (g : World) (F : List Nat) :
    held w g F = Multiset.ofList (absOf w g F).stack := by
  rw [held, stack_absOf]
  exact (Quotient.sound (flatMap_reverse_perm (entries g) (locals w ++ F))).symm

/-- Every 8-byte aligned address below `2^48` other than nil is a valid node of the sample
configuration. -/
theorem sampleConfig_valid (c a : Nat) (h0 : a ≠ 0) (h8 : a % 8 = 0) (hlt : a < 2 ^ 48) :
    Valid (sampleConfig c) a := by
  refine ⟨h0, fun cnt => ?_, rfl⟩
  simp only [sampleConfig]
  norm_num at hlt ⊢
  constructor <;> omega

theorem mem_spanBufs {s a : Nat} : a ∈ spanBufs s ↔ ∃ j, j < 16 ∧ a = s + j * 2048 := by
  have h16 : workbufAlloc / WorkbufSize = 16 := by decide
  simp only [spanBufs, h16, List.mem_map, List.mem_range, WorkbufSize]
  constructor
  · rintro ⟨j, hj, rfl⟩; exact ⟨j, hj, rfl⟩
  · rintro ⟨j, hj, rfl⟩; exact ⟨j, hj, rfl⟩

theorem spanBufs_nodup (s : Nat) : (spanBufs s).Nodup := by
  have h16 : workbufAlloc / WorkbufSize = 16 := by decide
  rw [spanBufs, h16]
  refine List.Nodup.map ?_ (List.nodup_range 16)
  intro i j hij
  simp only [WorkbufSize] at hij
  omega

theorem mem_sampleSpans {n s : Nat} : s ∈ sampleSpans n ↔ ∃ k, k < n ∧ s = 32768 * (k + 1) := by
  simp only [sampleSpans, List.mem_map, List.mem_range, workbufAlloc]
  constructor
  · rintro ⟨k, hk, rfl⟩; exact ⟨k, hk, rfl⟩
  · rintro ⟨k, hk, rfl⟩; exact ⟨k, hk, rfl⟩

theorem sampleSpans_nodup (n : Nat) : ((sampleSpans n).flatMap spanBufs).Nodup := by
  rw [List.nodup_flatMap]
  refine ⟨fun s _ => spanBufs_nodup s, ?_⟩
  rw [sampleSpans, List.pairwise_map]
  refine (List.pairwise_lt_range n).imp ?_
  intro i j hij
  show List.Disjoint (spanBufs _) (spanBufs _)
  intro a ha hb
  obtain ⟨x, hx, rfl⟩ := mem_spanBufs.mp ha
  obtain ⟨y, hy, hxy⟩ := mem_spanBufs.mp hb
  simp only [workbufAlloc] at hxy
  omega

/-- The sample provider keeps the pool in supply: its spans are valid, fresh and apart. -/
theorem sample_supply (c n : Nat) (hn : n < 2 ^ 32) (g : World) (hf : g.free = [])
    (hp : g.provider = sampleSpans n) (own : List Nat) (ho : ∀ a ∈ own, a < 32768) :
    Supply (sampleConfig c) g own (remaining g) := by
  have hup : upcoming g (remaining g) = (sampleSpans n).flatMap spanBufs := by
    simp [upcoming, remaining, hf, hp]
  refine ⟨Nat.le_refl _, by rw [hup]; exact sampleSpans_nodup n, ?_⟩
  intro a ha
  rw [hup, List.mem_flatMap] at ha
  obtain ⟨s, hs, has⟩ := ha
  obtain ⟨k, hk, rfl⟩ := mem_sampleSpans.mp hs
  obtain ⟨j, hj, rfl⟩ := mem_spanBufs.mp has
  norm_num at hn
  refine ⟨sampleConfig_valid c _ (by omega) (by omega) (by norm_num; omega), rfl, ?_⟩
  intro hm
  have := ho _ hm
  omega

/-- The zero-valued queue facing the sample world satisfies the invariant. -/
theorem sample_inv (c n : Nat) (hn : n < 2 ^ 32) :
    Inv (sampleConfig c) gcWork.zero (sampleWorld (sampleSpans n)) [] [] [] := by
  refine ⟨⟨rfl, rfl, by simp [locals, gcWork.zero], by simp [locals, gcWork.zero],
    by simp, by simp, ?_⟩, fun _ => rfl, by simp [locals, gcWork.zero]⟩
  exact sample_supply c n hn _ rfl rfl _ (by simp [locals, gcWork.zero])

theorem sample_remaining (n : Nat) : remaining (sampleWorld (sampleSpans n)) = n := by
  simp [remaining, sampleWorld, sampleSpans]

/-- The zero-valued queue facing the world with one published buffer satisfies the
invariant. -/
theorem partial_inv : Inv (sampleConfig 2) gcWork.zero partialWorld [] [2048] [] := by
  have hv : Valid (sampleConfig 2) 2048 := sampleConfig_valid 2 2048 (by decide) (by decide)
    (by norm_num)
  refine ⟨⟨rfl, ?_, by simp [locals, gcWork.zero], ?_, by simp, ?_, ?_⟩, fun _ => rfl,
    by simp [locals, gcWork.zero]⟩
  · exact ⟨by decide, by decide, rfl⟩
  · intro a ha
    simp only [locals, gcWork.zero, List.nil_append, List.append_nil, List.mem_singleton,
      if_true] at ha
    rw [ha]; exact hv
  · intro a ha
    simp only [List.mem_singleton] at ha
    subst ha
    simp [partialWorld, sampleConfig]
  · exact sample_supply 2 4 (by norm_num) _ rfl rfl _ (by simp [locals, gcWork.zero])

/-- Successive `put` calls under the hysteresis condition, then as many `tryGet` calls:
the pointers come back last in, first out. -/
theorem putAll_tryGetN_lifo {cfg : Config} {w : gcWork} {g : World} {E F X : List Nat}
    (ps : List Nat) (hC : 1 ≤ cfg.C) (h : Inv cfg w g E F X) (hy : Hysteresis cfg w g F)
    (hsup : ps.length + 1 ≤ remaining g) :
    ∃ w1 g1 w2 g2, putAll cfg w g ps = .ok (w1, g1) ∧
      tryGetN cfg ps.length w1 g1 = .ok (ps.reverse, w2, g2) := by
  obtain ⟨⟨w1, g1⟩, hr, E1, F1, hi1, hne1, ha1, _⟩ :=
    (putAll_wp hC ps w g E F h).exists_ok hsup
  simp only at hi1 hne1 ha1
  refine ⟨w1, g1, ?_⟩
  cases ps with
  | nil => exact ⟨w1, g1, hr, rfl⟩
  | cons p ps =>
    obtain ⟨r2, hr2, E2, F2, _, _, q3, _, _⟩ :=
      tryGetN_inited (p :: ps).length w1 g1 E1 F1 hi1 (hne1 (by simp))
    obtain ⟨_, _, hst⟩ := Abs.putAll_stack hC (p :: ps) (absOf w g F) (absOf_sound h)
      (absOf_lifo h hy)
    obtain ⟨e1, _, _⟩ := Abs.tryGetN_stack (p :: ps).reverse (absOf w1 g1 F1)
      (absOf w g F).stack (absOf_sound hi1) (by rw [ha1, hst])
    rw [List.length_reverse] at e1
    refine ⟨r2.2.1, r2.2.2, hr, ?_⟩
    rw [hr2, ← e1, ← q3]

/-- Claim C1: for every capacity `C ≥ 1` and every sequence `ps` of pointers, starting
from a queue without buffers (`wbuf1 = wbuf2 = nil`) and an empty global full list, the
successive `put` calls over `ps` return, and the same number of successive `tryGet`
calls then return the pointers of `ps` in reverse order, last in first out. The pool is
assumed well formed and the memory provider to have `ps.length + 1` spans left. -/
theorem put_tryGet_lifo (cfg : Config) (w : gcWork) (g : World) (E X : List Nat)
    (ps : List Nat) (hC : 1 ≤ cfg.C) (h : Inv cfg w g E [] X) (hw : w.wbuf1 = 0)
    (hsup : ps.length + 1 ≤ remaining g) :
    w.wbuf2 = 0 ∧ g.full = 0 ∧
      ∃ w1 g1 w2 g2, putAll cfg w g ps = .ok (w1, g1) ∧
        tryGetN cfg ps.length w1 g1 = .ok (ps.reverse, w2, g2) :=
  ⟨h.both hw, h.pool.isF,
    putAll_tryGetN_lifo ps hC h (by rw [Hysteresis, if_pos hw]; intro b fl hb; cases hb) hsup⟩

/-- Witness of C1 with `C = 4` and `N = 5`: the five `tryGet` calls return
`p5, p4, p3, p2, p1`. -/
theorem put_tryGet_lifo_witness :
    ∃ w1 g1 w2 g2,
      putAll (sampleConfig 4) gcWork.zero (sampleWorld (sampleSpans 6)) [11, 12, 13, 14, 15]
        = .ok (w1, g1) ∧
      tryGetN (sampleConfig 4) 5 w1 g1 = .ok ([15, 14, 13, 12, 11], w2, g2) :=
  (put_tryGet_lifo (sampleConfig 4) gcWork.zero (sampleWorld (sampleSpans 6)) [] []
    [11, 12, 13, 14, 15] (by decide) (sample_inv 4 6 (by norm_num)) rfl
    (by rw [sample_remaining]; decide)).2.2

/-- Counterexample to C6 as stated: capacity `2`, a queue without buffers facing a full
list that holds one buffer published by another worker with the single pointer `99`.
Three `put` calls of `11, 12, 13` followed by three `tryGet` calls return `13, 99, 12`,
which is not the multiset put. The start state satisfies the data-model invariant. -/
theorem put_tryGet_multiset_counterexample :
    Inv (sampleConfig 2) gcWork.zero partialWorld [] [2048] [] ∧
      ((putAll (sampleConfig 2) gcWork.zero partialWorld [11, 12, 13] >>=
          fun r => tryGetN (sampleConfig 2) 3 r.1 r.2).map (fun r => r.1)
        = .ok [13, 99, 12]) ∧
      Multiset.ofList [13, 99, 12] ≠ Multiset.ofList [11, 12, 13] :=
  ⟨partial_inv, rfl, by decide⟩

/-- Nothing is queued exactly when the local buffers hold nothing and the full list is
empty. -/
theorem stack_eq_nil_iff {cfg : Config} {w : gcWork} {g : World} {E F X : List Nat}
    (h : Inv cfg w g E F X) :
    (absOf w g F).stack = [] ↔ ((∀ a ∈ locals w, entries g a = []) ∧ F = []) := by
  rw [stack_absOf]
  constructor
  · intro hs
    rw [List.flatMap_eq_nil_iff] at hs
    constructor
    · intro a ha
      have := hs a (List.mem_append_left _ ha)
      simpa [tops] using this
    · cases F with
      | nil => rfl
      | cons b F =>
        exfalso
        have hb := hs b (by simp)
        have hn := h.pool.fullN b (List.mem_cons_self _ _)
        have hl := tops_length g b
        rw [hb] at hl
        simp only [List.length_nil] at hl
        omega
  · rintro ⟨hl, rfl⟩
    rw [List.flatMap_eq_nil_iff]
    intro a ha
    rw [List.append_nil] at ha
    simp [tops, hl a ha]

/-- Claim C9: in every state satisfying the data-model invariant, `tryGet` returns; if the
two local buffers hold no pointers (or are nil) and the global full list is empty it
returns `0` and the multiset of pointers held in the local buffers and on the full list
is unchanged; otherwise it returns a pointer `p` that was held, and the multiset held
afterwards is the one before minus one occurrence of `p`. A queue without buffers needs
two spans left at the memory provider for its `init`. -/
theorem tryGet_held (cfg : Config) (w : gcWork) (g : World) (E F X : List Nat)
    (h : Inv cfg w g E F X) (hsup : w.wbuf1 = 0 → 2 ≤ remaining g) :
    ∃ p w1 g1 E1 F1, gcWork.tryGet cfg w g = .ok (p, w1, g1) ∧ Inv cfg w1 g1 E1 F1 X ∧
      (((∀ a ∈ locals w, entries g a = []) ∧ F = []) →
        p = 0 ∧ held w1 g1 F1 = held w g F) ∧
      (¬ ((∀ a ∈ locals w, entries g a = []) ∧ F = []) →
        p ∈ held w g F ∧ held w g F = p ::ₘ held w1 g1 F1) := by
  have key : ∃ r, gcWork.tryGet cfg w g = .ok r ∧ ∃ E1 F1,
      Inv cfg r.2.1 r.2.2 E1 F1 X ∧ r.1 = (Abs.tryGet (absOf w g F)).1 ∧
      absOf r.2.1 r.2.2 F1 = (Abs.tryGet (absOf w g F)).2 := by
    by_cases hw : w.wbuf1 = 0
    · obtain ⟨r, hr, E1, F1, q1, _, q3, q4, _⟩ := (tryGet_wp h).exists_ok (hsup hw)
      exact ⟨r, hr, E1, F1, q1, q3, q4⟩
    · obtain ⟨r, hr, E1, F1, q1, _, q3, q4, _⟩ := tryGet_inited h hw
      exact ⟨r, hr, E1, F1, q1, q3, q4⟩
  obtain ⟨⟨p, w1, g1⟩, hr, E1, F1, q1, q3, q4⟩ := key
  simp only at q1 q3 q4
  obtain ⟨_, hnil, hcons⟩ := Abs.tryGet_stack (absOf_sound h)
  refine ⟨p, w1, g1, E1, F1, hr, q1, ?_, ?_⟩
  · intro hc
    have hs := (stack_eq_nil_iff h).mpr hc
    obtain ⟨e1, e2⟩ := hnil hs
    refine ⟨by rw [q3, e1], ?_⟩
    rw [held_eq, held_eq, q4, e2, hs]
  · intro hc
    have hs : (absOf w g F).stack ≠ [] := fun he => hc ((stack_eq_nil_iff h).mp he)
    obtain ⟨x, rest, hx⟩ := List.exists_cons_of_ne_nil hs
    obtain ⟨e1, e2⟩ := hcons x rest hx
    have hp : p = x := by rw [q3, e1]
    subst hp
    rw [held_eq, held_eq, q4, e2, hx]
    exact ⟨by simp, rfl⟩

/-- Witness of C9: a queue without buffers takes the pointer `99` from the buffer another
worker published. -/
theorem tryGet_held_witness :
    ∃ p w1 g1 E1 F1, gcWork.tryGet (sampleConfig 2) gcWork.zero partialWorld = .ok (p, w1, g1) ∧
      Inv (sampleConfig 2) w1 g1 E1 F1 [] ∧
      (((∀ a ∈ locals gcWork.zero, entries partialWorld a = []) ∧ [2048] = []) →
        p = 0 ∧ held w1 g1 F1 = held gcWork.zero partialWorld [2048]) ∧
      (¬ ((∀ a ∈ locals gcWork.zero, entries partialWorld a = []) ∧ [2048] = []) →
        p ∈ held gcWork.zero partialWorld [2048] ∧
          held gcWork.zero partialWorld [2048] = p ::ₘ held w1 g1 F1) :=
  tryGet_held (sampleConfig 2) gcWork.zero partialWorld [] [2048] [] partial_inv
    (fun _ => by decide)

/-! ## `putBatch` -/

theorem putBatchFlush_done (cfg : Config) (fuel : Nat) (w : gcWork) (g : World) (fl : Bool)
    (hne : w.wbuf1 ≠ 0) (hn : (g.bufs w.wbuf1).nobj ≠ cfg.C) :
    gcWork.putBatchFlush cfg (fuel + 1) w g w.wbuf1 fl = .ok (w, g, w.wbuf1, fl) := by
  simp only [gcWork.putBatchFlush, getNobj, hne, if_false, bind, Except.bind, hn]

theorem putBatchFlush_step (cfg : Config) (fuel : Nat) (w : gcWork) (g : World) (fl : Bool)
    (hne : w.wbuf1 ≠ 0) (hn : (g.bufs w.wbuf1).nobj = cfg.C) :
    gcWork.putBatchFlush cfg (fuel + 1) w g w.wbuf1 fl =
      Except.bind (putfull cfg g w.wbuf1) (fun g1 =>
        Except.bind (getempty cfg g1) (fun r =>
          gcWork.putBatchFlush cfg fuel
            { w with wbuf1 := w.wbuf2, wbuf2 := r.2, flushedWork := true } r.1 w.wbuf2 true)) := by
  simp only [gcWork.putBatchFlush, getNobj, hne, if_false, bind, Except.bind, hn, if_true]

/-- One flush of `putBatch`: `wbuf1`, holding `C ≥ 1` pointers, goes onto the full list. -/
theorem flush_once {cfg : Config} {w : gcWork} {g : World} {E F X : List Nat}
    (h : Inv cfg w g E F X) (hne : w.wbuf1 ≠ 0) (hC : 1 ≤ cfg.C)
    (hn : (g.bufs w.wbuf1).nobj = cfg.C) :
    ∃ g1, putfull cfg g w.wbuf1 = .ok g1 ∧
      Meets 1 (remaining g) (getempty cfg g1) (fun r => ∃ E1,
        Inv cfg { w with wbuf1 := w.wbuf2, wbuf2 := r.2, flushedWork := true } r.1 E1
          (w.wbuf1 :: F) X ∧
        absOf { w with wbuf1 := w.wbuf2, wbuf2 := r.2, flushedWork := true } r.1
          (w.wbuf1 :: F) = (absOf w g F).flush1 ∧
        remaining g ≤ remaining r.1 + 1 ∧ Untouched X g r.1) := by
  obtain ⟨hp, hb1, hb2⟩ := h.pool_cons hne
  obtain ⟨hv1, hv2, h12, h1EF, h2EF, h1X, h2X⟩ := h.local_facts hne
  obtain ⟨g1, hg1, hp1, hf1, hpu1, _, hr1⟩ := putfull_spec hp (by omega)
  have hrem : remaining g1 = remaining g := hr1
  rw [← hrem] at hp1
  refine ⟨g1, hg1, ((getempty_wp hp1).weaken (by omega)).imp ?_⟩
  rintro ⟨g2, e⟩ ⟨E1, hp2, hn2, hf2, hfull2, hpu2, hr2⟩
  simp only at hp2 hn2 hf2 hfull2 hpu2 hr2
  have hw2 : (g2.bufs w.wbuf2).nobj = (g.bufs w.wbuf2).nobj := by
    rw [hf2.nobj _ (by simp), hf1.nobj _ trivial]
  obtain ⟨hi2, hne2⟩ := Inv.of_pool
    (w := { w with wbuf1 := w.wbuf2, wbuf2 := e, flushedWork := true })
    (hp2.perm (perm_swap_own _ _ _))
    (by show 0 ≤ (g2.bufs w.wbuf2).nobj ∧ (g2.bufs w.wbuf2).nobj ≤ cfg.C; rw [hw2]; exact hb2)
    (by show 0 ≤ (g2.bufs e).nobj ∧ (g2.bufs e).nobj ≤ cfg.C; rw [hn2]; omega)
  refine ⟨E1, hi2, ?_, by show remaining g ≤ remaining g2 + 1; omega,
    (hf1.untouched (fun _ _ => trivial)).comp (hf2.untouched (fun a ha => by simp [ha]))⟩
  rw [absOf_inited _ _ hne2, absOf_inited _ _ hne]
  have e1 : tops g2 e = [] := tops_nil hn2
  have e2 : tops g2 w.wbuf1 = tops g w.wbuf1 := by
    rw [hf2.tops (by simp), hf1.tops trivial]
  have e3 : tops g2 w.wbuf2 = tops g w.wbuf2 := by
    rw [hf2.tops (by simp), hf1.tops trivial]
  have e4 : F.map (tops g2) = F.map (tops g) := by
    rw [map_tops_congr hf2 (fun a ha => by simp [ha]), map_tops_congr hf1 (fun a _ => trivial)]
  show ({ inited := true, t1 := tops g2 w.wbuf2, t2 := tops g2 e,
          fl := tops g2 w.wbuf1 :: F.map (tops g2), pushes := g2.fullPushes } : Abs) = _
  rw [e1, e2, e3, e4, hpu2, hpu1]
  rfl

theorem tops_length_eq_iff (cfg : Config) {g : World} {a : Nat} (h : 0 ≤ (g.bufs a).nobj) :
    (tops g a).length = cfg.C ↔ (g.bufs a).nobj = cfg.C := by
  rw [tops_length]
  omega

/-- The inner loop of `putBatch` leaves room in `wbuf1`. -/
theorem flush_wp {cfg : Config} {w : gcWork} {g : World} {E F X : List Nat}
    (h : Inv cfg w g E F X) (hne : w.wbuf1 ≠ 0) (hC : 1 ≤ cfg.C) (fuel : Nat) (fl : Bool) :
    Meets ((absOf w g F).fulls cfg.C) (remaining g)
      (gcWork.putBatchFlush cfg (fuel + 3) w g w.wbuf1 fl) (fun r => ∃ E1 F1,
        Inv cfg r.1 r.2.1 E1 F1 X ∧ r.1.wbuf1 ≠ 0 ∧ r.2.2.1 = r.1.wbuf1 ∧
        (r.2.1.bufs r.1.wbuf1).nobj ≠ cfg.C ∧
        absOf r.1 r.2.1 F1 = (absOf w g F).flushAll cfg.C ∧
        remaining g + (absOf w g F).pushes ≤
          remaining r.2.1 + ((absOf w g F).flushAll cfg.C).pushes ∧
        Untouched X g r.2.1) := by
  obtain ⟨_, hb1, hb2⟩ := h.pool_cons hne
  have hA := absOf_inited g F hne
  have l1 := tops_length_eq_iff cfg hb1.1
  have l2 := tops_length_eq_iff cfg hb2.1
  by_cases c1 : (g.bufs w.wbuf1).nobj = cfg.C
  · rw [putBatchFlush_step cfg _ _ _ _ hne c1]
    obtain ⟨g1, hg1, hm⟩ := flush_once h hne hC c1
    simp only [hg1, Except.bind]
    have hneed : 1 ≤ (absOf w g F).fulls cfg.C := by
      rw [hA]; simp only [Abs.fulls, l1.mpr c1, if_true]; omega
    refine Meets.bind_except (hm.weaken (by omega)) ?_
    rintro ⟨g2, e⟩ ⟨E1, hi2, ha2, hr2, hu2⟩
    simp only at hi2 ha2 hr2 hu2
    obtain ⟨hwne, _⟩ := h.swap hne
    have hne2 : ({ w with wbuf1 := w.wbuf2, wbuf2 := e, flushedWork := true } : gcWork).wbuf1
        ≠ 0 := (h.swap hne).2
    obtain ⟨_, hc1, hc2⟩ := hi2.pool_cons hne2
    have hA2 := absOf_inited g2 (w.wbuf1 :: F) hne2
    have ht1 : ((absOf w g F).flush1).t1 = tops g w.wbuf2 := by rw [hA]; rfl
    have hlen : (tops g2 w.wbuf2).length = (tops g w.wbuf2).length := by
      have := congrArg Abs.t1 ha2
      rw [hA2, ht1] at this
      rw [show tops g2 w.wbuf2 = tops g w.wbuf2 from this]
    have hn2 : (g2.bufs w.wbuf2).nobj = (g.bufs w.wbuf2).nobj := by
      have e1 := tops_length g2 w.wbuf2
      have e2 := tops_length g w.wbuf2
      have hc : 0 ≤ (g2.bufs w.wbuf2).nobj := hc1.1
      have hd := hb2.1
      omega
    by_cases c2 : (g.bufs w.wbuf2).nobj = cfg.C
    · have c2' : (g2.bufs w.wbuf2).nobj = cfg.C := by rw [hn2]; exact c2
      have hstep := putBatchFlush_step cfg (fuel + 1)
        { w with wbuf1 := w.wbuf2, wbuf2 := e, flushedWork := true } g2 true hne2 c2'
      rw [hstep]
      obtain ⟨g3, hg3, hm3⟩ := flush_once hi2 hne2 hC c2'
      simp only [hg3, Except.bind]
      have hneed2 : (absOf w g F).fulls cfg.C = 2 := by
        rw [hA]; simp only [Abs.fulls, l1.mpr c1, l2.mpr c2, if_true]
      refine Meets.bind_except (hm3.weaken (by omega)) ?_
      rintro ⟨g4, e4⟩ ⟨E3, hi4, ha4, hr4, hu4⟩
      simp only at hi4 ha4 hr4 hu4
      have hne4 : e ≠ 0 := by
        have := hi2.local_facts hne2
        exact this.2.1.1
      have hA4 := absOf_inited (w := { w with wbuf1 := e, wbuf2 := e4, flushedWork := true }) g4
        (w.wbuf2 :: w.wbuf1 :: F) hne4
      have hfl : ((absOf w g F).flush1.flush1) =
          absOf { w with wbuf1 := e, wbuf2 := e4, flushedWork := true } g4
            (w.wbuf2 :: w.wbuf1 :: F) := by
        rw [← ha2, ← ha4]
      have ht : tops g4 e = [] := by
        have := congrArg Abs.t1 hfl
        rw [hA4] at this
        rw [show tops g4 e = (absOf w g F).flush1.flush1.t1 from this.symm, hA]
        rfl
      have hn4 : (g4.bufs e).nobj ≠ cfg.C := by
        obtain ⟨_, hd1, _⟩ := hi4.pool_cons hne4
        have e1 := tops_length g4 e
        rw [ht] at e1
        simp only [List.length_nil] at e1
        have hd : 0 ≤ (g4.bufs e).nobj := hd1.1
        omega
      have hdone := putBatchFlush_done cfg fuel
        { w with wbuf1 := e, wbuf2 := e4, flushedWork := true } g4 true hne4 hn4
      rw [hdone]
      have hfa : (absOf w g F).flushAll cfg.C = (absOf w g F).flush1.flush1 := by
        have q1 : (absOf w g F).t1.length = cfg.C := by rw [hA]; exact l1.mpr c1
        have q2 : (absOf w g F).flush1.t1.length = cfg.C := by rw [ht1]; exact l2.mpr c2
        simp only [Abs.flushAll, q1, q2, if_true]
      refine ⟨E3, w.wbuf2 :: w.wbuf1 :: F, hi4, hne4, rfl, hn4, ?_, ?_, hu2.comp hu4⟩
      · rw [hfa]; exact hfl.symm
      · rw [hfa]
        show remaining g + (absOf w g F).pushes ≤ remaining g4 + ((absOf w g F).pushes + 1 + 1)
        omega
    · have c2' : (g2.bufs w.wbuf2).nobj ≠ cfg.C := by rw [hn2]; exact c2
      have hdone := putBatchFlush_done cfg (fuel + 1)
        { w with wbuf1 := w.wbuf2, wbuf2 := e, flushedWork := true } g2 true hne2 c2'
      rw [hdone]
      have hfa : (absOf w g F).flushAll cfg.C = (absOf w g F).flush1 := by
        have q1 : (absOf w g F).t1.length = cfg.C := by rw [hA]; exact l1.mpr c1
        have q2 : ¬ (absOf w g F).flush1.t1.length = cfg.C := by
          rw [ht1]; exact fun hx => c2 (l2.mp hx)
        simp only [Abs.flushAll, q1, q2, if_true, if_false]
      refine ⟨E1, w.wbuf1 :: F, hi2, hne2, rfl, c2', ?_, ?_, hu2⟩
      · rw [hfa]; exact ha2
      · rw [hfa]
        show remaining g + (absOf w g F).pushes ≤ remaining g2 + ((absOf w g F).pushes + 1)
        omega
  · rw [putBatchFlush_done cfg _ _ _ _ hne c1]
    have hfa : (absOf w g F).flushAll cfg.C = absOf w g F := by
      have q1 : ¬ (absOf w g F).t1.length = cfg.C := by
        rw [hA]; exact fun hx => c1 (l1.mp hx)
      simp only [Abs.flushAll, q1, if_false]
    exact ⟨E, F, h, hne, rfl, c1, hfa.symm, by rw [hfa], Untouched.unchanged X g⟩

theorem map_getD_range (l : List Nat) (n : Nat) (hn : n ≤ l.length) :
    (List.range n).map (fun j => l.getD j 0) = l.take n := by
  apply List.ext_getElem
  · simp [hn]
  · intro i h1 h2
    simp only [List.length_map, List.length_range] at h1
    simp [List.getD_eq_getElem?_getD, List.getElem?_eq_getElem (show i < l.length by omega)]

theorem copied_other (g : World) (b a n : Nat) (src : List Nat) (hab : a ≠ b) :
    (copied g b n src).bufs a = g.bufs a := by
  simp [copied, storeNobj, copyObjs, setBuf, hab]

theorem copied_next (g : World) (b a n : Nat) (src : List Nat) :
    ((copied g b n src).bufs a).next = (g.bufs a).next := by
  by_cases hab : a = b
  · subst hab; simp [copied, storeNobj, copyObjs, setBuf]
  · rw [copied_other _ _ _ _ _ hab]

theorem copied_nobj (g : World) (b n : Nat) (src : List Nat) :
    ((copied g b n src).bufs b).nobj = (g.bufs b).nobj + n := by
  simp [copied, storeNobj, copyObjs, setBuf]

theorem tops_copied (g : World) (b n : Nat) (src : List Nat) (hk : 0 ≤ (g.bufs b).nobj)
    (hn : n ≤ src.length) :
    tops (copied g b n src) b = (src.take n).reverse ++ tops g b := by
  obtain ⟨k, hk⟩ := Int.eq_ofNat_of_zero_le hk
  have h1 : ((copied g b n src).bufs b).nobj.toNat = k + n := by
    rw [copied_nobj, hk]; rfl
  have h3 : (g.bufs b).nobj.toNat = k := by rw [hk]; rfl
  have h2 : ((copied g b n src).bufs b).obj =
      fun i => if k ≤ i ∧ i < k + n then src.getD (i - k) 0 else (g.bufs b).obj i := by
    simp [copied, storeNobj, copyObjs, setBuf, h3]
  simp only [tops, entries, h1, h2, h3]
  rw [List.range_add, List.map_append, List.reverse_append, List.map_map]
  congr 1
  · congr 1
    rw [← map_getD_range src n hn]
    apply List.map_congr_left
    intro j hj
    have : j < n := List.mem_range.mp hj
    simp [this]
  · congr 1
    apply List.map_congr_left
    intro i hi
    have : i < k := List.mem_range.mp hi
    simp [Nat.not_le.mpr this]

theorem Frame.of_copied (g : World) (b n : Nat) (src : List Nat) :
    Frame (fun a => a ≠ b) g (copied g b n src) := by
  refine ⟨?_, ?_, rfl, rfl, rfl, rfl, rfl⟩
  · intro a ha; rw [copied_other _ _ _ _ _ ha]
  · intro a ha; rw [copied_other _ _ _ _ _ ha]

/-- Copying into a buffer that is on neither list keeps the pool invariant. -/
theorem PoolInv.keep_copied {cfg : Config} {g : World} {E F Y : List Nat} {n b : Nat}
    (h : PoolInv cfg g E F Y n) (hb : b ∉ E ++ F) (k : Nat) (src : List Nat) :
    PoolInv cfg (copied g b k src) E F Y n := by
  refine h.update (fun a => copied_next _ _ _ _ _) ?_ rfl rfl rfl rfl
  intro a ha
  rw [copied_other]
  rintro rfl
  exact hb ha

theorem Inv.untouched_copy {cfg : Config} {w : gcWork} {g : World} {E F X : List Nat}
    (h : Inv cfg w g E F X) (hne : w.wbuf1 ≠ 0) (n : Nat) (src : List Nat) :
    Untouched X g (copied g w.wbuf1 n src) :=
  (Frame.of_copied g w.wbuf1 n src).untouched
    (fun _ ha e => (h.local_facts hne).2.2.2.2.2.1 (e ▸ ha))

/-- Copying pointers into `wbuf1` when it has room for them. -/
theorem Inv.copy1 {cfg : Config} {w : gcWork} {g : World} {E F X : List Nat}
    (h : Inv cfg w g E F X) (hne : w.wbuf1 ≠ 0) (n : Nat) (src : List Nat)
    (hn : n ≤ src.length) (hroom : (g.bufs w.wbuf1).nobj + n ≤ cfg.C) :
    Inv cfg w (copied g w.wbuf1 n src) E F X ∧
      absOf w (copied g w.wbuf1 n src) F =
        { (absOf w g F) with t1 := (src.take n).reverse ++ (absOf w g F).t1 } := by
  obtain ⟨hp, hb1, hb2⟩ := h.pool_cons hne
  obtain ⟨hv1, hv2, h12, h1EF, h2EF, h1X, h2X⟩ := h.local_facts hne
  have hfr := Frame.of_copied g w.wbuf1 n src
  constructor
  · refine (Inv.of_pool (hp.keep_copied h1EF n src) ?_ ?_).1
    · rw [copied_nobj]; omega
    · rw [hfr.nobj _ (Ne.symm h12)]; exact hb2
  · rw [absOf_inited _ _ hne, absOf_inited _ _ hne]
    have e1 := tops_copied g w.wbuf1 n src hb1.1 hn
    have e2 : tops (copied g w.wbuf1 n src) w.wbuf2 = tops g w.wbuf2 := hfr.tops (Ne.symm h12)
    have e3 : F.map (tops (copied g w.wbuf1 n src)) = F.map (tops g) :=
      map_tops_congr hfr (fun a ha e => h1EF (by rw [← e]; exact List.mem_append_right _ ha))
    rw [e1, e2, e3]
    rfl

/-- The spans one iteration of the outer loop of `putBatch` may consume are paid for by
the pointers it copies and the full local buffers it flushes. -/
theorem Abs.batchStep_bound {C : Nat} (hC : 1 ≤ C) (A : Abs) (obj : List Nat)
    (hobj : 0 < obj.length) (hB : (A.flushAll C).t1.length < C) :
    (Abs.batchStep C A obj).2.length < obj.length ∧
      (Abs.batchStep C A obj).2.length + Abs.fulls C (Abs.batchStep C A obj).1 +
        (A.flushAll C).pushes ≤ obj.length + Abs.fulls C A + A.pushes := by
  have hn : 1 ≤ min (C - (A.flushAll C).t1.length) obj.length := by omega
  have hd : (Abs.batchStep C A obj).2.length =
      obj.length - min (C - (A.flushAll C).t1.length) obj.length := by
    simp [Abs.batchStep]
  have hf1 : Abs.fulls C (Abs.batchStep C A obj).1 ≤
      1 + (if (A.flushAll C).t2.length = C then 1 else 0) := by
    simp only [Abs.batchStep, Abs.fulls]
    split <;> omega
  refine ⟨by omega, ?_⟩
  rw [hd]
  by_cases c1 : A.t1.length = C
  · by_cases c2 : A.flush1.t1.length = C
    · have e : A.flushAll C = A.flush1.flush1 := by simp only [Abs.flushAll, c1, c2, if_true]
      have c2' : A.t2.length = C := c2
      rw [e] at hf1 hn ⊢
      have ht2 : A.flush1.flush1.t2 = [] := rfl
      have hp : A.flush1.flush1.pushes = A.pushes + 1 + 1 := rfl
      have hfa : Abs.fulls C A = 2 := by simp only [Abs.fulls, c1, c2', if_true]
      rw [ht2] at hf1
      simp only [List.length_nil] at hf1
      have : ¬ (0 = C) := by omega
      rw [if_neg this] at hf1
      omega
    · have e : A.flushAll C = A.flush1 := by
        simp only [Abs.flushAll, c1, c2, if_true, if_false]
      rw [e] at hf1 hn ⊢
      have ht2 : A.flush1.t2 = [] := rfl
      have hp : A.flush1.pushes = A.pushes + 1 := rfl
      have hfa : 1 ≤ Abs.fulls C A := by simp only [Abs.fulls, c1, if_true]; omega
      rw [ht2] at hf1
      simp only [List.length_nil] at hf1
      have : ¬ (0 = C) := by omega
      rw [if_neg this] at hf1
      omega
  · have e : A.flushAll C = A := by simp only [Abs.flushAll, c1, if_false]
    rw [e] at hf1 hn ⊢
    have hfa : Abs.fulls C A = (if A.t2.length = C then 1 else 0) := by
      simp only [Abs.fulls, c1, if_false]; omega
    omega

theorem putBatchLoop_nil (cfg : Config) (inner fuel : Nat) (w : gcWork) (g : World) (b : Nat)
    (fl : Bool) : gcWork.putBatchLoop cfg inner (fuel + 1) w g b fl [] = .ok (w, g, fl) := by
  simp [gcWork.putBatchLoop]

theorem putBatchLoop_cons (cfg : Config) (inner fuel : Nat) (w : gcWork) (g : World) (b : Nat)
    (fl : Bool) (obj : List Nat) (hobj : 0 < obj.length) :
    gcWork.putBatchLoop cfg inner (fuel + 1) w g b fl obj =
      Except.bind (gcWork.putBatchFlush cfg inner w g b fl) (fun r =>
        Except.bind (getNobj r.2.1 r.2.2.1) (fun k =>
          if k < 0 ∨ (cfg.C : Int) < k then .error .indexOutOfRange
          else
            Except.bind (getNobj (copyObjs r.2.1 r.2.2.1 k.toNat
                (min (cfg.C - k.toNat) obj.length) obj) r.2.2.1) (fun k1 =>
              Except.bind (setNobj (copyObjs r.2.1 r.2.2.1 k.toNat
                  (min (cfg.C - k.toNat) obj.length) obj) r.2.2.1
                  (k1 + (min (cfg.C - k.toNat) obj.length : Nat))) (fun g3 =>
                gcWork.putBatchLoop cfg inner fuel r.1 g3 r.2.2.1 r.2.2.2
                  (obj.drop (min (cfg.C - k.toNat) obj.length)))))) := by
  rw [gcWork.putBatchLoop]
  simp only [gt_iff_lt, hobj, if_true, bind]

theorem copyObjs_nobj (g : World) (b k n : Nat) (src : List Nat) (a : Nat) :
    ((copyObjs g b k n src).bufs a).nobj = (g.bufs a).nobj := by
  by_cases hab : a = b
  · subst hab; simp [copyObjs, setBuf]
  · simp [copyObjs, setBuf, hab]

/-- The outer loop of `putBatch` does what its list-level description says. -/
theorem putBatchLoop_wp {cfg : Config} {X : List Nat} (hC : 1 ≤ cfg.C) (inner : Nat) :
    ∀ (fuel : Nat) (obj : List Nat) (w : gcWork) (g : World) (E F : List Nat) (fl : Bool),
      Inv cfg w g E F X → w.wbuf1 ≠ 0 → obj.length ≤ fuel →
      Meets (obj.length + (absOf w g F).fulls cfg.C) (remaining g)
        (gcWork.putBatchLoop cfg (inner + 3) (fuel + 1) w g w.wbuf1 fl obj) (fun r => ∃ E1 F1,
          Inv cfg r.1 r.2.1 E1 F1 X ∧ r.1.wbuf1 ≠ 0 ∧
          absOf r.1 r.2.1 F1 = Abs.putBatchLoop cfg.C (fuel + 1) (absOf w g F) obj ∧
          remaining g ≤ remaining r.2.1 + (obj.length + (absOf w g F).fulls cfg.C) ∧
          Untouched X g r.2.1)
  | fuel, [], w, g, E, F, fl, h, hne, _ => by
    rw [putBatchLoop_nil]
    exact ⟨E, F, h, hne, by simp [Abs.putBatchLoop], Nat.le_add_right _ _, Untouched.unchanged X g⟩
  | 0, _ :: _, w, g, E, F, fl, h, hne, hlen => by simp at hlen
  | fuel + 1, p :: ps, w, g, E, F, fl, h, hne, hlen => by
    have hobj : 0 < (p :: ps).length := by simp
    rw [putBatchLoop_cons cfg _ _ _ _ _ _ _ hobj]
    refine Meets.bind_except ((flush_wp h hne hC inner fl).weaken (by omega)) ?_
    rintro ⟨w1, g1, b1, fl1⟩ ⟨E1, F1, hi1, hne1, hb1, hn1, ha1, hr1, hu1⟩
    simp only at hi1 hne1 hb1 hn1 ha1 hr1 hu1
    subst hb1
    obtain ⟨_, hk, _⟩ := hi1.pool_cons hne1
    have hlenB : ((absOf w g F).flushAll cfg.C).t1.length = (g1.bufs w1.wbuf1).nobj.toNat := by
      rw [← ha1, absOf_inited _ _ hne1]
      exact tops_length _ _
    have hB : ((absOf w g F).flushAll cfg.C).t1.length < cfg.C := by
      rw [hlenB]; omega
    obtain ⟨hdrop, hpot⟩ := Abs.batchStep_bound hC (absOf w g F) (p :: ps) hobj hB
    have hcond : ¬ ((g1.bufs w1.wbuf1).nobj < 0 ∨ (cfg.C : Int) < (g1.bufs w1.wbuf1).nobj) := by
      omega
    obtain ⟨hi2, ha2⟩ := hi1.copy1 hne1
      (min (cfg.C - (g1.bufs w1.wbuf1).nobj.toNat) (p :: ps).length) (p :: ps)
      (Nat.min_le_right _ _) (by omega)
    have hstep : (Abs.batchStep cfg.C (absOf w g F) (p :: ps)).1 =
        absOf w1 (copied g1 w1.wbuf1
          (min (cfg.C - (g1.bufs w1.wbuf1).nobj.toNat) (p :: ps).length) (p :: ps)) F1 := by
      rw [ha2, ha1]
      simp only [Abs.batchStep, hlenB]
    have hstep2 : (Abs.batchStep cfg.C (absOf w g F) (p :: ps)).2 =
        (p :: ps).drop (min (cfg.C - (g1.bufs w1.wbuf1).nobj.toNat) (p :: ps).length) := by
      simp only [Abs.batchStep, hlenB]
    simp only [getNobj, hne1, if_false, Except.bind, hcond, copyObjs_nobj, setNobj]
    have ih := putBatchLoop_wp hC inner fuel
      ((p :: ps).drop (min (cfg.C - (g1.bufs w1.wbuf1).nobj.toNat) (p :: ps).length)) w1
      (copied g1 w1.wbuf1 (min (cfg.C - (g1.bufs w1.wbuf1).nobj.toNat) (p :: ps).length)
        (p :: ps)) E1 F1 fl1 hi2 hne1 (by rw [← hstep2]; omega)
    have hpu : (absOf w1 g1 F1).pushes = ((absOf w g F).flushAll cfg.C).pushes := by rw [ha1]
    have hgoal : Abs.putBatchLoop cfg.C (fuel + 1 + 1) (absOf w g F) (p :: ps) =
        Abs.putBatchLoop cfg.C (fuel + 1) (absOf w1 (copied g1 w1.wbuf1
          (min (cfg.C - (g1.bufs w1.wbuf1).nobj.toNat) (p :: ps).length) (p :: ps)) F1)
          ((p :: ps).drop (min (cfg.C - (g1.bufs w1.wbuf1).nobj.toNat) (p :: ps).length)) := by
      conv_lhs => rw [Abs.putBatchLoop]
      simp only [gt_iff_lt, hobj, if_true]
      rw [hstep, hstep2]
    rw [hstep, hstep2] at hpot
    rw [hstep2] at hdrop
    refine (ih.weaken ?_).imp ?_
    · intro hlt
      have hr : remaining (copied g1 w1.wbuf1
          (min (cfg.C - (g1.bufs w1.wbuf1).nobj.toNat) (p :: ps).length) (p :: ps))
          = remaining g1 := rfl
      rw [hr] at hlt
      omega
    · rintro r ⟨E2, F2, q1, q2, q3, q4, q5⟩
      refine ⟨E2, F2, q1, q2, ?_, ?_, (hu1.comp (hi1.untouched_copy hne1 _ _)).comp q5⟩
      · rw [q3, hgoal]
      · have hr : remaining (copied g1 w1.wbuf1
            (min (cfg.C - (g1.bufs w1.wbuf1).nobj.toNat) (p :: ps).length) (p :: ps))
            = remaining g1 := rfl
        rw [hr] at q4
        omega

theorem Abs.fulls_le (C : Nat) (A : Abs) : Abs.fulls C A ≤ 2 := by
  simp only [Abs.fulls]
  split <;> split <;> omega

/-- What `gcWork.putBatch` does, from any state of the queue, with fuel for its loops. -/
theorem putBatch_wp {cfg : Config} {w : gcWork} {g : World} {E F X : List Nat}
    (h : Inv cfg w g E F X) (hC : 1 ≤ cfg.C) (obj : List Nat) (fuel : Nat)
    (hfuel : obj.length + 3 ≤ fuel) :
    Meets (obj.length + 4) (remaining g) (gcWork.putBatch cfg fuel w g obj) (fun r => ∃ E1 F1,
      Inv cfg r.1 r.2 E1 F1 X ∧
      absOf r.1 r.2 F1 = Abs.putBatch cfg.C fuel (absOf w g F) obj ∧
      remaining g ≤ remaining r.2 + (obj.length + 4) ∧ Untouched X g r.2) := by
  by_cases hobj : obj.length = 0
  · simp only [gcWork.putBatch, hobj, if_true]
    exact ⟨E, F, h, by simp [Abs.putBatch, hobj], Nat.le_add_right _ _, Untouched.unchanged X g⟩
  · obtain ⟨k, rfl⟩ : ∃ k, fuel = k + 3 := ⟨fuel - 3, by omega⟩
    have key : ∀ (w1 : gcWork) (g1 : World) (E1 F1 : List Nat), Inv cfg w1 g1 E1 F1 X →
        w1.wbuf1 ≠ 0 → absOf w1 g1 F1 = (absOf w g F).init → remaining g ≤ remaining g1 + 2 →
        Untouched X g g1 →
        Meets (obj.length + 4) (remaining g)
          (Except.bind (gcWork.putBatchLoop cfg (k + 3) (k + 3) w1 g1 w1.wbuf1 false obj)
            (fun r => if r.2.2 = true ∧ r.2.1.gcphase = GCPhase.GCmark then
                .ok (r.1, enlistWorker r.2.1) else .ok (r.1, r.2.1)))
          (fun r => ∃ E1 F1, Inv cfg r.1 r.2 E1 F1 X ∧
            absOf r.1 r.2 F1 = Abs.putBatch cfg.C (k + 3) (absOf w g F) obj ∧
            remaining g ≤ remaining r.2 + (obj.length + 4) ∧ Untouched X g r.2) := by
      intro w1 g1 E1 F1 hi1 hne1 ha1 hr1 hu1
      have hf := Abs.fulls_le cfg.C (absOf w1 g1 F1)
      refine Meets.bind_except
        ((putBatchLoop_wp hC k (k + 2) obj w1 g1 E1 F1 false hi1 hne1 (by omega)).weaken
          (by omega)) ?_
      rintro ⟨w2, g2, fl2⟩ ⟨E2, F2, q1, q2, q3, q4, q5⟩
      simp only at q1 q2 q3 q4 q5
      have habs : absOf w2 g2 F2 = Abs.putBatch cfg.C (k + 3) (absOf w g F) obj := by
        rw [q3, ha1]
        simp only [Abs.putBatch, hobj, if_false]
      have hu2 : Untouched X g g2 := hu1.comp q5
      split
      · exact ⟨E2, F2, q1.inv_enlist, habs, by show remaining g ≤ remaining g2 + _; omega, hu2⟩
      · exact ⟨E2, F2, q1, habs, by show remaining g ≤ remaining g2 + _; omega, hu2⟩
    by_cases hw : w.wbuf1 = 0
    · have hpb : gcWork.putBatch cfg (k + 3) w g obj =
          Except.bind (gcWork.init cfg w g) (fun r0 =>
            Except.bind (gcWork.putBatchLoop cfg (k + 3) (k + 3) r0.1 r0.2 r0.1.wbuf1 false obj)
              (fun r => if r.2.2 = true ∧ r.2.1.gcphase = GCPhase.GCmark then
                  .ok (r.1, enlistWorker r.2.1) else .ok (r.1, r.2.1))) := by
        simp only [gcWork.putBatch, hobj, if_false, hw, if_true, bind]
      rw [hpb]
      refine Meets.bind_except ((init_wp h hw).weaken (by omega)) ?_
      rintro ⟨w1, g1⟩ ⟨E1, F1, hi1, hne1, ha1, hr1, _, hfr1, _⟩
      exact key w1 g1 E1 F1 hi1 hne1 ha1 hr1 (hfr1.untouched (fun a ha => by simp [ha]))
    · have hpb : gcWork.putBatch cfg (k + 3) w g obj =
          Except.bind (gcWork.putBatchLoop cfg (k + 3) (k + 3) w g w.wbuf1 false obj)
            (fun r => if r.2.2 = true ∧ r.2.1.gcphase = GCPhase.GCmark then
                .ok (r.1, enlistWorker r.2.1) else .ok (r.1, r.2.1)) := by
        simp only [gcWork.putBatch, hobj, if_false, hw, bind]
        rfl
      rw [hpb]
      exact key w g E F h hw
        (Abs.init_of_inited (absOf_inited_flag g F hw)).symm (Nat.le_add_right _ _)
        (Untouched.unchanged X g)

theorem Abs.flush1_perm (A : Abs) : A.flush1.stack.Perm A.stack := by
  simp only [Abs.flush1, Abs.stack, List.append_nil, List.flatten_cons, List.append_assoc]
  exact (List.perm_append_comm_assoc _ _ _)

theorem Abs.flushAll_perm (C : Nat) (A : Abs) : (A.flushAll C).stack.Perm A.stack := by
  unfold Abs.flushAll
  split
  · split
    · exact (Abs.flush1_perm _).trans (Abs.flush1_perm _)
    · exact Abs.flush1_perm _
  · exact List.Perm.refl _

theorem Abs.flushAll_bounded {C : Nat} (hC : 1 ≤ C) {A : Abs} (h : A.Bounded C) :
    (A.flushAll C).t1.length < C ∧ (A.flushAll C).t2.length ≤ C := by
  obtain ⟨h1, h2⟩ := h
  unfold Abs.flushAll
  split
  · split
    · exact ⟨by show ([] : List Nat).length < C; simpa using hC,
        by show ([] : List Nat).length ≤ C; simp⟩
    · rename_i c2
      have c2' : ¬ A.t2.length = C := c2
      exact ⟨by show A.t2.length < C; omega, by show ([] : List Nat).length ≤ C; simp⟩
  · rename_i c1
    exact ⟨by omega, h2⟩

theorem Abs.batchStep_perm {C : Nat} (hC : 1 ≤ C) {A : Abs} (h : A.Bounded C) (obj : List Nat) :
    ((Abs.batchStep C A obj).1.stack ++ (Abs.batchStep C A obj).2).Perm (obj ++ A.stack) ∧
      (Abs.batchStep C A obj).1.Bounded C ∧
      (0 < obj.length → (Abs.batchStep C A obj).2.length < obj.length) := by
  obtain ⟨hb1, hb2⟩ := Abs.flushAll_bounded hC h
  have hp := Abs.flushAll_perm C A
  refine ⟨?_, ⟨?_, hb2⟩, ?_⟩
  · have hgen : ∀ (B : Abs) (n : Nat),
        (({ B with t1 := (obj.take n).reverse ++ B.t1 } : Abs).stack ++ obj.drop n).Perm
          (obj ++ B.stack) := by
      intro B n
      have e : ({ B with t1 := (obj.take n).reverse ++ B.t1 } : Abs).stack =
          (obj.take n).reverse ++ B.stack := by
        simp [Abs.stack]
      rw [e, List.append_assoc]
      have h1 : ((obj.take n).reverse ++ (B.stack ++ obj.drop n)).Perm
          (obj.take n ++ (obj.drop n ++ B.stack)) :=
        List.Perm.append (List.reverse_perm _) List.perm_append_comm
      refine h1.trans ?_
      rw [← List.append_assoc, List.take_append_drop]
    exact (hgen (A.flushAll C) _).trans (List.Perm.append_left _ hp)
  · simp only [Abs.batchStep, List.length_append, List.length_reverse, List.length_take]
    omega
  · intro hobj
    simp only [Abs.batchStep, List.length_drop]
    omega

theorem Abs.putBatchLoop_perm {C : Nat} (hC : 1 ≤ C) :
    ∀ (fuel : Nat) (obj : List Nat) (A : Abs), A.Bounded C → obj.length < fuel →
      (Abs.putBatchLoop C fuel A obj).stack.Perm (obj ++ A.stack)
  | 0, _, _, _, hlt => by omega
  | fuel + 1, obj, A, hb, hlt => by
    rw [Abs.putBatchLoop]
    split
    · rename_i hobj
      obtain ⟨hp, hb1, hd⟩ := Abs.batchStep_perm hC hb obj
      have ih := Abs.putBatchLoop_perm hC fuel (Abs.batchStep C A obj).2
        (Abs.batchStep C A obj).1 hb1 (by have := hd hobj; omega)
      exact ih.trans (List.perm_append_comm.trans hp)
    · rename_i hobj
      have : obj = [] := List.eq_nil_of_length_eq_zero (by omega)
      subst this
      simp

/-- The local buffers of the queue hold at most `C` pointers each, also once `init` has
taken its buffers. -/
theorem absOf_init_bounded {cfg : Config} {w : gcWork} {g : World} {E F X : List Nat}
    (h : Inv cfg w g E F X) : (absOf w g F).init.Bounded cfg.C := by
  by_cases hw : w.wbuf1 = 0
  · rw [absOf_uninit g F hw]
    cases F with
    | nil => exact ⟨by simp [Abs.init], by simp [Abs.init]⟩
    | cons b F =>
      have hn := h.pool.fullN b (List.mem_cons_self _ _)
      refine ⟨by simp [Abs.init], ?_⟩
      show (tops g b).length ≤ cfg.C
      rw [tops_length]; omega
  · obtain ⟨_, hb1, hb2⟩ := h.pool_cons hw
    rw [Abs.init_of_inited (absOf_inited_flag g F hw), absOf_inited g F hw]
    exact ⟨by show (tops g w.wbuf1).length ≤ cfg.C; rw [tops_length]; omega,
      by show (tops g w.wbuf2).length ≤ cfg.C; rw [tops_length]; omega⟩

theorem Abs.putBatch_perm {C : Nat} (hC : 1 ≤ C) {A : Abs} (hs : A.Sound)
    (hb : A.init.Bounded C) (obj : List Nat) (fuel : Nat) (hfuel : obj.length < fuel) :
    (Abs.putBatch C fuel A obj).stack.Perm (obj ++ A.stack) := by
  unfold Abs.putBatch
  split
  · rename_i hobj
    have : obj = [] := List.eq_nil_of_length_eq_zero hobj
    subst this
    simp
  · rw [← Abs.stack_init hs]
    exact Abs.putBatchLoop_perm hC fuel obj A.init hb hfuel

/-- Claim C4: for every state satisfying the data-model invariant and every sequence `s`
of pointers, `putBatch(s)` and the successive `put` calls over `s` both return, and after
either the multiset of pointers held in `wbuf1`, `wbuf2` and the buffers of the global
full list is the multiset held before plus the elements of `s`. Capacity is at least
`1`, the loops of `putBatch` have fuel, and the memory provider has `s.length + 4`
spans left. -/
theorem putBatch_multiset (cfg : Config) (w : gcWork) (g : World) (E F X : List Nat)
    (s : List Nat) (fuel : Nat) (hC : 1 ≤ cfg.C) (h : Inv cfg w g E F X)
    (hfuel : s.length + 3 ≤ fuel) (hsup : s.length + 4 ≤ remaining g) :
    (∃ w1 g1 E1 F1, gcWork.putBatch cfg fuel w g s = .ok (w1, g1) ∧ Inv cfg w1 g1 E1 F1 X ∧
        held w1 g1 F1 = held w g F + Multiset.ofList s) ∧
      (∃ w2 g2 E2 F2, putAll cfg w g s = .ok (w2, g2) ∧ Inv cfg w2 g2 E2 F2 X ∧
        held w2 g2 F2 = held w g F + Multiset.ofList s) := by
  constructor
  · obtain ⟨⟨w1, g1⟩, hr, E1, F1, hi1, ha1, _⟩ := (putBatch_wp h hC s fuel hfuel).exists_ok hsup
    refine ⟨w1, g1, E1, F1, hr, hi1, ?_⟩
    have hp := Abs.putBatch_perm hC (absOf_sound h) (absOf_init_bounded h) s fuel (by omega)
    rw [held_eq, held_eq]
    simp only at ha1
    rw [ha1, Multiset.coe_add]
    exact Quotient.sound (hp.trans List.perm_append_comm)
  · obtain ⟨⟨w2, g2⟩, hr, E2, F2, hi2, _, ha2, _⟩ :=
      (putAll_wp hC s w g E F h).exists_ok (by omega)
    refine ⟨w2, g2, E2, F2, hr, hi2, ?_⟩
    obtain ⟨_, hp⟩ := Abs.putAll_perm hC s (absOf w g F) (absOf_sound h)
    rw [held_eq, held_eq]
    simp only at ha2
    rw [ha2, Multiset.coe_add]
    exact Quotient.sound (hp.trans List.perm_append_comm)

/-- Witness of C4: six pointers at capacity `2` into a queue without buffers. -/
theorem putBatch_multiset_witness :
    (∃ w1 g1 E1 F1, gcWork.putBatch (sampleConfig 2) 9 gcWork.zero
          (sampleWorld (sampleSpans 10)) [11, 12, 13, 14, 15, 16] = .ok (w1, g1) ∧
        Inv (sampleConfig 2) w1 g1 E1 F1 [] ∧
        held w1 g1 F1 = held gcWork.zero (sampleWorld (sampleSpans 10)) [] +
          Multiset.ofList [11, 12, 13, 14, 15, 16]) ∧
      (∃ w2 g2 E2 F2, putAll (sampleConfig 2) gcWork.zero
          (sampleWorld (sampleSpans 10)) [11, 12, 13, 14, 15, 16] = .ok (w2, g2) ∧
        Inv (sampleConfig 2) w2 g2 E2 F2 [] ∧
        held w2 g2 F2 = held gcWork.zero (sampleWorld (sampleSpans 10)) [] +
          Multiset.ofList [11, 12, 13, 14, 15, 16]) :=
  putBatch_multiset (sampleConfig 2) gcWork.zero (sampleWorld (sampleSpans 10)) [] [] []
    [11, 12, 13, 14, 15, 16] 9 (by decide) (sample_inv 2 10 (by norm_num)) (by decide)
    (by rw [sample_remaining]; decide)

theorem Abs.counts_put (C p : Nat) {A : Abs} (hi : A.inited = true) :
    (Abs.put C p A).inited = true ∧ (Abs.put C p A).counts = countPut C A.counts := by
  simp only [Abs.put, Abs.init_of_inited hi, countPut, Abs.counts]
  split
  · exact ⟨hi, by simp⟩
  · split
    · exact ⟨hi, by simp⟩
    · exact ⟨hi, by simp⟩

theorem Abs.counts_putAll (C : Nat) :
    ∀ (l : List Nat) (A : Abs), A.inited = true →
      (Abs.putAll C A l).counts = (countPut C)^[l.length] A.counts
  | [], A, _ => rfl
  | p :: l, A, hi => by
    obtain ⟨h1, h2⟩ := Abs.counts_put C p hi
    show (Abs.putAll C (Abs.put C p A) l).counts = _
    rw [Abs.counts_putAll C l _ h1, h2]
    rfl

theorem countPut_fill (C : Nat) : ∀ (n a b P : Nat), a + n ≤ C →
    (countPut C)^[n] (a, b, P) = (a + n, b, P)
  | 0, a, b, P, _ => rfl
  | n + 1, a, b, P, h => by
    rw [Function.iterate_succ_apply]
    have : countPut C (a, b, P) = (a + 1, b, P) := by
      simp only [countPut]
      rw [if_pos (by omega)]
    rw [this, countPut_fill C n (a + 1) b P (by omega)]
    congr 1
    omega

/-- After `3 * C` successive `put` calls into fresh buffers one buffer has been
published. -/
theorem countPut_three (C P : Nat) (hC : 1 ≤ C) :
    (countPut C)^[3 * C] (0, 0, P) = (C, C, P + 1) := by
  have e : 3 * C = (C - 1) + (1 + ((C - 1) + (1 + C))) := by omega
  rw [e, Function.iterate_add_apply, Function.iterate_add_apply, Function.iterate_add_apply,
    Function.iterate_add_apply]
  rw [countPut_fill C C 0 0 P (by omega)]
  have s1 : (countPut C)^[1] (0 + C, 0, P) = (1, C, P) := by
    simp only [Function.iterate_one, countPut]
    rw [if_neg (by simp), if_pos (by simpa using hC)]
    simp
  rw [s1, countPut_fill C (C - 1) 1 C P (by omega)]
  have s2 : (countPut C)^[1] (1 + (C - 1), C, P) = (1, C, P + 1) := by
    simp only [Function.iterate_one, countPut]
    rw [if_neg (by omega), if_neg (by simp)]
    congr 2
    omega
  rw [s2, countPut_fill C (C - 1) 1 C (P + 1) (by omega)]
  congr 1
  omega

/-- One iteration of the outer loop of `putBatch` when `wbuf1` is empty or full, `wbuf2` is
empty and at least `C` pointers remain: `wbuf1` ends up full and is published if it was
full. -/
theorem Abs.batchStep_full {C : Nat} (hC : 1 ≤ C) (A : Abs) (obj : List Nat)
    (h1 : A.t1 = [] ∨ A.t1.length = C) (h2 : A.t2 = []) (hobj : C ≤ obj.length) :
    (Abs.batchStep C A obj).1.t1.length = C ∧ (Abs.batchStep C A obj).1.t2 = [] ∧
      (Abs.batchStep C A obj).1.pushes = A.pushes + (if A.t1 = [] then 0 else 1) ∧
      (Abs.batchStep C A obj).2.length = obj.length - C := by
  by_cases c1 : A.t1.length = C
  · have hne : A.t1 ≠ [] := by
      intro he; rw [he] at c1; simp at c1; omega
    have c2 : ¬ A.flush1.t1.length = C := by
      show ¬ A.t2.length = C
      rw [h2]; simp; omega
    have e : A.flushAll C = A.flush1 := by simp only [Abs.flushAll, c1, c2, if_true, if_false]
    have et : A.flush1.t1 = [] := h2
    simp only [Abs.batchStep, e, et, List.length_nil, Nat.sub_zero, Nat.min_eq_left hobj,
      List.append_nil, List.length_reverse, List.length_take, List.length_drop, if_neg hne]
    exact ⟨trivial, rfl, rfl, trivial⟩
  · have he : A.t1 = [] := by
      rcases h1 with h1 | h1
      · exact h1
      · exact absurd h1 c1
    have e : A.flushAll C = A := by simp only [Abs.flushAll, c1, if_false]
    simp only [Abs.batchStep, e, he, List.length_nil, Nat.sub_zero, Nat.min_eq_left hobj,
      List.append_nil, List.length_reverse, List.length_take, List.length_drop, if_true]
    exact ⟨trivial, h2, rfl, trivial⟩

/-- A `putBatch` of `3 * C` pointers into fresh buffers publishes two buffers. -/
theorem Abs.putBatchLoop_three {C : Nat} (hC : 1 ≤ C) (A : Abs) (obj : List Nat) (fuel : Nat)
    (h1 : A.t1 = []) (h2 : A.t2 = []) (hobj : obj.length = 3 * C) :
    (Abs.putBatchLoop C (fuel + 4) A obj).pushes = A.pushes + 2 := by
  obtain ⟨a1, a2, a3, a4⟩ := Abs.batchStep_full hC A obj (Or.inl h1) h2 (by omega)
  obtain ⟨b1, b2, b3, b4⟩ := Abs.batchStep_full hC (Abs.batchStep C A obj).1
    (Abs.batchStep C A obj).2 (Or.inr a1) a2 (by omega)
  obtain ⟨c1, c2, c3, c4⟩ := Abs.batchStep_full hC
    (Abs.batchStep C (Abs.batchStep C A obj).1 (Abs.batchStep C A obj).2).1
    (Abs.batchStep C (Abs.batchStep C A obj).1 (Abs.batchStep C A obj).2).2
    (Or.inr b1) b2 (by omega)
  have n1 : (Abs.batchStep C A obj).1.t1 ≠ [] := by
    intro he; rw [he] at a1; simp at a1; omega
  have n2 : (Abs.batchStep C (Abs.batchStep C A obj).1 (Abs.batchStep C A obj).2).1.t1 ≠ [] := by
    intro he; rw [he] at b1; simp at b1; omega
  rw [if_pos h1] at a3
  rw [if_neg n1] at b3
  rw [if_neg n2] at c3
  rw [Abs.putBatchLoop, if_pos (by omega), Abs.putBatchLoop, if_pos (by omega),
    Abs.putBatchLoop, if_pos (by omega), Abs.putBatchLoop, if_neg (by omega)]
  omega

theorem Abs.putAll_init (C : Nat) (A : Abs) (l : List Nat) (hl : l ≠ []) :
    Abs.putAll C A.init l = Abs.putAll C A l := by
  cases l with
  | nil => exact absurd rfl hl
  | cons p l =>
    show Abs.putAll C (Abs.put C p A.init) l = Abs.putAll C (Abs.put C p A) l
    rw [Abs.put_init]

/-- Counterexample to C5 as stated: at capacity `2`, from a queue without buffers and an
empty full list, `putBatch` of six pointers pushes two buffers onto the full list while
six successive `put` calls push one. -/
theorem putBatch_publishes_counterexample :
    Inv (sampleConfig 2) gcWork.zero (sampleWorld (sampleSpans 10)) [] [] [] ∧
      (gcWork.putBatch (sampleConfig 2) 9 gcWork.zero (sampleWorld (sampleSpans 10))
          [11, 12, 13, 14, 15, 16]).map (fun r => r.2.fullPushes) = .ok 2 ∧
      (putAll (sampleConfig 2) gcWork.zero (sampleWorld (sampleSpans 10))
          [11, 12, 13, 14, 15, 16]).map (fun r => r.2.fullPushes) = .ok 1 :=
  ⟨sample_inv 2 10 (by norm_num), rfl, rfl⟩

/-- Claim C5, amended: for every capacity `C ≥ 1` and every sequence `s` of length
`3 * C`, starting from a queue without buffers and an empty global full list, `putBatch(s)`
pushes exactly two buffers onto the global full list, while the `3 * C` successive `put`
calls over `s` push exactly one. -/
theorem putBatch_publishes (cfg : Config) (w : gcWork) (g : World) (E X : List Nat)
    (s : List Nat) (fuel : Nat) (hC : 1 ≤ cfg.C) (h : Inv cfg w g E [] X) (hw : w.wbuf1 = 0)
    (hs : s.length = 3 * cfg.C) (hfuel : s.length + 3 ≤ fuel)
    (hsup : s.length + 4 ≤ remaining g) :
    ∃ w1 g1 w2 g2, gcWork.putBatch cfg fuel w g s = .ok (w1, g1) ∧
      g1.fullPushes = g.fullPushes + 2 ∧
      putAll cfg w g s = .ok (w2, g2) ∧ g2.fullPushes = g.fullPushes + 1 := by
  obtain ⟨⟨w1, g1⟩, hr1, E1, F1, _, ha1, _⟩ := (putBatch_wp h hC s fuel hfuel).exists_ok hsup
  obtain ⟨⟨w2, g2⟩, hr2, E2, F2, _, _, ha2, _⟩ :=
    (putAll_wp hC s w g E [] h).exists_ok (by omega)
  simp only at ha1 ha2
  have hA : (absOf w g []).init =
      { inited := true, t1 := [], t2 := [], fl := [], pushes := g.fullPushes } := by
    rw [absOf_uninit g [] hw]; rfl
  have hne : s ≠ [] := by
    intro he; rw [he] at hs; simp at hs; omega
  refine ⟨w1, g1, w2, g2, hr1, ?_, hr2, ?_⟩
  · obtain ⟨f, rfl⟩ : ∃ f, fuel = f + 4 := ⟨fuel - 4, by omega⟩
    have hp := congrArg Abs.pushes ha1
    have hlen : ¬ s.length = 0 := by omega
    simp only [Abs.putBatch, hlen, if_false] at hp
    rw [Abs.putBatchLoop_three hC _ s f (by rw [hA]) (by rw [hA]) hs, hA] at hp
    exact hp
  · have hp := congrArg Abs.counts ha2
    rw [← Abs.putAll_init cfg.C _ s hne, Abs.counts_putAll cfg.C s _ (Abs.init_inited _), hs,
      hA] at hp
    have h3 := countPut_three cfg.C g.fullPushes hC
    have hc : ({ inited := true, t1 := [], t2 := [], fl := [], pushes := g.fullPushes } :
        Abs).counts = (0, 0, g.fullPushes) := rfl
    rw [hc, h3] at hp
    have := congrArg (fun c => c.2.2) hp
    exact this

/-- Witness of the amended C5 at capacity `2` with six pointers. -/
theorem putBatch_publishes_witness :
    ∃ w1 g1 w2 g2, gcWork.putBatch (sampleConfig 2) 9 gcWork.zero
          (sampleWorld (sampleSpans 10)) [11, 12, 13, 14, 15, 16] = .ok (w1, g1) ∧
      g1.fullPushes = (sampleWorld (sampleSpans 10)).fullPushes + 2 ∧
      putAll (sampleConfig 2) gcWork.zero (sampleWorld (sampleSpans 10))
          [11, 12, 13, 14, 15, 16] = .ok (w2, g2) ∧
      g2.fullPushes = (sampleWorld (sampleSpans 10)).fullPushes + 1 :=
  putBatch_publishes (sampleConfig 2) gcWork.zero (sampleWorld (sampleSpans 10)) [] []
    [11, 12, 13, 14, 15, 16] 9 (by decide) (sample_inv 2 10 (by norm_num)) rfl (by decide)
    (by decide) (by rw [sample_remaining]; decide)

/-! ## `dispose` -/

theorem heldBy_cons (g : World) (a : Nat) (L : List Nat) :
    heldBy g (a :: L) = Multiset.ofList (entries g a) + heldBy g L := by
  simp [heldBy, Multiset.coe_add]

theorem heldBy_nil (g : World) : heldBy g [] = 0 := rfl

theorem heldBy_append (g : World) (L M : List Nat) :
    heldBy g (L ++ M) = heldBy g L + heldBy g M := by
  simp [heldBy, Multiset.coe_add]

theorem heldBy_congr {P : Nat → Prop} {g g1 : World} (hf : Frame P g g1) {L : List Nat}
    (hL : ∀ a ∈ L, P a) : heldBy g1 L = heldBy g L := by
  unfold heldBy
  congr 1
  induction L with
  | nil => rfl
  | cons a L ih =>
    simp only [List.flatMap_cons]
    rw [hf.entries (hL a (List.mem_cons_self _ _)),
      ih (fun x hx => hL x (List.mem_cons_of_mem _ hx))]

theorem held_eq_heldBy (w : gcWork) (g : World) (F : List Nat) :
    held w g F = heldBy g (locals w) + heldBy g F := by
  rw [← heldBy_append]; rfl

theorem entries_nil_iff {g : World} {a : Nat} (h : 0 ≤ (g.bufs a).nobj) :
    entries g a = [] ↔ (g.bufs a).nobj = 0 := by
  constructor
  · intro he
    have := congrArg List.length he
    simp only [entries, List.length_map, List.length_range, List.length_nil] at this
    omega
  · intro he
    simp [entries, he]

/-- One of the two blocks of `dispose`: the buffer goes onto the empty list when it holds
nothing and onto the full list otherwise. -/
theorem disposeBuf_spec {cfg : Config} {g : World} {E F Y : List Nat} {n b : Nat}
    (w : gcWork) (h : PoolInv cfg g E F (b :: Y) n)
    (hb : 0 ≤ (g.bufs b).nobj ∧ (g.bufs b).nobj ≤ cfg.C) :
    ∃ w1 g1 E1 F1, gcWork.disposeBuf cfg w g b = .ok (w1, g1) ∧ PoolInv cfg g1 E1 F1 Y n ∧
      Frame (fun _ => True) g g1 ∧ remaining g1 = remaining g ∧
      w1.wbuf1 = w.wbuf1 ∧ w1.wbuf2 = w.wbuf2 ∧
      heldBy g1 F1 = heldBy g F + Multiset.ofList (entries g b) ∧
      (entries g b = [] → b ∈ E1) ∧ (entries g b ≠ [] → b ∈ F1) ∧
      (∀ a, a ∈ E → a ∈ E1) ∧ (∀ a, a ∈ F → a ∈ F1) := by
  have hv : Valid cfg b := h.valid b (by simp)
  by_cases c : (g.bufs b).nobj = 0
  · obtain ⟨g1, hg1, hp1, hf1, _, _, hr1⟩ := putempty_spec h c
    refine ⟨w, g1, b :: E, F, ?_, hp1, hf1, hr1, rfl, rfl, ?_, fun _ => List.mem_cons_self _ _,
      fun hne => absurd ((entries_nil_iff hb.1).mpr c) hne, fun a ha => List.mem_cons_of_mem _ ha,
      fun a ha => ha⟩
    · simp only [gcWork.disposeBuf, getNobj, hv.1, if_false, bind, Except.bind, c, if_true, hg1]
    · rw [heldBy_congr hf1 (fun _ _ => trivial), (entries_nil_iff hb.1).mpr c]
      simp
  · obtain ⟨g1, hg1, hp1, hf1, _, _, hr1⟩ := putfull_spec h (by omega)
    refine ⟨{ w with flushedWork := true }, g1, E, b :: F, ?_, hp1, hf1, hr1, rfl, rfl, ?_,
      fun he => absurd ((entries_nil_iff hb.1).mp he) c, fun _ => List.mem_cons_self _ _,
      fun a ha => ha, fun a ha => List.mem_cons_of_mem _ ha⟩
    · simp only [gcWork.disposeBuf, getNobj, hv.1, if_false, bind, Except.bind, c, hg1]
    · rw [heldBy_congr hf1 (fun _ _ => trivial), heldBy_cons, add_comm]

/-- The accounting at the end of `dispose` touches nothing the invariant speaks of. -/
theorem Inv.account {cfg : Config} {w : gcWork} {g : World} {E F X : List Nat}
    (h : Inv cfg w g E F X) (w1 : gcWork) (g1 : World)
    (hw1 : w1.wbuf1 = w.wbuf1) (hw2 : w1.wbuf2 = w.wbuf2) (hb : g1.bufs = g.bufs)
    (he : g1.empty = g.empty) (hf : g1.full = g.full) (hfr : g1.free = g.free)
    (hp : g1.provider = g.provider) : Inv cfg w1 g1 E F X := by
  have hl : locals w1 = locals w := by simp [locals, hw1, hw2]
  have hr : remaining g1 = remaining g := by simp [remaining, hfr, hp]
  refine ⟨?_, ?_, ?_⟩
  · rw [hl, hr]
    exact h.pool.update (fun a => by rw [hb]) (fun a _ => by rw [hb]) he hf hfr hp
  · rw [hw1, hw2]; exact h.both
  · rw [hl, hb]; exact h.localN

theorem disposeCounters_facts (w : gcWork) (g : World) :
    (gcWork.disposeCounters w g).1.wbuf1 = w.wbuf1 ∧
      (gcWork.disposeCounters w g).1.wbuf2 = w.wbuf2 ∧
      (gcWork.disposeCounters w g).2.bufs = g.bufs ∧
      (gcWork.disposeCounters w g).2.empty = g.empty ∧
      (gcWork.disposeCounters w g).2.full = g.full ∧
      (gcWork.disposeCounters w g).2.free = g.free ∧
      (gcWork.disposeCounters w g).2.provider = g.provider ∧
      (gcWork.disposeCounters w g).2.fullPushes = g.fullPushes := by
  unfold gcWork.disposeCounters
  simp only
  split <;> split <;> simp

theorem heldBy_bufs {g g1 : World} (hb : g1.bufs = g.bufs) (L : List Nat) :
    heldBy g1 L = heldBy g L := by
  unfold heldBy entries
  rw [hb]

/-- What `gcWork.dispose` does: it never fails, leaves the queue without buffers, and
moves every pointer of the local buffers to the full list. -/
theorem dispose_spec {cfg : Config} {w : gcWork} {g : World} {E F X : List Nat}
    (h : Inv cfg w g E F X) :
    ∃ w1 g1 E1 F1, gcWork.dispose cfg w g = .ok (w1, g1) ∧ Inv cfg w1 g1 E1 F1 X ∧
      w1.wbuf1 = 0 ∧ w1.wbuf2 = 0 ∧ remaining g1 = remaining g ∧
      heldBy g1 F1 = heldBy g F + heldBy g (locals w) ∧
      (∀ a ∈ locals w, (entries g a = [] → a ∈ E1) ∧ (entries g a ≠ [] → a ∈ F1)) ∧
      Untouched X g g1 := by
  by_cases hw : w.wbuf1 = 0
  · obtain ⟨f1, f2, f3, f4, f5, f6, f7, _⟩ := disposeCounters_facts w g
    have hi := h.account (gcWork.disposeCounters w g).1 (gcWork.disposeCounters w g).2
      f1 f2 f3 f4 f5 f6 f7
    refine ⟨_, _, E, F, ?_, hi, by rw [f1]; exact hw, by rw [f2]; exact h.both hw,
      by simp [remaining, f6, f7], ?_, ?_, Untouched.of_bufs f3 X⟩
    · simp only [gcWork.dispose, gcWork.disposeBufs, hw, ne_eq, not_true_eq_false, if_false,
        bind, Except.bind]
    · rw [locals_of_eq hw, heldBy_nil, add_zero]
      exact heldBy_bufs f3 F
    · rw [locals_of_eq hw]; simp
  · obtain ⟨hp, hb1, hb2⟩ := h.pool_cons hw
    obtain ⟨wa, ga, Ea, Fa, hra, hpa, hfa, hrema, ha1, ha2, hha, hea, hfa', hEa, hFa⟩ :=
      disposeBuf_spec w hp hb1
    have hb2' : 0 ≤ (ga.bufs wa.wbuf2).nobj ∧ (ga.bufs wa.wbuf2).nobj ≤ cfg.C := by
      rw [ha2, hfa.nobj _ trivial]; exact hb2
    rw [← ha2] at hpa
    obtain ⟨wc, gc, Ec, Fc, hrc, hpc, hfc, hremc, hc1, hc2, hhc, hec, hfc', hEc, hFc⟩ :=
      disposeBuf_spec { wa with wbuf1 := 0 } hpa hb2'
    have hwc1 : wc.wbuf1 = 0 := hc1
    obtain ⟨f1, f2, f3, f4, f5, f6, f7, _⟩ := disposeCounters_facts { wc with wbuf2 := 0 } gc
    have hrem : remaining gc = remaining g := by rw [hremc, hrema]
    have hic : Inv cfg { wc with wbuf2 := 0 } gc Ec Fc X := by
      refine ⟨?_, fun _ => rfl, ?_⟩
      · have hl : locals ({ wc with wbuf2 := 0 } : gcWork) = [] := by simp [locals, hwc1]
        rw [hl, List.nil_append, hrem]
        exact hpc
      · have hl : locals ({ wc with wbuf2 := 0 } : gcWork) = [] := by simp [locals, hwc1]
        rw [hl]; simp
    have hi := hic.account (gcWork.disposeCounters { wc with wbuf2 := 0 } gc).1
      (gcWork.disposeCounters { wc with wbuf2 := 0 } gc).2 f1 f2 f3 f4 f5 f6 f7
    have he2 : entries ga w.wbuf2 = entries g w.wbuf2 := hfa.entries trivial
    refine ⟨_, _, Ec, Fc, ?_, hi, by rw [f1]; exact hwc1, by rw [f2], ?_, ?_, ?_,
      ((hfa.untouched (fun _ _ => trivial)).comp (hfc.untouched (fun _ _ => trivial))).comp
        (Untouched.of_bufs f3 X)⟩
    · simp only [gcWork.dispose, gcWork.disposeBufs, hw, ne_eq, not_false_eq_true, if_true,
        bind, Except.bind, hra, hrc]
    · simp only [remaining, f6, f7]; exact hrem
    · have e1 : heldBy (gcWork.disposeCounters { wc with wbuf2 := 0 } gc).2 Fc = heldBy gc Fc :=
        heldBy_bufs f3 Fc
      rw [e1, hhc, hha, ha2, he2, locals_of_ne hw, heldBy_cons, heldBy_cons, heldBy_nil, add_zero,
        add_assoc]
    · intro a ha
      rw [locals_of_ne hw] at ha
      simp only [List.mem_cons, List.mem_singleton, List.not_mem_nil, or_false] at ha
      rcases ha with rfl | rfl
      · exact ⟨fun he => hEc _ (hea he), fun he => hFc _ (hfa' he)⟩
      · rw [ha2] at hec hfc'
        exact ⟨fun he => hec (by rw [he2]; exact he), fun he => hfc' (by rw [he2]; exact he)⟩

/-- The sample queue satisfies the invariant, and keeps spans in supply. -/
theorem sampleQueue_inv (c : Nat) (ps : List Nat) (hc : 1 ≤ c) (hps : ps.length + 3 ≤ 20) :
    ∃ E F, Inv (sampleConfig c) (sampleQueue c ps).1 (sampleQueue c ps).2 E F [] ∧
      2 ≤ remaining (sampleQueue c ps).2 := by
  have hinv := sample_inv c 20 (by norm_num)
  obtain ⟨r, hr, E1, F1, hi, _, _, hrem⟩ :=
    (@putAll_wp (sampleConfig c) [] hc ps gcWork.zero _ [] [] hinv).exists_ok
      (by rw [sample_remaining]; omega)
  have hq : sampleQueue c ps = r := by simp only [sampleQueue, hr]
  rw [hq]
  rw [sample_remaining] at hrem
  exact ⟨E1, F1, hi, by omega⟩

theorem empty_of_nil (w : gcWork) (g : World) (h : w.wbuf1 = 0) : gcWork.empty w g = .ok true := by
  simp [gcWork.empty, h]

/-- Claim C2: in every state satisfying the data-model invariant (both local buffers nil
or neither, for a well-formed pool), `dispose` returns; afterwards `wbuf1` and `wbuf2` are
nil, `empty()` is true, and the multiset of pointers stored in the buffers of the global
full list is the multiset stored there before plus the multiset held in the two local
buffers; a local buffer that held pointers is on the full list and one that held none is
on the empty list. -/
theorem dispose_complete (cfg : Config) (w : gcWork) (g : World) (E F X : List Nat)
    (h : Inv cfg w g E F X) :
    ∃ w1 g1 E1 F1, gcWork.dispose cfg w g = .ok (w1, g1) ∧ Inv cfg w1 g1 E1 F1 X ∧
      w1.wbuf1 = 0 ∧ w1.wbuf2 = 0 ∧ gcWork.empty w1 g1 = .ok true ∧
      heldBy g1 F1 = heldBy g F + heldBy g (locals w) ∧
      (∀ a ∈ locals w, (entries g a = [] → a ∈ E1) ∧ (entries g a ≠ [] → a ∈ F1)) := by
  obtain ⟨w1, g1, E1, F1, hr, hi, h1, h2, _, hh, hm⟩ := dispose_spec h
  exact ⟨w1, g1, E1, F1, hr, hi, h1, h2, empty_of_nil w1 g1 h1, hh, hm.1⟩

/-- Witness of C2: the queue after three `put` calls at capacity `2`, whose two local
buffers hold `11, 12` and `13`. -/
theorem dispose_complete_witness :
    ∃ E F, Inv (sampleConfig 2) (sampleQueue 2 [11, 12, 13]).1 (sampleQueue 2 [11, 12, 13]).2
        E F [] ∧
      ∃ w1 g1 E1 F1, gcWork.dispose (sampleConfig 2) (sampleQueue 2 [11, 12, 13]).1
          (sampleQueue 2 [11, 12, 13]).2 = .ok (w1, g1) ∧
        Inv (sampleConfig 2) w1 g1 E1 F1 [] ∧
        w1.wbuf1 = 0 ∧ w1.wbuf2 = 0 ∧ gcWork.empty w1 g1 = .ok true ∧
        heldBy g1 F1 = heldBy (sampleQueue 2 [11, 12, 13]).2 F +
          heldBy (sampleQueue 2 [11, 12, 13]).2 (locals (sampleQueue 2 [11, 12, 13]).1) ∧
        (∀ a ∈ locals (sampleQueue 2 [11, 12, 13]).1,
          (entries (sampleQueue 2 [11, 12, 13]).2 a = [] → a ∈ E1) ∧
          (entries (sampleQueue 2 [11, 12, 13]).2 a ≠ [] → a ∈ F1)) := by
  obtain ⟨E, F, hi, _⟩ := sampleQueue_inv 2 [11, 12, 13] (by decide) (by decide)
  exact ⟨E, F, hi, dispose_complete (sampleConfig 2) _ _ E F [] hi⟩

/-! ## `handoff` and `balance` -/

theorem map_range_take (f : Nat → Nat) (m k : Nat) (hk : k ≤ m) :
    ((List.range m).map f).take k = (List.range k).map f := by
  apply List.ext_getElem
  · simp [hk]
  · intro i h1 h2
    simp

theorem map_range_drop (f : Nat → Nat) (m k : Nat) :
    ((List.range m).map f).drop k = (List.range (m - k)).map (fun i => f (k + i)) := by
  apply List.ext_getElem
  · simp
  · intro i h1 h2
    simp

theorem moveObjs_other (g : World) (dst src start n a : Nat) (h : a ≠ dst) :
    (moveObjs g dst src start n).bufs a = g.bufs a := by
  simp [moveObjs, setBuf, h]

theorem moveObjs_next (g : World) (dst src start n a : Nat) :
    ((moveObjs g dst src start n).bufs a).next = (g.bufs a).next := by
  by_cases h : a = dst
  · subst h; simp [moveObjs, setBuf]
  · rw [moveObjs_other _ _ _ _ _ _ h]

theorem moveObjs_nobj (g : World) (dst src start n a : Nat) :
    ((moveObjs g dst src start n).bufs a).nobj = (g.bufs a).nobj := by
  by_cases h : a = dst
  · subst h; simp [moveObjs, setBuf]
  · rw [moveObjs_other _ _ _ _ _ _ h]

theorem moveObjs_obj (g : World) (dst src start n : Nat) :
    ((moveObjs g dst src start n).bufs dst).obj =
      fun i => if i < n then (g.bufs src).obj (start + i) else (g.bufs dst).obj i := by
  simp [moveObjs, setBuf]

/-- The `memmove` of `handoff` keeps the pool invariant. -/
theorem PoolInv.keep_moveObjs {cfg : Config} {g : World} {E F Y : List Nat} {n : Nat}
    (h : PoolInv cfg g E F Y n) (dst src start k : Nat) :
    PoolInv cfg (moveObjs g dst src start k) E F Y n :=
  h.update (fun _ => moveObjs_next _ _ _ _ _ _) (fun _ _ => moveObjs_nobj _ _ _ _ _ _)
    rfl rfl rfl rfl

theorem handoffSplit_eq (cfg : Config) (g1 : World) (b b1 m : Nat) (hb0 : b ≠ 0) (hb1 : b1 ≠ 0)
    (hne : b ≠ b1) (hm : (g1.bufs b).nobj = (m : Int)) (h2 : m - m / 2 < cfg.C) :
    handoffSplit cfg g1 b b1 = .ok (halved g1 b b1 m) := by
  have hn : Int.tdiv (m : Int) 2 = ((m / 2 : Nat) : Int) := by
    rw [Int.tdiv_eq_ediv (by omega) (by omega)]
    norm_cast
  have hk : (m : Int) - ((m / 2 : Nat) : Int) = ((m - m / 2 : Nat) : Int) := by
    omega
  have e3 : ((storeNobj (storeNobj g1 b ((m - m / 2 : Nat) : Int)) b1
      ((m / 2 : Nat) : Int)).bufs b).nobj = ((m - m / 2 : Nat) : Int) := by
    rw [storeNobj_other _ _ _ _ hne, storeNobj_same]
  have c1 : ¬ ((0 : Int) < 0 ∨ (cfg.C : Int) ≤ 0) := by omega
  have c2 : ¬ (((m - m / 2 : Nat) : Int) < 0 ∨ (cfg.C : Int) ≤ ((m - m / 2 : Nat) : Int)) := by
    omega
  simp only [handoffSplit, getNobj, hb0, hb1, if_false, bind, Except.bind, hm, hn, hk, setNobj,
    readObj, c1, e3, c2, Int.toNat_ofNat]
  rfl

theorem halved_nobj_b (g1 : World) (b b1 m : Nat) (hne : b ≠ b1) :
    ((halved g1 b b1 m).bufs b).nobj = ((m - m / 2 : Nat) : Int) := by
  rw [halved, moveObjs_nobj, storeNobj_other _ _ _ _ hne, storeNobj_same]

theorem halved_nobj_b1 (g1 : World) (b b1 m : Nat) :
    ((halved g1 b b1 m).bufs b1).nobj = ((m / 2 : Nat) : Int) := by
  rw [halved, moveObjs_nobj, storeNobj_same]

theorem halved_other (g1 : World) (b b1 m a : Nat) (h1 : a ≠ b) (h2 : a ≠ b1) :
    (halved g1 b b1 m).bufs a = g1.bufs a := by
  rw [halved, moveObjs_other _ _ _ _ _ _ h2, storeNobj_other _ _ _ _ h2,
    storeNobj_other _ _ _ _ h1]

theorem halved_entries_b (g1 : World) (b b1 m : Nat) (hne : b ≠ b1)
    (hm : (g1.bufs b).nobj = (m : Int)) :
    entries (halved g1 b b1 m) b = (entries g1 b).take (m - m / 2) := by
  have ho : ((halved g1 b b1 m).bufs b).obj = (g1.bufs b).obj := by
    rw [halved, moveObjs_other _ _ _ _ _ _ hne, storeNobj_obj, storeNobj_obj]
  simp only [entries, halved_nobj_b _ _ _ _ hne, ho, hm, Int.toNat_ofNat]
  rw [map_range_take _ _ _ (Nat.sub_le _ _)]

theorem halved_entries_b1 (g1 : World) (b b1 m : Nat)
    (hm : (g1.bufs b).nobj = (m : Int)) :
    entries (halved g1 b b1 m) b1 = (entries g1 b).drop (m - m / 2) := by
  have ho : ((halved g1 b b1 m).bufs b1).obj = fun i =>
      if i < m / 2 then (g1.bufs b).obj ((m - m / 2) + i)
      else (g1.bufs b1).obj i := by
    rw [halved, moveObjs_obj]
    funext i
    rw [storeNobj_obj, storeNobj_obj, storeNobj_obj, storeNobj_obj]
  simp only [entries, halved_nobj_b1, ho, hm, Int.toNat_ofNat]
  rw [map_range_drop]
  have e : m - (m - m / 2) = m / 2 := by omega
  rw [e]
  apply List.map_congr_left
  intro i hi
  have : i < m / 2 := List.mem_range.mp hi
  simp [this]

/-- The middle of `handoff` keeps the pool invariant when neither buffer is on a list. -/
theorem PoolInv.keep_halved {cfg : Config} {g : World} {E F Y : List Nat} {n : Nat}
    (h : PoolInv cfg g E F Y n) (b b1 m : Nat) (hb : b ∉ E ++ F) (hb1 : b1 ∉ E ++ F) :
    PoolInv cfg (halved g b b1 m) E F Y n :=
  ((h.keep_storeNobj hb _).keep_storeNobj hb1 _).keep_moveObjs _ _ _ _

theorem Frame.of_halved (g : World) (b b1 m : Nat) :
    Frame (fun a => a ≠ b ∧ a ≠ b1) g (halved g b b1 m) := by
  refine ⟨?_, ?_, rfl, rfl, rfl, rfl, rfl⟩
  · intro a ha; rw [halved_other _ _ _ _ _ ha.1 ha.2]
  · intro a ha; rw [halved_other _ _ _ _ _ ha.1 ha.2]

theorem PoolInv.heldBy_empty {cfg : Config} {g : World} {E F Y : List Nat} {n : Nat}
    (h : PoolInv cfg g E F Y n) : heldBy g E = 0 := by
  have : ∀ L : List Nat, (∀ a ∈ L, (g.bufs a).nobj = 0) → heldBy g L = 0 := by
    intro L
    induction L with
    | nil => intro _; rfl
    | cons a L ih =>
      intro hL
      rw [heldBy_cons, ih (fun x hx => hL x (List.mem_cons_of_mem _ hx))]
      have := hL a (List.mem_cons_self _ _)
      simp [entries, this]
  exact this E h.emptyN

/-- What `handoff` does to a buffer `b` holding `m ≥ 1` pointers, its lower half not the
whole array: unless no span is left when one is needed, `b` keeps its lower `m - m / 2`
pointers and goes onto the full list, and the buffer returned holds the upper `m / 2`. -/
theorem handoff_wp {cfg : Config} {g : World} {E F Y : List Nat} {b m : Nat}
    (h : PoolInv cfg g E F (b :: Y) (remaining g))
    (hm : (g.bufs b).nobj = (m : Int)) (h1 : 1 ≤ m) (h2 : m - m / 2 < cfg.C) :
    Meets 1 (remaining g) (handoff cfg g b) (fun r => ∃ E1,
      PoolInv cfg r.1 E1 (b :: F) (r.2 :: Y) (remaining r.1) ∧
      entries r.1 b = (entries g b).take (m - m / 2) ∧
      entries r.1 r.2 = (entries g b).drop (m - m / 2) ∧
      (r.1.bufs r.2).nobj = ((m / 2 : Nat) : Int) ∧
      Frame (fun a => a ∈ F ++ Y) g r.1 ∧ r.1.fullPushes = g.fullPushes + 1 ∧
      remaining g ≤ remaining r.1 + 1) := by
  unfold handoff
  refine Meets.bind (getempty_wp h) ?_
  rintro ⟨g1, b1⟩ ⟨E1, hp1, hn1, hf1, hfull, hpush, hrem⟩
  simp only at hp1 hn1 hf1 hfull hpush hrem
  obtain ⟨h1E, h1F, h1Y⟩ := mem_own_cons hp1.nodup
  have hp2 := hp1.perm (perm_swap_own b1 b Y)
  obtain ⟨hbE, hbF, hbY⟩ := mem_own_cons hp2.nodup
  have hne : b ≠ b1 := by
    intro e
    apply h1Y
    rw [← e]
    exact List.mem_cons_self _ _
  have hvb : Valid cfg b := hp2.valid b (by simp)
  have hvb1 : Valid cfg b1 := hp1.valid b1 (by simp)
  have hbown : b ∈ E ++ F ++ b :: Y := by simp
  have hm1 : (g1.bufs b).nobj = (m : Int) := by rw [hf1.nobj b hbown, hm]
  have he1 : entries g1 b = entries g b := hf1.entries hbown
  have hph : PoolInv cfg (halved g1 b b1 m) E1 F (b :: b1 :: Y) (remaining g1) :=
    hp2.keep_halved b b1 m (by simp only [List.mem_append]; tauto)
      (by simp only [List.mem_append]; tauto)
  have hnb : 0 < ((halved g1 b b1 m).bufs b).nobj ∧
      ((halved g1 b b1 m).bufs b).nobj ≤ cfg.C := by
    rw [halved_nobj_b _ _ _ _ hne]
    omega
  obtain ⟨g5, hg5, hp5, hf5, hpush5, -, hrem5⟩ := putfull_spec hph hnb
  show Meets 1 (remaining g) (handoffSplit cfg g1 b b1 >>= fun g4 =>
    putfull cfg g4 b >>= fun g5 => Except.ok (g5, b1)) _
  rw [handoffSplit_eq cfg g1 b b1 m hvb.1 hvb1.1 hne hm1 h2]
  show Meets 1 (remaining g) (putfull cfg (halved g1 b b1 m) b >>= fun g5 =>
    Except.ok (g5, b1)) _
  rw [hg5]
  have hr5 : remaining g5 = remaining g1 := hrem5
  refine ⟨E1, ?_, ?_, ?_, ?_, ?_, ?_, ?_⟩
  · show PoolInv cfg g5 E1 (b :: F) (b1 :: Y) (remaining g5)
    rw [hr5]; exact hp5
  · show entries g5 b = _
    rw [hf5.entries trivial, halved_entries_b _ _ _ _ hne hm1, he1]
  · show entries g5 b1 = _
    rw [hf5.entries trivial, halved_entries_b1 _ _ _ _ hm1, he1]
  · show (g5.bufs b1).nobj = _
    rw [hf5.nobj b1 trivial, halved_nobj_b1]
  · show Frame _ g g5
    refine Frame.trans (Frame.trans (hf1.mono ?_) ((Frame.of_halved g1 b b1 m).mono ?_))
      (hf5.mono (fun _ _ => trivial))
    · intro a ha
      simp only [List.mem_append, List.mem_cons] at ha ⊢
      tauto
    · intro a ha
      simp only [List.mem_append] at ha
      constructor
      · rintro rfl; tauto
      · rintro rfl; tauto
  · show g5.fullPushes = _
    rw [hpush5]
    show g1.fullPushes + 1 = _
    rw [hpush]
  · show remaining g ≤ remaining g5 + 1
    rw [hr5]; exact hrem.1

theorem heldBy_enlist (g : World) (L : List Nat) : heldBy (enlistWorker g) L = heldBy g L := rfl

theorem held_enlist (w : gcWork) (g : World) (F : List Nat) :
    held w (enlistWorker g) F = held w g F := rfl

theorem entries_of_zero {g : World} {a : Nat} (h : (g.bufs a).nobj = 0) : entries g a = [] := by
  simp [entries, h]

/-- What `balance` does: unless no span is left when one is needed, it returns, the
invariant holds again, and the pointers held by the local buffers and the full list are the
same multiset as before. -/
theorem balance_wp {cfg : Config} {w : gcWork} {g : World} {E F X : List Nat}
    (h : Inv cfg w g E F X) :
    Meets 1 (remaining g) (w.balance cfg g) (fun r => ∃ E1 F1,
      Inv cfg r.1 r.2 E1 F1 X ∧ held r.1 r.2 F1 = held w g F ∧
      (r.1.wbuf1 = 0 ↔ w.wbuf1 = 0) ∧ Untouched X g r.2) := by
  unfold gcWork.balance
  by_cases h1 : w.wbuf1 = 0
  · rw [if_pos h1]
    exact ⟨E, F, h, rfl, Iff.rfl, Untouched.unchanged X g⟩
  rw [if_neg h1]
  obtain ⟨hp, hb1, hb2⟩ := h.pool_cons h1
  obtain ⟨hv1, hv2, hne, h1EF, h2EF, h1X, h2X⟩ := h.local_facts h1
  have hg2 : getNobj g w.wbuf2 = .ok (g.bufs w.wbuf2).nobj := by
    simp [getNobj, hv2.1]
  have hg1 : getNobj g w.wbuf1 = .ok (g.bufs w.wbuf1).nobj := by
    simp [getNobj, hv1.1]
  rw [hg2]
  show Meets 1 (remaining g) (if (g.bufs w.wbuf2).nobj ≠ 0 then _ else _) _
  by_cases hn2 : (g.bufs w.wbuf2).nobj = 0
  · rw [if_neg (not_not.mpr hn2), hg1]
    show Meets 1 (remaining g) (if (g.bufs w.wbuf1).nobj > 4 then _ else _) _
    by_cases hn1 : (g.bufs w.wbuf1).nobj > 4
    · rw [if_pos hn1]
      obtain ⟨m, hm⟩ : ∃ m : Nat, (g.bufs w.wbuf1).nobj = (m : Int) :=
        ⟨(g.bufs w.wbuf1).nobj.toNat, (Int.toNat_of_nonneg hb1.1).symm⟩
      have hm2 : 1 ≤ m := by omega
      have hmC : m - m / 2 < cfg.C := by omega
      refine Meets.bind (handoff_wp hp hm hm2 hmC) ?_
      rintro ⟨g1, b1⟩ ⟨E1, hp1, het, hed, hnb1, hf1, hpush, hrem⟩
      simp only at hp1 het hed hnb1 hf1 hpush hrem
      have hf2 : Frame (fun a => a ∈ F ++ w.wbuf2 :: X) g g1 := hf1
      have hinv : Inv cfg { w with wbuf1 := b1, flushedWork := true } g1 E1 (w.wbuf1 :: F) X ∧
          b1 ≠ 0 := by
        refine @Inv.of_pool cfg { w with wbuf1 := b1, flushedWork := true } g1 E1
          (w.wbuf1 :: F) X hp1 ?_ ?_
        · show 0 ≤ (g1.bufs b1).nobj ∧ (g1.bufs b1).nobj ≤ cfg.C
          rw [hnb1]; omega
        · show 0 ≤ (g1.bufs w.wbuf2).nobj ∧ (g1.bufs w.wbuf2).nobj ≤ cfg.C
          rw [hf2.nobj w.wbuf2 (by simp)]; exact hb2
      have hheld : held { w with wbuf1 := b1, flushedWork := true } g1 (w.wbuf1 :: F) =
          held w g F := by
        rw [held_eq_heldBy, held_eq_heldBy, locals_of_ne h1,
          @locals_of_ne { w with wbuf1 := b1, flushedWork := true } hinv.2]
        show heldBy g1 [b1, w.wbuf2] + heldBy g1 (w.wbuf1 :: F) = _
        rw [heldBy_cons, heldBy_cons, heldBy_cons, heldBy_cons, heldBy_cons, heldBy_nil,
          heldBy_nil, het, hed, hf2.entries (show w.wbuf2 ∈ F ++ w.wbuf2 :: X by simp),
          @heldBy_congr _ g g1 hf2 F (fun a ha => by simp [ha])]
        conv_rhs => rw [← List.take_append_drop (m - m / 2) (entries g w.wbuf1)]
        rw [← Multiset.coe_add]
        abel
      show Meets 1 (remaining g) (if g1.gcphase = GCPhase.GCmark then _ else _) _
      have hU : Untouched X g g1 := hf2.untouched (fun a ha => by simp [ha])
      split
      · exact ⟨E1, w.wbuf1 :: F, hinv.1.inv_enlist, hheld,
          ⟨fun e => absurd e hinv.2, fun e => absurd e h1⟩, hU⟩
      · exact ⟨E1, w.wbuf1 :: F, hinv.1, hheld,
          ⟨fun e => absurd e hinv.2, fun e => absurd e h1⟩, hU⟩
    · rw [if_neg hn1]
      exact ⟨E, F, h, rfl, Iff.rfl, Untouched.unchanged X g⟩
  · rw [if_pos hn2]
    have hpa := hp.perm (perm_swap_own w.wbuf1 w.wbuf2 X)
    obtain ⟨g1, hg1e, hp1, hf1, hpush1, -, hrem1⟩ :=
      putfull_spec hpa ⟨lt_of_le_of_ne hb2.1 (Ne.symm hn2), hb2.2⟩
    rw [hg1e]
    have hp1r : PoolInv cfg g1 E (w.wbuf2 :: F) (w.wbuf1 :: X) (remaining g1) := by
      rw [hrem1]; exact hp1
    have hget := getempty_wp hp1r
    rw [hrem1] at hget
    show Meets 1 (remaining g) (getempty cfg g1 >>= _) _
    refine Meets.bind hget ?_
    rintro ⟨g2, e⟩ ⟨E1, hp2, hne2, hf2, -, -, -⟩
    simp only at hp2 hne2 hf2
    have hf : Frame (fun a => a ∈ E ++ (w.wbuf2 :: F) ++ w.wbuf1 :: X) g g2 :=
      Frame.trans (hf1.mono (fun _ _ => trivial)) hf2
    have hpb := hp2.perm (perm_swap_own e w.wbuf1 X)
    have hinv : Inv cfg { w with flushedWork := true, wbuf2 := e } g2 E1 (w.wbuf2 :: F) X ∧
        w.wbuf1 ≠ 0 := by
      refine @Inv.of_pool cfg { w with flushedWork := true, wbuf2 := e } g2 E1
        (w.wbuf2 :: F) X hpb ?_ ?_
      · show 0 ≤ (g2.bufs w.wbuf1).nobj ∧ (g2.bufs w.wbuf1).nobj ≤ cfg.C
        rw [hf.nobj w.wbuf1 (by simp)]; exact hb1
      · show 0 ≤ (g2.bufs e).nobj ∧ (g2.bufs e).nobj ≤ cfg.C
        rw [hne2]; omega
    have hheld : held { w with flushedWork := true, wbuf2 := e } g2 (w.wbuf2 :: F) =
        held w g F := by
      rw [held_eq_heldBy, held_eq_heldBy, locals_of_ne h1,
        @locals_of_ne { w with flushedWork := true, wbuf2 := e } h1]
      show heldBy g2 [w.wbuf1, e] + heldBy g2 (w.wbuf2 :: F) = _
      rw [heldBy_cons, heldBy_cons, heldBy_cons, heldBy_cons, heldBy_cons, heldBy_nil,
        heldBy_nil, entries_of_zero hne2, hf.entries (show w.wbuf1 ∈ _ by simp),
        hf.entries (show w.wbuf2 ∈ _ by simp),
        @heldBy_congr _ g g2 hf F (fun a ha => by simp [ha])]
      simp only [Multiset.coe_nil, zero_add, add_zero, add_assoc]
    have hU : Untouched X g g2 := hf.untouched (fun a ha => by simp [ha])
    show Meets 1 (remaining g) (if g2.gcphase = GCPhase.GCmark then _ else _) _
    split
    · exact ⟨E1, w.wbuf2 :: F, hinv.1.inv_enlist, hheld, Iff.rfl, hU⟩
    · exact ⟨E1, w.wbuf2 :: F, hinv.1, hheld, Iff.rfl, hU⟩

/-- Claim C3: in every state satisfying the data-model invariant, `balance` returns (its
only failure is running out of memory, when a buffer is needed and no span is left), the
invariant holds again, and the multiset of the pointers held in `wbuf1`, in `wbuf2` and in
the buffers of the global full and empty lists is the same as before the call; hence so
is their number. -/
theorem balance_conserves (cfg : Config) (w : gcWork) (g : World) (E F X : List Nat)
    (h : Inv cfg w g E F X) :
    Meets 1 (remaining g) (w.balance cfg g) (fun r => ∃ E1 F1,
      Inv cfg r.1 r.2 E1 F1 X ∧
      held r.1 r.2 F1 + heldBy r.2 E1 = held w g F + heldBy g E ∧
      Multiset.card (held r.1 r.2 F1 + heldBy r.2 E1) =
        Multiset.card (held w g F + heldBy g E)) := by
  refine (balance_wp h).imp ?_
  rintro r ⟨E1, F1, hi, hh, _⟩
  have he : held r.1 r.2 F1 + heldBy r.2 E1 = held w g F + heldBy g E := by
    rw [hh, hi.pool.heldBy_empty, h.pool.heldBy_empty]
  exact ⟨E1, F1, hi, he, by rw [he]⟩

/-- Witness of C3: the queue after six `put` calls at capacity `8`, whose `wbuf1` holds
six pointers, so that `balance` hands half of them off. -/
theorem balance_conserves_witness :
    ∃ E F, Inv (sampleConfig 8) (sampleQueue 8 [11, 12, 13, 14, 15, 16]).1
        (sampleQueue 8 [11, 12, 13, 14, 15, 16]).2 E F [] ∧
      Meets 1 (remaining (sampleQueue 8 [11, 12, 13, 14, 15, 16]).2)
        ((sampleQueue 8 [11, 12, 13, 14, 15, 16]).1.balance (sampleConfig 8)
          (sampleQueue 8 [11, 12, 13, 14, 15, 16]).2)
        (fun r => ∃ E1 F1, Inv (sampleConfig 8) r.1 r.2 E1 F1 [] ∧
          held r.1 r.2 F1 + heldBy r.2 E1 =
            held (sampleQueue 8 [11, 12, 13, 14, 15, 16]).1
              (sampleQueue 8 [11, 12, 13, 14, 15, 16]).2 F +
            heldBy (sampleQueue 8 [11, 12, 13, 14, 15, 16]).2 E ∧
          Multiset.card (held r.1 r.2 F1 + heldBy r.2 E1) =
            Multiset.card (held (sampleQueue 8 [11, 12, 13, 14, 15, 16]).1
              (sampleQueue 8 [11, 12, 13, 14, 15, 16]).2 F +
            heldBy (sampleQueue 8 [11, 12, 13, 14, 15, 16]).2 E)) := by
  obtain ⟨E, F, hi, _⟩ := sampleQueue_inv 8 [11, 12, 13, 14, 15, 16] (by decide) (by decide)
  exact ⟨E, F, hi, balance_conserves (sampleConfig 8) _ _ E F [] hi⟩

/-! ## The operations of the queue, one by one -/

theorem Inv.owns {cfg : Config} {w : gcWork} {g : World} {E F X : List Nat}
    (h : Inv cfg w g E F X) : Owns w := by
  by_cases hw : w.wbuf1 = 0
  · exact Or.inl ⟨hw, h.both hw⟩
  · obtain ⟨_, hv2, h12, _⟩ := h.local_facts hw
    exact Or.inr ⟨hw, hv2.1, h12⟩

/-- The invariant does not need the queue to refer to its buffers: they can be counted
among the buffers held outside. -/
theorem Inv.forget {cfg : Config} {w : gcWork} {g : World} {E F X : List Nat}
    (h : Inv cfg w g E F X) :
    Inv cfg { w with wbuf1 := 0, wbuf2 := 0 } g E F (locals w ++ X) := by
  have hl : locals ({ w with wbuf1 := 0, wbuf2 := 0 } : gcWork) = [] := by simp [locals]
  refine ⟨?_, fun _ => rfl, ?_⟩
  · rw [hl, List.nil_append]; exact h.pool
  · rw [hl]; simp

/-- What `gcWork.init` does, from any state of the queue: the buffers the queue had stay
as they are, without a reference. -/
theorem init_any_wp {cfg : Config} {w : gcWork} {g : World} {E F X : List Nat}
    (h : Inv cfg w g E F X) :
    Meets 2 (remaining g) (gcWork.init cfg w g) (fun r => ∃ E1 F1,
      Inv cfg r.1 r.2 E1 F1 (locals w ++ X) ∧ r.1.wbuf1 ≠ 0 ∧
      Untouched (locals w ++ X) g r.2) := by
  have he : gcWork.init cfg w g = gcWork.init cfg { w with wbuf1 := 0, wbuf2 := 0 } g := rfl
  rw [he]
  refine (init_wp h.forget rfl).imp ?_
  rintro r ⟨E1, F1, hi, hne, _, _, _, hf, _⟩
  exact ⟨E1, F1, hi, hne, hf.untouched (fun a ha => List.mem_append_right _ ha)⟩

/-- What `gcWork.putFast` does: it never fails and never allocates. -/
theorem putFast_spec {cfg : Config} {w : gcWork} {g : World} {E F X : List Nat}
    (h : Inv cfg w g E F X) (p : Nat) :
    ∃ r, gcWork.putFast cfg w g p = .ok r ∧ Inv cfg r.2.1 r.2.2 E F X ∧ r.2.1 = w ∧
      Untouched X g r.2.2 := by
  by_cases hw : w.wbuf1 = 0
  · exact ⟨(false, w, g), by simp [gcWork.putFast, hw], h, rfl, Untouched.unchanged X g⟩
  · obtain ⟨hv1, _⟩ := h.local_facts hw
    obtain ⟨_, hb1, _⟩ := h.pool_cons hw
    by_cases c : (g.bufs w.wbuf1).nobj = cfg.C
    · refine ⟨(false, w, g), ?_, h, rfl, Untouched.unchanged X g⟩
      simp only [gcWork.putFast, hw, if_false, getNobj, bind, Except.bind, c, if_true]
    · have hlt : (g.bufs w.wbuf1).nobj < cfg.C := lt_of_le_of_ne hb1.2 c
      have hpo := @pushObj_eq cfg g _ hv1.1 ⟨hb1.1, hlt⟩ p
      refine ⟨(true, w, pushed g w.wbuf1 p), ?_, (h.push1 hw hlt p).1, rfl,
        h.untouched_push hw p⟩
      simp only [gcWork.putFast, hw, if_false, getNobj, bind, Except.bind, c, hpo]

/-- What `gcWork.tryGetFast` does: it never fails and never allocates. -/
theorem tryGetFast_spec {cfg : Config} {w : gcWork} {g : World} {E F X : List Nat}
    (h : Inv cfg w g E F X) :
    ∃ r, gcWork.tryGetFast cfg w g = .ok r ∧ Inv cfg r.2.1 r.2.2 E F X ∧ r.2.1 = w ∧
      Untouched X g r.2.2 := by
  by_cases hw : w.wbuf1 = 0
  · exact ⟨(0, w, g), by simp [gcWork.tryGetFast, hw], h, rfl, Untouched.unchanged X g⟩
  · obtain ⟨hv1, _⟩ := h.local_facts hw
    obtain ⟨_, hb1, _⟩ := h.pool_cons hw
    by_cases c : (g.bufs w.wbuf1).nobj = 0
    · refine ⟨(0, w, g), ?_, h, rfl, Untouched.unchanged X g⟩
      simp only [gcWork.tryGetFast, hw, if_false, getNobj, bind, Except.bind, c, if_true]
    · have hpos : 0 < (g.bufs w.wbuf1).nobj := lt_of_le_of_ne hb1.1 (Ne.symm c)
      have hpo := @popObj_eq cfg g _ hv1.1 ⟨hpos, hb1.2⟩
      refine ⟨((g.bufs w.wbuf1).obj ((g.bufs w.wbuf1).nobj - 1).toNat, w, popped g w.wbuf1), ?_,
        (h.pop1 hw hpos).1, rfl, h.untouched_pop hw⟩
      simp only [gcWork.tryGetFast, hw, if_false, getNobj, bind, Except.bind, c, hpo]

/-- The method `gcWork.empty` never fails. -/
theorem empty_spec {cfg : Config} {w : gcWork} {g : World} {E F X : List Nat}
    (h : Inv cfg w g E F X) : ∃ r, gcWork.empty w g = .ok r := by
  by_cases hw : w.wbuf1 = 0
  · exact ⟨true, by simp [gcWork.empty, hw]⟩
  · obtain ⟨hv1, hv2, _⟩ := h.local_facts hw
    by_cases c : (g.bufs w.wbuf1).nobj = 0
    · exact ⟨decide ((g.bufs w.wbuf2).nobj = 0), by
        simp only [gcWork.empty, hw, if_false, getNobj, hv1.1, hv2.1, bind, Except.bind, c,
          if_true]⟩
    · exact ⟨false, by simp only [gcWork.empty, hw, if_false, getNobj, hv1.1, bind,
        Except.bind, c]⟩

/-- Every operation of the queue returns unless the spans it needs are not left, and then
the invariant holds again; the buffers held outside are as they were. -/
theorem QueueOp.run_wp {cfg : Config} (hC : 1 ≤ cfg.C) (op : QueueOp) {w : gcWork} {g : World}
    {E F X : List Nat} (h : Inv cfg w g E F X) :
    Meets op.need (remaining g) (op.run cfg w g) (fun r => ∃ E1 F1,
      Inv cfg r.1 r.2 E1 F1 (op.leak w ++ X) ∧ Untouched (op.leak w ++ X) g r.2) := by
  cases op with
  | init =>
    exact (init_any_wp h).imp (fun r ⟨E1, F1, hi, _, hu⟩ => ⟨E1, F1, hi, hu⟩)
  | put p =>
    exact (put_wp h hC p).imp (fun r ⟨E1, F1, hi, _, _, _, hu⟩ => ⟨E1, F1, hi, hu⟩)
  | putFast p =>
    obtain ⟨r, hr, hi, _, hu⟩ := putFast_spec h p
    simp only [QueueOp.run, hr, bind, Except.bind]
    exact ⟨E, F, hi, hu⟩
  | putBatch obj =>
    exact (putBatch_wp h hC obj (obj.length + 3) (Nat.le_refl _)).imp
      (fun r ⟨E1, F1, hi, _, _, hu⟩ => ⟨E1, F1, hi, hu⟩)
  | tryGet =>
    simp only [QueueOp.run, bind]
    refine Meets.bind_except (tryGet_wp h) ?_
    rintro r ⟨E1, F1, hi, _, _, _, _, hu⟩
    exact ⟨E1, F1, hi, hu⟩
  | tryGetFast =>
    obtain ⟨r, hr, hi, _, hu⟩ := tryGetFast_spec h
    simp only [QueueOp.run, hr, bind, Except.bind]
    exact ⟨E, F, hi, hu⟩
  | dispose =>
    obtain ⟨w1, g1, E1, F1, hr, hi, _, _, _, _, _, hu⟩ := dispose_spec h
    simp only [QueueOp.run, hr]
    exact ⟨E1, F1, hi, hu⟩
  | balance =>
    exact (balance_wp h).imp (fun r ⟨E1, F1, hi, _, _, hu⟩ => ⟨E1, F1, hi, hu⟩)
  | empty =>
    obtain ⟨r, hr⟩ := empty_spec h
    simp only [QueueOp.run, hr, bind, Except.bind]
    exact ⟨E, F, h, Untouched.unchanged _ g⟩

/-! ## Reachable states -/

theorem putempty_ok_count {cfg : Config} {g g1 : World} {b : Nat}
    (h : putempty cfg g b = .ok g1) : (g.bufs b).nobj = 0 := by
  by_contra c
  by_cases hb : b = 0
  · simp [putempty, workbuf.checkempty, getNobj, hb, bind, Except.bind] at h
  · simp [putempty, workbuf.checkempty, getNobj, hb, bind, Except.bind, c] at h

theorem putfull_ok_count {cfg : Config} {g g1 : World} {b : Nat}
    (h : putfull cfg g b = .ok g1) : (g.bufs b).nobj ≠ 0 := by
  intro c
  by_cases hb : b = 0
  · simp [putfull, workbuf.checknonempty, getNobj, hb, bind, Except.bind] at h
  · simp [putfull, workbuf.checknonempty, getNobj, hb, bind, Except.bind, c] at h

theorem Initial.is_good {cfg : Config} {s : Thread} (h : Initial cfg s) : Good cfg s := by
  obtain ⟨h1, h2, h3, h4, h5, h6⟩ := h
  have hl : locals s.w = [] := locals_of_eq h1
  refine ⟨[], [], ⟨⟨h4, h5, ?_, ?_, by simp, by simp, ?_⟩, fun _ => h2, ?_⟩, ?_⟩
  · rw [hl, h3]; simp
  · rw [hl, h3]; simp
  · rw [hl, h3]; exact h6
  · rw [hl]; simp
  · rw [h3]; simp

theorem Good.getempty {cfg : Config} {s : Thread} (h : Good cfg s) {g1 : World} {b : Nat}
    (hr : getempty cfg s.g = .ok (g1, b)) :
    Good cfg ⟨s.w, b :: s.own, g1⟩ ∧ (g1.bufs b).nobj = 0 := by
  obtain ⟨E, F, hi, hown⟩ := h
  obtain ⟨E1, hp1, hn1, hf1, _⟩ := (getempty_wp hi.pool).of_ok hr
  simp only at hp1 hn1 hf1
  refine ⟨⟨E1, F, ⟨hp1.perm List.perm_middle.symm, hi.both, ?_⟩, ?_⟩, hn1⟩
  · intro a ha
    rw [hf1.nobj a (by simp only [List.mem_append]; tauto)]
    exact hi.localN a ha
  · intro a ha
    rcases List.mem_cons.mp ha with rfl | ha
    · show 0 ≤ (g1.bufs a).nobj ∧ (g1.bufs a).nobj ≤ cfg.C
      rw [hn1]; omega
    · show 0 ≤ (g1.bufs a).nobj ∧ (g1.bufs a).nobj ≤ cfg.C
      rw [hf1.nobj a (by simp only [List.mem_append]; tauto)]
      exact hown a ha

theorem perm_own_erase {L own : List Nat} {b : Nat} (hb : b ∈ own) :
    (L ++ own).Perm (b :: (L ++ own.erase b)) :=
  ((List.perm_cons_erase hb).append_left L).trans List.perm_middle

theorem Good.putempty {cfg : Config} {s : Thread} (h : Good cfg s) {g1 : World} {b : Nat}
    (hb : b ∈ s.own) (hr : putempty cfg s.g b = .ok g1) :
    Good cfg ⟨s.w, s.own.erase b, g1⟩ := by
  obtain ⟨E, F, hi, hown⟩ := h
  have hc := putempty_ok_count hr
  obtain ⟨g2, hg2, hp2, hf2, _, _, hrem⟩ := putempty_spec (hi.pool.perm (perm_own_erase hb)) hc
  rw [hr] at hg2
  cases hg2
  have hrem1 : remaining g1 = remaining s.g := hrem
  refine ⟨b :: E, F, ⟨by rw [hrem1]; exact hp2, hi.both, ?_⟩, ?_⟩
  · intro a ha
    rw [hf2.nobj a trivial]
    exact hi.localN a ha
  · intro a ha
    show 0 ≤ (g1.bufs a).nobj ∧ (g1.bufs a).nobj ≤ cfg.C
    rw [hf2.nobj a trivial]
    exact hown a (List.mem_of_mem_erase ha)

theorem Good.putfull {cfg : Config} {s : Thread} (h : Good cfg s) {g1 : World} {b : Nat}
    (hb : b ∈ s.own) (hr : putfull cfg s.g b = .ok g1) :
    Good cfg ⟨s.w, s.own.erase b, g1⟩ := by
  obtain ⟨E, F, hi, hown⟩ := h
  have hc := putfull_ok_count hr
  have hrange := hown b hb
  obtain ⟨g2, hg2, hp2, hf2, _, _, hrem⟩ := putfull_spec (hi.pool.perm (perm_own_erase hb))
    ⟨lt_of_le_of_ne hrange.1 (Ne.symm hc), hrange.2⟩
  rw [hr] at hg2
  cases hg2
  have hrem1 : remaining g1 = remaining s.g := hrem
  refine ⟨E, b :: F, ⟨by rw [hrem1]; exact hp2, hi.both, ?_⟩, ?_⟩
  · intro a ha
    rw [hf2.nobj a trivial]
    exact hi.localN a ha
  · intro a ha
    show 0 ≤ (g1.bufs a).nobj ∧ (g1.bufs a).nobj ≤ cfg.C
    rw [hf2.nobj a trivial]
    exact hown a (List.mem_of_mem_erase ha)

theorem Good.trygetfull {cfg : Config} {s : Thread} (h : Good cfg s) {g1 : World} {b : Nat}
    (hr : trygetfull cfg s.g = .ok (g1, b)) :
    Good cfg ⟨s.w, if b = 0 then s.own else b :: s.own, g1⟩ ∧
      (b ≠ 0 → 0 < (g1.bufs b).nobj) := by
  obtain ⟨E, F, hi, hown⟩ := h
  cases F with
  | nil =>
    have hfull : s.g.full = 0 := hi.pool.isF
    rw [trygetfull_nil hfull] at hr
    cases hr
    refine ⟨?_, fun hb => absurd rfl hb⟩
    rw [if_pos rfl]
    exact ⟨E, [], hi, hown⟩
  | cons a F =>
    obtain ⟨hg, hp1⟩ := trygetfull_cons hi.pool
    have ha0 : a ≠ 0 := (hi.pool.valid a (by simp)).1
    have han := hi.pool.fullN a (List.mem_cons_self _ _)
    rw [hg] at hr
    cases hr
    refine ⟨?_, fun _ => han.1⟩
    rw [if_neg ha0]
    refine ⟨E, F, ⟨hp1.perm List.perm_middle.symm, hi.both, hi.localN⟩, ?_⟩
    intro x hx
    rcases List.mem_cons.mp hx with rfl | hx
    · exact ⟨le_of_lt han.1, han.2⟩
    · exact hown x hx

theorem handoffSplit_err (cfg : Config) (g1 : World) (b b1 m : Nat) (hb0 : b ≠ 0)
    (hb1 : b1 ≠ 0) (hm : (g1.bufs b).nobj = (m : Int)) (hne : b ≠ b1)
    (h2 : ¬ m - m / 2 < cfg.C) :
    handoffSplit cfg g1 b b1 = .error .indexOutOfRange := by
  have hn : Int.tdiv (m : Int) 2 = ((m / 2 : Nat) : Int) := by
    rw [Int.tdiv_eq_ediv (by omega) (by omega)]
    norm_cast
  have hk : (m : Int) - ((m / 2 : Nat) : Int) = ((m - m / 2 : Nat) : Int) := by
    omega
  have e3 : ((storeNobj (storeNobj g1 b ((m - m / 2 : Nat) : Int)) b1
      ((m / 2 : Nat) : Int)).bufs b).nobj = ((m - m / 2 : Nat) : Int) := by
    rw [storeNobj_other _ _ _ _ hne, storeNobj_same]
  have c2 : (((m - m / 2 : Nat) : Int) < 0 ∨ (cfg.C : Int) ≤ ((m - m / 2 : Nat) : Int)) := by
    omega
  by_cases c1 : ((0 : Int) < 0 ∨ (cfg.C : Int) ≤ 0)
  · simp only [handoffSplit, getNobj, hb0, hb1, if_false, bind, Except.bind, hm,
      hn, hk, setNobj, readObj, c1, if_true]
  · simp only [handoffSplit, getNobj, hb0, hb1, if_false, bind, Except.bind, hm,
      hn, hk, setNobj, readObj, c1, e3, c2, if_true]

/-- When `handoff` returns, the buffer passed held at least one pointer and its lower
half was not the whole array. -/
theorem handoff_ok_count {cfg : Config} {g : World} {E F Y : List Nat} {b m : Nat}
    (h : PoolInv cfg g E F (b :: Y) (remaining g))
    (hm : (g.bufs b).nobj = (m : Int)) {r : World × Nat} (hr : handoff cfg g b = .ok r) :
    1 ≤ m ∧ m - m / 2 < cfg.C := by
  by_contra hcon
  unfold handoff at hr
  cases hge : getempty cfg g with
  | error e => simp [hge, bind, Except.bind] at hr
  | ok r1 =>
    obtain ⟨g1, b1⟩ := r1
    obtain ⟨E1, hp1, hn1, hf1, _⟩ := (getempty_wp h).of_ok hge
    simp only at hp1 hn1 hf1
    obtain ⟨h1E, h1F, h1Y⟩ := mem_own_cons hp1.nodup
    have hne : b ≠ b1 := by
      intro e
      apply h1Y
      rw [← e]
      exact List.mem_cons_self _ _
    have hvb : Valid cfg b := h.valid b (by simp)
    have hvb1 : Valid cfg b1 := hp1.valid b1 (by simp)
    have hm1 : (g1.bufs b).nobj = (m : Int) := by rw [hf1.nobj b (by simp), hm]
    simp only [hge, bind, Except.bind] at hr
    by_cases h2 : m - m / 2 < cfg.C
    · have hm0 : m = 0 := by
        by_contra hx
        exact hcon ⟨by omega, h2⟩
      rw [handoffSplit_eq cfg g1 b b1 m hvb.1 hvb1.1 hne hm1 h2] at hr
      simp only at hr
      cases hpf : putfull cfg (halved g1 b b1 m) b with
      | error e => simp [hpf] at hr
      | ok g5 =>
        have := putfull_ok_count hpf
        rw [halved_nobj_b _ _ _ _ hne, hm0] at this
        exact this rfl
    · rw [handoffSplit_err cfg g1 b b1 m hvb.1 hvb1.1 hm1 hne h2] at hr
      simp at hr

theorem Good.handoff {cfg : Config} {s : Thread} (h : Good cfg s) {g1 : World} {b b1 : Nat}
    (hb : b ∈ s.own) (hr : handoff cfg s.g b = .ok (g1, b1)) :
    Good cfg ⟨s.w, b1 :: s.own.erase b, g1⟩ := by
  obtain ⟨E, F, hi, hown⟩ := h
  have hp := hi.pool.perm (perm_own_erase hb)
  obtain ⟨m, hm⟩ : ∃ m : Nat, (s.g.bufs b).nobj = (m : Int) :=
    ⟨(s.g.bufs b).nobj.toNat, (Int.toNat_of_nonneg (hown b hb).1).symm⟩
  obtain ⟨hm1, hm2⟩ := handoff_ok_count hp hm hr
  obtain ⟨E1, hp1, _, _, hnb1, hf1, _⟩ := (handoff_wp hp hm hm1 hm2).of_ok hr
  simp only at hp1 hnb1 hf1
  have hmC : m ≤ cfg.C := by
    have := (hown b hb).2
    omega
  refine ⟨E1, b :: F, ⟨hp1.perm List.perm_middle.symm, hi.both, ?_⟩, ?_⟩
  · intro a ha
    show 0 ≤ (g1.bufs a).nobj ∧ (g1.bufs a).nobj ≤ cfg.C
    rw [hf1.nobj a (by simp only [List.mem_append]; tauto)]
    exact hi.localN a ha
  · intro a ha
    show 0 ≤ (g1.bufs a).nobj ∧ (g1.bufs a).nobj ≤ cfg.C
    rcases List.mem_cons.mp ha with rfl | ha
    · rw [hnb1]; omega
    · rw [hf1.nobj a (by simp only [List.mem_append]; tauto)]
      exact hown a (List.mem_of_mem_erase ha)

theorem Good.fill {cfg : Config} {s : Thread} (h : Good cfg s) {b : Nat} (ps : List Nat)
    (hb : b ∈ s.own) (hps : ps.length ≤ cfg.C) :
    Good cfg ⟨s.w, s.own, copied (storeNobj s.g b 0) b ps.length ps⟩ := by
  obtain ⟨E, F, hi, hown⟩ := h
  obtain ⟨hbE, hbF, hbY⟩ := mem_own_cons (hi.pool.perm (perm_own_erase hb)).nodup
  have hbEF : b ∉ E ++ F := by simp only [List.mem_append]; tauto
  have hbl : b ∉ locals s.w := fun hx => hbY (List.mem_append_left _ hx)
  have hoth : ∀ a, a ≠ b →
      (copied (storeNobj s.g b 0) b ps.length ps).bufs a = s.g.bufs a := by
    intro a ha
    rw [copied_other _ _ _ _ _ ha, storeNobj_other _ _ _ _ ha]
  refine ⟨E, F, ⟨((hi.pool.keep_storeNobj hbEF 0).keep_copied hbEF _ _), hi.both, ?_⟩, ?_⟩
  · intro a ha
    rw [hoth a (fun e => hbl (e ▸ ha))]
    exact hi.localN a ha
  · intro a ha
    show 0 ≤ ((copied (storeNobj s.g b 0) b ps.length ps).bufs a).nobj ∧
      ((copied (storeNobj s.g b 0) b ps.length ps).bufs a).nobj ≤ cfg.C
    by_cases hab : a = b
    · subst hab
      rw [copied_nobj, storeNobj_same]
      omega
    · rw [hoth a hab]
      exact hown a ha

theorem Good.queue {cfg : Config} (hC : 1 ≤ cfg.C) {s : Thread} (h : Good cfg s)
    {w1 : gcWork} {g1 : World} (op : QueueOp) (hr : op.run cfg s.w s.g = .ok (w1, g1)) :
    Good cfg ⟨w1, op.leak s.w ++ s.own, g1⟩ := by
  obtain ⟨E, F, hi, hown⟩ := h
  obtain ⟨E1, F1, hi1, hu⟩ := (QueueOp.run_wp hC op hi).of_ok hr
  refine ⟨E1, F1, hi1, ?_⟩
  intro a ha
  show 0 ≤ (g1.bufs a).nobj ∧ (g1.bufs a).nobj ≤ cfg.C
  rw [(hu a ha).1]
  rcases List.mem_append.mp ha with hl | ho
  · cases op with
    | init => exact hi.localN a hl
    | _ => simp [QueueOp.leak] at hl
  · exact hown a ho

theorem Good.step {cfg : Config} (hC : 1 ≤ cfg.C) {s s1 : Thread} (h : Good cfg s)
    (hs : Step cfg s s1) : Good cfg s1 := by
  cases hs with
  | getempty hr => exact (h.getempty hr).1
  | putempty hb hr => exact h.putempty hb hr
  | putfull hb hr => exact h.putfull hb hr
  | trygetfull hr => exact (h.trygetfull hr).1
  | handoff hb hr => exact h.handoff hb hr
  | fill ps hb hps => exact h.fill ps hb hps
  | queue op hr => exact h.queue hC op hr

theorem Reach.all_good {cfg : Config} (hC : 1 ≤ cfg.C) {s : Thread} (h : Reach cfg s) :
    Good cfg s := by
  induction h with
  | start h0 => exact h0.is_good
  | step _ hs ih => exact ih.step hC hs

theorem Reach.after {cfg : Config} {s : Thread} (h : Reach cfg s) (op : QueueOp) :
    Reach cfg (s.after cfg op) := by
  unfold Thread.after
  cases hr : op.run cfg s.w s.g with
  | error e => exact h
  | ok r => exact Reach.step h (Step.queue op (show op.run cfg s.w s.g = .ok (r.1, r.2) from hr))

theorem sampleThread_initial : Initial (sampleConfig 2) sampleThread :=
  ⟨rfl, rfl, rfl, rfl, rfl, sample_supply 2 20 (by norm_num) _ rfl rfl [] (by simp)⟩

theorem sampleRun_reach : Reach (sampleConfig 2) sampleRun :=
  ((((Reach.start sampleThread_initial).after _).after _).after _).after _

/-- Claim C7: in every state a thread reaches from an initial state (queue without buffers,
both global lists empty) by calls that return of `getempty`, `putempty`, `putfull`,
`trygetfull`, `handoff` (on buffers it holds) and of the operations of its queue, the
global empty list chains buffers that all have `nobj = 0` and the global full list buffers
that all have `nobj > 0`; so a buffer `getempty` returns has `nobj = 0` and a non-nil
buffer `trygetfull` returns has `nobj > 0`. -/
theorem pool_lists_counts (cfg : Config) (hC : 1 ≤ cfg.C) (s : Thread) (hr : Reach cfg s) :
    ∃ E F, IsStack cfg s.g.bufs s.g.empty E ∧ IsStack cfg s.g.bufs s.g.full F ∧
      (∀ a ∈ E, (s.g.bufs a).nobj = 0) ∧ (∀ a ∈ F, 0 < (s.g.bufs a).nobj) ∧
      (∀ g1 b, getempty cfg s.g = .ok (g1, b) → (g1.bufs b).nobj = 0) ∧
      (∀ g1 b, trygetfull cfg s.g = .ok (g1, b) → b ≠ 0 → 0 < (g1.bufs b).nobj) := by
  have hg := hr.all_good hC
  obtain ⟨E, F, hi, _⟩ := hg
  exact ⟨E, F, hi.pool.isE, hi.pool.isF, hi.pool.emptyN, fun a ha => (hi.pool.fullN a ha).1,
    fun g1 b h => ((hr.all_good hC).getempty h).2, fun g1 b h => ((hr.all_good hC).trygetfull h).2⟩

/-- Witness of C7: the state after three `put` calls and `dispose` at capacity `2`, in
which both lists hold a buffer. -/
theorem pool_lists_counts_witness :
    sampleRun.g.empty ≠ 0 ∧ sampleRun.g.full ≠ 0 ∧
    ∃ E F, IsStack (sampleConfig 2) sampleRun.g.bufs sampleRun.g.empty E ∧
      IsStack (sampleConfig 2) sampleRun.g.bufs sampleRun.g.full F ∧
      (∀ a ∈ E, (sampleRun.g.bufs a).nobj = 0) ∧ (∀ a ∈ F, 0 < (sampleRun.g.bufs a).nobj) ∧
      (∀ g1 b, getempty (sampleConfig 2) sampleRun.g = .ok (g1, b) → (g1.bufs b).nobj = 0) ∧
      (∀ g1 b, trygetfull (sampleConfig 2) sampleRun.g = .ok (g1, b) → b ≠ 0 →
        0 < (g1.bufs b).nobj) :=
  ⟨by decide, by decide, pool_lists_counts (sampleConfig 2) (by decide) sampleRun sampleRun_reach⟩

/-- Claim C8: the ownership predicate, both of `wbuf1` and `wbuf2` nil or both not nil and
different, holds of the zero-valued `gcWork`, it holds of every queue satisfying the
data-model invariant, and each of `init`, `put`, `putFast`, `putBatch`, `tryGet`,
`tryGetFast`, `dispose`, `balance` and `empty`, called in such a state, returns (unless
the spans it needs are not left) with a queue of which the predicate holds. -/
theorem ownership_preserved (cfg : Config) (hC : 1 ≤ cfg.C) (op : QueueOp) (w : gcWork)
    (g : World) (E F X : List Nat) (h : Inv cfg w g E F X) :
    Owns gcWork.zero ∧ Owns w ∧
      Meets op.need (remaining g) (op.run cfg w g) (fun r => Owns r.1) :=
  ⟨Or.inl ⟨rfl, rfl⟩, h.owns,
    (QueueOp.run_wp hC op h).imp (fun _ ⟨_, _, hi, _⟩ => hi.owns)⟩

/-- Witness of C8: `put(15)` on the queue whose two buffers are full, at capacity `2`. -/
theorem ownership_preserved_witness :
    ∃ E F, Inv (sampleConfig 2) (sampleQueue 2 [11, 12, 13, 14]).1
        (sampleQueue 2 [11, 12, 13, 14]).2 E F [] ∧
      Owns gcWork.zero ∧ Owns (sampleQueue 2 [11, 12, 13, 14]).1 ∧
      Meets (QueueOp.put 15).need (remaining (sampleQueue 2 [11, 12, 13, 14]).2)
        ((QueueOp.put 15).run (sampleConfig 2) (sampleQueue 2 [11, 12, 13, 14]).1
          (sampleQueue 2 [11, 12, 13, 14]).2) (fun r => Owns r.1) := by
  obtain ⟨E, F, hi, _⟩ := sampleQueue_inv 2 [11, 12, 13, 14] (by decide) (by decide)
  exact ⟨E, F, hi, ownership_preserved (sampleConfig 2) (by decide) (.put 15) _ _ E F [] hi⟩

/-! ## The pointers to update -/

theorem record_flatten_perm (q : Nat) (G : List (List (Nat × Nat))) (p : Nat × Nat) :
    (record q G p).flatten.Perm (p :: G.flatten) := by
  cases G with
  | nil => simp [record]
  | cons grp rest =>
    simp only [record]
    split
    · simp
    · simp only [List.flatten_cons, List.append_assoc, List.singleton_append]
      exact List.perm_middle

theorem foldl_record_perm (q : Nat) (pairs : List (Nat × Nat)) :
    ∀ G : List (List (Nat × Nat)),
      (pairs.foldl (record q) G).flatten.Perm (G.flatten ++ pairs) := by
  induction pairs with
  | nil => intro G; simp
  | cons p ps ih =>
    intro G
    simp only [List.foldl_cons]
    refine (ih (record q G p)).trans ?_
    refine ((record_flatten_perm q G p).append_right ps).trans ?_
    simp only [List.cons_append]
    exact List.perm_middle.symm

theorem patchOrder_perm (C : Nat) (pairs : List (Nat × Nat)) :
    (patchOrder C pairs).Perm pairs := by
  have := foldl_record_perm ((C - 1) / 2) pairs []
  simpa [patchOrder, recordAll] using this

theorem record_nonempty (q : Nat) (G : List (List (Nat × Nat))) (p : Nat × Nat)
    (h : ∀ grp ∈ G, grp ≠ []) : ∀ grp ∈ record q G p, grp ≠ [] := by
  cases G with
  | nil => simp [record]
  | cons g0 rest =>
    simp only [record]
    split
    · intro grp hg
      rcases List.mem_cons.mp hg with rfl | hg
      · simp
      · exact h grp hg
    · intro grp hg
      rcases List.mem_cons.mp hg with rfl | hg
      · simp
      · exact h grp (List.mem_cons_of_mem _ hg)

theorem record_room (q : Nat) (hq : 1 ≤ q) (G : List (List (Nat × Nat))) (p : Nat × Nat)
    (h : ∀ grp ∈ G, grp.length ≤ q) : ∀ grp ∈ record q G p, grp.length ≤ q := by
  cases G with
  | nil => simpa [record] using hq
  | cons g0 rest =>
    simp only [record]
    split
    · intro grp hg
      rcases List.mem_cons.mp hg with rfl | hg
      · simpa using hq
      · exact h grp hg
    · rename_i hne
      intro grp hg
      rcases List.mem_cons.mp hg with rfl | hg
      · have := h g0 (List.mem_cons_self _ _)
        simp only [List.length_append, List.length_singleton]
        omega
      · exact h grp (List.mem_cons_of_mem _ hg)

theorem foldl_record_nonempty (q : Nat) (pairs : List (Nat × Nat)) :
    ∀ G : List (List (Nat × Nat)), (∀ grp ∈ G, grp ≠ []) →
      ∀ grp ∈ pairs.foldl (record q) G, grp ≠ [] := by
  induction pairs with
  | nil => intro G h; simpa using h
  | cons p ps ih =>
    intro G h
    simp only [List.foldl_cons]
    exact ih _ (record_nonempty q G p h)

theorem length_le_flatten (G : List (List (Nat × Nat))) (h : ∀ grp ∈ G, grp ≠ []) :
    G.length ≤ G.flatten.length := by
  induction G with
  | nil => simp
  | cons g0 rest ih =>
    have h0 : g0 ≠ [] := h g0 (List.mem_cons_self _ _)
    have h1 : 1 ≤ g0.length := List.length_pos.mpr h0
    have := ih (fun grp hg => h grp (List.mem_cons_of_mem _ hg))
    simp only [List.length_cons, List.flatten_cons, List.length_append]
    omega

theorem length_le_flatten_of_mem (G : List (List (Nat × Nat))) {grp : List (Nat × Nat)}
    (h : grp ∈ G) : grp.length ≤ G.flatten.length := by
  induction G with
  | nil => simp at h
  | cons g0 rest ih =>
    simp only [List.flatten_cons, List.length_append]
    rcases List.mem_cons.mp h with rfl | h
    · omega
    · have := ih h
      omega

theorem recordAll_sizes (C : Nat) (pairs : List (Nat × Nat)) :
    (recordAll C pairs).length ≤ pairs.length ∧
      ∀ grp ∈ recordAll C pairs, grp.length ≤ pairs.length := by
  have hp : (recordAll C pairs).flatten.length = pairs.length :=
    (patchOrder_perm C pairs).length_eq
  have hne := foldl_record_nonempty ((C - 1) / 2) pairs [] (by simp)
  refine ⟨?_, ?_⟩
  · rw [← hp]; exact length_le_flatten _ hne
  · intro grp hg
    rw [← hp]; exact length_le_flatten_of_mem _ hg

theorem patchAll_append (W B0 B1 : Nat) (A B : List (Nat × Nat)) :
    ∀ mem, patchAll W B0 B1 (A ++ B) mem =
      (patchAll W B0 B1 A mem).bind (patchAll W B0 B1 B) := by
  induction A with
  | nil => intro mem; rfl
  | cons p ps ih =>
    intro mem
    simp only [List.cons_append, patchAll]
    cases patch W B0 B1 mem p with
    | none => rfl
    | some m => exact ih m

/-- Pairwise distinct slots that each hold the old address are all rewritten, whatever
the order, and no other word changes. -/
theorem patchAll_distinct (W B0 B1 : Nat) :
    ∀ (L : List (Nat × Nat)) (mem : Nat → Nat), (L.map Prod.fst).Nodup →
      (∀ p ∈ L, mem p.1 = (B0 + p.2) % 2 ^ W) →
      ∃ m, patchAll W B0 B1 L mem = some m ∧ (∀ p ∈ L, m p.1 = (B1 + p.2) % 2 ^ W) ∧
        ∀ a, a ∉ L.map Prod.fst → m a = mem a := by
  intro L
  induction L with
  | nil => intro mem _ _; exact ⟨mem, rfl, by simp, fun _ _ => rfl⟩
  | cons p ps ih =>
    intro mem hnd hold
    rw [List.map_cons, List.nodup_cons] at hnd
    have hp := hold p (List.mem_cons_self _ _)
    have hrest : ∀ x ∈ ps, setMem mem p.1 ((B1 + p.2) % 2 ^ W) x.1 = (B0 + x.2) % 2 ^ W := by
      intro x hx
      have hne : x.1 ≠ p.1 := fun e => hnd.1 (e ▸ List.mem_map_of_mem Prod.fst hx)
      simp only [setMem, hne, if_false]
      exact hold x (List.mem_cons_of_mem _ hx)
    obtain ⟨m, hm, hnew, hother⟩ := ih _ hnd.2 hrest
    refine ⟨m, ?_, ?_, ?_⟩
    · simp only [patchAll, patch, hp, if_true, Option.bind_some]
      exact hm
    · intro x hx
      rcases List.mem_cons.mp hx with rfl | hx
      · rw [hother _ hnd.1]
        simp [setMem]
      · exact hnew x hx
    · intro a ha
      rw [List.map_cons, List.mem_cons, not_or] at ha
      rw [hother a ha.2]
      simp [setMem, ha.1]

theorem flat_cons (p : Nat × Nat) (l : List (Nat × Nat)) :
    flat (p :: l) = p.1 :: p.2 :: flat l := by
  simp [flat]

theorem flat_append (l m : List (Nat × Nat)) : flat (l ++ m) = flat l ++ flat m := by
  simp [flat]

theorem flat_length (grp : List (Nat × Nat)) : (flat grp).length = 2 * grp.length := by
  induction grp with
  | nil => rfl
  | cons a l ih =>
    rw [flat_cons]
    simp only [List.length_cons, ih]
    omega

theorem entries_drop_nil {g : World} {b k : Nat} (h : (entries g b).drop k = []) :
    (g.bufs b).nobj.toNat ≤ k := by
  have := congrArg List.length h
  simp only [entries, List.length_drop, List.length_map, List.length_range,
    List.length_nil] at this
  omega

theorem entries_drop_two {g : World} {b k x y : Nat} {tl : List Nat}
    (h : (entries g b).drop k = x :: y :: tl) :
    k + 2 ≤ (g.bufs b).nobj.toNat ∧ (g.bufs b).obj k = x ∧ (g.bufs b).obj (k + 1) = y ∧
      (entries g b).drop (k + 2) = tl := by
  have hlen := congrArg List.length h
  simp only [entries, List.length_drop, List.length_map, List.length_range,
    List.length_cons] at hlen
  have hk : k + 2 ≤ (g.bufs b).nobj.toNat := by omega
  have h0 := congrArg (fun l => l[0]?) h
  have h1 := congrArg (fun l => l[1]?) h
  simp only [List.getElem?_drop, List.getElem?_cons_zero, List.getElem?_cons_succ] at h0 h1
  have e0 : (entries g b)[k + 0]? = some ((g.bufs b).obj k) := by
    simp only [entries, List.getElem?_map, add_zero]
    rw [List.getElem?_range (by omega)]
    rfl
  have e1 : (entries g b)[k + 1]? = some ((g.bufs b).obj (k + 1)) := by
    simp only [entries, List.getElem?_map]
    rw [List.getElem?_range (by omega)]
    rfl
  rw [e0] at h0
  rw [e1] at h1
  refine ⟨hk, Option.some.inj h0, Option.some.inj h1, ?_⟩
  have : (entries g b).drop (k + 2) = ((entries g b).drop k).drop 2 := by
    rw [List.drop_drop, Nat.add_comm]
  rw [this, h]
  rfl

/-- The inner loop of `updateOldPtrs`, from index `k` on, patches the pairs still ahead in
order, and aborts at the first slot that holds another value. -/
theorem updatePairs_spec (cfg : Config) (w : gcWork) (b : Nat) (hb : b ≠ 0) :
    ∀ (rest : List (Nat × Nat)) (fuel k : Nat) (g : World),
      0 ≤ (g.bufs b).nobj → (g.bufs b).nobj ≤ cfg.C →
      (entries g b).drop k = flat rest → rest.length + 1 ≤ fuel →
      gcWork.updatePairs cfg w b fuel (k : Int) g =
        match patchAll cfg.W w.old_block w.new_block rest g.mem with
        | some m => .ok { g with mem := m }
        | none => .error .addressMismatch := by
  intro rest
  induction rest with
  | nil =>
    intro fuel k g h0 hC hd hf
    obtain ⟨f, rfl⟩ : ∃ f, fuel = f + 1 := ⟨fuel - 1, by simp at hf; omega⟩
    have hle := entries_drop_nil hd
    have hc : ¬ ((k : Int) ≤ (g.bufs b).nobj - 2) := by omega
    simp only [gcWork.updatePairs, getNobj, hb, if_false, bind, Except.bind, hc, patchAll]
  | cons p tl ih =>
    intro fuel k g h0 hC hd hf
    obtain ⟨f, rfl⟩ : ∃ f, fuel = f + 1 := ⟨fuel - 1, by simp at hf; omega⟩
    have hd2 : (entries g b).drop k = p.1 :: p.2 :: flat tl := by
      rw [hd, flat_cons]
    obtain ⟨hk, e1, e2, hd3⟩ := entries_drop_two hd2
    have hc : (k : Int) ≤ (g.bufs b).nobj - 2 := by omega
    have c1 : ¬ ((k : Int) < 0 ∨ (cfg.C : Int) ≤ (k : Int)) := by omega
    have c2 : ¬ ((k : Int) + 1 < 0 ∨ (cfg.C : Int) ≤ (k : Int) + 1) := by omega
    have t1 : ((k : Int)).toNat = k := Int.toNat_ofNat k
    have t2 : ((k : Int) + 1).toNat = k + 1 := by omega
    have hrec := fun m : Nat → Nat =>
      ih f (k + 2) { g with mem := m } h0 hC hd3 (by simp at hf; omega)
    have hcast : (((k + 2 : Nat)) : Int) = (k : Int) + 2 := by norm_cast
    rw [hcast] at hrec
    simp only [gcWork.updatePairs, getNobj, hb, if_false, bind, Except.bind, hc, if_true,
      readObj, c1, c2, t1, t2, e1, e2, patchAll, patch]
    by_cases hm : g.mem p.1 = (w.old_block + p.2) % 2 ^ cfg.W
    · have hm2 : ¬ ((w.old_block + p.2) % 2 ^ cfg.W ≠ g.mem p.1) := not_not.mpr hm.symm
      rw [if_neg hm2, if_pos hm, Option.some_bind, hrec]
    · have hm2 : (w.old_block + p.2) % 2 ^ cfg.W ≠ g.mem p.1 := fun e => hm e.symm
      rw [if_pos hm2, if_neg hm, Option.none_bind]

theorem Holds.of_mem {g : World} {b : Nat} {grp : List (Nat × Nat)} (h : Holds g b grp)
    (m : Nat → Nat) : Holds { g with mem := m } b grp := h

theorem holds_count {g : World} {b : Nat} {grp : List (Nat × Nat)} (h : Holds g b grp) :
    (g.bufs b).nobj = 2 * (grp.length : Int) := by
  have := congrArg List.length h.2
  rw [flat_length] at this
  simp only [entries, List.length_map, List.length_range] at this
  have h0 := h.1
  omega

/-- The outer loop of `updateOldPtrs` patches the pairs of the buffers of `old_ptrs`,
buffer by buffer from the top, and leaves the stack empty. -/
theorem updateOldPtrsLoop_spec (cfg : Config) (inner : Nat) :
    ∀ (O : List Nat) (G : List (List (Nat × Nat))) (fuel : Nat) (w : gcWork) (g : World),
      IsStack cfg g.bufs w.old_ptrs O → List.Forall₂ (Holds g) O G →
      (∀ b ∈ O, b ≠ 0) → (∀ grp ∈ G, 2 * grp.length ≤ cfg.C) →
      (∀ grp ∈ G, grp.length + 1 ≤ inner) → O.length + 1 ≤ fuel →
      gcWork.updateOldPtrsLoop cfg inner fuel w g =
        match patchAll cfg.W w.old_block w.new_block G.flatten g.mem with
        | some m => .ok ({ w with old_ptrs := 0 }, { g with mem := m })
        | none => .error .addressMismatch := by
  intro O
  induction O with
  | nil =>
    intro G fuel w g hs hh _ _ _ hf
    obtain ⟨f, rfl⟩ : ∃ f, fuel = f + 1 := ⟨fuel - 1, by simp at hf; omega⟩
    cases hh
    have h0 : w.old_ptrs = 0 := hs
    simp only [gcWork.updateOldPtrsLoop, lfstack.pop, h0, if_true, bind, Except.bind, ne_eq,
      not_true_eq_false, if_false, List.flatten_nil, patchAll]
  | cons b O ih =>
    intro G fuel w g hs hh hnz hcap hin hf
    obtain ⟨f, rfl⟩ : ∃ f, fuel = f + 1 := ⟨fuel - 1, by simp at hf; omega⟩
    cases hh with
    | cons hb hrest =>
      rename_i grp G
      have hbz : b ≠ 0 := hnz b (List.mem_cons_self _ _)
      have hcnt := holds_count hb
      have hcapb := hcap grp (List.mem_cons_self _ _)
      have hup := updatePairs_spec cfg { w with old_ptrs := (g.bufs b).next } b hbz grp inner 0
        g hb.1 (by omega) (by simpa using hb.2) (hin grp (List.mem_cons_self _ _))
      simp only [gcWork.updateOldPtrsLoop, pop_cons hs hbz, bind, Except.bind, ne_eq, hbz,
        not_false_eq_true, if_true, List.flatten_cons, patchAll_append]
      have hz : ((0 : Nat) : Int) = 0 := rfl
      rw [hz] at hup
      rw [hup]
      cases hpa : patchAll cfg.W w.old_block w.new_block grp g.mem with
      | none => simp only [Option.none_bind]
      | some m =>
        simp only [Option.some_bind]
        have := ih G f { w with old_ptrs := (g.bufs b).next } { g with mem := m } hs.2.2
          hrest (fun x hx => hnz x (List.mem_cons_of_mem _ hx))
          (fun x hx => hcap x (List.mem_cons_of_mem _ hx))
          (fun x hx => hin x (List.mem_cons_of_mem _ hx)) (by simp at hf; omega)
        rw [this]

theorem bind_ok {α β : Type} {x : Except Err α} {f : α → Except Err β} {r : β}
    (h : Except.bind x f = .ok r) : ∃ a, x = .ok a ∧ f a = .ok r := by
  cases x with
  | error e => simp [Except.bind] at h
  | ok a => exact ⟨a, rfl, h⟩

theorem pushObj_ok {cfg : Config} {g g1 : World} {b p : Nat}
    (h : pushObj cfg g b p = .ok g1) :
    b ≠ 0 ∧ 0 ≤ (g.bufs b).nobj ∧ (g.bufs b).nobj < cfg.C ∧ g1 = pushed g b p := by
  by_cases hb : b = 0
  · simp [pushObj, getNobj, hb, bind, Except.bind] at h
  by_cases hr : 0 ≤ (g.bufs b).nobj ∧ (g.bufs b).nobj < cfg.C
  · rw [pushObj_eq hb hr] at h
    cases h
    exact ⟨hb, hr.1, hr.2, rfl⟩
  · have hc : (g.bufs b).nobj < 0 ∨ (cfg.C : Int) ≤ (g.bufs b).nobj := by omega
    simp [pushObj, getNobj, hb, bind, Except.bind, writeObj, hc] at h

/-- When `putOldPtr` returns, the capacity of a work buffer is odd and at least three. -/
theorem putOldPtr_ok_cap {cfg : Config} {w : gcWork} {g : World} {a o : Nat}
    {r : gcWork × World} (h : gcWork.putOldPtr cfg w g a o = .ok r) :
    cfg.C % 2 = 1 ∧ 3 ≤ cfg.C := by
  simp only [gcWork.putOldPtr, bind] at h
  obtain ⟨fresh, _, h⟩ := bind_ok h
  obtain ⟨⟨w1, g1, wbuf⟩, _, h⟩ := bind_ok h
  simp only at h
  by_cases hc : cfg.C % 2 = 0
  · simp [hc] at h
  · rw [if_neg hc] at h
    obtain ⟨g2, h2, h⟩ := bind_ok h
    obtain ⟨g3, h3, _⟩ := bind_ok h
    obtain ⟨_, q1, _, rfl⟩ := pushObj_ok h2
    obtain ⟨_, _, q3, _⟩ := pushObj_ok h3
    rw [pushed_nobj] at q3
    omega

theorem PoolInv.keep_link {cfg : Config} {g : World} {E F Y : List Nat} {n b : Nat}
    (h : PoolInv cfg g E F Y n) (hb : b ∉ E ++ F) (c d : Nat) :
    PoolInv cfg { g with bufs := link g.bufs b c d } E F Y n := by
  have hne : ∀ a ∈ E ++ F, a ≠ b := fun a ha e => hb (e ▸ ha)
  refine ⟨h.isE.congr_next ?_, h.isF.congr_next ?_, h.nodup, h.valid, ?_, ?_,
    h.supply.congr_own rfl rfl (fun _ ha => ha)⟩
  · intro a ha
    show (link _ _ _ _ a).next = _
    rw [link_other _ _ _ _ _ (hne a (List.mem_append_left _ ha))]
  · intro a ha
    show (link _ _ _ _ a).next = _
    rw [link_other _ _ _ _ _ (hne a (List.mem_append_right _ ha))]
  · intro a ha
    show (link _ _ _ _ a).nobj = _
    rw [link_nobj]; exact h.emptyN a ha
  · intro a ha
    show 0 < (link _ _ _ _ a).nobj ∧ (link _ _ _ _ a).nobj ≤ _
    rw [link_nobj]; exact h.fullN a ha

theorem Holds.congr_bufs {g g1 : World} {a : Nat} {grp : List (Nat × Nat)} (h : Holds g a grp)
    (hn : (g1.bufs a).nobj = (g.bufs a).nobj) (ho : (g1.bufs a).obj = (g.bufs a).obj) :
    Holds g1 a grp := by
  refine ⟨by rw [hn]; exact h.1, ?_⟩
  rw [← h.2]
  simp only [entries, hn, ho]

theorem holds_all_congr {g g1 : World} :
    ∀ {O : List Nat} {G : List (List (Nat × Nat))}, List.Forall₂ (Holds g) O G →
      (∀ a ∈ O, (g1.bufs a).nobj = (g.bufs a).nobj ∧ (g1.bufs a).obj = (g.bufs a).obj) →
      List.Forall₂ (Holds g1) O G
  | _, _, .nil, _ => .nil
  | _, _, .cons hb hrest, hc =>
    .cons (hb.congr_bufs (hc _ (List.mem_cons_self _ _)).1 (hc _ (List.mem_cons_self _ _)).2)
      (holds_all_congr hrest (fun a ha => hc a (List.mem_cons_of_mem _ ha)))

/-- What `pushOldPtrsWorkbuf` does: a buffer holding nothing becomes the top of
`old_ptrs`. -/
theorem pushOldPtrsWorkbuf_wp {cfg : Config} {w : gcWork} {g : World} {E F Y O : List Nat}
    {G : List (List (Nat × Nat))} (h : Recorded cfg w g E F Y O G) :
    Meets 1 (remaining g) (gcWork.pushOldPtrsWorkbuf cfg w g) (fun r => ∃ E1 b,
      Recorded cfg r.1 r.2 E1 F Y (b :: O) ([] :: G) ∧ r.1.old_ptrs ≠ 0 ∧
      cfg.unpack r.1.old_ptrs = b ∧ r.2.mem = g.mem ∧ r.1.old_block = w.old_block ∧
      r.1.new_block = w.new_block ∧ remaining g ≤ remaining r.2 + 1) := by
  unfold gcWork.pushOldPtrsWorkbuf
  refine Meets.bind (getempty_wp h.pool) ?_
  rintro ⟨g1, b⟩ ⟨E1, hp1, hn1, hf1, _, _, hrem, hnx⟩
  simp only at hp1 hn1 hf1 hrem hnx
  have hv : Valid cfg b := hp1.valid b (by simp)
  obtain ⟨hbE, hbF, hbOY⟩ := mem_own_cons hp1.nodup
  have hbEF : b ∉ E1 ++ F := by simp only [List.mem_append]; tauto
  have hbO : b ∉ O := fun hx => hbOY (List.mem_append_left _ hx)
  have hOmem : ∀ a ∈ O, a ∈ E ++ F ++ (O ++ Y) := fun a ha => by
    simp only [List.mem_append]; tauto
  have hpush := push_ok cfg (storeNobj g1 b 0).bufs w.old_ptrs b hv
  show Meets 1 (remaining g) (setNobj g1 b 0 >>= fun g2 =>
    lfnodeValidate cfg b >>= fun _ => lfstack.push cfg g2.bufs w.old_ptrs b >>= fun r =>
      Except.ok ({ w with old_ptrs := r.2 }, { g2 with bufs := r.1 })) _
  simp only [setNobj_eq hv.1, lfnodeValidate_ok hv hv.2.2, hpush, bind, Except.bind]
  refine ⟨E1, b, ⟨?_, ?_, ?_, ?_⟩, (hv.2.1 _).2, (hv.2.1 _).1, hf1.mem, rfl, rfl, hrem⟩
  · exact (hp1.keep_storeNobj hbEF 0).keep_link hbEF _ _
  · refine IsStack.push (h.chain.congr_next ?_) hv hbO _ _
    intro a ha
    rw [storeNobj_next, hnx a (hOmem a ha)]
  · refine .cons ⟨?_, ?_⟩ (holds_all_congr h.holds ?_)
    · show 0 ≤ (link _ _ _ _ b).nobj
      rw [link_nobj, storeNobj_same]
    · apply entries_of_zero
      show (link _ _ _ _ b).nobj = 0
      rw [link_nobj, storeNobj_same]
    · intro a ha
      have hab : a ≠ b := fun e => hbO (e ▸ ha)
      refine ⟨?_, ?_⟩
      · show (link _ _ _ _ a).nobj = _
        rw [link_nobj, storeNobj_other _ _ _ _ hab, hf1.nobj a (hOmem a ha)]
      · show (link _ _ _ _ a).obj = _
        rw [link_obj, storeNobj_other _ _ _ _ hab, hf1.obj a (hOmem a ha)]
  · intro grp hg
    rcases List.mem_cons.mp hg with rfl | hg
    · simp
    · exact h.room grp hg

theorem entries_pushed (g : World) (b p : Nat) (hn : 0 ≤ (g.bufs b).nobj) :
    entries (pushed g b p) b = entries g b ++ [p] := by
  have := congrArg List.reverse (tops_pushed g b p hn)
  simpa [tops] using this

/-- The two stores of `putOldPtr` into the top buffer of `old_ptrs`, which has room. -/
theorem Recorded.push_pair {cfg : Config} {w : gcWork} {g : World} {E F Y O : List Nat}
    {G : List (List (Nat × Nat))} {b : Nat} {grp : List (Nat × Nat)}
    (h : Recorded cfg w g E F Y (b :: O) (grp :: G)) (hodd : cfg.C % 2 = 1)
    (hlt : grp.length < (cfg.C - 1) / 2) (a o : Nat) :
    pushObj cfg g b a = .ok (pushed g b a) ∧
      pushObj cfg (pushed g b a) b o = .ok (pushed (pushed g b a) b o) ∧
      Recorded cfg w (pushed (pushed g b a) b o) E F Y (b :: O) ((grp ++ [(a, o)]) :: G) := by
  have hv : Valid cfg b := h.pool.valid b (by simp)
  obtain ⟨hbE, hbF, hbOY⟩ := mem_own_cons (show (E ++ F ++ b :: (O ++ Y)).Nodup from h.pool.nodup)
  have hbEF : b ∉ E ++ F := by simp only [List.mem_append]; tauto
  have hbO : b ∉ O := fun hx => hbOY (List.mem_append_left _ hx)
  cases hh : h.holds with
  | cons hb hrest =>
    have hcnt := holds_count hb
    have h1 : 0 ≤ (g.bufs b).nobj ∧ (g.bufs b).nobj < cfg.C := by omega
    have h2 : 0 ≤ ((pushed g b a).bufs b).nobj ∧ ((pushed g b a).bufs b).nobj < cfg.C := by
      rw [pushed_nobj]; omega
    refine ⟨pushObj_eq hv.1 h1 a, pushObj_eq hv.1 h2 o, ⟨?_, ?_, ?_, ?_⟩⟩
    · exact (h.pool.keep_pushed hbEF a).keep_pushed hbEF o
    · refine h.chain.congr_next ?_
      intro x _
      rw [pushed_next, pushed_next]
    · refine .cons ⟨?_, ?_⟩ (holds_all_congr hrest ?_)
      · rw [pushed_nobj, pushed_nobj]; omega
      · rw [entries_pushed _ _ _ h2.1, entries_pushed _ _ _ h1.1, hb.2, flat_append]
        simp [flat]
      · intro x hx
        have hxb : x ≠ b := fun e => hbO (e ▸ hx)
        rw [pushed_other _ _ _ _ hxb, pushed_other _ _ _ _ hxb]
        exact ⟨rfl, rfl⟩
    · intro x hx
      rcases List.mem_cons.mp hx with rfl | hx
      · simp only [List.length_append, List.length_singleton]; omega
      · exact h.room x (List.mem_cons_of_mem _ hx)

/-- The path of `putOldPtr` that starts a buffer: the pair becomes the only one of a new
top buffer. -/
theorem putOldPtr_fresh {cfg : Config} {w : gcWork} {g : World} {E F Y O : List Nat}
    {G : List (List (Nat × Nat))} (h : Recorded cfg w g E F Y O G) (hodd : cfg.C % 2 = 1)
    (hC : 3 ≤ cfg.C) (a o : Nat) :
    Meets 1 (remaining g)
      (Except.bind (gcWork.pushOldPtrsWorkbuf cfg w g) (fun r =>
        Except.bind (pushObj cfg r.2 (lfstack.head cfg r.1.old_ptrs) a) (fun g2 =>
          Except.bind (pushObj cfg g2 (lfstack.head cfg r.1.old_ptrs) o) (fun g3 =>
            .ok (r.1, g3)))))
      (fun r => ∃ E1 O1, Recorded cfg r.1 r.2 E1 F Y O1 ([(a, o)] :: G) ∧
        r.2.mem = g.mem ∧ r.1.old_block = w.old_block ∧ r.1.new_block = w.new_block ∧
        remaining g ≤ remaining r.2 + 1) := by
  refine Meets.bind_except (pushOldPtrsWorkbuf_wp h) ?_
  rintro ⟨w1, g1⟩ ⟨E1, b, hr, hne, hun, hmem, hob, hnb, hrem⟩
  simp only at hr hne hun hmem hob hnb hrem
  have hhead : lfstack.head cfg w1.old_ptrs = b := by simp [lfstack.head, hne, hun]
  obtain ⟨p1, p2, hr2⟩ := hr.push_pair hodd (show ([] : List (Nat × Nat)).length <
    (cfg.C - 1) / 2 by simp; omega) a o
  simp only [hhead, p1, p2, Except.bind]
  exact ⟨E1, b :: O, hr2, hmem, hob, hnb, hrem⟩

/-- What `putOldPtr` does: unless no span is left when one is needed, the pair is recorded
in the top buffer of `old_ptrs`, or in a new top buffer when there is none or it is full;
memory is not touched. -/
theorem putOldPtr_wp {cfg : Config} {w : gcWork} {g : World} {E F Y O : List Nat}
    {G : List (List (Nat × Nat))} (h : Recorded cfg w g E F Y O G) (hodd : cfg.C % 2 = 1)
    (hC : 3 ≤ cfg.C) (a o : Nat) :
    Meets 1 (remaining g) (gcWork.putOldPtr cfg w g a o) (fun r => ∃ E1 O1,
      Recorded cfg r.1 r.2 E1 F Y O1 (record ((cfg.C - 1) / 2) G (a, o)) ∧
      r.2.mem = g.mem ∧ r.1.old_block = w.old_block ∧ r.1.new_block = w.new_block ∧
      remaining g ≤ remaining r.2 + 1) := by
  have hc : ¬ cfg.C % 2 = 0 := by omega
  rcases O with _ | ⟨b, O⟩ <;> rcases G with _ | ⟨grp, G⟩
  · have h0 : w.old_ptrs = 0 := h.chain
    have heq : gcWork.putOldPtr cfg w g a o =
        Except.bind (gcWork.pushOldPtrsWorkbuf cfg w g) (fun r =>
          Except.bind (pushObj cfg r.2 (lfstack.head cfg r.1.old_ptrs) a) (fun g2 =>
            Except.bind (pushObj cfg g2 (lfstack.head cfg r.1.old_ptrs) o) (fun g3 =>
              .ok (r.1, g3)))) := by
      simp only [gcWork.putOldPtr, lfstack.head, h0, if_true, bind, Except.bind, hc, if_false]
      cases gcWork.pushOldPtrsWorkbuf cfg w g with
      | error e => rfl
      | ok r => rfl
    rw [heq]
    exact putOldPtr_fresh h hodd hC a o
  · cases h.holds
  · cases h.holds
  · obtain ⟨hb, hrest⟩ := List.forall₂_cons.mp h.holds
    have hv : Valid cfg b := h.pool.valid b (by simp)
    have hne : w.old_ptrs ≠ 0 := h.chain.1
    have hun : cfg.unpack w.old_ptrs = b := h.chain.2.1
    have hcnt := holds_count hb
    have hroom := h.room grp (List.mem_cons_self _ _)
    by_cases hfull : grp.length = (cfg.C - 1) / 2
    · have hn : (g.bufs b).nobj = (cfg.C : Int) - 1 := by omega
      have heq : gcWork.putOldPtr cfg w g a o =
          Except.bind (gcWork.pushOldPtrsWorkbuf cfg w g) (fun r =>
            Except.bind (pushObj cfg r.2 (lfstack.head cfg r.1.old_ptrs) a) (fun g2 =>
              Except.bind (pushObj cfg g2 (lfstack.head cfg r.1.old_ptrs) o) (fun g3 =>
                .ok (r.1, g3)))) := by
        simp only [gcWork.putOldPtr, lfstack.head, hne, hun, if_false, getNobj, hv.1, bind,
          Except.bind, hn, decide_True, if_true, hc]
        cases gcWork.pushOldPtrsWorkbuf cfg w g with
        | error e => rfl
        | ok r => rfl
      rw [heq]
      simp only [record, hfull, if_true]
      exact putOldPtr_fresh h hodd hC a o
    · have hn : ¬ (g.bufs b).nobj = (cfg.C : Int) - 1 := by omega
      obtain ⟨p1, p2, hr2⟩ := h.push_pair hodd (by omega) a o
      have heq : gcWork.putOldPtr cfg w g a o = .ok (w, pushed (pushed g b a) b o) := by
        simp only [gcWork.putOldPtr, lfstack.head, hne, hun, if_false, getNobj, hv.1, bind,
          Except.bind, hn, decide_False, hc]
        simp only [Bool.false_eq_true, if_false, p1, p2]
      rw [heq]
      simp only [record, hfull, if_false]
      exact ⟨E, b :: O, hr2, rfl, rfl, rfl, Nat.le_succ _⟩

/-- Successive `putOldPtr` calls record the pairs as `record` says. -/
theorem putOldPtrs_wp {cfg : Config} {F Y : List Nat} (hodd : cfg.C % 2 = 1) (hC : 3 ≤ cfg.C) :
    ∀ (pairs : List (Nat × Nat)) (w : gcWork) (g : World) (E O : List Nat)
      (G : List (List (Nat × Nat))), Recorded cfg w g E F Y O G →
      Meets pairs.length (remaining g) (putOldPtrs cfg w g pairs) (fun r => ∃ E1 O1,
        Recorded cfg r.1 r.2 E1 F Y O1 (pairs.foldl (record ((cfg.C - 1) / 2)) G) ∧
        r.2.mem = g.mem ∧ r.1.old_block = w.old_block ∧ r.1.new_block = w.new_block ∧
        remaining g ≤ remaining r.2 + pairs.length)
  | [], w, g, E, O, G, h => ⟨E, O, h, rfl, rfl, rfl, Nat.le_refl _⟩
  | p :: ps, w, g, E, O, G, h => by
    simp only [putOldPtrs, bind]
    refine Meets.bind_except ((putOldPtr_wp h hodd hC p.1 p.2).weaken (by simp; omega)) ?_
    rintro ⟨w1, g1⟩ ⟨E1, O1, hr, hmem, hob, hnb, hrem⟩
    simp only at hr hmem hob hnb hrem
    refine ((putOldPtrs_wp hodd hC ps w1 g1 E1 O1 _ hr).weaken (by simp; omega)).imp ?_
    rintro r ⟨E2, O2, q1, q2, q3, q4, q5⟩
    exact ⟨E2, O2, q1, by rw [q2, hmem], by rw [q3, hob], by rw [q4, hnb], by simp; omega⟩

/-- The state before recording: the stack `old_ptrs` is empty. -/
theorem Inv.recorded {cfg : Config} {w : gcWork} {g : World} {E F X : List Nat}
    (h : Inv cfg w g E F X) (hO : w.old_ptrs = 0) :
    Recorded cfg w g E F (locals w ++ X) [] [] :=
  ⟨h.pool, hO, .nil, by simp⟩

/-- What `updateOldPtrs` does after a recording, with fuel for its loops. -/
theorem updateOldPtrs_spec {cfg : Config} {w : gcWork} {g : World} {E F Y O : List Nat}
    {G : List (List (Nat × Nat))} (h : Recorded cfg w g E F Y O G)
    (fuel : Nat) (hlen : G.length + 1 ≤ fuel) (hin : ∀ grp ∈ G, grp.length + 1 ≤ fuel) :
    gcWork.updateOldPtrs cfg fuel w g =
      match patchAll cfg.W w.old_block w.new_block G.flatten g.mem with
      | some m => .ok ({ w with old_ptrs := 0 }, { g with mem := m })
      | none => .error .addressMismatch := by
  unfold gcWork.updateOldPtrs
  refine updateOldPtrsLoop_spec cfg fuel O G fuel w g h.chain h.holds ?_ ?_ hin ?_
  · intro b hb
    exact (h.pool.valid b (by simp [hb])).1
  · intro grp hg
    have := h.room grp hg
    omega
  · rw [h.holds.length_eq]; exact hlen

theorem patch_inv : Inv (sampleConfig 3) patchQueue patchWorld [] [] [] := by
  refine ⟨⟨rfl, rfl, by simp [locals, patchQueue, gcWork.zero],
    by simp [locals, patchQueue, gcWork.zero], by simp, by simp, ?_⟩, fun _ => rfl,
    by simp [locals, patchQueue, gcWork.zero]⟩
  exact sample_supply 3 4 (by norm_num) _ rfl rfl _ (by simp [locals, patchQueue, gcWork.zero])

/-- Claim C10: over memory as a map from addresses to words, with sums modulo `2 ^ W`.
From a state satisfying the data-model invariant with the stack `old_ptrs` empty, the
`putOldPtr` calls for the pairs return when the capacity is odd and at least three and
the spans suffice. Once they have returned, `updateOldPtrs` (with fuel for its loops)
comes to every recorded pair exactly once, in the order `patchOrder`, a permutation of
the pairs: a pair `(A, O)` whose slot holds `old_block + O` has `new_block + O` written
to the slot, and at the first slot holding another value the call throws. In particular,
when the slots are pairwise distinct and each holds `old_block + O`, `updateOldPtrs`
returns with every slot holding `new_block + O`, every other word of memory unchanged,
and `old_ptrs` empty. -/
theorem relocation_patch (cfg : Config) (w : gcWork) (g : World) (E F X : List Nat)
    (pairs : List (Nat × Nat)) (fuel : Nat) (h : Inv cfg w g E F X) (hO : w.old_ptrs = 0)
    (hfuel : pairs.length + 1 ≤ fuel) :
    (cfg.C % 2 = 1 → 3 ≤ cfg.C → pairs.length ≤ remaining g →
      ∃ r, putOldPtrs cfg w g pairs = .ok r) ∧
    (patchOrder cfg.C pairs).Perm pairs ∧
    ∀ w1 g1, putOldPtrs cfg w g pairs = .ok (w1, g1) →
      w1.old_block = w.old_block ∧ w1.new_block = w.new_block ∧ g1.mem = g.mem ∧
      gcWork.updateOldPtrs cfg fuel w1 g1 =
        (match patchAll cfg.W w.old_block w.new_block (patchOrder cfg.C pairs) g.mem with
         | some m => .ok ({ w1 with old_ptrs := 0 }, { g1 with mem := m })
         | none => .error .addressMismatch) ∧
      ((pairs.map Prod.fst).Nodup →
        (∀ p ∈ pairs, g.mem p.1 = (w.old_block + p.2) % 2 ^ cfg.W) →
        ∃ g2, gcWork.updateOldPtrs cfg fuel w1 g1 = .ok ({ w1 with old_ptrs := 0 }, g2) ∧
          (∀ p ∈ pairs, g2.mem p.1 = (w.new_block + p.2) % 2 ^ cfg.W) ∧
          (∀ a, a ∉ pairs.map Prod.fst → g2.mem a = g.mem a)) := by
  have hperm := patchOrder_perm cfg.C pairs
  refine ⟨?_, hperm, ?_⟩
  · intro hodd hC hsup
    obtain ⟨r, hr, _⟩ := (putOldPtrs_wp hodd hC pairs w g E [] [] (h.recorded hO)).exists_ok hsup
    exact ⟨r, hr⟩
  intro w1 g1 hrec
  have key : ∃ E1 O1, Recorded cfg w1 g1 E1 F (locals w ++ X) O1 (recordAll cfg.C pairs) ∧
      g1.mem = g.mem ∧ w1.old_block = w.old_block ∧ w1.new_block = w.new_block := by
    cases pairs with
    | nil =>
      cases hrec
      exact ⟨E, [], h.recorded hO, rfl, rfl, rfl⟩
    | cons p ps =>
      have hcap : cfg.C % 2 = 1 ∧ 3 ≤ cfg.C := by
        simp only [putOldPtrs, bind] at hrec
        obtain ⟨r, hr, _⟩ := bind_ok hrec
        exact putOldPtr_ok_cap hr
      obtain ⟨E1, O1, q1, q2, q3, q4, _⟩ :=
        (putOldPtrs_wp hcap.1 hcap.2 (p :: ps) w g E [] [] (h.recorded hO)).of_ok hrec
      exact ⟨E1, O1, q1, q2, q3, q4⟩
  obtain ⟨E1, O1, hr, hmem, hob, hnb⟩ := key
  obtain ⟨hs1, hs2⟩ := recordAll_sizes cfg.C pairs
  have hup : gcWork.updateOldPtrs cfg fuel w1 g1 =
      (match patchAll cfg.W w.old_block w.new_block (patchOrder cfg.C pairs) g.mem with
       | some m => .ok ({ w1 with old_ptrs := 0 }, { g1 with mem := m })
       | none => .error .addressMismatch) := by
    have hsp := updateOldPtrs_spec hr fuel (by omega) (fun grp hg => by
      have := hs2 grp hg
      omega)
    rw [hsp, hob, hnb, hmem]
    rfl
  refine ⟨hob, hnb, hmem, hup, ?_⟩
  intro hnd hold
  have hnd1 : ((patchOrder cfg.C pairs).map Prod.fst).Nodup :=
    (hperm.map Prod.fst).nodup_iff.mpr hnd
  obtain ⟨m, hm, hnew, hoth⟩ := patchAll_distinct cfg.W w.old_block w.new_block
    (patchOrder cfg.C pairs) g.mem hnd1 (fun p hp => hold p (hperm.mem_iff.mp hp))
  refine ⟨{ g1 with mem := m }, ?_, ?_, ?_⟩
  · rw [hup, hm]
  · intro p hp
    exact hnew p (hperm.mem_iff.mpr hp)
  · intro a ha
    exact hoth a (fun hx => ha ((hperm.map Prod.fst).mem_iff.mp hx))

/-- Witness of C10: at capacity `3` each patch buffer takes one pair, so three pairs span
three buffers; the slots `500`, `600`, `700` hold `1000 + 7`, `1000 + 15`, `1000 + 23`
and end up holding `2000 + 7`, `2000 + 15`, `2000 + 23`. -/
theorem relocation_patch_witness :
    ∃ w1 g1 g2, putOldPtrs (sampleConfig 3) patchQueue patchWorld
        [(500, 7), (600, 15), (700, 23)] = .ok (w1, g1) ∧
      gcWork.updateOldPtrs (sampleConfig 3) 4 w1 g1 = .ok ({ w1 with old_ptrs := 0 }, g2) ∧
      g2.mem 500 = 2007 ∧ g2.mem 600 = 2015 ∧ g2.mem 700 = 2023 ∧ g2.mem 800 = 0 := by
  obtain ⟨hret, _, hall⟩ := relocation_patch (sampleConfig 3) patchQueue patchWorld [] [] []
    [(500, 7), (600, 15), (700, 23)] 4 patch_inv rfl (by decide)
  obtain ⟨⟨w1, g1⟩, hr⟩ := hret (by decide) (by decide) (by decide)
  obtain ⟨_, _, _, _, hcor⟩ := hall w1 g1 hr
  obtain ⟨g2, hg2, hnew, hoth⟩ := hcor (by decide) (by
    intro p hp
    simp only [List.mem_cons, List.mem_singleton, List.not_mem_nil, or_false] at hp
    rcases hp with rfl | rfl | rfl <;> rfl)
  refine ⟨w1, g1, g2, hr, hg2, ?_, ?_, ?_, ?_⟩
  · exact hnew (500, 7) (by simp)
  · exact hnew (600, 15) (by simp)
  · exact hnew (700, 23) (by simp)
  · exact hoth 800 (by decide)

/-- A node whose address round-trips through packing can be pushed, whatever the stack. -/
theorem push_roundtrip (cfg : Config) (bufs : Nat → workbuf) (h n : Nat) (hn : n ≠ 0)
    (hr : ∀ c, cfg.unpack (cfg.pack n c) = n) :
    lfstack.push cfg bufs h n =
      .ok (link bufs n (((bufs n).pushcnt + 1) % 2 ^ cfg.W) h,
           cfg.pack n (((bufs n).pushcnt + 1) % 2 ^ cfg.W)) := by
  unfold lfstack.push
  simp [hn, hr]

theorem pack_ne_zero (cfg : Config) (h0 : cfg.unpack 0 = 0) (n c : Nat) (hn : n ≠ 0)
    (hr : ∀ c, cfg.unpack (cfg.pack n c) = n) : cfg.pack n c ≠ 0 := by
  intro e
  have := hr c
  rw [e, h0] at this
  exact hn this.symm

/-- The `pop` of a head word that packs the node `n`. -/
theorem pop_packed (cfg : Config) (h0 : cfg.unpack 0 = 0) (bufs : Nat → workbuf) (n c : Nat)
    (hn : n ≠ 0) (hr : ∀ c, cfg.unpack (cfg.pack n c) = n) :
    lfstack.pop cfg bufs (cfg.pack n c) = .ok ((bufs n).next, n) := by
  simp [lfstack.pop, pack_ne_zero cfg h0 n c hn hr, hr, hn]

theorem popN_succ (cfg : Config) (bufs : Nat → workbuf) :
    ∀ (k head : Nat) (l : List Nat) (h1 : Nat), popN cfg bufs k head = .ok (l, h1) →
      popN cfg bufs (k + 1) head =
        Except.bind (lfstack.pop cfg bufs h1) (fun r => .ok (l ++ [r.2], r.1))
  | 0, head, l, h1, h => by
    simp only [popN] at h
    cases h
    simp only [popN, bind, Except.bind]
    cases lfstack.pop cfg bufs head with
    | error e => rfl
    | ok r => rfl
  | k + 1, head, l, h1, h => by
    rw [popN] at h
    simp only [bind, Except.bind] at h
    cases hp : lfstack.pop cfg bufs head with
    | error e => rw [hp] at h; cases h
    | ok r =>
      rw [hp] at h
      simp only at h
      cases hq : popN cfg bufs k r.1 with
      | error e => rw [hq] at h; cases h
      | ok q =>
        rw [hq] at h
        simp only at h
        cases h
        have ih := popN_succ cfg bufs k r.1 q.1 q.2 (by rw [hq])
        rw [popN]
        simp only [bind, Except.bind, hp, ih]
        cases lfstack.pop cfg bufs q.2 with
        | error e => rfl
        | ok t => rfl

/-- Pushing pairwise distinct nodes and popping as many gives them back, last first, and
restores the head word; the memory of other nodes is not touched. -/
theorem pushAll_popN (cfg : Config) (h0 : cfg.unpack 0 = 0) :
    ∀ (ns : List Nat) (bufs : Nat → workbuf) (head : Nat), ns.Nodup →
      (∀ n ∈ ns, n ≠ 0 ∧ ∀ c, cfg.unpack (cfg.pack n c) = n) →
      ∃ r, pushAll cfg bufs head ns = .ok r ∧
        popN cfg r.1 ns.length r.2 = .ok (ns.reverse, head) ∧
        ∀ a, a ∉ ns → r.1 a = bufs a
  | [], bufs, head, _, _ => ⟨(bufs, head), rfl, rfl, fun _ _ => rfl⟩
  | n :: ns, bufs, head, hnd, hv => by
    obtain ⟨hn, hr⟩ := hv n (List.mem_cons_self _ _)
    rw [List.nodup_cons] at hnd
    obtain ⟨r, hpush, hpop, hfr⟩ := pushAll_popN cfg h0 ns
      (link bufs n (((bufs n).pushcnt + 1) % 2 ^ cfg.W) head)
      (cfg.pack n (((bufs n).pushcnt + 1) % 2 ^ cfg.W)) hnd.2
      (fun x hx => hv x (List.mem_cons_of_mem _ hx))
    refine ⟨r, ?_, ?_, ?_⟩
    · simp only [pushAll, push_roundtrip cfg bufs head n hn hr, bind, Except.bind]
      exact hpush
    · rw [List.length_cons, popN_succ cfg r.1 ns.length r.2 _ _ hpop,
        pop_packed cfg h0 r.1 n _ hn hr, hfr n hnd.1, link_next_same]
      simp [Except.bind]
    · intro a ha
      rw [List.mem_cons, not_or] at ha
      rw [hfr a ha.2, link_other _ _ _ _ _ ha.1]

/-- Claim C11: on one thread, whatever the stack and the memory, for a non-nil node `n`
whose address round-trips through `lfstackPack` and `lfstackUnpack` (and `lfstackUnpack`
taking the word `0` to nil), `push(n)` followed by `pop()` returns `n` and restores the
head word; pushing pairwise distinct such nodes `ns` and popping as many times returns
them last first and restores the head word; and `pop` on the head word `0` returns nil
and leaves the head word `0`. -/
theorem push_pop_lifo (cfg : Config) (h0 : cfg.unpack 0 = 0) (bufs : Nat → workbuf)
    (head n : Nat) (ns : List Nat) (hn : n ≠ 0) (hr : ∀ c, cfg.unpack (cfg.pack n c) = n)
    (hnd : ns.Nodup) (hv : ∀ x ∈ ns, x ≠ 0 ∧ ∀ c, cfg.unpack (cfg.pack x c) = x) :
    (∃ r, lfstack.push cfg bufs head n = .ok r ∧ lfstack.pop cfg r.1 r.2 = .ok (head, n)) ∧
    (∃ r, pushAll cfg bufs head ns = .ok r ∧
      popN cfg r.1 ns.length r.2 = .ok (ns.reverse, head)) ∧
    lfstack.pop cfg bufs 0 = .ok (0, 0) := by
  refine ⟨⟨_, push_roundtrip cfg bufs head n hn hr, ?_⟩, ?_, pop_nil cfg bufs⟩
  · rw [pop_packed cfg h0 _ n _ hn hr, link_next_same]
  · obtain ⟨r, h1, h2, _⟩ := pushAll_popN cfg h0 ns bufs head hnd hv
    exact ⟨r, h1, h2⟩

/-- Witness of C11: the nodes `2048`, `4096`, `6144` onto a stack with the arbitrary head
word `77`, in the sample packing. -/
theorem push_pop_lifo_witness :
    (∃ r, lfstack.push (sampleConfig 4) (sampleWorld []).bufs 77 2048 = .ok r ∧
      lfstack.pop (sampleConfig 4) r.1 r.2 = .ok (77, 2048)) ∧
    (∃ r, pushAll (sampleConfig 4) (sampleWorld []).bufs 77 [2048, 4096, 6144] = .ok r ∧
      popN (sampleConfig 4) r.1 3 r.2 = .ok ([6144, 4096, 2048], 77)) ∧
    lfstack.pop (sampleConfig 4) (sampleWorld []).bufs 0 = .ok (0, 0) := by
  have hv : ∀ x ∈ [2048, 4096, 6144],
      x ≠ 0 ∧ ∀ c, (sampleConfig 4).unpack ((sampleConfig 4).pack x c) = x := by
    intro x hx
    simp only [List.mem_cons, List.mem_singleton, List.not_mem_nil, or_false] at hx
    have hval : Valid (sampleConfig 4) x := by
      rcases hx with rfl | rfl | rfl <;>
        exact sampleConfig_valid 4 _ (by decide) (by decide) (by norm_num)
    exact ⟨hval.1, fun c => (hval.2.1 c).1⟩
  exact push_pop_lifo (sampleConfig 4) rfl (sampleWorld []).bufs 77 2048 [2048, 4096, 6144]
    (by decide) (hv 2048 (by simp)).2 (by decide) hv

theorem pushAt_result (cfg : Config) (bufs : Nat → workbuf) (head node : Nat) :
    resultOf (lfstack.pushAt cfg bufs head node) = lfstack.push cfg bufs head node := by
  unfold lfstack.pushAt lfstack.push resultOf
  by_cases h : node = 0
  · simp [h]
  · by_cases c : cfg.unpack (cfg.pack node (((bufs node).pushcnt + 1) % 2 ^ cfg.W)) = node
    · simp [h, c]
    · simp [h, c]

/-- The calls `putempty`, `putfull` and `prepareFreeWorkbufs` are the results of their
second renderings. -/
theorem resultOf_at (cfg : Config) (g : World) (b : Nat) :
    resultOf (putemptyAt cfg g b) = putempty cfg g b ∧
      resultOf (putfullAt cfg g b) = putfull cfg g b ∧
      resultOf (prepareFreeWorkbufsAt g) = prepareFreeWorkbufs g := by
  refine ⟨?_, ?_, ?_⟩
  · unfold putemptyAt putempty
    cases hc : workbuf.checkempty g b with
    | error e => rfl
    | ok u =>
      have hp := pushAt_result cfg g.bufs g.empty b
      simp only [bind, Except.bind]
      cases hq : lfstack.push cfg g.bufs g.empty b with
      | error e =>
        rw [hq] at hp
        unfold resultOf at hp ⊢
        simp only
        cases hr : (lfstack.pushAt cfg g.bufs g.empty b).1 with
        | error e1 => rw [hr] at hp; simp only at hp ⊢; cases hp; rfl
        | ok u1 => rw [hr] at hp; simp only at hp; cases hp
      | ok r =>
        rw [hq] at hp
        unfold resultOf at hp ⊢
        simp only
        cases hr : (lfstack.pushAt cfg g.bufs g.empty b).1 with
        | error e1 => rw [hr] at hp; simp only at hp; cases hp
        | ok u1 =>
          rw [hr] at hp
          simp only at hp ⊢
          cases hp
          rfl
  · unfold putfullAt putfull
    cases hc : workbuf.checknonempty g b with
    | error e => rfl
    | ok u =>
      have hp := pushAt_result cfg g.bufs g.full b
      simp only [bind, Except.bind]
      cases hq : lfstack.push cfg g.bufs g.full b with
      | error e =>
        rw [hq] at hp
        unfold resultOf at hp ⊢
        cases hr : (lfstack.pushAt cfg g.bufs g.full b).1 with
        | error e1 => rw [hr] at hp; simp only at hp ⊢; cases hp; rfl
        | ok u1 => rw [hr] at hp; simp only at hp; cases hp
      | ok r =>
        rw [hq] at hp
        unfold resultOf at hp ⊢
        cases hr : (lfstack.pushAt cfg g.bufs g.full b).1 with
        | error e1 => rw [hr] at hp; simp only at hp; cases hp
        | ok u1 =>
          rw [hr] at hp
          simp only at hp ⊢
          cases hp
          rfl
  · unfold prepareFreeWorkbufsAt prepareFreeWorkbufs resultOf
    by_cases h : g.full = 0
    · simp [h]
    · simp [h]

theorem pushAt_ok (cfg : Config) (bufs : Nat → workbuf) (h node : Nat) (hv : Valid cfg node) :
    lfstack.pushAt cfg bufs h node =
      (.ok (), link bufs node (((bufs node).pushcnt + 1) % 2 ^ cfg.W) h,
        cfg.pack node (((bufs node).pushcnt + 1) % 2 ^ cfg.W)) := by
  unfold lfstack.pushAt
  simp [hv.1, (hv.2.1 _).1]

theorem putemptyAt_eq {cfg : Config} {g : World} {b : Nat} (hv : Valid cfg b)
    (hb : (g.bufs b).nobj = 0) :
    putemptyAt cfg g b = (.ok (), { g with
      bufs := link g.bufs b (((g.bufs b).pushcnt + 1) % 2 ^ cfg.W) g.empty,
      empty := cfg.pack b (((g.bufs b).pushcnt + 1) % 2 ^ cfg.W) }) := by
  unfold putemptyAt workbuf.checkempty getNobj
  simp only [hv.1, if_false, bind, Except.bind, hb, pushAt_ok cfg g.bufs g.empty b hv]
  simp

theorem putfullAt_eq {cfg : Config} {g : World} {b : Nat} (hv : Valid cfg b)
    (hb : (g.bufs b).nobj ≠ 0) :
    putfullAt cfg g b = (.ok (), { g with
      bufs := link g.bufs b (((g.bufs b).pushcnt + 1) % 2 ^ cfg.W) g.full,
      full := cfg.pack b (((g.bufs b).pushcnt + 1) % 2 ^ cfg.W),
      fullPushes := g.fullPushes + 1 }) := by
  unfold putfullAt workbuf.checknonempty getNobj
  simp only [hv.1, if_false, bind, Except.bind, hb, pushAt_ok cfg g.bufs g.full b hv]

theorem putemptyAt_err {cfg : Config} {g : World} {b : Nat} (hv : Valid cfg b)
    (hb : (g.bufs b).nobj ≠ 0) :
    putemptyAt cfg g b = (.error .workbufIsNotEmpty, g) ∧
      putempty cfg g b = .error .workbufIsNotEmpty := by
  unfold putemptyAt putempty workbuf.checkempty getNobj
  simp [hv.1, bind, Except.bind, hb]

theorem putfullAt_err {cfg : Config} {g : World} {b : Nat} (hv : Valid cfg b)
    (hb : (g.bufs b).nobj = 0) :
    putfullAt cfg g b = (.error .workbufIsEmpty, g) ∧
      putfull cfg g b = .error .workbufIsEmpty := by
  unfold putfullAt putfull workbuf.checknonempty getNobj
  simp [hv.1, bind, Except.bind, hb]

theorem head_pack {cfg : Config} {b : Nat} (hv : Valid cfg b) (c : Nat) :
    lfstack.head cfg (cfg.pack b c) = b := by
  unfold lfstack.head
  rw [if_neg (hv.2.1 c).2, (hv.2.1 c).1]

theorem IsStack.link_off {cfg : Config} {bufs : Nat → workbuf} {h b : Nat} {l : List Nat}
    (hs : IsStack cfg bufs h l) (hn : b ∉ l) (c d : Nat) :
    IsStack cfg (link bufs b c d) h l := by
  refine IsStack.congr_next hs ?_
  intro a ha
  rw [link_other]
  rintro rfl
  exact hn ha

/-- Claim C12: for a buffer `b`, `putempty(b)` throws exactly when `b.nobj` is not zero and
`putfull(b)` exactly when it is zero; a call that throws ends in the world it started in,
so neither list is modified; a call that returns has made `b` the top of the empty list
(`putempty`) or of the full list (`putfull`), above the former chain, and has left the
other list as it was; and `putfull` returns on every partially filled buffer. -/
theorem putempty_putfull_assert (cfg : Config) (g : World) (b : Nat) (hv : Valid cfg b) :
    (((∃ e, (putemptyAt cfg g b).1 = .error e) ↔ (g.bufs b).nobj ≠ 0) ∧
      ((g.bufs b).nobj ≠ 0 → putemptyAt cfg g b = (.error .workbufIsNotEmpty, g) ∧
        putempty cfg g b = .error .workbufIsNotEmpty) ∧
      ((g.bufs b).nobj = 0 → ∃ g1, putemptyAt cfg g b = (.ok (), g1) ∧
        putempty cfg g b = .ok g1 ∧ lfstack.head cfg g1.empty = b ∧
        (g1.bufs b).next = g.empty ∧
        (∀ E, IsStack cfg g.bufs g.empty E → b ∉ E → IsStack cfg g1.bufs g1.empty (b :: E)) ∧
        g1.full = g.full ∧
        (∀ F, IsStack cfg g.bufs g.full F → b ∉ F → IsStack cfg g1.bufs g1.full F))) ∧
    (((∃ e, (putfullAt cfg g b).1 = .error e) ↔ (g.bufs b).nobj = 0) ∧
      ((g.bufs b).nobj = 0 → putfullAt cfg g b = (.error .workbufIsEmpty, g) ∧
        putfull cfg g b = .error .workbufIsEmpty) ∧
      ((g.bufs b).nobj ≠ 0 → ∃ g1, putfullAt cfg g b = (.ok (), g1) ∧
        putfull cfg g b = .ok g1 ∧ lfstack.head cfg g1.full = b ∧
        (g1.bufs b).next = g.full ∧
        (∀ F, IsStack cfg g.bufs g.full F → b ∉ F → IsStack cfg g1.bufs g1.full (b :: F)) ∧
        g1.empty = g.empty ∧
        (∀ E, IsStack cfg g.bufs g.empty E → b ∉ E → IsStack cfg g1.bufs g1.empty E))) ∧
    (0 < (g.bufs b).nobj ∧ (g.bufs b).nobj < cfg.C → ∃ g1, putfull cfg g b = .ok g1) := by
  refine ⟨⟨?_, fun hb => putemptyAt_err hv hb, ?_⟩, ⟨?_, fun hb => putfullAt_err hv hb, ?_⟩, ?_⟩
  · constructor
    · rintro ⟨e, he⟩ hb
      rw [putemptyAt_eq hv hb] at he
      cases he
    · intro hb
      exact ⟨_, by rw [(putemptyAt_err hv hb).1]⟩
  · intro hb
    refine ⟨_, putemptyAt_eq hv hb, putempty_eq hv hb, head_pack hv _, link_next_same _ _ _ _,
      fun E hE hn => IsStack.push hE hv hn _ _, rfl, fun F hF hn => hF.link_off hn _ _⟩
  · constructor
    · rintro ⟨e, he⟩
      by_contra hb
      rw [putfullAt_eq hv hb] at he
      cases he
    · intro hb
      exact ⟨_, by rw [(putfullAt_err hv hb).1]⟩
  · intro hb
    refine ⟨_, putfullAt_eq hv hb, putfull_eq hv hb, head_pack hv _, link_next_same _ _ _ _,
      fun F hF hn => IsStack.push hF hv hn _ _, rfl, fun E hE hn => hE.link_off hn _ _⟩
  · intro hb
    exact ⟨_, putfull_eq hv (by omega)⟩

theorem putempty_putfull_assert_witness :
    Valid (sampleConfig 4) 2048 ∧
      ∃ g1, putemptyAt (sampleConfig 4) (sampleWorld []) 2048 = (.ok (), g1) ∧
        lfstack.head (sampleConfig 4) g1.empty = 2048 :=
  ⟨sampleConfig_valid 4 2048 (by decide) (by decide) (by decide),
    (((putempty_putfull_assert (sampleConfig 4) (sampleWorld []) 2048
      (sampleConfig_valid 4 2048 (by decide) (by decide) (by decide))).1.2.2 rfl).imp
      fun _ h => ⟨h.1, h.2.2.1⟩)⟩

theorem put_fast_case {cfg : Config} {w : gcWork} {g : World} (p : Nat) (h1 : w.wbuf1 ≠ 0)
    (hn : 0 ≤ (g.bufs w.wbuf1).nobj ∧ (g.bufs w.wbuf1).nobj < cfg.C) :
    gcWork.put cfg w g p = .ok (w, pushed g w.wbuf1 p) ∧
      gcWork.putFast cfg w g p = .ok (true, w, pushed g w.wbuf1 p) := by
  have hc : (g.bufs w.wbuf1).nobj ≠ cfg.C := by omega
  constructor
  · simp only [gcWork.put, gcWork.putPrepare, h1, if_false, getNobj, bind, Except.bind, hc,
      pushObj_eq h1 hn]
    simp
  · simp only [gcWork.putFast, h1, if_false, getNobj, bind, Except.bind, hc, pushObj_eq h1 hn]

theorem tryGet_fast_case {cfg : Config} {w : gcWork} {g : World} (h1 : w.wbuf1 ≠ 0)
    (hn : 0 < (g.bufs w.wbuf1).nobj ∧ (g.bufs w.wbuf1).nobj ≤ cfg.C) :
    gcWork.tryGet cfg w g =
        .ok ((g.bufs w.wbuf1).obj ((g.bufs w.wbuf1).nobj - 1).toNat, w, popped g w.wbuf1) ∧
      gcWork.tryGetFast cfg w g =
        .ok ((g.bufs w.wbuf1).obj ((g.bufs w.wbuf1).nobj - 1).toNat, w, popped g w.wbuf1) := by
  have hc : (g.bufs w.wbuf1).nobj ≠ 0 := by omega
  constructor
  · simp only [gcWork.tryGet, h1, if_false, getNobj, bind, Except.bind, hc, popObj_eq h1 hn]
  · simp only [gcWork.tryGetFast, h1, if_false, getNobj, bind, Except.bind, hc,
      popObj_eq h1 hn]

/-- Claim C13: with the count of `wbuf1` within the capacity, `putFast(p)` returns, and it
returns true exactly when `wbuf1` is not nil and has room; when it returns true, `put(p)`
from the same state returns the very same queue and world, and when it returns false
queue and world are the ones it was called in. `tryGetFast()`, when `wbuf1` is not nil and
holds a pointer, returns what `tryGet()` returns from the same state, pointer, queue and
world; otherwise it returns 0 with queue and world as they were. -/
theorem fast_paths_refine (cfg : Config) (w : gcWork) (g : World) (p : Nat)
    (hb : w.wbuf1 ≠ 0 → 0 ≤ (g.bufs w.wbuf1).nobj ∧ (g.bufs w.wbuf1).nobj ≤ cfg.C) :
    (∃ r, gcWork.putFast cfg w g p = .ok r ∧
      (r.1 = true ↔ w.wbuf1 ≠ 0 ∧ (g.bufs w.wbuf1).nobj < cfg.C) ∧
      (r.1 = true → gcWork.put cfg w g p = .ok r.2) ∧
      (r.1 = false → r.2 = (w, g))) ∧
    (∃ r, gcWork.tryGetFast cfg w g = .ok r ∧
      (w.wbuf1 ≠ 0 ∧ 0 < (g.bufs w.wbuf1).nobj → gcWork.tryGet cfg w g = .ok r) ∧
      (¬ (w.wbuf1 ≠ 0 ∧ 0 < (g.bufs w.wbuf1).nobj) → r = (0, w, g))) := by
  by_cases h1 : w.wbuf1 = 0
  · refine ⟨⟨(false, w, g), by simp [gcWork.putFast, h1], ?_, ?_, fun _ => rfl⟩,
      ⟨(0, w, g), by simp [gcWork.tryGetFast, h1], ?_, fun _ => rfl⟩⟩
    · simp [h1]
    · intro h; cases h
    · intro h; exact absurd h1 h.1
  · obtain ⟨h0, hC⟩ := hb h1
    constructor
    · by_cases hc : (g.bufs w.wbuf1).nobj < cfg.C
      · obtain ⟨e1, e2⟩ := @put_fast_case cfg w g p h1 ⟨h0, hc⟩
        exact ⟨_, e2, ⟨fun _ => ⟨h1, hc⟩, fun _ => rfl⟩, fun _ => e1, fun h => by cases h⟩
      · have he : (g.bufs w.wbuf1).nobj = cfg.C := by omega
        refine ⟨(false, w, g), ?_, ?_, ?_, fun _ => rfl⟩
        · simp [gcWork.putFast, h1, getNobj, bind, Except.bind, he]
        · constructor
          · intro h; cases h
          · intro h; exact absurd h.2 hc
        · intro h; cases h
    · by_cases hc : 0 < (g.bufs w.wbuf1).nobj
      · obtain ⟨e1, e2⟩ := @tryGet_fast_case cfg w g h1 ⟨hc, hC⟩
        exact ⟨_, e2, fun _ => e1, fun h => absurd ⟨h1, hc⟩ h⟩
      · have he : (g.bufs w.wbuf1).nobj = 0 := by omega
        refine ⟨(0, w, g), ?_, fun h => absurd h.2 hc, fun _ => rfl⟩
        simp [gcWork.tryGetFast, h1, getNobj, bind, Except.bind, he]

theorem fast_paths_refine_witness :
    ∃ r, gcWork.putFast (sampleConfig 4) (sampleQueue 4 [7]).1 (sampleQueue 4 [7]).2 9 = .ok r ∧
      (r.1 = true ↔ (sampleQueue 4 [7]).1.wbuf1 ≠ 0 ∧
        (((sampleQueue 4 [7]).2.bufs (sampleQueue 4 [7]).1.wbuf1).nobj < (sampleConfig 4).C)) :=
  (fast_paths_refine (sampleConfig 4) (sampleQueue 4 [7]).1 (sampleQueue 4 [7]).2 9
    (fun h => by
      obtain ⟨E, F, hI, _⟩ := sampleQueue_inv 4 [7] (by decide) (by decide)
      exact hI.localN _ (by simp [locals, h]))).1.imp fun _ h => ⟨h.1, h.2.1⟩

/-- Claim C15: `prepareFreeWorkbufs` throws exactly when the head word of the full list is
not `0`, and then it ends in the world it was called in, so the empty list and the spans
are as they were; when it returns, the empty list has head word `0`, no span is busy, and
the free spans are the formerly busy ones followed by the formerly free ones. -/
theorem prepareFreeWorkbufs_guard (g : World) :
    ((∃ e, (prepareFreeWorkbufsAt g).1 = .error e) ↔ g.full ≠ 0) ∧
    (g.full ≠ 0 → prepareFreeWorkbufsAt g = (.error .cannotFreeWorkbufs, g) ∧
      prepareFreeWorkbufs g = .error .cannotFreeWorkbufs) ∧
    (g.full = 0 → ∃ g1, prepareFreeWorkbufsAt g = (.ok (), g1) ∧
      prepareFreeWorkbufs g = .ok g1 ∧ g1.empty = 0 ∧ g1.busy = [] ∧
      g1.free = g.busy ++ g.free ∧ (∀ s, s ∈ g.busy ∨ s ∈ g.free → s ∈ g1.free) ∧
      g1.full = g.full ∧ g1.bufs = g.bufs ∧ g1.provider = g.provider) := by
  by_cases h : g.full = 0
  · refine ⟨?_, fun h1 => absurd h h1, fun _ =>
      ⟨{ g with empty := 0, free := g.busy ++ g.free, busy := [] },
        ?_, ?_, rfl, rfl, rfl, ?_, rfl, rfl, rfl⟩⟩
    · simp [prepareFreeWorkbufsAt, h]
    · simp [prepareFreeWorkbufsAt, h]
    · simp [prepareFreeWorkbufs, h]
    · intro s hs
      exact List.mem_append.mpr hs
  · refine ⟨?_, fun _ => ⟨?_, ?_⟩, fun h1 => absurd h1 h⟩
    · simp [prepareFreeWorkbufsAt, h]
    · simp [prepareFreeWorkbufsAt, h]
    · simp [prepareFreeWorkbufs, h]

theorem entries_length (g : World) (a : Nat) : (entries g a).length = (g.bufs a).nobj.toNat := by
  simp [entries]

/-- In the branch of `balance` that splits `wbuf1`, the call is `handoff` followed by the
stores into the queue and the signal. -/
theorem balance_split_eq (cfg : Config) (w : gcWork) (g : World) (h1 : w.wbuf1 ≠ 0)
    (hw2 : w.wbuf2 ≠ 0) (h2 : (g.bufs w.wbuf2).nobj = 0) (h4 : 4 < (g.bufs w.wbuf1).nobj) :
    w.balance cfg g = Except.bind (handoff cfg g w.wbuf1) (fun r =>
      .ok ({ w with wbuf1 := r.2, flushedWork := true },
        if r.1.gcphase = GCPhase.GCmark then enlistWorker r.1 else r.1)) := by
  unfold gcWork.balance
  rw [if_neg h1]
  simp only [getNobj, hw2, if_false, bind, Except.bind, h2, h1, ne_eq, not_true_eq_false, h4,
    if_true]
  cases handoff cfg g w.wbuf1 with
  | error e => rfl
  | ok r =>
    simp only
    by_cases hg : r.1.gcphase = GCPhase.GCmark
    · simp [hg]
    · simp [hg]

/-- Outside that branch `balance` does not call `handoff`: with `wbuf2` empty and at most
four pointers in `wbuf1` it returns at once. -/
theorem balance_small_eq (cfg : Config) (w : gcWork) (g : World) (h1 : w.wbuf1 ≠ 0)
    (hw2 : w.wbuf2 ≠ 0) (h2 : (g.bufs w.wbuf2).nobj = 0) (h4 : ¬ 4 < (g.bufs w.wbuf1).nobj) :
    w.balance cfg g = .ok (w, g) := by
  unfold gcWork.balance
  rw [if_neg h1]
  simp only [getNobj, hw2, if_false, bind, Except.bind, h2, h1, ne_eq, not_true_eq_false, h4]

theorem handoff_zero {cfg : Config} {g : World} {E F Y : List Nat} {b : Nat}
    (h : PoolInv cfg g E F (b :: Y) (remaining g)) (hm : (g.bufs b).nobj = 0)
    (hC : 1 ≤ cfg.C) (hrem : 1 ≤ remaining g) :
    handoff cfg g b = .error .workbufIsEmpty := by
  unfold handoff
  obtain ⟨⟨g1, b1⟩, hge, E1, hp1, hn1, hf1, -⟩ := (getempty_wp h).exists_ok hrem
  simp only at hp1 hn1 hf1
  obtain ⟨h1E, h1F, h1Y⟩ := mem_own_cons hp1.nodup
  have hne : b ≠ b1 := by
    intro e
    apply h1Y
    rw [← e]
    exact List.mem_cons_self _ _
  have hvb : Valid cfg b := h.valid b (by simp)
  have hvb1 : Valid cfg b1 := hp1.valid b1 (by simp)
  have hm1 : (g1.bufs b).nobj = ((0 : Nat) : Int) := by
    rw [hf1.nobj b (by simp), hm]
    rfl
  have hs := handoffSplit_eq cfg g1 b b1 0 hvb.1 hvb1.1 hne hm1 (by omega)
  have hz : ((halved g1 b b1 0).bufs b).nobj = 0 := by
    rw [halved_nobj_b _ _ _ _ hne]
    rfl
  simp only [hge, bind, Except.bind, hs, (putfullAt_err hvb hz).2]

/-- Claim C18: for a buffer `b` held outside the lists with `n >= 1` pointers
`e0 .. e(n-1)`, of which the lower half fits below the capacity, `handoff(b)` returns,
unless no span is left for the buffer it needs, a buffer `b1` other than `b` holding the
`floor(n/2)` pointers `e(ceil(n/2)) .. e(n-1)` in order, leaves `b` with the `ceil(n/2)`
pointers `e0 .. e(ceil(n/2)-1)`, and has pushed `b` on the full list, of which `b` is then
the top. With `n = 0` the call does not return, and it throws in `putfull` when it got
that far. `balance` calls `handoff` exactly when `wbuf2` is empty and `wbuf1` holds more
than four pointers, and then `handoff` returns with both halves non-empty. -/
theorem handoff_split (cfg : Config) (g : World) (E F Y : List Nat) (b m : Nat)
    (h : PoolInv cfg g E F (b :: Y) (remaining g)) (hm : (g.bufs b).nobj = (m : Int)) :
    (1 ≤ m → (m + 1) / 2 < cfg.C →
      Meets 1 (remaining g) (handoff cfg g b) (fun r =>
        r.2 ≠ b ∧ (r.1.bufs r.2).nobj = ((m / 2 : Nat) : Int) ∧
        entries r.1 r.2 = (entries g b).drop ((m + 1) / 2) ∧
        (r.1.bufs b).nobj = (((m + 1) / 2 : Nat) : Int) ∧
        entries r.1 b = (entries g b).take ((m + 1) / 2) ∧
        lfstack.head cfg r.1.full = b ∧ IsStack cfg r.1.bufs r.1.full (b :: F) ∧
        r.1.fullPushes = g.fullPushes + 1)) ∧
    (m = 0 → (∀ r, handoff cfg g b ≠ .ok r) ∧
      (1 ≤ cfg.C → 1 ≤ remaining g → handoff cfg g b = .error .workbufIsEmpty)) ∧
    (∀ (w : gcWork) (gq : World) (Eq Fq X : List Nat), Inv cfg w gq Eq Fq X → w.wbuf1 ≠ 0 →
      (gq.bufs w.wbuf2).nobj = 0 →
      (¬ 4 < (gq.bufs w.wbuf1).nobj → w.balance cfg gq = .ok (w, gq)) ∧
      (4 < (gq.bufs w.wbuf1).nobj →
        w.balance cfg gq = Except.bind (handoff cfg gq w.wbuf1) (fun r =>
          .ok ({ w with wbuf1 := r.2, flushedWork := true },
            if r.1.gcphase = GCPhase.GCmark then enlistWorker r.1 else r.1)) ∧
        Meets 1 (remaining gq) (handoff cfg gq w.wbuf1) (fun r =>
          0 < (r.1.bufs r.2).nobj ∧ 0 < (r.1.bufs w.wbuf1).nobj ∧
          entries r.1 w.wbuf1 ≠ [] ∧ entries r.1 r.2 ≠ []))) := by
  have hceil : (m + 1) / 2 = m - m / 2 := by omega
  refine ⟨?_, ?_, ?_⟩
  · intro h1 h2
    rw [hceil] at h2 ⊢
    refine (handoff_wp h hm h1 h2).imp ?_
    rintro ⟨g1, b1⟩ ⟨E1, hp, heb, heb1, hn1, -, hpush, -⟩
    simp only at hp heb heb1 hn1 hpush ⊢
    obtain ⟨-, h1F, -⟩ := mem_own_cons hp.nodup
    have hlen : (entries g b).length = m := by rw [entries_length, hm]; rfl
    have hfb := hp.fullN b (List.mem_cons_self _ _)
    have hl2 := congrArg List.length heb
    rw [entries_length, List.length_take, hlen] at hl2
    obtain ⟨hh0, hhu, -⟩ := hp.isF
    refine ⟨?_, hn1, heb1, ?_, heb, ?_, hp.isF, hpush⟩
    · intro e
      exact h1F (e ▸ List.mem_cons_self _ _)
    · omega
    · unfold lfstack.head
      rw [if_neg hh0, hhu]
  · intro h0
    subst h0
    refine ⟨fun r hr => ?_, fun hC hrem => handoff_zero h hm hC hrem⟩
    have := (handoff_ok_count h hm hr).1
    omega
  · intro w gq Eq Fq X hI hne h2
    obtain ⟨hp, hr1, hr2⟩ := hI.pool_cons hne
    obtain ⟨-, hv2, -⟩ := hI.local_facts hne
    refine ⟨fun h4 => balance_small_eq cfg w gq hne hv2.1 h2 h4, fun h4 =>
      ⟨balance_split_eq cfg w gq hne hv2.1 h2 h4, ?_⟩⟩
    have hk : (gq.bufs w.wbuf1).nobj = (((gq.bufs w.wbuf1).nobj.toNat : Nat) : Int) := by omega
    refine (handoff_wp hp hk (by omega) (by omega)).imp ?_
    rintro ⟨g1, b1⟩ ⟨E1, hp1, heb, heb1, hn1, -⟩
    simp only at hp1 heb heb1 hn1 ⊢
    have hfb := hp1.fullN w.wbuf1 (List.mem_cons_self _ _)
    have hpos : 0 < (g1.bufs b1).nobj := by rw [hn1]; omega
    refine ⟨hpos, hfb.1, ?_, ?_⟩
    · intro e
      have := congrArg List.length e
      rw [entries_length] at this
      simp at this
      omega
    · intro e
      have := congrArg List.length e
      rw [entries_length] at this
      simp at this
      omega

theorem handoff_split_witness :
    Meets 1 (remaining (sampleQueue 8 [11, 12, 13, 14, 15, 16]).2)
      (handoff (sampleConfig 8) (sampleQueue 8 [11, 12, 13, 14, 15, 16]).2
        (sampleQueue 8 [11, 12, 13, 14, 15, 16]).1.wbuf1)
      (fun r => r.2 ≠ (sampleQueue 8 [11, 12, 13, 14, 15, 16]).1.wbuf1 ∧
        (r.1.bufs r.2).nobj = 3 ∧
        (r.1.bufs (sampleQueue 8 [11, 12, 13, 14, 15, 16]).1.wbuf1).nobj = 3) := by
  obtain ⟨E, F, hi, _⟩ := sampleQueue_inv 8 [11, 12, 13, 14, 15, 16] (by decide) (by decide)
  have hp := (hi.pool_cons (by decide)).1
  exact ((handoff_split (sampleConfig 8) _ E F _ _ 6 hp (by decide)).1 (by decide)
    (by decide)).imp fun r hr => ⟨hr.1, hr.2.1, hr.2.2.2.1⟩

/-! ## The bookkeeping of the calls -/

theorem Tally.none (g : World) : Tally 0 g g := ⟨rfl, rfl, rfl⟩

theorem Tally.plus {j k : Nat} {g g1 g2 : World} (h1 : Tally j g g1) (h2 : Tally k g1 g2) :
    Tally (j + k) g g2 :=
  ⟨h2.gcphase.trans h1.gcphase, h2.enlisted.trans h1.enlisted, by
    rw [h2.pushes, h1.pushes, Nat.add_assoc]⟩

theorem setNobj_tally {g g1 : World} {b : Nat} {n : Int} (h : setNobj g b n = .ok g1) :
    Tally 0 g g1 := by
  unfold setNobj at h
  split at h
  · cases h
  · cases h
    exact ⟨rfl, rfl, rfl⟩

theorem putempty_tally {cfg : Config} {g g1 : World} {b : Nat}
    (h : putempty cfg g b = .ok g1) : Tally 0 g g1 := by
  unfold putempty at h
  obtain ⟨_, _, h⟩ := bind_ok h
  obtain ⟨r, _, h⟩ := bind_ok h
  cases h
  exact ⟨rfl, rfl, rfl⟩

theorem putfull_tally {cfg : Config} {g g1 : World} {b : Nat}
    (h : putfull cfg g b = .ok g1) : Tally 1 g g1 := by
  unfold putfull at h
  obtain ⟨_, _, h⟩ := bind_ok h
  obtain ⟨r, _, h⟩ := bind_ok h
  cases h
  exact ⟨rfl, rfl, rfl⟩

theorem trygetfull_tally {cfg : Config} {g : World} {r : World × Nat}
    (h : trygetfull cfg g = .ok r) : Tally 0 g r.1 := by
  unfold trygetfull at h
  obtain ⟨a, _, h⟩ := bind_ok h
  simp only at h
  split at h
  · obtain ⟨_, _, h⟩ := bind_ok h
    cases h
    exact ⟨rfl, rfl, rfl⟩
  · cases h
    exact ⟨rfl, rfl, rfl⟩

theorem sliceSpan_tally {cfg : Config} {s : Nat} :
    ∀ (fuel i : Nat) (g : World) (b : Nat) (r : World × Nat),
      sliceSpan cfg s fuel i g b = .ok r → Tally 0 g r.1
  | 0, _, _, _, _, h => by simp [sliceSpan] at h
  | fuel + 1, i, g, b, r, h => by
    rw [sliceSpan] at h
    split at h
    · obtain ⟨g1, hg1, h⟩ := bind_ok h
      obtain ⟨_, _, h⟩ := bind_ok h
      have t1 := setNobj_tally hg1
      split at h
      · exact t1.plus (sliceSpan_tally fuel _ _ _ _ h)
      · obtain ⟨g2, hg2, h⟩ := bind_ok h
        exact (t1.plus (putempty_tally hg2)).plus (sliceSpan_tally fuel _ _ _ _ h)
    · cases h
      exact Tally.none g

theorem getempty_tally {cfg : Config} {g : World} {r : World × Nat}
    (h : getempty cfg g = .ok r) : Tally 0 g r.1 := by
  unfold getempty at h
  obtain ⟨⟨g1, b⟩, h1, h⟩ := bind_ok h
  have t1 : Tally 0 g g1 := by
    split at h1
    · obtain ⟨a, _, h1⟩ := bind_ok h1
      simp only at h1
      split at h1
      · obtain ⟨_, _, h1⟩ := bind_ok h1
        cases h1
        exact ⟨rfl, rfl, rfl⟩
      · cases h1
        exact ⟨rfl, rfl, rfl⟩
    · cases h1
      exact Tally.none g
  simp only at h
  split at h
  · split at h
    · have t2 := sliceSpan_tally _ _ _ _ _ h
      exact ⟨t2.gcphase.trans t1.gcphase, t2.enlisted.trans t1.enlisted,
        t2.pushes.trans t1.pushes⟩
    · split at h
      · cases h
      · have t2 := sliceSpan_tally _ _ _ _ _ h
        exact ⟨t2.gcphase.trans t1.gcphase, t2.enlisted.trans t1.enlisted,
          t2.pushes.trans t1.pushes⟩
  · cases h
    exact t1

theorem pushObj_tally {cfg : Config} {g g1 : World} {b p : Nat}
    (h : pushObj cfg g b p = .ok g1) : Tally 0 g g1 := by
  obtain ⟨_, _, _, rfl⟩ := pushObj_ok h
  exact ⟨rfl, rfl, rfl⟩

theorem popObj_tally {cfg : Config} {g : World} {b : Nat} {r : Nat × World}
    (h : popObj cfg g b = .ok r) : Tally 0 g r.2 := by
  unfold popObj at h
  obtain ⟨k, _, h⟩ := bind_ok h
  obtain ⟨g1, hg1, h⟩ := bind_ok h
  obtain ⟨k1, _, h⟩ := bind_ok h
  obtain ⟨v, _, h⟩ := bind_ok h
  cases h
  exact setNobj_tally hg1

theorem handoffSplit_tally {cfg : Config} {g g1 : World} {b b1 : Nat}
    (h : handoffSplit cfg g b b1 = .ok g1) : Tally 0 g g1 := by
  unfold handoffSplit at h
  obtain ⟨nb, _, h⟩ := bind_ok h
  obtain ⟨g2, hg2, h⟩ := bind_ok h
  obtain ⟨g3, hg3, h⟩ := bind_ok h
  obtain ⟨_, _, h⟩ := bind_ok h
  obtain ⟨k, _, h⟩ := bind_ok h
  obtain ⟨_, _, h⟩ := bind_ok h
  cases h
  have t3 : Tally 0 g3 (moveObjs g3 b1 b k.toNat (Int.tdiv nb 2).toNat) := ⟨rfl, rfl, rfl⟩
  exact (setNobj_tally hg2).plus ((setNobj_tally hg3).plus t3)

theorem handoff_tally {cfg : Config} {g : World} {b : Nat} {r : World × Nat}
    (h : handoff cfg g b = .ok r) : Tally 1 g r.1 := by
  unfold handoff at h
  obtain ⟨⟨g1, b1⟩, h1, h⟩ := bind_ok h
  obtain ⟨g4, h4, h⟩ := bind_ok h
  obtain ⟨g5, h5, h⟩ := bind_ok h
  cases h
  exact (getempty_tally h1).plus ((handoffSplit_tally h4).plus (putfull_tally h5))

theorem Flow.idle (w : gcWork) (g : World) (fl : Bool) : Flow w g fl w g fl :=
  ⟨0, Tally.none g, by simp, by simp⟩

theorem Flow.seq {w w1 w2 : gcWork} {g g1 g2 : World} {fl fl1 fl2 : Bool}
    (h1 : Flow w g fl w1 g1 fl1) (h2 : Flow w1 g1 fl1 w2 g2 fl2) : Flow w g fl w2 g2 fl2 := by
  obtain ⟨j, t1, a1, b1⟩ := h1
  obtain ⟨k, t2, a2, b2⟩ := h2
  refine ⟨j + k, t1.plus t2, ?_, ?_⟩
  · rw [a2, a1]
    constructor
    · rintro ((h | h) | h)
      · exact Or.inl h
      · exact Or.inr (by omega)
      · exact Or.inr (by omega)
    · rintro (h | h)
      · exact Or.inl (Or.inl h)
      · by_cases hj : 0 < j
        · exact Or.inl (Or.inr hj)
        · exact Or.inr (by omega)
  · rw [b2, b1]
    constructor
    · rintro ((h | h) | h)
      · exact Or.inl h
      · exact Or.inr (by omega)
      · exact Or.inr (by omega)
    · rintro (h | h)
      · exact Or.inl (Or.inl h)
      · by_cases hj : 0 < j
        · exact Or.inl (Or.inr hj)
        · exact Or.inr (by omega)

/-- A stretch that pushes nothing and leaves `flushedWork` alone. -/
theorem Flow.quiet {w w1 : gcWork} {g g1 : World} (t : Tally 0 g g1)
    (hf : w1.flushedWork = w.flushedWork) (fl : Bool) : Flow w g fl w1 g1 fl :=
  ⟨0, t, by rw [hf]; simp, by simp⟩

/-- A stretch that pushes and sets `flushedWork` and the flag. -/
theorem Flow.loud {w w1 : gcWork} {g g1 : World} {k : Nat} (t : Tally (k + 1) g g1)
    (hf : w1.flushedWork = true) (fl : Bool) : Flow w g fl w1 g1 true :=
  ⟨k + 1, t, by simp [hf], by simp⟩

theorem Flow.raise {w w1 : gcWork} {g g1 : World} {fl1 : Bool}
    (h : Flow w g false w1 g1 fl1) (fl : Bool) : Flow w g fl w1 g1 (fl || fl1) := by
  obtain ⟨k, t, a, b⟩ := h
  refine ⟨k, t, a, ?_⟩
  rw [Bool.or_eq_true, b]
  simp

/-- The end of `put` and of `putBatch`: the test `flushed && gcphase == _GCmark` and the
call of `enlistWorker`. -/
theorem Account.of_signal {w w1 : gcWork} {g g2 : World} {fl : Bool}
    (h : Flow w g false w1 g2 fl) :
    Account true w g w1
      (if fl = true ∧ g2.gcphase = GCPhase.GCmark then enlistWorker g2 else g2) := by
  obtain ⟨k, t, a, b⟩ := h
  have hb : fl = true ↔ 0 < k := by rw [b]; simp
  by_cases hc : fl = true ∧ g2.gcphase = GCPhase.GCmark
  · rw [if_pos hc]
    have hk := hb.mp hc.1
    refine ⟨t.gcphase, ?_, ?_, ?_⟩
    · show g.fullPushes ≤ g2.fullPushes
      rw [t.pushes]; omega
    · rw [a]
      show _ ↔ _ ∨ g.fullPushes < g2.fullPushes
      rw [t.pushes]
      constructor
      · rintro (h | h)
        · exact Or.inl h
        · exact Or.inr (by omega)
      · rintro (h | h)
        · exact Or.inl h
        · exact Or.inr hk
    · have hlt : g.fullPushes < (enlistWorker g2).fullPushes := by
        show g.fullPushes < g2.fullPushes
        rw [t.pushes]; omega
      have hph : g.gcphase = GCPhase.GCmark := by rw [← t.gcphase]; exact hc.2
      rw [if_pos ⟨rfl, hlt, hph⟩]
      show g2.enlisted + 1 = _
      rw [t.enlisted]
  · rw [if_neg hc]
    refine ⟨t.gcphase, by rw [t.pushes]; omega, ?_, ?_⟩
    · rw [a, t.pushes]
      constructor
      · rintro (h | h)
        · exact Or.inl h
        · exact Or.inr (by omega)
      · rintro (h | h)
        · exact Or.inl h
        · exact Or.inr (by omega)
    · have hn : ¬ (true = true ∧ g.fullPushes < g2.fullPushes ∧ g.gcphase = GCPhase.GCmark) := by
        rintro ⟨-, hlt, hph⟩
        apply hc
        refine ⟨hb.mpr ?_, by rw [t.gcphase]; exact hph⟩
        rw [t.pushes] at hlt
        omega
      rw [if_neg hn, t.enlisted]
      rfl

/-- A stretch that calls no `enlistWorker` at all. -/
theorem Account.of_flow {w w1 : gcWork} {g g1 : World} {fl fl1 : Bool}
    (h : Flow w g fl w1 g1 fl1) : Account false w g w1 g1 := by
  obtain ⟨k, t, a, -⟩ := h
  refine ⟨t.gcphase, by rw [t.pushes]; omega, ?_, ?_⟩
  · rw [a, t.pushes]
    constructor
    · rintro (h | h)
      · exact Or.inl h
      · exact Or.inr (by omega)
    · rintro (h | h)
      · exact Or.inl h
      · exact Or.inr (by omega)
  · simp [t.enlisted]

theorem init_tally {cfg : Config} {w : gcWork} {g : World} {r : gcWork × World}
    (h : gcWork.init cfg w g = .ok r) :
    Tally 0 g r.2 ∧ r.1.flushedWork = w.flushedWork := by
  unfold gcWork.init at h
  obtain ⟨⟨g1, b1⟩, h1, h⟩ := bind_ok h
  obtain ⟨⟨g2, b2⟩, h2, h⟩ := bind_ok h
  have t1 := getempty_tally h1
  have t2 := trygetfull_tally h2
  simp only at h
  split at h
  · obtain ⟨⟨g3, b3⟩, h3, h⟩ := bind_ok h
    cases h
    exact ⟨t1.plus (t2.plus (getempty_tally h3)), rfl⟩
  · cases h
    exact ⟨t1.plus t2, rfl⟩

theorem putPrepare_flow {cfg : Config} {w : gcWork} {g : World}
    {r : gcWork × World × Nat × Bool} (h : gcWork.putPrepare cfg w g = .ok r) :
    Flow w g false r.1 r.2.1 r.2.2.2 := by
  unfold gcWork.putPrepare at h
  split at h
  · obtain ⟨⟨w1, g1⟩, h1, h⟩ := bind_ok h
    cases h
    obtain ⟨t, hf⟩ := init_tally h1
    exact Flow.quiet t hf false
  · obtain ⟨n, _, h⟩ := bind_ok h
    split at h
    · obtain ⟨n1, _, h⟩ := bind_ok h
      split at h
      · obtain ⟨g1, h1, h⟩ := bind_ok h
        obtain ⟨⟨g2, e⟩, h2, h⟩ := bind_ok h
        cases h
        have t : Tally (0 + 1) g g2 := (putfull_tally h1).plus (getempty_tally h2)
        exact Flow.loud t rfl false
      · cases h
        exact Flow.quiet (Tally.none g) rfl false
    · cases h
      exact Flow.idle w g false

theorem put_account {cfg : Config} {w : gcWork} {g : World} {p : Nat} {r : gcWork × World}
    (h : gcWork.put cfg w g p = .ok r) : Account true w g r.1 r.2 := by
  unfold gcWork.put at h
  obtain ⟨⟨w1, g1, wbuf, fl⟩, h1, h⟩ := bind_ok h
  obtain ⟨g2, h2, h⟩ := bind_ok h
  have hf : Flow w g false w1 g2 fl :=
    (putPrepare_flow h1).seq (Flow.quiet (pushObj_tally h2) rfl fl)
  have ha := Account.of_signal hf
  split at h
  · rename_i hc
    rw [if_pos hc] at ha
    cases h
    exact ha
  · rename_i hc
    rw [if_neg hc] at ha
    cases h
    exact ha

theorem putBatchFlush_flow {cfg : Config} :
    ∀ (fuel : Nat) (w : gcWork) (g : World) (wbuf : Nat) (fl : Bool)
      (r : gcWork × World × Nat × Bool),
      gcWork.putBatchFlush cfg fuel w g wbuf fl = .ok r → Flow w g fl r.1 r.2.1 r.2.2.2
  | 0, _, _, _, _, _, h => by simp [gcWork.putBatchFlush] at h
  | fuel + 1, w, g, wbuf, fl, r, h => by
    rw [gcWork.putBatchFlush] at h
    obtain ⟨n, _, h⟩ := bind_ok h
    try simp only at h
    split at h
    · obtain ⟨g1, h1, h⟩ := bind_ok h
      obtain ⟨⟨g2, e⟩, h2, h⟩ := bind_ok h
      have t : Tally (0 + 1) g g2 := (putfull_tally h1).plus (getempty_tally h2)
      exact (Flow.loud t rfl fl).seq (putBatchFlush_flow fuel _ _ _ _ _ h)
    · cases h
      exact Flow.idle w g fl

theorem copyObjs_tally (g : World) (wbuf k n : Nat) (src : List Nat) :
    Tally 0 g (copyObjs g wbuf k n src) := ⟨rfl, rfl, rfl⟩

theorem putBatchLoop_flow {cfg : Config} {inner : Nat} :
    ∀ (fuel : Nat) (w : gcWork) (g : World) (wbuf : Nat) (fl : Bool) (obj : List Nat)
      (r : gcWork × World × Bool),
      gcWork.putBatchLoop cfg inner fuel w g wbuf fl obj = .ok r → Flow w g fl r.1 r.2.1 r.2.2
  | 0, _, _, _, _, _, _, h => by simp [gcWork.putBatchLoop] at h
  | fuel + 1, w, g, wbuf, fl, obj, r, h => by
    rw [gcWork.putBatchLoop] at h
    try simp only at h
    split at h
    · obtain ⟨⟨w1, g1, wbuf1, fl1⟩, h1, h⟩ := bind_ok h
      obtain ⟨k, _, h⟩ := bind_ok h
      try simp only at h
      split at h
      · cases h
      · obtain ⟨k1, _, h⟩ := bind_ok h
        obtain ⟨g3, h3, h⟩ := bind_ok h
        have f1 := putBatchFlush_flow _ _ _ _ _ _ h1
        have t2 := (copyObjs_tally g1 wbuf1 k.toNat
          (min (cfg.C - k.toNat) obj.length) obj).plus (setNobj_tally h3)
        exact (f1.seq (Flow.quiet t2 rfl fl1)).seq (putBatchLoop_flow fuel _ _ _ _ _ _ h)
    · cases h
      exact Flow.idle w g fl

theorem putBatch_account {cfg : Config} {fuel : Nat} {w : gcWork} {g : World} {obj : List Nat}
    {r : gcWork × World} (h : gcWork.putBatch cfg fuel w g obj = .ok r) :
    Account true w g r.1 r.2 := by
  unfold gcWork.putBatch at h
  try simp only at h
  split at h
  · cases h
    have ha := Account.of_signal (Flow.idle w g false)
    simpa using ha
  · obtain ⟨⟨w1, g1⟩, h1, h⟩ := bind_ok h
    obtain ⟨⟨w2, g2, fl⟩, h2, h⟩ := bind_ok h
    have f1 : Flow w g false w1 g1 false := by
      split at h1
      · obtain ⟨t, hf⟩ := init_tally h1
        exact Flow.quiet t hf false
      · cases h1
        exact Flow.idle w g false
    have ha := Account.of_signal (f1.seq (putBatchLoop_flow _ _ _ _ _ _ _ h2))
    try simp only at h
    split at h
    · rename_i hc
      rw [if_pos hc] at ha
      cases h
      exact ha
    · rename_i hc
      rw [if_neg hc] at ha
      cases h
      exact ha

theorem tryGet_quiet {cfg : Config} {w : gcWork} {g : World} {r : Nat × gcWork × World}
    (h : gcWork.tryGet cfg w g = .ok r) :
    Tally 0 g r.2.2 ∧ r.2.1.flushedWork = w.flushedWork := by
  unfold gcWork.tryGet at h
  obtain ⟨⟨w1, g1⟩, h1, h⟩ := bind_ok h
  have f1 : Tally 0 g g1 ∧ w1.flushedWork = w.flushedWork := by
    split at h1
    · exact init_tally h1
    · cases h1
      exact ⟨Tally.none g, rfl⟩
  obtain ⟨n, _, h⟩ := bind_ok h
  try simp only at h
  split at h
  · obtain ⟨n2, _, h⟩ := bind_ok h
    try simp only at h
    split at h
    · obtain ⟨⟨g2, wbuf⟩, h2, h⟩ := bind_ok h
      have t2 := trygetfull_tally h2
      try simp only at h
      split at h
      · cases h
        exact ⟨f1.1.plus t2, f1.2⟩
      · obtain ⟨g3, h3, h⟩ := bind_ok h
        obtain ⟨⟨v, g4⟩, h4, h⟩ := bind_ok h
        cases h
        exact ⟨f1.1.plus (t2.plus ((putempty_tally h3).plus (popObj_tally h4))), f1.2⟩
    · obtain ⟨⟨v, g2⟩, h2, h⟩ := bind_ok h
      cases h
      exact ⟨f1.1.plus (popObj_tally h2), f1.2⟩
  · obtain ⟨⟨v, g2⟩, h2, h⟩ := bind_ok h
    cases h
    exact ⟨f1.1.plus (popObj_tally h2), f1.2⟩

theorem putFast_quiet {cfg : Config} {w : gcWork} {g : World} {p : Nat}
    {r : Bool × gcWork × World} (h : gcWork.putFast cfg w g p = .ok r) :
    Tally 0 g r.2.2 ∧ r.2.1.flushedWork = w.flushedWork := by
  unfold gcWork.putFast at h
  try simp only at h
  split at h
  · cases h
    exact ⟨Tally.none g, rfl⟩
  · obtain ⟨n, _, h⟩ := bind_ok h
    try simp only at h
    split at h
    · cases h
      exact ⟨Tally.none g, rfl⟩
    · obtain ⟨g1, h1, h⟩ := bind_ok h
      cases h
      exact ⟨pushObj_tally h1, rfl⟩

theorem tryGetFast_quiet {cfg : Config} {w : gcWork} {g : World}
    {r : Nat × gcWork × World} (h : gcWork.tryGetFast cfg w g = .ok r) :
    Tally 0 g r.2.2 ∧ r.2.1.flushedWork = w.flushedWork := by
  unfold gcWork.tryGetFast at h
  try simp only at h
  split at h
  · cases h
    exact ⟨Tally.none g, rfl⟩
  · obtain ⟨n, _, h⟩ := bind_ok h
    try simp only at h
    split at h
    · cases h
      exact ⟨Tally.none g, rfl⟩
    · obtain ⟨⟨v, g1⟩, h1, h⟩ := bind_ok h
      cases h
      exact ⟨popObj_tally h1, rfl⟩

theorem disposeBuf_flow {cfg : Config} {w : gcWork} {g : World} {wbuf : Nat}
    {r : gcWork × World} (h : gcWork.disposeBuf cfg w g wbuf = .ok r) :
    ∃ fl, Flow w g false r.1 r.2 fl := by
  unfold gcWork.disposeBuf at h
  obtain ⟨n, _, h⟩ := bind_ok h
  try simp only at h
  split at h
  · obtain ⟨g1, h1, h⟩ := bind_ok h
    cases h
    exact ⟨false, Flow.quiet (putempty_tally h1) rfl false⟩
  · obtain ⟨g1, h1, h⟩ := bind_ok h
    cases h
    have t : Tally (0 + 1) g g1 := putfull_tally h1
    exact ⟨true, Flow.loud t rfl false⟩

theorem disposeCounters_quiet (w : gcWork) (g : World) :
    Tally 0 g (gcWork.disposeCounters w g).2 ∧
      (gcWork.disposeCounters w g).1.flushedWork = w.flushedWork := by
  have h : (gcWork.disposeCounters w g).2.gcphase = g.gcphase ∧
      (gcWork.disposeCounters w g).2.enlisted = g.enlisted ∧
      (gcWork.disposeCounters w g).2.fullPushes = g.fullPushes ∧
      (gcWork.disposeCounters w g).1.flushedWork = w.flushedWork := by
    unfold gcWork.disposeCounters
    simp only
    split <;> split <;> simp
  exact ⟨⟨h.1, h.2.1, h.2.2.1⟩, h.2.2.2⟩

theorem dispose_account {cfg : Config} {w : gcWork} {g : World} {r : gcWork × World}
    (h : gcWork.dispose cfg w g = .ok r) : Account false w g r.1 r.2 := by
  unfold gcWork.dispose at h
  obtain ⟨⟨w1, g1⟩, h1, h⟩ := bind_ok h
  cases h
  obtain ⟨tq, hq⟩ := disposeCounters_quiet w1 g1
  have f1 : ∃ fl, Flow w g false w1 g1 fl := by
    unfold gcWork.disposeBufs at h1
    split at h1
    · obtain ⟨⟨wa, ga⟩, ha, h1⟩ := bind_ok h1
      obtain ⟨⟨wc, gc⟩, hc, h1⟩ := bind_ok h1
      obtain ⟨fa, fla⟩ := disposeBuf_flow ha
      obtain ⟨fc, flc⟩ := disposeBuf_flow hc
      have q1 : Flow wa ga fa { wa with wbuf1 := 0 } ga fa := Flow.quiet (Tally.none ga) rfl fa
      have q2 : Flow wc gc (fa || fc) { wc with wbuf2 := 0 } gc (fa || fc) :=
        Flow.quiet (Tally.none gc) rfl _
      have q3 := ((fla.seq q1).seq (flc.raise fa)).seq q2
      cases h1
      exact ⟨_, q3⟩
    · cases h1
      exact ⟨false, Flow.idle w g false⟩
  obtain ⟨fl, f1⟩ := f1
  exact Account.of_flow (f1.seq (Flow.quiet tq hq fl))

theorem balance_account {cfg : Config} {w : gcWork} {g : World} {r : gcWork × World}
    (h : gcWork.balance cfg w g = .ok r) : Account true w g r.1 r.2 := by
  unfold gcWork.balance at h
  try simp only at h
  split at h
  · cases h
    have ha := Account.of_signal (Flow.idle w g false)
    simpa using ha
  · obtain ⟨n2, _, h⟩ := bind_ok h
    try simp only at h
    split at h
    · obtain ⟨g1, h1, h⟩ := bind_ok h
      obtain ⟨⟨g2, e⟩, h2, h⟩ := bind_ok h
      have t : Tally (0 + 1) g g2 := (putfull_tally h1).plus (getempty_tally h2)
      have ha := Account.of_signal
        (@Flow.loud w { w with flushedWork := true, wbuf2 := e } g g2 0 t rfl false)
      simp only [true_and] at ha
      try simp only at h
      split at h
      · rename_i hc
        rw [if_pos hc] at ha
        cases h
        exact ha
      · rename_i hc
        rw [if_neg hc] at ha
        cases h
        exact ha
    · obtain ⟨n1, _, h⟩ := bind_ok h
      try simp only at h
      split at h
      · obtain ⟨⟨g1, b1⟩, h1, h⟩ := bind_ok h
        have t : Tally (0 + 1) g g1 := handoff_tally h1
        have ha := Account.of_signal
          (@Flow.loud w { w with wbuf1 := b1, flushedWork := true } g g1 0 t rfl false)
        simp only [true_and] at ha
        try simp only at h
        split at h
        · rename_i hc
          rw [if_pos hc] at ha
          cases h
          exact ha
        · rename_i hc
          rw [if_neg hc] at ha
          cases h
          exact ha
      · cases h
        have ha := Account.of_signal (Flow.idle w g false)
        simpa using ha

theorem Account.of_quiet {w w1 : gcWork} {g g1 : World} (sig : Bool)
    (h : Tally 0 g g1 ∧ w1.flushedWork = w.flushedWork) : Account sig w g w1 g1 := by
  refine ⟨h.1.gcphase, by rw [h.1.pushes]; omega, ?_, ?_⟩
  · rw [h.2, h.1.pushes]
    simp
  · rw [h.1.enlisted, h.1.pushes]
    simp

/-- The bookkeeping of every operation of the queue that returns. -/
theorem QueueOp.run_account {cfg : Config} (op : QueueOp) {w : gcWork} {g : World}
    {r : gcWork × World} (h : op.run cfg w g = .ok r) : Account op.signals w g r.1 r.2 := by
  cases op with
  | init => exact Account.of_quiet _ (init_tally h)
  | put p => exact put_account h
  | putFast p =>
    obtain ⟨⟨b, w1, g1⟩, h1, h⟩ := bind_ok h
    cases h
    exact Account.of_quiet _ (putFast_quiet h1)
  | putBatch obj => exact putBatch_account h
  | tryGet =>
    obtain ⟨⟨b, w1, g1⟩, h1, h⟩ := bind_ok h
    cases h
    exact Account.of_quiet _ (tryGet_quiet h1)
  | tryGetFast =>
    obtain ⟨⟨b, w1, g1⟩, h1, h⟩ := bind_ok h
    cases h
    exact Account.of_quiet _ (tryGetFast_quiet h1)
  | dispose => exact dispose_account h
  | balance => exact balance_account h
  | empty =>
    obtain ⟨b, h1, h⟩ := bind_ok h
    cases h
    exact Account.of_quiet _ ⟨Tally.none g, rfl⟩

theorem map_ok {α β : Type} {x : Except Err α} {f : α → β} {a : α} {b : β}
    (hx : x = .ok a) (hm : x.map f = .ok b) : f a = b := by
  subst hx
  cases hm
  rfl

/-- Counterexample to C14 as stated: in the phase `_GCmark`, `dispose` on a queue whose
`wbuf1` holds one pointer pushes that buffer onto the full list and returns without a call
of `enlistWorker`. -/
theorem enlist_signal_counterexample :
    (∃ E F, Inv (sampleConfig 4) (sampleQueue 4 [7]).1 (sampleQueue 4 [7]).2 E F []) ∧
      (sampleQueue 4 [7]).2.gcphase = GCPhase.GCmark ∧
      (sampleQueue 4 [7]).2.fullPushes = 0 ∧ (sampleQueue 4 [7]).2.enlisted = 0 ∧
      (QueueOp.dispose.run (sampleConfig 4) (sampleQueue 4 [7]).1 (sampleQueue 4 [7]).2).map
        (fun r => (r.2.fullPushes, r.2.enlisted)) = .ok (1, 0) := by
  refine ⟨?_, by decide, by decide, by decide, rfl⟩
  obtain ⟨E, F, hi, _⟩ := sampleQueue_inv 4 [7] (by decide) (by decide)
  exact ⟨E, F, hi⟩

/-- Claim C14, amended: when `put`, `putBatch` or `balance` returns, `enlistWorker` has
been called exactly once if the call pushed at least one buffer onto the full list and
the phase is `_GCmark`, and not at all if the phase is another or no buffer was pushed;
every other operation of the queue, `dispose` among them, returns without a call of
`enlistWorker`, whatever it pushed. No operation changes the phase. -/
theorem enlist_signal (cfg : Config) (op : QueueOp) (w : gcWork) (g : World)
    (r : gcWork × World) (h : op.run cfg w g = .ok r) :
    r.2.gcphase = g.gcphase ∧ g.fullPushes ≤ r.2.fullPushes ∧
    (op.signals = true →
      (g.fullPushes < r.2.fullPushes ∧ g.gcphase = GCPhase.GCmark →
        r.2.enlisted = g.enlisted + 1) ∧
      (g.gcphase ≠ GCPhase.GCmark ∨ r.2.fullPushes = g.fullPushes →
        r.2.enlisted = g.enlisted)) ∧
    (op.signals = false → r.2.enlisted = g.enlisted) ∧
    (QueueOp.put 0).signals = true ∧ (QueueOp.putBatch []).signals = true ∧
    QueueOp.balance.signals = true ∧ QueueOp.dispose.signals = false := by
  have ha := op.run_account h
  refine ⟨ha.gcphase, ha.pushes, fun hs => ⟨fun hc => ?_, fun hc => ?_⟩, fun hs => ?_,
    rfl, rfl, rfl, rfl⟩
  · have he := ha.enlisted
    rw [if_pos ⟨hs, hc.1, hc.2⟩] at he
    exact he
  · have he := ha.enlisted
    have hn : ¬ (op.signals = true ∧ g.fullPushes < r.2.fullPushes ∧
        g.gcphase = GCPhase.GCmark) := by
      rintro ⟨-, hlt, hph⟩
      rcases hc with hc | hc
      · exact hc hph
      · omega
    rw [if_neg hn] at he
    exact he
  · have he := ha.enlisted
    have hn : ¬ (op.signals = true ∧ g.fullPushes < r.2.fullPushes ∧
        g.gcphase = GCPhase.GCmark) := by
      rintro ⟨ht, -⟩
      rw [hs] at ht
      cases ht
    rw [if_neg hn] at he
    exact he

theorem enlist_signal_witness :
    ∃ r, (QueueOp.put 15).run (sampleConfig 2) (sampleQueue 2 [11, 12, 13, 14]).1
        (sampleQueue 2 [11, 12, 13, 14]).2 = .ok r ∧
      (sampleQueue 2 [11, 12, 13, 14]).2.fullPushes < r.2.fullPushes ∧
      r.2.enlisted = (sampleQueue 2 [11, 12, 13, 14]).2.enlisted + 1 := by
  obtain ⟨E, F, hi, hrem⟩ := sampleQueue_inv 2 [11, 12, 13, 14] (by decide) (by decide)
  obtain ⟨r, hr, -⟩ := (QueueOp.run_wp (by decide) (.put 15) hi).exists_ok hrem
  have hp : ((QueueOp.put 15).run (sampleConfig 2) (sampleQueue 2 [11, 12, 13, 14]).1
      (sampleQueue 2 [11, 12, 13, 14]).2).map (fun r => r.2.fullPushes) = .ok 1 := rfl
  have h1 : r.2.fullPushes = 1 := map_ok (f := fun r => r.2.fullPushes) hr hp
  have h0 : (sampleQueue 2 [11, 12, 13, 14]).2.fullPushes = 0 := by decide
  have hlt : (sampleQueue 2 [11, 12, 13, 14]).2.fullPushes < r.2.fullPushes := by
    rw [h0, h1]; decide
  exact ⟨r, hr, hlt, ((enlist_signal (sampleConfig 2) (.put 15) _ _ r hr).2.2.1 rfl).1
    ⟨hlt, by decide⟩⟩

theorem pushOldPtrsWorkbuf_quiet {cfg : Config} {w : gcWork} {g : World} {r : gcWork × World}
    (h : gcWork.pushOldPtrsWorkbuf cfg w g = .ok r) :
    Tally 0 g r.2 ∧ r.1.flushedWork = w.flushedWork := by
  unfold gcWork.pushOldPtrsWorkbuf at h
  obtain ⟨⟨g1, wbuf⟩, h1, h⟩ := bind_ok h
  obtain ⟨g2, h2, h⟩ := bind_ok h
  obtain ⟨_, _, h⟩ := bind_ok h
  obtain ⟨r1, _, h⟩ := bind_ok h
  cases h
  have t := (getempty_tally h1).plus (setNobj_tally h2)
  exact ⟨⟨t.gcphase, t.enlisted, t.pushes⟩, rfl⟩

theorem putOldPtr_quiet {cfg : Config} {w : gcWork} {g : World} {addr off : Nat}
    {r : gcWork × World} (h : gcWork.putOldPtr cfg w g addr off = .ok r) :
    Tally 0 g r.2 ∧ r.1.flushedWork = w.flushedWork := by
  unfold gcWork.putOldPtr at h
  obtain ⟨fresh, _, h⟩ := bind_ok h
  obtain ⟨⟨w1, g1, wbuf⟩, h1, h⟩ := bind_ok h
  have q1 : Tally 0 g g1 ∧ w1.flushedWork = w.flushedWork := by
    split at h1
    · obtain ⟨⟨w2, g2⟩, h2, h1⟩ := bind_ok h1
      cases h1
      exact pushOldPtrsWorkbuf_quiet h2
    · cases h1
      exact ⟨Tally.none g, rfl⟩
  simp only at h
  split at h
  · cases h
  · obtain ⟨g2, h2, h⟩ := bind_ok h
    obtain ⟨g3, h3, h⟩ := bind_ok h
    cases h
    exact ⟨q1.1.plus ((pushObj_tally h2).plus (pushObj_tally h3)), q1.2⟩

theorem updatePairs_tally {cfg : Config} {w : gcWork} {wbuf : Nat} :
    ∀ (fuel : Nat) (i : Int) (g g1 : World),
      gcWork.updatePairs cfg w wbuf fuel i g = .ok g1 → Tally 0 g g1
  | 0, _, _, _, h => by simp [gcWork.updatePairs] at h
  | fuel + 1, i, g, g1, h => by
    rw [gcWork.updatePairs] at h
    obtain ⟨n, _, h⟩ := bind_ok h
    split at h
    · obtain ⟨addr, _, h⟩ := bind_ok h
      obtain ⟨off, _, h⟩ := bind_ok h
      simp only at h
      split at h
      · cases h
      · have t := updatePairs_tally fuel _ _ _ h
        exact ⟨t.gcphase, t.enlisted, t.pushes⟩
    · cases h
      exact Tally.none g

theorem updateOldPtrsLoop_quiet {cfg : Config} {inner : Nat} :
    ∀ (fuel : Nat) (w : gcWork) (g : World) (r : gcWork × World),
      gcWork.updateOldPtrsLoop cfg inner fuel w g = .ok r →
        Tally 0 g r.2 ∧ r.1.flushedWork = w.flushedWork
  | 0, _, _, _, h => by simp [gcWork.updateOldPtrsLoop] at h
  | fuel + 1, w, g, r, h => by
    rw [gcWork.updateOldPtrsLoop] at h
    obtain ⟨r1, _, h⟩ := bind_ok h
    simp only at h
    split at h
    · obtain ⟨g1, h1, h⟩ := bind_ok h
      obtain ⟨t2, f2⟩ := updateOldPtrsLoop_quiet fuel _ _ _ h
      exact ⟨(updatePairs_tally _ _ _ _ h1).plus t2, f2⟩
    · cases h
      exact ⟨Tally.none g, rfl⟩

/-- The three methods for the list `old_ptrs` push nothing onto the full list and leave
`flushedWork` alone. -/
theorem oldPtrs_quiet (cfg : Config) (w : gcWork) (g : World) :
    (∀ r, gcWork.pushOldPtrsWorkbuf cfg w g = .ok r →
      r.2.fullPushes = g.fullPushes ∧ r.1.flushedWork = w.flushedWork) ∧
    (∀ addr off r, gcWork.putOldPtr cfg w g addr off = .ok r →
      r.2.fullPushes = g.fullPushes ∧ r.1.flushedWork = w.flushedWork) ∧
    (∀ fuel r, gcWork.updateOldPtrs cfg fuel w g = .ok r →
      r.2.fullPushes = g.fullPushes ∧ r.1.flushedWork = w.flushedWork) := by
  refine ⟨fun r h => ?_, fun addr off r h => ?_, fun fuel r h => ?_⟩
  · exact ⟨(pushOldPtrsWorkbuf_quiet h).1.pushes, (pushOldPtrsWorkbuf_quiet h).2⟩
  · exact ⟨(putOldPtr_quiet h).1.pushes, (putOldPtr_quiet h).2⟩
  · have := updateOldPtrsLoop_quiet _ _ _ _ h
    exact ⟨this.1.pushes, this.2⟩

/-- Claim C19: when an operation of the queue returns and has pushed at least one buffer
onto the full list, which `putfull` does for non-empty buffers only, `flushedWork` is
true; an operation that is entered with `flushedWork` true returns with it true; and
`flushedWork` is true on return only if it was on entry or a buffer was pushed. `init`,
`tryGet`, `putFast`, `tryGetFast` and `empty` push nothing and leave `flushedWork` as it
was, and so do the three methods for the list `old_ptrs`. -/
theorem flushedWork_tracks (cfg : Config) (op : QueueOp) (w : gcWork) (g : World)
    (r : gcWork × World) (h : op.run cfg w g = .ok r) :
    g.fullPushes ≤ r.2.fullPushes ∧
    (g.fullPushes < r.2.fullPushes → r.1.flushedWork = true) ∧
    (w.flushedWork = true → r.1.flushedWork = true) ∧
    (r.1.flushedWork = true → w.flushedWork = true ∨ g.fullPushes < r.2.fullPushes) ∧
    (op = .init ∨ op = .tryGet ∨ (∃ p, op = .putFast p) ∨ op = .tryGetFast ∨ op = .empty →
      r.2.fullPushes = g.fullPushes ∧ r.1.flushedWork = w.flushedWork) ∧
    (∀ r1, gcWork.pushOldPtrsWorkbuf cfg w g = .ok r1 →
      r1.2.fullPushes = g.fullPushes ∧ r1.1.flushedWork = w.flushedWork) ∧
    (∀ addr off r1, gcWork.putOldPtr cfg w g addr off = .ok r1 →
      r1.2.fullPushes = g.fullPushes ∧ r1.1.flushedWork = w.flushedWork) ∧
    (∀ fuel r1, gcWork.updateOldPtrs cfg fuel w g = .ok r1 →
      r1.2.fullPushes = g.fullPushes ∧ r1.1.flushedWork = w.flushedWork) := by
  have ha := op.run_account h
  refine ⟨ha.pushes, fun hlt => ha.flushed.mpr (Or.inr hlt), fun hw => ha.flushed.mpr (Or.inl hw),
    ha.flushed.mp, ?_, oldPtrs_quiet cfg w g⟩
  intro hop
  have hq : Tally 0 g r.2 ∧ r.1.flushedWork = w.flushedWork := by
    rcases hop with rfl | rfl | ⟨p, rfl⟩ | rfl | rfl
    · exact init_tally h
    · obtain ⟨⟨b, w1, g1⟩, h1, h⟩ := bind_ok h
      cases h
      exact tryGet_quiet h1
    · obtain ⟨⟨b, w1, g1⟩, h1, h⟩ := bind_ok h
      cases h
      exact putFast_quiet h1
    · obtain ⟨⟨b, w1, g1⟩, h1, h⟩ := bind_ok h
      cases h
      exact tryGetFast_quiet h1
    · obtain ⟨b, h1, h⟩ := bind_ok h
      cases h
      exact ⟨Tally.none g, rfl⟩
  exact ⟨hq.1.pushes, hq.2⟩

theorem flushedWork_tracks_witness :
    ∃ r, QueueOp.dispose.run (sampleConfig 4) (sampleQueue 4 [7]).1 (sampleQueue 4 [7]).2 =
        .ok r ∧
      (sampleQueue 4 [7]).1.flushedWork = false ∧ r.1.flushedWork = true := by
  obtain ⟨E, F, hi, hrem⟩ := sampleQueue_inv 4 [7] (by decide) (by decide)
  obtain ⟨r, hr, -⟩ := (QueueOp.run_wp (by decide) .dispose hi).exists_ok (Nat.zero_le _)
  have hp : (QueueOp.dispose.run (sampleConfig 4) (sampleQueue 4 [7]).1
      (sampleQueue 4 [7]).2).map (fun r => r.2.fullPushes) = .ok 1 := rfl
  have h1 : r.2.fullPushes = 1 := map_ok (f := fun r => r.2.fullPushes) hr hp
  have h0 : (sampleQueue 4 [7]).2.fullPushes = 0 := by decide
  exact ⟨r, hr, by decide,
    (flushedWork_tracks (sampleConfig 4) .dispose _ _ r hr).2.1 (by rw [h0, h1]; decide)⟩

theorem IsStack.keep_pushed_obj {cfg : Config} {g : World} {h : Nat} {l : List Nat}
    (hs : IsStack cfg g.bufs h l) (b p : Nat) : IsStack cfg (pushed g b p).bufs h l :=
  hs.congr_next (fun a _ => pushed_next g b a p)

theorem entries_singleton (g : World) (b p : Nat) (hn : (g.bufs b).nobj = 0) :
    entries (pushed g b p) b = [p] := by
  rw [entries_pushed g b p (by omega)]
  simp [entries, hn]

/-- Claim C17: on a queue that has its buffers, `put(p)` returns unless no span is left
for the buffer it may need, and it has pushed a buffer onto the full list exactly when
both `wbuf1` and `wbuf2` held `C` pointers on entry. In that case one buffer was pushed,
the former `wbuf2` with its `C` pointers, now the top of the full list above the former
chain; `wbuf1` is a buffer that was neither local nor on the full list nor held
elsewhere and holds exactly `p`; and the former `wbuf1` is `wbuf2`, its pointers as they
were. In every other case the full list is as it was and `p` is the last pointer of
`wbuf1`, which is the former `wbuf2` when only `wbuf1` was full and the former `wbuf1`
otherwise. -/
theorem put_hysteresis (cfg : Config) (w : gcWork) (g : World) (E F X : List Nat) (p : Nat)
    (h : Inv cfg w g E F X) (hne : w.wbuf1 ≠ 0) (hC : 1 ≤ cfg.C) :
    Meets 1 (remaining g) (gcWork.put cfg w g p) (fun r =>
      (g.fullPushes < r.2.fullPushes ↔
        (g.bufs w.wbuf1).nobj = cfg.C ∧ (g.bufs w.wbuf2).nobj = cfg.C) ∧
      ((g.bufs w.wbuf1).nobj = cfg.C ∧ (g.bufs w.wbuf2).nobj = cfg.C →
        r.2.fullPushes = g.fullPushes + 1 ∧ lfstack.head cfg r.2.full = w.wbuf2 ∧
        IsStack cfg r.2.bufs r.2.full (w.wbuf2 :: F) ∧
        (r.2.bufs w.wbuf2).nobj = cfg.C ∧ entries r.2 w.wbuf2 = entries g w.wbuf2 ∧
        r.1.wbuf1 ≠ 0 ∧ r.1.wbuf1 ∉ w.wbuf1 :: w.wbuf2 :: (F ++ X) ∧
        entries r.2 r.1.wbuf1 = [p] ∧
        r.1.wbuf2 = w.wbuf1 ∧ entries r.2 w.wbuf1 = entries g w.wbuf1) ∧
      ((g.bufs w.wbuf1).nobj = cfg.C ∧ (g.bufs w.wbuf2).nobj ≠ cfg.C →
        r.2.fullPushes = g.fullPushes ∧ r.2.full = g.full ∧ IsStack cfg r.2.bufs r.2.full F ∧
        r.1.wbuf1 = w.wbuf2 ∧ r.1.wbuf2 = w.wbuf1 ∧
        entries r.2 r.1.wbuf1 = entries g w.wbuf2 ++ [p] ∧
        entries r.2 r.1.wbuf2 = entries g w.wbuf1) ∧
      ((g.bufs w.wbuf1).nobj ≠ cfg.C →
        r.2.fullPushes = g.fullPushes ∧ r.2.full = g.full ∧ IsStack cfg r.2.bufs r.2.full F ∧
        r.1.wbuf1 = w.wbuf1 ∧ r.1.wbuf2 = w.wbuf2 ∧
        entries r.2 r.1.wbuf1 = entries g w.wbuf1 ++ [p] ∧
        entries r.2 r.1.wbuf2 = entries g w.wbuf2)) := by
  obtain ⟨hp, hb1, hb2⟩ := h.pool_cons hne
  obtain ⟨hv1, hv2, h12, h1EF, h2EF, h1X, h2X⟩ := h.local_facts hne
  by_cases c1 : (g.bufs w.wbuf1).nobj = cfg.C
  · by_cases c2 : (g.bufs w.wbuf2).nobj = cfg.C
    · -- both buffers are full
      obtain ⟨g1, hg1, hp1, hf1, hpu1, _, hr1⟩ :=
        putfull_spec (hp.perm (perm_swap_own _ _ _)) (by omega)
      rw [← hr1] at hp1
      have hput : gcWork.put cfg w g p =
          Except.bind (getempty cfg g1) (fun r => do
            let g2 ← pushObj cfg r.1 r.2 p
            if g2.gcphase = GCPhase.GCmark then
              .ok ({ w with wbuf1 := r.2, wbuf2 := w.wbuf1, flushedWork := true },
                   enlistWorker g2)
            else .ok ({ w with wbuf1 := r.2, wbuf2 := w.wbuf1, flushedWork := true }, g2)) := by
        simp only [gcWork.put, gcWork.putPrepare, hne, if_false, getNobj, hv1.1, hv2.1, bind,
          Except.bind, c1, c2, if_true, hg1]
        cases getempty cfg g1 with
        | error e => rfl
        | ok r =>
          obtain ⟨g2, e⟩ := r
          simp only
          cases pushObj cfg g2 e p with
          | error e => rfl
          | ok g3 => simp
      rw [hput]
      refine Meets.bind_except ((getempty_wp hp1).weaken (by omega)) ?_
      rintro ⟨g2, e⟩ ⟨E1, hp2, hn2, hf2, hfull2, hpu2, hr2, hnx2⟩
      simp only at hp2 hn2 hf2 hfull2 hpu2 hr2 hnx2
      obtain ⟨heE, heF, heY⟩ := mem_own_cons hp2.nodup
      have he0 : e ≠ 0 := (hp2.valid e (by simp)).1
      have he1 : e ≠ w.wbuf1 := fun e1 => heY (e1 ▸ List.mem_cons_self _ _)
      have he2 : e ≠ w.wbuf2 := fun e2 => heF (e2 ▸ List.mem_cons_self _ _)
      have hpush : pushObj cfg g2 e p = .ok (pushed g2 e p) :=
        pushObj_eq he0 (by rw [hn2]; omega) p
      have hfr := Frame.of_pushed g2 e p
      have m1 : w.wbuf1 ∈ E ++ (w.wbuf2 :: F) ++ (w.wbuf1 :: X) := by simp
      have m2 : w.wbuf2 ∈ E ++ (w.wbuf2 :: F) ++ (w.wbuf1 :: X) := by simp
      have hst : IsStack cfg (pushed g2 e p).bufs g2.full (w.wbuf2 :: F) := hp2.isF.keep_pushed_obj e p
      have e2 : entries (pushed g2 e p) w.wbuf2 = entries g w.wbuf2 := by
        rw [hfr.entries (Ne.symm he2), hf2.entries m2, hf1.entries trivial]
      have e1 : entries (pushed g2 e p) w.wbuf1 = entries g w.wbuf1 := by
        rw [hfr.entries (Ne.symm he1), hf2.entries m1, hf1.entries trivial]
      have n2 : ((pushed g2 e p).bufs w.wbuf2).nobj = cfg.C := by
        rw [hfr.nobj _ (Ne.symm he2), hf2.nobj _ m2, hf1.nobj _ trivial, c2]
      have hfresh : e ∉ w.wbuf1 :: w.wbuf2 :: (F ++ X) := by
        simp only [List.mem_cons, List.mem_append, not_or]
        refine ⟨he1, he2, fun hF => heF (List.mem_cons_of_mem _ hF), fun hX =>
          heY (List.mem_cons_of_mem _ hX)⟩
      have hhead : lfstack.head cfg g2.full = w.wbuf2 := by
        unfold lfstack.head
        rw [if_neg hp2.isF.1, hp2.isF.2.1]
      have hcount : (pushed g2 e p).fullPushes = g.fullPushes + 1 := by
        show g2.fullPushes = _
        rw [hpu2, hpu1]
      have key : ∀ g3 : World, g3.fullPushes = (pushed g2 e p).fullPushes →
          g3.bufs = (pushed g2 e p).bufs → g3.full = g2.full →
          (g.fullPushes < g3.fullPushes ↔
            (g.bufs w.wbuf1).nobj = cfg.C ∧ (g.bufs w.wbuf2).nobj = cfg.C) ∧
          ((g.bufs w.wbuf1).nobj = cfg.C ∧ (g.bufs w.wbuf2).nobj = cfg.C →
            g3.fullPushes = g.fullPushes + 1 ∧ lfstack.head cfg g3.full = w.wbuf2 ∧
            IsStack cfg g3.bufs g3.full (w.wbuf2 :: F) ∧
            (g3.bufs w.wbuf2).nobj = cfg.C ∧ entries g3 w.wbuf2 = entries g w.wbuf2 ∧
            e ≠ 0 ∧ e ∉ w.wbuf1 :: w.wbuf2 :: (F ++ X) ∧
            entries g3 e = [p] ∧
            w.wbuf1 = w.wbuf1 ∧ entries g3 w.wbuf1 = entries g w.wbuf1) ∧
          ((g.bufs w.wbuf1).nobj = cfg.C ∧ (g.bufs w.wbuf2).nobj ≠ cfg.C →
            g3.fullPushes = g.fullPushes ∧ g3.full = g.full ∧ IsStack cfg g3.bufs g3.full F ∧
            e = w.wbuf2 ∧ w.wbuf1 = w.wbuf1 ∧
            entries g3 e = entries g w.wbuf2 ++ [p] ∧
            entries g3 w.wbuf1 = entries g w.wbuf1) ∧
          ((g.bufs w.wbuf1).nobj ≠ cfg.C →
            g3.fullPushes = g.fullPushes ∧ g3.full = g.full ∧ IsStack cfg g3.bufs g3.full F ∧
            e = w.wbuf1 ∧ w.wbuf1 = w.wbuf2 ∧
            entries g3 e = entries g w.wbuf1 ++ [p] ∧
            entries g3 w.wbuf1 = entries g w.wbuf2) := by
        intro g3 q1 q2 q3
        have en : ∀ a, entries g3 a = entries (pushed g2 e p) a := by
          intro a
          unfold entries
          rw [q2]
        refine ⟨⟨fun _ => ⟨c1, c2⟩, fun _ => by rw [q1, hcount]; omega⟩, fun _ => ?_,
          fun hc => absurd c2 hc.2, fun hc => absurd c1 hc⟩
        refine ⟨by rw [q1, hcount], by rw [q3]; exact hhead, by rw [q2, q3]; exact hst,
          by rw [q2]; exact n2, by rw [en]; exact e2, he0, hfresh, ?_, rfl,
          by rw [en]; exact e1⟩
        rw [en]
        exact entries_singleton g2 e p hn2
      simp only [hpush, bind, Except.bind]
      by_cases hph : (pushed g2 e p).gcphase = GCPhase.GCmark
      · rw [if_pos hph]
        exact key (enlistWorker (pushed g2 e p)) rfl rfl rfl
      · rw [if_neg hph]
        exact key (pushed g2 e p) rfl rfl rfl
    · -- only `wbuf1` is full: exchange the buffers
      have hpo := @pushObj_eq cfg g _ hv2.1 ⟨hb2.1, by omega⟩ p
      have hput : gcWork.put cfg w g p =
          .ok ({ w with wbuf1 := w.wbuf2, wbuf2 := w.wbuf1 }, pushed g w.wbuf2 p) := by
        simp only [gcWork.put, gcWork.putPrepare, hne, if_false, getNobj, hv1.1, hv2.1, bind,
          Except.bind, c1, c2, if_true, hpo]
        simp
      rw [hput]
      have hfr := Frame.of_pushed g w.wbuf2 p
      refine ⟨⟨fun hlt => absurd hlt (Nat.lt_irrefl _), fun hc => absurd hc.2 c2⟩,
        fun hc => absurd hc.2 c2, fun _ => ?_, fun hc => absurd c1 hc⟩
      exact ⟨rfl, rfl, hp.isF.keep_pushed_obj _ p, rfl, rfl, entries_pushed g _ p hb2.1,
        hfr.entries h12⟩
  · -- `wbuf1` has room
    have hpo := @pushObj_eq cfg g _ hv1.1 ⟨hb1.1, by omega⟩ p
    have hput : gcWork.put cfg w g p = .ok (w, pushed g w.wbuf1 p) := by
      simp only [gcWork.put, gcWork.putPrepare, hne, if_false, getNobj, hv1.1, bind,
        Except.bind, c1, hpo]
      simp
    rw [hput]
    have hfr := Frame.of_pushed g w.wbuf1 p
    refine ⟨⟨fun hlt => absurd hlt (Nat.lt_irrefl _), fun hc => absurd hc.1 c1⟩,
      fun hc => absurd hc.1 c1, fun hc => absurd hc.1 c1, fun _ => ?_⟩
    exact ⟨rfl, rfl, hp.isF.keep_pushed_obj _ p, rfl, rfl, entries_pushed g _ p hb1.1,
      hfr.entries (Ne.symm h12)⟩

theorem put_hysteresis_witness :
    Meets 1 (remaining (sampleQueue 2 [11, 12, 13, 14]).2)
      (gcWork.put (sampleConfig 2) (sampleQueue 2 [11, 12, 13, 14]).1
        (sampleQueue 2 [11, 12, 13, 14]).2 15)
      (fun r => r.2.fullPushes = (sampleQueue 2 [11, 12, 13, 14]).2.fullPushes + 1 ∧
        entries r.2 r.1.wbuf1 = [15] ∧
        r.1.wbuf2 = (sampleQueue 2 [11, 12, 13, 14]).1.wbuf1) := by
  obtain ⟨E, F, hi, _⟩ := sampleQueue_inv 2 [11, 12, 13, 14] (by decide) (by decide)
  exact (put_hysteresis (sampleConfig 2) _ _ E F [] 15 hi (by decide) (by decide)).imp
    fun r hr => ⟨(hr.2.1 (by decide)).1, (hr.2.1 (by decide)).2.2.2.2.2.2.2.1,
      (hr.2.1 (by decide)).2.2.2.2.2.2.2.2.1⟩

theorem QueueOp.leak_local (op : QueueOp) (w : gcWork) : ∀ a ∈ op.leak w, a ∈ locals w := by
  cases op <;> simp [QueueOp.leak]

/-- Claim C20: with capacity at least one, from a state in which the data-model invariant
holds (both local buffers nil or neither, counts of local buffers, of buffers held
elsewhere and of the full list within the capacity, empty-list buffers empty) and with
the spans the operation may need left at the provider, each of `put`, `putFast`,
`putBatch`, `tryGet`, `tryGetFast`, `balance`, `dispose` and `empty` (and `init`) returns:
no bounds-checked access to `obj` fails, no nil buffer is dereferenced, neither
`checkempty` nor `checknonempty` throws. On return the invariant holds again and every
buffer has a count within `0 .. C`. The one access to `obj` that Go does not check, the
`memmove` of `handoff`, which `balance` calls on a `wbuf1` with `m > 4` pointers, moves
the words `obj[m - m/2 .. m)` of `wbuf1`, with `m <= C`, to `obj[0 .. m/2)` of the fresh
buffer. -/
theorem bounds_safety (cfg : Config) (op : QueueOp) (w : gcWork) (g : World)
    (E F X : List Nat) (hC : 1 ≤ cfg.C) (h : Inv cfg w g E F X)
    (hX : ∀ a ∈ X, 0 ≤ (g.bufs a).nobj ∧ (g.bufs a).nobj ≤ cfg.C)
    (hmem : op.need ≤ remaining g) :
    (∃ r, op.run cfg w g = .ok r ∧ ∃ E1 F1, Inv cfg r.1 r.2 E1 F1 (op.leak w ++ X) ∧
      ∀ a ∈ E1 ++ F1 ++ locals r.1 ++ (op.leak w ++ X),
        0 ≤ (r.2.bufs a).nobj ∧ (r.2.bufs a).nobj ≤ cfg.C) ∧
    (∀ e, e = Err.indexOutOfRange ∨ e = Err.nilDeref ∨ e = Err.workbufIsEmpty ∨
      e = Err.workbufIsNotEmpty → op.run cfg w g ≠ .error e) ∧
    (w.wbuf1 ≠ 0 → 4 < (g.bufs w.wbuf1).nobj → ∀ g1 b1, getempty cfg g = .ok (g1, b1) →
      handoffSplit cfg g1 w.wbuf1 b1 =
        .ok (halved g1 w.wbuf1 b1 (g.bufs w.wbuf1).nobj.toNat) ∧
      ((g.bufs w.wbuf1).nobj.toNat - (g.bufs w.wbuf1).nobj.toNat / 2) +
        (g.bufs w.wbuf1).nobj.toNat / 2 ≤ cfg.C) := by
  obtain ⟨r, hr, E1, F1, hi, hu⟩ := (QueueOp.run_wp hC op h).exists_ok hmem
  refine ⟨⟨r, hr, E1, F1, hi, ?_⟩, ?_, ?_⟩
  · intro a ha
    simp only [List.mem_append] at ha
    rcases ha with ((ha | ha) | ha) | ha
    · rw [hi.pool.emptyN a ha]
      omega
    · have := hi.pool.fullN a ha
      omega
    · exact hi.localN a ha
    · have hold : 0 ≤ (g.bufs a).nobj ∧ (g.bufs a).nobj ≤ cfg.C := by
        rcases ha with ha | ha
        · exact h.localN a (op.leak_local w a ha)
        · exact hX a ha
      rw [(hu a (List.mem_append.mpr ha)).1]
      exact hold
  · intro e _ he
    rw [hr] at he
    cases he
  · intro hne h4 g1 b1 hg
    obtain ⟨hp, hb1, -⟩ := h.pool_cons hne
    obtain ⟨E2, hp1, -, hf1, -⟩ := (getempty_wp hp).of_ok hg
    simp only at hp1 hf1
    obtain ⟨-, -, h1Y⟩ := mem_own_cons hp1.nodup
    have hne1 : w.wbuf1 ≠ b1 := fun e => h1Y (e ▸ List.mem_cons_self _ _)
    have hv1 : Valid cfg w.wbuf1 := hp.valid _ (by simp)
    have hvb : Valid cfg b1 := hp1.valid _ (by simp)
    have hm : (g1.bufs w.wbuf1).nobj = (((g.bufs w.wbuf1).nobj.toNat : Nat) : Int) := by
      rw [hf1.nobj _ (by simp)]
      omega
    exact ⟨handoffSplit_eq cfg g1 w.wbuf1 b1 _ hv1.1 hvb.1 hne1 hm (by omega), by omega⟩

theorem bounds_safety_witness :
    ∃ r, (QueueOp.putBatch [21, 22, 23, 24, 25]).run (sampleConfig 2)
        (sampleQueue 2 [11, 12, 13]).1 (sampleQueue 2 [11, 12, 13]).2 = .ok r ∧
      ∃ E1 F1, ∀ a ∈ E1 ++ F1 ++ locals r.1,
        0 ≤ (r.2.bufs a).nobj ∧ (r.2.bufs a).nobj ≤ (sampleConfig 2).C := by
  obtain ⟨E, F, hi, hrem⟩ := sampleQueue_inv 2 [11, 12, 13] (by decide) (by decide)
  have hmem : (QueueOp.putBatch [21, 22, 23, 24, 25]).need ≤
      remaining (sampleQueue 2 [11, 12, 13]).2 := by decide
  obtain ⟨r, hr, E1, F1, -, hb⟩ :=
    (bounds_safety (sampleConfig 2) (.putBatch [21, 22, 23, 24, 25]) _ _ E F [] (by decide) hi
      (fun a ha => absurd ha (List.not_mem_nil a)) hmem).1
  exact ⟨r, hr, E1, F1, fun a ha => hb a (List.mem_append_left _ ha)⟩

/-! ## Concurrent calls of the lock-free stack -/

theorem lfstack.stepAt_beyond (cfg : Config) (head : Nat) (bufs : Nat → workbuf) :
    ∀ (ws : List lfstack.Worker) (i : Nat), ws.length ≤ i →
      lfstack.stepAt cfg head bufs ws i = (head, bufs, ws)
  | [], _, _ => rfl
  | t :: ts, 0, h => by simp at h
  | t :: ts, i + 1, h => by
    have := lfstack.stepAt_beyond cfg head bufs ts i (by simpa using h)
    simp [lfstack.stepAt, this]

theorem lfstack.stepAt_split (cfg : Config) (head : Nat) (bufs : Nat → workbuf) :
    ∀ (ws : List lfstack.Worker) (i : Nat), i < ws.length →
      ∃ pre t post, ws = pre ++ t :: post ∧
        lfstack.stepAt cfg head bufs ws i =
          ((t.step cfg head bufs).1, (t.step cfg head bufs).2.1,
            pre ++ (t.step cfg head bufs).2.2 :: post)
  | [], _, h => by simp at h
  | t :: ts, 0, _ => ⟨[], t, ts, rfl, rfl⟩
  | t :: ts, i + 1, h => by
    obtain ⟨pre, u, post, hw, hs⟩ := lfstack.stepAt_split cfg head bufs ts i (by simpa using h)
    refine ⟨t :: pre, u, post, by rw [hw]; rfl, ?_⟩
    simp [lfstack.stepAt, hs]

theorem coe_flatMap_split {α : Type} (f : α → List Nat) (pre post : List α) (t : α) :
    (((pre ++ t :: post).flatMap f : List Nat) : Multiset Nat) =
      ((pre.flatMap f : List Nat) : Multiset Nat) + ((post.flatMap f : List Nat) : Multiset Nat) +
        ((f t : List Nat) : Multiset Nat) := by
  rw [List.flatMap_append, List.flatMap_cons, ← Multiset.coe_add, ← Multiset.coe_add]
  abel

theorem coe_cons_add (a : Nat) (l : List Nat) :
    ((a :: l : List Nat) : Multiset Nat) = {a} + (l : Multiset Nat) := by
  rw [Multiset.singleton_add]
  rfl

theorem coe_snoc_add (a : Nat) (l : List Nat) :
    ((l ++ [a] : List Nat) : Multiset Nat) = (l : Multiset Nat) + {a} := by
  rw [← Multiset.coe_add]
  rfl

theorem lfstack.Coherent.transfer {cfg : Config} {bufs bufs1 : Nat → workbuf} {K K1 : List Nat}
    {t : lfstack.Worker} (h : lfstack.Coherent cfg bufs K t) (hK : ∀ a ∈ K, a ∈ K1)
    (hb : ∀ a, a ∈ K ∨ a ∈ lfstack.pushNodes t.todo → (bufs1 a).next = (bufs a).next) :
    lfstack.Coherent cfg bufs1 K1 t := by
  unfold lfstack.Coherent at h ⊢
  cases hpc : t.pc with
  | idle => simp only [hpc]
  | pushLoad node new => simpa only [hpc] using h
  | pushStore node new old => simpa only [hpc] using h
  | pushCas node new old =>
    simp only [hpc] at h ⊢
    obtain ⟨⟨rest, hr⟩, h1, h2, h3⟩ := h
    refine ⟨⟨rest, hr⟩, h1, h2, ?_⟩
    rw [hb node (Or.inr (by rw [hr]; simp [lfstack.pushNodes])), h3]
  | popNext old =>
    simp only [hpc] at h ⊢
    exact ⟨h.1, h.2.1, hK _ h.2.2⟩
  | popCas old next =>
    simp only [hpc] at h ⊢
    obtain ⟨h0, h1, h2, h3⟩ := h
    exact ⟨h0, h1, hK _ h2, by rw [hb _ (Or.inl h2), h3]⟩
  | fault e => simp only [hpc] at h

theorem IsStack.mem_top {cfg : Config} {bufs : Nat → workbuf} {h : Nat} {S : List Nat}
    (hs : IsStack cfg bufs h S) (h0 : h ≠ 0) :
    ∃ S1, S = cfg.unpack h :: S1 ∧ IsStack cfg bufs (bufs (cfg.unpack h)).next S1 := by
  cases S with
  | nil => exact absurd hs h0
  | cons a S1 =>
    obtain ⟨_, hu, ht⟩ := hs
    subst hu
    exact ⟨S1, rfl, ht⟩

/-- One step of one worker: the chain, the nodes the worker accounts for, and what it
knows afterwards. -/
theorem lfstack.Worker.step_spec {cfg : Config} {head : Nat} {bufs : Nat → workbuf}
    {S K : List Nat} {t : lfstack.Worker} (hS : IsStack cfg bufs head S)
    (hc : lfstack.Coherent cfg bufs K t) (hSK : ∀ a ∈ S, a ∈ K)
    (hvK : ∀ a ∈ K, Valid cfg a) (hval : ∀ a ∈ lfstack.pushNodes t.todo, Valid cfg a)
    (hdisj : ∀ a ∈ lfstack.pushNodes t.todo, a ∉ S) :
    ∃ S1, IsStack cfg (t.step cfg head bufs).2.1 (t.step cfg head bufs).1 S1 ∧
      ((S1 : Multiset Nat) + ((t.step cfg head bufs).2.2.popped : Multiset Nat) +
          (lfstack.pushNodes (t.step cfg head bufs).2.2.todo : Multiset Nat) =
        (S : Multiset Nat) + (t.popped : Multiset Nat) +
          (lfstack.pushNodes t.todo : Multiset Nat)) ∧
      (((t.step cfg head bufs).2.2.pushed : Multiset Nat) +
          (lfstack.pushNodes (t.step cfg head bufs).2.2.todo : Multiset Nat) =
        (t.pushed : Multiset Nat) + (lfstack.pushNodes t.todo : Multiset Nat)) ∧
      (∀ a, a ∈ S ++ t.popped → a ∈ S1 ++ (t.step cfg head bufs).2.2.popped) ∧
      (∀ a, a ∉ lfstack.pushNodes t.todo →
        ((t.step cfg head bufs).2.1 a).next = (bufs a).next) ∧
      (∀ K1, (∀ a ∈ K, a ∈ K1) → (∀ a ∈ S1, a ∈ K1) →
        lfstack.Coherent cfg (t.step cfg head bufs).2.1 K1 (t.step cfg head bufs).2.2) := by
  cases hpc : t.pc with
  | idle =>
    obtain ⟨todo, htodo⟩ : ∃ todo, t.todo = todo := ⟨_, rfl⟩
    cases todo with
    | nil =>
      have hst : t.step cfg head bufs = (head, bufs, t) := by
        simp [lfstack.Worker.step, hpc, htodo]
      rw [hst]
      refine ⟨S, hS, rfl, rfl, fun a ha => ha, fun a _ => rfl, fun K1 _ _ => ?_⟩
      simp [lfstack.Coherent, hpc]
    | cons c rest =>
      cases c with
      | push node =>
        have hv : Valid cfg node := hval node (by rw [htodo]; simp [lfstack.pushNodes])
        obtain ⟨cnt, hcnt⟩ : ∃ cnt, cnt = ((bufs node).pushcnt + 1) % 2 ^ cfg.W := ⟨_, rfl⟩
        have hst : t.step cfg head bufs =
            (head, setBuf bufs node { (bufs node) with pushcnt := cnt },
              { t with pc := .pushLoad node (cfg.pack node cnt) }) := by
          simp [lfstack.Worker.step, hpc, htodo, hv.1, (hv.2.1 _).1, hcnt]
        rw [hst]
        have hnext : ∀ a,
            ((setBuf bufs node { (bufs node) with pushcnt := cnt }) a).next = (bufs a).next := by
          intro a
          by_cases ha : a = node
          · subst ha; simp [setBuf]
          · simp [setBuf, ha]
        refine ⟨S, hS.congr_next (fun a _ => hnext a), rfl, rfl, fun a ha => ha,
          fun a _ => hnext a, fun K1 _ _ => ?_⟩
        simp only [lfstack.Coherent]
        exact ⟨⟨rest, htodo⟩, (hv.2.1 _).2, (hv.2.1 _).1⟩
      | pop =>
        by_cases h0 : head = 0
        · have hst : t.step cfg head bufs =
              (head, bufs, { t with todo := rest, got := t.got ++ [0] }) := by
            simp [lfstack.Worker.step, hpc, htodo, h0]
          rw [hst]
          refine ⟨S, hS, ?_, ?_, ?_, fun a _ => rfl, fun K1 _ _ => ?_⟩
          · simp [lfstack.Worker.popped, lfstack.pushNodes, List.filter_append, htodo]
          · simp [lfstack.pushNodes, htodo]
          · intro a ha
            simpa [lfstack.Worker.popped, List.filter_append] using ha
          · simp [lfstack.Coherent, hpc]
        · have hst : t.step cfg head bufs = (head, bufs, { t with pc := .popNext head }) := by
            simp [lfstack.Worker.step, hpc, htodo, h0]
          rw [hst]
          obtain ⟨S1, hS1, _⟩ := hS.mem_top h0
          refine ⟨S, hS, rfl, rfl, fun a ha => ha, fun a _ => rfl, fun K1 hK1 _ => ?_⟩
          simp only [lfstack.Coherent]
          exact ⟨⟨rest, htodo⟩, h0, hK1 _ (hSK _ (by rw [hS1]; simp))⟩
  | pushLoad node new =>
    have hst : t.step cfg head bufs = (head, bufs, { t with pc := .pushStore node new head }) := by
      simp [lfstack.Worker.step, hpc]
    rw [hst]
    simp only [lfstack.Coherent, hpc] at hc
    refine ⟨S, hS, rfl, rfl, fun a ha => ha, fun a _ => rfl, fun K1 _ _ => ?_⟩
    simp only [lfstack.Coherent]
    exact hc
  | pushStore node new old =>
    have hst : t.step cfg head bufs =
        (head, setBuf bufs node { (bufs node) with next := old },
          { t with pc := .pushCas node new old }) := by
      simp [lfstack.Worker.step, hpc]
    rw [hst]
    simp only [lfstack.Coherent, hpc] at hc
    obtain ⟨⟨rest, hr⟩, h1, h2⟩ := hc
    have hmem : node ∈ lfstack.pushNodes t.todo := by rw [hr]; simp [lfstack.pushNodes]
    have hnext : ∀ a, a ≠ node →
        ((setBuf bufs node { (bufs node) with next := old }) a).next = (bufs a).next := by
      intro a ha
      simp [setBuf, ha]
    refine ⟨S, hS.congr_next (fun a ha => hnext a ?_), rfl, rfl, fun a ha => ha,
      fun a ha => hnext a ?_, fun K1 _ _ => ?_⟩
    · rintro rfl
      exact hdisj _ hmem ha
    · rintro rfl
      exact ha hmem
    · simp only [lfstack.Coherent]
      exact ⟨⟨rest, hr⟩, h1, h2, by simp [setBuf]⟩
  | pushCas node new old =>
    simp only [lfstack.Coherent, hpc] at hc
    obtain ⟨⟨rest, hr⟩, h1, h2, h3⟩ := hc
    by_cases hh : head = old
    · have hst : t.step cfg head bufs =
          (new, bufs,
            { t with pc := .idle, todo := t.todo.tail, pushed := t.pushed ++ [node] }) := by
        simp [lfstack.Worker.step, hpc, hh]
      rw [hst]
      refine ⟨node :: S, ⟨h1, h2, by rw [h3, ← hh]; exact hS⟩, ?_, ?_, ?_, fun a _ => rfl,
        fun K1 _ _ => ?_⟩
      · simp only [hr, List.tail_cons, lfstack.pushNodes, lfstack.Worker.popped]
        rw [coe_cons_add, coe_cons_add]
        abel
      · simp only [hr, List.tail_cons, lfstack.pushNodes]
        rw [coe_cons_add, coe_snoc_add]
        abel
      · intro a ha
        simp only [List.mem_append, List.mem_cons] at ha ⊢
        tauto
      · simp [lfstack.Coherent]
    · have hst : t.step cfg head bufs = (head, bufs, { t with pc := .pushLoad node new }) := by
        simp [lfstack.Worker.step, hpc, hh]
      rw [hst]
      refine ⟨S, hS, rfl, rfl, fun a ha => ha, fun a _ => rfl, fun K1 _ _ => ?_⟩
      simp only [lfstack.Coherent]
      exact ⟨⟨rest, hr⟩, h1, h2⟩
  | popNext old =>
    simp only [lfstack.Coherent, hpc] at hc
    obtain ⟨⟨rest, hr⟩, h1, h2⟩ := hc
    have hn0 : cfg.unpack old ≠ 0 := (hvK _ h2).1
    have hst : t.step cfg head bufs =
        (head, bufs, { t with pc := .popCas old (bufs (cfg.unpack old)).next }) := by
      simp [lfstack.Worker.step, hpc, hn0]
    rw [hst]
    refine ⟨S, hS, rfl, rfl, fun a ha => ha, fun a _ => rfl, fun K1 hK1 _ => ?_⟩
    simp only [lfstack.Coherent]
    exact ⟨⟨rest, hr⟩, h1, hK1 _ h2, trivial⟩
  | popCas old next =>
    simp only [lfstack.Coherent, hpc] at hc
    obtain ⟨⟨rest, hr⟩, h1, h2, h3⟩ := hc
    by_cases hh : head = old
    · have hst : t.step cfg head bufs =
          (next, bufs,
            { t with pc := .idle, todo := t.todo.tail, got := t.got ++ [cfg.unpack old] }) := by
        simp [lfstack.Worker.step, hpc, hh]
      rw [hst]
      obtain ⟨S1, hS1, hS2⟩ := hS.mem_top (by rw [hh]; exact h1)
      rw [hh] at hS1 hS2
      have hn0 : cfg.unpack old ≠ 0 := (hvK _ h2).1
      have hpop : lfstack.Worker.popped
          { t with pc := .idle, todo := t.todo.tail, got := t.got ++ [cfg.unpack old] } =
          t.popped ++ [cfg.unpack old] := by
        simp [lfstack.Worker.popped, List.filter_append, hn0]
      refine ⟨S1, by rw [h3]; exact hS2, ?_, ?_, ?_, fun a _ => rfl, fun K1 _ _ => ?_⟩
      · rw [hpop, hS1]
        simp only [hr, List.tail_cons, lfstack.pushNodes]
        rw [coe_cons_add, coe_snoc_add]
        abel
      · simp only [hr, List.tail_cons, lfstack.pushNodes]
      · intro a ha
        rw [hpop]
        rw [hS1] at ha
        simp only [List.mem_append, List.mem_cons, List.mem_singleton] at ha ⊢
        tauto
      · simp [lfstack.Coherent]
    · have hst : t.step cfg head bufs = (head, bufs, { t with pc := .idle }) := by
        simp [lfstack.Worker.step, hpc, hh]
      rw [hst]
      refine ⟨S, hS, rfl, rfl, fun a ha => ha, fun a _ => rfl, fun K1 _ _ => ?_⟩
      simp [lfstack.Coherent]
  | fault e => simp [lfstack.Coherent, hpc] at hc

theorem count_pos_of_mem {a : Nat} {l : List Nat} (h : a ∈ l) :
    1 ≤ Multiset.count a (l : Multiset Nat) :=
  Multiset.one_le_count_iff_mem.mpr (Multiset.mem_coe.mpr h)

theorem not_mem_of_count {a : Nat} {l : List Nat} (h : Multiset.count a (l : Multiset Nat) = 0) :
    a ∉ l := fun hm => by
  have := count_pos_of_mem hm
  omega

/-- The invariant is kept by every step of every worker. -/
theorem lfstack.Inv.keep_step {cfg : Config} {L0 P0 S : List Nat} {s : lfstack.Sys}
    (hnd : (L0 ++ P0).Nodup) (hv : ∀ a ∈ L0 ++ P0, Valid cfg a)
    (h : lfstack.Inv cfg L0 P0 s S) (i : Nat) :
    ∃ S1, lfstack.Inv cfg L0 P0 (s.step cfg i) S1 := by
  obtain ⟨head, bufs, ws⟩ := s
  by_cases hi : i < ws.length
  · obtain ⟨pre, t, post, hw, hst⟩ := lfstack.stepAt_split cfg head bufs ws i hi
    subst hw
    have htot := h.total
    have hdone := h.done
    simp only [lfstack.Sys.popped, lfstack.Sys.pending, lfstack.Sys.pushed,
      coe_flatMap_split] at htot hdone
    -- every node is counted once
    have hcount : ∀ a, Multiset.count a ((L0 : Multiset Nat) + (P0 : Multiset Nat)) ≤ 1 := by
      intro a
      rw [Multiset.coe_add]
      exact Multiset.nodup_iff_count_le_one.mp (Multiset.coe_nodup.mpr hnd) a
    have hvalid : ∀ a, 1 ≤ Multiset.count a ((L0 : Multiset Nat) + (P0 : Multiset Nat)) →
        Valid cfg a := by
      intro a ha
      refine hv a ?_
      have := Multiset.one_le_count_iff_mem.mp ha
      rw [Multiset.coe_add] at this
      exact Multiset.mem_coe.mp this
    have hc1 := fun a => congrArg (Multiset.count a) htot
    simp only [Multiset.count_add] at hc1
    have hcount1 := fun a => (hc1 a).symm ▸ (by
      have := hcount a
      rw [Multiset.count_add] at this
      exact this : Multiset.count a (L0 : Multiset Nat) + Multiset.count a (P0 : Multiset Nat) ≤ 1)
    have hvalid1 : ∀ a, 1 ≤ Multiset.count a (L0 : Multiset Nat) +
        Multiset.count a (P0 : Multiset Nat) → Valid cfg a := by
      intro a ha
      exact hvalid a (by rw [Multiset.count_add]; exact ha)
    have hmemK : ∀ a, a ∈ S ++ (pre ++ t :: post).flatMap lfstack.Worker.popped →
        a ∈ S ∨ a ∈ pre.flatMap lfstack.Worker.popped ∨ a ∈ t.popped ∨
          a ∈ post.flatMap lfstack.Worker.popped := by
      intro a ha
      simp only [List.flatMap_append, List.flatMap_cons, List.mem_append] at ha
      tauto
    have hKcount : ∀ a, a ∈ S ++ (pre ++ t :: post).flatMap lfstack.Worker.popped →
        1 ≤ Multiset.count a (S : Multiset Nat) +
          (Multiset.count a (pre.flatMap lfstack.Worker.popped : Multiset Nat) +
            Multiset.count a (post.flatMap lfstack.Worker.popped : Multiset Nat) +
            Multiset.count a (t.popped : Multiset Nat)) := by
      intro a ha
      rcases hmemK a ha with h1 | h1 | h1 | h1
      · have := count_pos_of_mem h1; omega
      · have := count_pos_of_mem h1; omega
      · have := count_pos_of_mem h1; omega
      · have := count_pos_of_mem h1; omega
    have hvK : ∀ a ∈ S ++ (pre ++ t :: post).flatMap lfstack.Worker.popped, Valid cfg a := by
      intro a ha
      have h1 := hKcount a ha
      have h2 := hc1 a
      exact hvalid1 a (by omega)
    have hval : ∀ a ∈ lfstack.pushNodes t.todo, Valid cfg a := by
      intro a ha
      have h1 := count_pos_of_mem ha
      have h2 := hc1 a
      exact hvalid1 a (by omega)
    have hdisj : ∀ a ∈ lfstack.pushNodes t.todo, a ∉ S := by
      intro a ha
      have h1 := count_pos_of_mem ha
      have h2 := hc1 a
      have h3 := hcount1 a
      exact not_mem_of_count (by omega)
    have hcoh := h.coh t (by simp)
    obtain ⟨S1, hS1, e1, e2, hmono, hframe, hnew⟩ :=
      lfstack.Worker.step_spec h.isS hcoh (fun a ha => List.mem_append_left _ ha) hvK hval hdisj
    have hstep : lfstack.Sys.step cfg
        { head := head, bufs := bufs, workers := pre ++ t :: post } i =
        { head := (t.step cfg head bufs).1, bufs := (t.step cfg head bufs).2.1,
          workers := pre ++ (t.step cfg head bufs).2.2 :: post } := by
      simp only [lfstack.Sys.step, hst]
    rw [hstep]
    have hK : ∀ a ∈ S ++ (pre ++ t :: post).flatMap lfstack.Worker.popped,
        a ∈ S1 ++ (pre ++ (t.step cfg head bufs).2.2 :: post).flatMap lfstack.Worker.popped := by
      intro a ha
      simp only [List.flatMap_append, List.flatMap_cons, List.mem_append]
      rcases hmemK a ha with h1 | h1 | h1 | h1
      · have := hmono a (List.mem_append_left _ h1)
        rw [List.mem_append] at this
        tauto
      · tauto
      · have := hmono a (List.mem_append_right _ h1)
        rw [List.mem_append] at this
        tauto
      · tauto
    refine ⟨S1, hS1, ?_, ?_, ?_⟩
    · simp only [lfstack.Sys.popped, lfstack.Sys.pending, coe_flatMap_split]
      rw [← htot]
      calc _ = (S1 : Multiset Nat) + ((t.step cfg head bufs).2.2.popped : Multiset Nat) +
              (lfstack.pushNodes (t.step cfg head bufs).2.2.todo : Multiset Nat) +
              (((pre.flatMap lfstack.Worker.popped : List Nat) : Multiset Nat) +
                ((post.flatMap lfstack.Worker.popped : List Nat) : Multiset Nat) +
              (((pre.flatMap (fun t => lfstack.pushNodes t.todo) : List Nat) : Multiset Nat) +
                ((post.flatMap (fun t => lfstack.pushNodes t.todo) : List Nat) :
                  Multiset Nat))) := by abel
        _ = _ := by rw [e1]; abel
    · simp only [lfstack.Sys.pushed, lfstack.Sys.pending, coe_flatMap_split]
      rw [← hdone]
      calc _ = ((t.step cfg head bufs).2.2.pushed : Multiset Nat) +
              (lfstack.pushNodes (t.step cfg head bufs).2.2.todo : Multiset Nat) +
              (((pre.flatMap (fun t => t.pushed) : List Nat) : Multiset Nat) +
                ((post.flatMap (fun t => t.pushed) : List Nat) : Multiset Nat) +
              (((pre.flatMap (fun t => lfstack.pushNodes t.todo) : List Nat) : Multiset Nat) +
                ((post.flatMap (fun t => lfstack.pushNodes t.todo) : List Nat) :
                  Multiset Nat))) := by abel
        _ = _ := by rw [e2]; abel
    · intro u hu
      show lfstack.Coherent cfg (t.step cfg head bufs).2.1
        (S1 ++ (pre ++ (t.step cfg head bufs).2.2 :: post).flatMap lfstack.Worker.popped) u
      have hother : ∀ u, u ∈ pre ∨ u ∈ post → lfstack.Coherent cfg (t.step cfg head bufs).2.1
          (S1 ++ (pre ++ (t.step cfg head bufs).2.2 :: post).flatMap lfstack.Worker.popped)
          u := by
        intro u hu
        have hcu := h.coh u (by
          show u ∈ pre ++ t :: post
          simp only [List.mem_append, List.mem_cons]
          tauto)
        refine hcu.transfer hK ?_
        intro a ha
        apply hframe
        intro hat
        have h1 := count_pos_of_mem hat
        have h2 := hc1 a
        have h3 := hcount1 a
        rcases ha with ha | ha
        · have := hKcount a ha
          omega
        · have hmem : a ∈ pre.flatMap (fun t => lfstack.pushNodes t.todo) ∨
              a ∈ post.flatMap (fun t => lfstack.pushNodes t.todo) := by
            rcases hu with hu | hu
            · exact Or.inl (List.mem_flatMap.mpr ⟨u, hu, ha⟩)
            · exact Or.inr (List.mem_flatMap.mpr ⟨u, hu, ha⟩)
          rcases hmem with hm | hm
          · have := count_pos_of_mem hm
            omega
          · have := count_pos_of_mem hm
            omega
      simp only [List.mem_append, List.mem_cons] at hu
      rcases hu with hu | hu | hu
      · exact hother u (Or.inl hu)
      · rw [hu]
        exact hnew _ hK (fun a ha => List.mem_append_left _ ha)
      · exact hother u (Or.inr hu)
  · have hst := lfstack.stepAt_beyond cfg head bufs ws i (by omega)
    have hstep : lfstack.Sys.step cfg { head := head, bufs := bufs, workers := ws } i =
        { head := head, bufs := bufs, workers := ws } := by
      simp only [lfstack.Sys.step, hst]
    rw [hstep]
    exact ⟨S, h⟩

theorem lfstack.Inv.keep_run {cfg : Config} {L0 P0 : List Nat} (hnd : (L0 ++ P0).Nodup)
    (hv : ∀ a ∈ L0 ++ P0, Valid cfg a) :
    ∀ (sched : List Nat) (s : lfstack.Sys) (S : List Nat), lfstack.Inv cfg L0 P0 s S →
      ∃ S1, lfstack.Inv cfg L0 P0 (s.run cfg sched) S1
  | [], s, S, h => ⟨S, h⟩
  | i :: sched, s, S, h => by
    obtain ⟨S1, h1⟩ := h.keep_step hnd hv i
    exact lfstack.Inv.keep_run hnd hv sched _ S1 h1

theorem flatMap_nil_of {α : Type} (f : α → List Nat) :
    ∀ (l : List α), (∀ t ∈ l, f t = []) → l.flatMap f = []
  | [], _ => rfl
  | t :: l, h => by
    rw [List.flatMap_cons, h t (List.mem_cons_self _ _),
      flatMap_nil_of f l (fun u hu => h u (List.mem_cons_of_mem _ hu))]
    rfl

theorem lfstack.Inv.start {cfg : Config} {s : lfstack.Sys} {L0 : List Nat}
    (hfresh : s.fresh) (hS : IsStack cfg s.bufs s.head L0) :
    lfstack.Inv cfg L0 s.pending s L0 := by
  have hp : s.popped = [] :=
    flatMap_nil_of _ _ (fun t ht => by simp [lfstack.Worker.popped, (hfresh t ht).2.1])
  have hq : s.pushed = [] := flatMap_nil_of _ _ (fun t ht => (hfresh t ht).2.2)
  refine ⟨hS, ?_, ?_, ?_⟩
  · rw [hp]
    simp
  · rw [hq]
    simp
  · intro t ht
    simp [lfstack.Coherent, (hfresh t ht).1]

/-- Alone, a worker completes `push` in four steps, and the head word and the node memory
are then what the method `lfstack.push` returns. -/
theorem lfstack.solo_push (cfg : Config) (head : Nat) (bufs : Nat → workbuf) (node : Nat)
    (rest : List lfstack.Call) (got pushed : List Nat) (hv : Valid cfg node) :
    ∃ r, lfstack.push cfg bufs head node = .ok r ∧
      lfstack.Sys.run cfg { head := head, bufs := bufs, workers :=
          [{ pc := .idle, todo := .push node :: rest, got := got, pushed := pushed }] }
        [0, 0, 0, 0] =
      { head := r.2, bufs := r.1, workers :=
          [{ pc := .idle, todo := rest, got := got, pushed := pushed ++ [node] }] } := by
  refine ⟨_, push_ok cfg bufs head node hv, ?_⟩
  have hb : setBuf (setBuf bufs node { (bufs node) with
        pushcnt := ((bufs node).pushcnt + 1) % 2 ^ cfg.W }) node
      { (setBuf bufs node { (bufs node) with
        pushcnt := ((bufs node).pushcnt + 1) % 2 ^ cfg.W } node) with next := head } =
      link bufs node (((bufs node).pushcnt + 1) % 2 ^ cfg.W) head := by
    funext a
    by_cases ha : a = node
    · subst ha; simp [setBuf, link]
    · simp [setBuf, link, ha]
  simp [lfstack.Sys.run, lfstack.Sys.step, lfstack.stepAt, lfstack.Worker.step, hv.1,
    (hv.2.1 _).1, hb]

/-- Alone, a worker completes `pop` in at most three steps, with what the method
`lfstack.pop` returns. -/
theorem lfstack.solo_pop (cfg : Config) (head : Nat) (bufs : Nat → workbuf)
    (rest : List lfstack.Call) (got pushed : List Nat)
    (hv : head ≠ 0 → cfg.unpack head ≠ 0) :
    ∃ r, lfstack.pop cfg bufs head = .ok r ∧
      lfstack.Sys.run cfg { head := head, bufs := bufs, workers :=
          [{ pc := .idle, todo := .pop :: rest, got := got, pushed := pushed }] }
        (if head = 0 then [0] else [0, 0, 0]) =
      { head := r.1, bufs := bufs, workers :=
          [{ pc := .idle, todo := rest, got := got ++ [r.2], pushed := pushed }] } := by
  by_cases h0 : head = 0
  · refine ⟨(head, 0), by simp [lfstack.pop, h0], ?_⟩
    simp [lfstack.Sys.run, lfstack.Sys.step, lfstack.stepAt, lfstack.Worker.step, h0]
  · refine ⟨((bufs (cfg.unpack head)).next, cfg.unpack head), by
      simp [lfstack.pop, h0, hv h0], ?_⟩
    simp [lfstack.Sys.run, lfstack.Sys.step, lfstack.stepAt, lfstack.Worker.step, h0, hv h0]

/-- Claim C16: workers that call `lfstack.push` and `lfstack.pop` on one stack, from a
stack chaining the nodes `L0`, the nodes of `L0` and of all the `push` calls pairwise
distinct and valid. After any interleaving of their steps the head word chains a list
`L` of nodes, the nodes returned by `pop` calls together with `L` are, as a multiset,
the nodes of `L0` together with the nodes pushed, no node was returned twice or is both
returned and on the stack, and no worker was stopped by a throw or a nil dereference. -/
theorem concurrent_stack (cfg : Config) (s0 : lfstack.Sys) (L0 : List Nat)
    (sched : List Nat) (hfresh : s0.fresh) (hS : IsStack cfg s0.bufs s0.head L0)
    (hnd : (L0 ++ s0.pending).Nodup) (hv : ∀ a ∈ L0 ++ s0.pending, Valid cfg a) :
    ∃ L, IsStack cfg (s0.run cfg sched).bufs (s0.run cfg sched).head L ∧
      ((s0.run cfg sched).popped : Multiset Nat) + (L : Multiset Nat) =
        (L0 : Multiset Nat) + ((s0.run cfg sched).pushed : Multiset Nat) ∧
      ((s0.run cfg sched).popped ++ L).Nodup ∧
      (∀ a ∈ (s0.run cfg sched).pushed, a ∈ s0.pending) ∧
      (∀ t ∈ (s0.run cfg sched).workers, ∀ e, t.pc ≠ .fault e) := by
  obtain ⟨L, hI⟩ := lfstack.Inv.keep_run hnd hv sched s0 L0 (lfstack.Inv.start hfresh hS)
  have htot := hI.total
  rw [← hI.done] at htot
  have hsum : ((s0.run cfg sched).popped : Multiset Nat) + (L : Multiset Nat) =
      (L0 : Multiset Nat) + ((s0.run cfg sched).pushed : Multiset Nat) := by
    have e : (L : Multiset Nat) + ((s0.run cfg sched).popped : Multiset Nat) +
        ((s0.run cfg sched).pending : Multiset Nat) =
        (L0 : Multiset Nat) + ((s0.run cfg sched).pushed : Multiset Nat) +
        ((s0.run cfg sched).pending : Multiset Nat) := by
      rw [htot]; abel
    have := add_right_cancel e
    rw [← this]; abel
  refine ⟨L, hI.isS, hsum, ?_, ?_, ?_⟩
  · rw [← Multiset.coe_nodup, ← Multiset.coe_add, Multiset.nodup_iff_count_le_one]
    intro a
    have h1 : Multiset.count a ((L0 : Multiset Nat) + (s0.pending : Multiset Nat)) ≤ 1 := by
      rw [Multiset.coe_add]
      exact Multiset.nodup_iff_count_le_one.mp (Multiset.coe_nodup.mpr hnd) a
    have h2 := congrArg (Multiset.count a) hI.total
    simp only [Multiset.count_add] at h1 h2 ⊢
    omega
  · intro a ha
    have h1 := count_pos_of_mem ha
    have h2 := congrArg (Multiset.count a) hI.done
    simp only [Multiset.count_add] at h2
    have h3 : 1 ≤ Multiset.count a (s0.pending : Multiset Nat) := by omega
    exact Multiset.mem_coe.mp (Multiset.one_le_count_iff_mem.mp h3)
  · intro t ht e he
    have := hI.coh t ht
    simp [lfstack.Coherent, he] at this

theorem concurrent_stack_witness :
    (sampleSys.run (sampleConfig 2) [0, 1, 1, 0, 0, 0, 1, 1, 1, 1, 1, 1, 1, 0]).popped =
        [4096, 2048] ∧
      ∃ L, IsStack (sampleConfig 2)
          (sampleSys.run (sampleConfig 2) [0, 1, 1, 0, 0, 0, 1, 1, 1, 1, 1, 1, 1, 0]).bufs
          (sampleSys.run (sampleConfig 2) [0, 1, 1, 0, 0, 0, 1, 1, 1, 1, 1, 1, 1, 0]).head L ∧
        ((sampleSys.run (sampleConfig 2) [0, 1, 1, 0, 0, 0, 1, 1, 1, 1, 1, 1, 1, 0]).popped ++
          L).Nodup := by
  refine ⟨by decide, ?_⟩
  obtain ⟨L, h1, _, h3, _⟩ := concurrent_stack (sampleConfig 2) sampleSys [2048]
    [0, 1, 1, 0, 0, 0, 1, 1, 1, 1, 1, 1, 1, 0]
    (by
      intro t ht
      have hcase : t = { pc := .idle, todo := [.push 4096, .pop], got := [], pushed := [] } ∨
          t = { pc := .idle, todo := [.pop, .pop], got := [], pushed := [] } := by
        simpa [sampleSys] using ht
      rcases hcase with rfl | rfl
      · exact ⟨rfl, rfl, rfl⟩
      · exact ⟨rfl, rfl, rfl⟩)
    partial_inv.pool.isF (by decide)
    (by
      intro a ha
      have hcase : a = 2048 ∨ a = 4096 := by
        simpa [sampleSys, lfstack.Sys.pending, lfstack.pushNodes] using ha
      rcases hcase with rfl | rfl
      · exact sampleConfig_valid 2 2048 (by decide) (by decide) (by decide)
      · exact sampleConfig_valid 2 4096 (by decide) (by decide) (by decide))
  exact ⟨L, h1, h3⟩

/-! ## The round trip of `put` and `tryGet` from any state -/

/-- After one `put` from a settled state the buffer published next is empty or full, and
the pointer put is on top. -/
theorem Abs.put_settled {C : Nat} (hC : 1 ≤ C) (p : Nat) {A : Abs}
    (hb : A.init.Bounded C) (hs : A.Settled C) :
    (Abs.put C p A).Lifo C ∧ ∃ rest, (Abs.put C p A).stack = p :: rest := by
  have hi := A.init_inited
  unfold Abs.Settled at hs
  unfold Abs.put
  simp only
  by_cases c1 : A.init.t1.length < C
  · rw [if_pos c1]
    refine ⟨⟨by simp only [List.length_cons]; omega, ?_⟩, _, rfl⟩
    simp only [hi, if_true]
    rcases hs with hs | hs | hs
    · omega
    · exact Or.inl hs
    · exact Or.inr hs
  · rw [if_neg c1]
    have h1 : A.init.t1.length = C := by have := hb.1; omega
    by_cases c2 : A.init.t2.length < C
    · rw [if_pos c2]
      refine ⟨⟨by simp only [List.length_cons]; omega, ?_⟩, _, rfl⟩
      simp only [hi, if_true]
      exact Or.inr h1
    · rw [if_neg c2]
      refine ⟨⟨by simp only [List.length_singleton]; omega, ?_⟩, _, rfl⟩
      simp only [hi, if_true]
      exact Or.inr h1

/-- Successive `put` from a settled state: the pointers put are on top, last one first. -/
theorem Abs.putAll_settled {C : Nat} (hC : 1 ≤ C) (ps : List Nat) {A : Abs} (h : A.Sound)
    (hb : A.init.Bounded C) (hs : A.Settled C) :
    ∃ rest, (Abs.putAll C A ps).stack = ps.reverse ++ rest := by
  cases ps with
  | nil => exact ⟨A.stack, by simp [Abs.putAll]⟩
  | cons p ps =>
    obtain ⟨h1, _, _⟩ := Abs.put_perm hC p h
    obtain ⟨hl1, rest, hs1⟩ := Abs.put_settled hC p hb hs
    obtain ⟨_, _, hs2⟩ := Abs.putAll_stack hC ps (Abs.put C p A) h1 hl1
    refine ⟨rest, ?_⟩
    show (Abs.putAll C (Abs.put C p A) ps).stack = _
    rw [hs2, hs1]
    simp

theorem Abs.putAll_fill (C v : Nat) (tail : List Nat) :
    ∀ (k : Nat) (D : Abs), D.inited = true → D.t1.length + k ≤ C →
      Abs.putAll C D (List.replicate k v ++ tail) =
        Abs.putAll C { D with t1 := List.replicate k v ++ D.t1 } tail
  | 0, D, _, _ => rfl
  | k + 1, D, hi, hk => by
    have hlt : D.t1.length < C := by omega
    have hput : Abs.put C v D = { D with t1 := v :: D.t1 } := by
      simp only [Abs.put, Abs.init_of_inited hi, hlt, if_true]
    show Abs.putAll C (Abs.put C v D) (List.replicate k v ++ tail) = _
    rw [hput, Abs.putAll_fill C v tail k { D with t1 := v :: D.t1 } hi
      (by simp only [List.length_cons]; omega)]
    have e : List.replicate k v ++ v :: D.t1 = List.replicate (k + 1) v ++ D.t1 := by
      rw [List.replicate_succ', List.append_assoc]
      rfl
    simp only [e]

theorem Abs.bury_inited {C : Nat} (v : Nat) {B : Abs} (hi : B.inited = true)
    (h1 : B.t1.length < C) (h2 : B.t2.length < C) {x : Nat} {t2 : List Nat}
    (hx : B.t2 = x :: t2) :
    x ∈ (Abs.tryGetN (C - B.t1.length + 1)
      (Abs.putAll C B (List.replicate (C - B.t1.length + 1) v))).1 := by
  obtain ⟨k, hk⟩ : ∃ k, C - B.t1.length = k + 1 := ⟨C - B.t1.length - 1, by omega⟩
  rw [hk, List.replicate_succ' (k + 1), Abs.putAll_fill C v [v] (k + 1) B hi (by omega)]
  have hfull : ¬ (List.replicate (k + 1) v ++ B.t1).length < C := by
    simp only [List.length_append, List.length_replicate]
    omega
  have hput : Abs.putAll C { B with t1 := List.replicate (k + 1) v ++ B.t1 } [v] =
      { B with t1 := v :: B.t2, t2 := List.replicate (k + 1) v ++ B.t1 } := by
    simp only [Abs.putAll, Abs.put, Abs.init, hi, if_true, hfull, if_false, h2]
  rw [hput, hx]
  simp [Abs.tryGetN, Abs.tryGet, Abs.init, hi]

/-- From a state that is not settled, filling `wbuf1` with copies of `v` and putting one
more brings the top pointer `x` of `wbuf2` right under the last `v`. -/
theorem Abs.putAll_bury {C : Nat} {A : Abs} (hb : A.init.Bounded C)
    (hs : ¬ A.Settled C) :
    ∃ x, x ∈ A.init.t2 ∧ ∀ v,
      x ∈ (Abs.tryGetN (C - A.init.t1.length + 1)
        (Abs.putAll C A (List.replicate (C - A.init.t1.length + 1) v))).1 := by
  have hi := A.init_inited
  unfold Abs.Settled at hs
  have h1 : A.init.t1.length < C := by have := hb.1; omega
  have h2 : A.init.t2.length < C := by have := hb.2; omega
  obtain ⟨x, t2, hx⟩ : ∃ x t2, A.init.t2 = x :: t2 := by
    cases ht : A.init.t2 with
    | nil => exact absurd (Or.inr (Or.inl ht)) hs
    | cons x t2 => exact ⟨x, t2, rfl⟩
  refine ⟨x, by rw [hx]; exact List.mem_cons_self _ _, fun v => ?_⟩
  rw [← Abs.putAll_init C A _ (by simp)]
  exact Abs.bury_inited v hi h1 h2 hx

theorem Abs.init_of_cons {A : Abs} {b : List Nat} {fl : List (List Nat)}
    (hi : A.inited = false) (hf : A.fl = b :: fl) : A.init.t1 = [] ∧ A.init.t2 = b := by
  simp [Abs.init, hi, hf]

theorem Abs.init_of_nil {A : Abs} (hi : A.inited = false) (hf : A.fl = []) :
    A.init.t1 = [] ∧ A.init.t2 = [] := by
  simp [Abs.init, hi, hf]

/-- The condition on a state is the list-level one. -/
theorem absOf_settled {cfg : Config} {w : gcWork} {g : World} {E F X : List Nat}
    (h : Inv cfg w g E F X) (hC : 1 ≤ cfg.C) :
    Settled cfg w g F ↔ (absOf w g F).Settled cfg.C := by
  by_cases hw : w.wbuf1 = 0
  · have hi : (absOf w g F).inited = false := by simp [absOf, hw]
    rw [Settled, if_pos hw]
    unfold Abs.Settled
    cases F with
    | nil =>
      obtain ⟨_, e2⟩ := Abs.init_of_nil hi (rfl : (absOf w g []).fl = [])
      constructor
      · intro _
        exact Or.inr (Or.inl e2)
      · intro _ b fl hb
        cases hb
    | cons a F =>
      have hn := h.pool.fullN a (List.mem_cons_self _ _)
      have hl := tops_length g a
      obtain ⟨e1, e2⟩ := Abs.init_of_cons hi
        (rfl : (absOf w g (a :: F)).fl = tops g a :: F.map (tops g))
      rw [e1, e2]
      constructor
      · intro hy
        refine Or.inr (Or.inr ?_)
        rw [hl, hy a F rfl]
        simp
      · rintro (hy | hy | hy) b fl hb
        · simp only [List.length_nil] at hy
          omega
        · rw [hy] at hl
          simp only [List.length_nil] at hl
          omega
        · simp only [List.cons.injEq] at hb
          rw [← hb.1]
          omega
  · obtain ⟨_, hb1, hb2⟩ := h.pool_cons hw
    have l1 := tops_length g w.wbuf1
    have l2 := tops_length g w.wbuf2
    rw [Settled, if_neg hw]
    unfold Abs.Settled
    rw [Abs.init_of_inited (absOf_inited_flag g F hw), absOf_inited g F hw]
    simp only
    constructor
    · rintro (hy | hy | hy)
      · exact Or.inl (by omega)
      · exact Or.inr (Or.inl (tops_nil hy))
      · exact Or.inr (Or.inr (by omega))
    · rintro (hy | hy | hy)
      · exact Or.inl (by omega)
      · rw [hy] at l2
        simp only [List.length_nil] at l2
        exact Or.inr (Or.inl (by omega))
      · exact Or.inr (Or.inr (by omega))

/-- Successive `put` calls from a settled state, then as many `tryGet` calls: the
pointers come back last in, first out. -/
theorem putAll_tryGetN_settled {cfg : Config} {w : gcWork} {g : World} {E F X : List Nat}
    (ps : List Nat) (hC : 1 ≤ cfg.C) (h : Inv cfg w g E F X) (hy : Settled cfg w g F)
    (hsup : ps.length + 1 ≤ remaining g) :
    ∃ w1 g1 w2 g2, putAll cfg w g ps = .ok (w1, g1) ∧
      tryGetN cfg ps.length w1 g1 = .ok (ps.reverse, w2, g2) := by
  obtain ⟨⟨w1, g1⟩, hr, E1, F1, hi1, hne1, ha1, _⟩ :=
    (putAll_wp hC ps w g E F h).exists_ok hsup
  simp only at hi1 hne1 ha1
  refine ⟨w1, g1, ?_⟩
  cases ps with
  | nil => exact ⟨w1, g1, hr, rfl⟩
  | cons p ps =>
    obtain ⟨r2, hr2, E2, F2, _, _, q3, _, _⟩ :=
      tryGetN_inited (p :: ps).length w1 g1 E1 F1 hi1 (hne1 (by simp))
    obtain ⟨rest, hst⟩ := Abs.putAll_settled hC (p :: ps) (absOf_sound h)
      (absOf_init_bounded h) ((absOf_settled h hC).mp hy)
    obtain ⟨e1, _, _⟩ := Abs.tryGetN_stack (p :: ps).reverse (absOf w1 g1 F1)
      rest (absOf_sound hi1) (by rw [ha1, hst])
    rw [List.length_reverse] at e1
    refine ⟨r2.2.1, r2.2.2, hr, ?_⟩
    rw [hr2, ← e1, ← q3]

/-- From a state that is not settled some `put` calls of one pointer, at most `C + 1` of
them, followed by as many `tryGet` calls return an older pointer. -/
theorem putAll_tryGetN_bury {cfg : Config} {w : gcWork} {g : World} {E F X : List Nat}
    (hC : 1 ≤ cfg.C) (h : Inv cfg w g E F X) (hy : ¬ Settled cfg w g F)
    (hsup : cfg.C + 2 ≤ remaining g) :
    ∃ ps w1 g1 l w2 g2, ps.length ≤ cfg.C + 1 ∧ putAll cfg w g ps = .ok (w1, g1) ∧
      tryGetN cfg ps.length w1 g1 = .ok (l, w2, g2) ∧
      Multiset.ofList l ≠ Multiset.ofList ps := by
  have hs : ¬ (absOf w g F).Settled cfg.C := fun hs => hy ((absOf_settled h hC).mpr hs)
  obtain ⟨x, _, hx⟩ := Abs.putAll_bury (absOf_init_bounded h) hs
  obtain ⟨k, hk⟩ : ∃ k, k = cfg.C - (absOf w g F).init.t1.length + 1 := ⟨_, rfl⟩
  have hlen : (List.replicate k (x + 1)).length = k := List.length_replicate _ _
  have hx1 := hx (x + 1)
  rw [← hk] at hx1
  obtain ⟨⟨w1, g1⟩, hr, E1, F1, hi1, hne1, ha1, _⟩ :=
    (putAll_wp hC (List.replicate k (x + 1)) w g E F h).exists_ok (by rw [hlen]; omega)
  simp only at hi1 hne1 ha1
  obtain ⟨r2, hr2, E2, F2, _, _, q3, _, _⟩ :=
    tryGetN_inited k w1 g1 E1 F1 hi1 (hne1 (by
      intro he
      have := congrArg List.length he
      rw [hlen] at this
      simp only [List.length_nil] at this
      omega))
  refine ⟨List.replicate k (x + 1), w1, g1, r2.1, r2.2.1, r2.2.2, by rw [hlen]; omega, hr,
    by rw [hlen, hr2], ?_⟩
  intro he
  have hmem : x ∈ r2.1 := by rw [q3, ha1]; exact hx1
  have hmem2 : x ∈ List.replicate k (x + 1) := by
    have := Multiset.mem_coe.mpr hmem
    rw [he] at this
    exact Multiset.mem_coe.mp this
  have := List.eq_of_mem_replicate hmem2
  omega

theorem partialQueue_inv :
    ∃ E F, Inv (sampleConfig 2) partialQueue.1 partialQueue.2 E F [] := by
  obtain ⟨r, hr, E1, F1, hi, _⟩ :=
    (@putAll_wp (sampleConfig 2) [] (by decide) [11, 12] gcWork.zero partialWorld [] [2048]
      partial_inv).exists_ok (by decide)
  have hq : partialQueue = r := by simp only [partialQueue, hr]
  rw [hq]
  exact ⟨E1, F1, hi⟩

/-- Claim C6, amended: for every capacity `C ≥ 1` and every state satisfying the
data-model invariant that is settled (`wbuf1` holds `C` pointers, or `wbuf2` holds `0`
or `C`; for a queue without buffers, the full list is empty or its top buffer holds `C`
pointers), the successive `put` calls over any sequence `ps` followed by as many
`tryGet` calls return exactly the multiset of `ps`. From every other state satisfying
the invariant there is a sequence of at most `C + 1` pointers for which the calls
return another multiset. -/
theorem put_tryGet_multiset (cfg : Config) (w : gcWork) (g : World) (E F X : List Nat)
    (hC : 1 ≤ cfg.C) (h : Inv cfg w g E F X) :
    (Settled cfg w g F → ∀ ps : List Nat, ps.length + 1 ≤ remaining g →
      ∃ w1 g1 l w2 g2, putAll cfg w g ps = .ok (w1, g1) ∧
        tryGetN cfg ps.length w1 g1 = .ok (l, w2, g2) ∧
        Multiset.ofList l = Multiset.ofList ps) ∧
    (¬ Settled cfg w g F → cfg.C + 2 ≤ remaining g →
      ∃ ps w1 g1 l w2 g2, ps.length ≤ cfg.C + 1 ∧ putAll cfg w g ps = .ok (w1, g1) ∧
        tryGetN cfg ps.length w1 g1 = .ok (l, w2, g2) ∧
        Multiset.ofList l ≠ Multiset.ofList ps) := by
  refine ⟨fun hy ps hsup => ?_, fun hy hsup => putAll_tryGetN_bury hC h hy hsup⟩
  obtain ⟨w1, g1, w2, g2, h1, h2⟩ := putAll_tryGetN_settled ps hC h hy hsup
  exact ⟨w1, g1, ps.reverse, w2, g2, h1, h2, Quotient.sound (List.reverse_perm ps)⟩

/-- Witness of the amended C6 at capacity `2`, from a queue whose `wbuf1` is full and
whose `wbuf2` holds one pointer of another worker. -/
theorem put_tryGet_multiset_witness :
    (partialQueue.2.bufs partialQueue.1.wbuf1).nobj = 2 ∧
      (partialQueue.2.bufs partialQueue.1.wbuf2).nobj = 1 ∧
      ∃ w1 g1 l w2 g2,
        putAll (sampleConfig 2) partialQueue.1 partialQueue.2 [21, 22] = .ok (w1, g1) ∧
        tryGetN (sampleConfig 2) 2 w1 g1 = .ok (l, w2, g2) ∧
        Multiset.ofList l = Multiset.ofList [21, 22] := by
  obtain ⟨E, F, hi⟩ := partialQueue_inv
  refine ⟨by decide, by decide, ?_⟩
  exact (put_tryGet_multiset (sampleConfig 2) partialQueue.1 partialQueue.2 E F []
    (by decide) hi).1
    (by
      have hz : partialQueue.1.wbuf1 ≠ 0 := by decide
      rw [Settled, if_neg hz]
      exact Or.inl (by decide))
    [21, 22] (by decide)

end runtime
